import Mathlib

/-!
# xsf_data_structures: caches, hash maps, ring buffer and tree map

Shallow embedding of `src/lru_cache.h`, `src/lfu_cache.h`,
`src/xsf_linear_probing_hash_map.h`, `src/xsf_separate_chaining_hash_map.h`,
`src/xsf_linked_hash_map.h`, `src/xsf_ring_buffer.h` and `src/xsf_tree_map.h`.

* A `std::list<Node>` is a list of cells; every cell carries the address of
  its node, and a `std::list<Node>::iterator` is such an address.  Nodes are
  allocated at increasing addresses (`heap_` is the next unused one).
* A `std::unordered_map<int, V>` is an association list; the order of its
  entries is immaterial.
* Operations whose C++ behaviour is undefined (`front()` of an empty list,
  dereferencing or erasing through an iterator that refers to no node of the
  list) return `none`.
* `int` keys and values are integers.  The frequency counters (`key2freq_`,
  `min_freq_`, the keys of `freq2nodes_`) are `int` in the source and integers
  without a bound here.  The two agree as long as no counter passes `INT_MAX`.
  A counter is at most the number of calls made (`LFUCache.fresh_counters`),
  so they agree on every run of fewer than 2^31 - 1 calls, and the claims that
  name the value of a counter are stated for such runs.
* The one place where the width of a machine integer decides the control flow
  is the comparison `size() + 1 > cap_`: `cap_` is an `int` and is converted to
  the 64-bit `size_t` of the left-hand side.
* The hash maps are templates over the key type, the value type and the hash
  functor; here the key and value types are type parameters with decidable
  equality and a default value (`K{}`, `V{}`), and the hash function is a
  parameter `hash : K → Nat` of every operation.  `size_t` fields are natural
  numbers, and every `size_t` operation that can wrap is taken modulo 2^64.
* The table of the open-addressing map is the list of its slots.  Its probe
  loops have no bound of their own in the source, so every loop gets `fuel`:
  the number of iterations it may take.  A loop that needs more yields
  `Res.timeout`; a read or write outside the table yields `Res.undef`.
  `new Node[n]` is taken to succeed for every `n`.
* A bucket of the separate-chaining map is its sentinel `head_` and the list
  of the nodes linked behind it.  Its loops walk finite chains, so its
  operations need no fuel; an access outside the table yields `none`.
* The linked hash map is its `std::list<Node>`, a list of cells with
  addresses as above, and its `std::unordered_map` from keys to list
  iterators, an association list.
  The overload `operator[](K&&)` uses its argument after it has moved from it;
  the value a key object holds after a move is a parameter `moved : K → K`
  (the identity for `int`, the empty string for `std::string`).
* The block of the ring buffer is the list of its bytes; a `memcpy` that
  reads or writes outside the block yields `none`, and the bytes of a new
  block are taken to be 0.
* A `Node*` of the tree map is the tree of nodes below it, `null` for
  `nullptr`; the trees of the source share no node.  The `Compare` functor is
  the `<` of a linear order on the key type.  A call with undefined behaviour
  (`EraseMin` or `EraseMax` on the empty tree) yields `none`.
-/

namespace XSF

/-! ## Machine integers -/

/-- Largest value of a C++ `int`. -/
def INT_MAX : Int := 2147483647

/-- Smallest value of a C++ `int`. -/
def INT_MIN : Int := -2147483648

/-- Number of values of `size_t` (64 bit). -/
def SIZE_MOD : Nat := 2 ^ 64

/-- Conversion of an `int` to `size_t`, as done by the usual arithmetic
conversions when an `int` is compared with a `size_t`. -/
def toSizeT (x : Int) : Nat := (x % (SIZE_MOD : Int)).toNat

/-- The test `size + 1 > cap` of both `put` functions: `size + 1` is computed
in `size_t`, `cap` is an `int` converted to `size_t`. -/
def overCap (size : Nat) (cap : Int) : Bool :=
  decide (toSizeT cap < (size + 1) % SIZE_MOD)

/-! ## `std::unordered_map<int, V>` -/

/-- Association list standing for a `std::unordered_map<int, V>`. -/
abbrev UMap (V : Type) := List (Int × V)

namespace UMap

/-- Value stored under `k`, if any (`find`). -/
def find {V : Type} : UMap V → Int → Option V
  | [], _ => none
  | (k1, v) :: m, k => if k1 = k then some v else find m k

/-- Membership test `contains(k)`. -/
def contains {V : Type} (m : UMap V) (k : Int) : Bool := (find m k).isSome

/-- Removal `erase(k)`. -/
def erase {V : Type} (m : UMap V) (k : Int) : UMap V :=
  m.filter (fun p => decide (p.1 ≠ k))

/-- Assignment `m[k] = v` (insert or overwrite). -/
def assign {V : Type} (m : UMap V) (k : Int) (v : V) : UMap V :=
  erase m k ++ [(k, v)]

/-- Number of entries `size()`. -/
def size {V : Type} (m : UMap V) : Nat := m.length

end UMap

/-! ## `std::list<Node>` -/

/-- The `Node` struct of both caches. -/
structure Node where
  key : Int
  val : Int
deriving DecidableEq

/-- One list cell: a node together with its address. -/
structure Cell where
  addr : Nat
  node : Node
deriving DecidableEq

/-- Dereference an iterator: the node at address `it`, if the list has it. -/
def derefIt : List Cell → Nat → Option Node
  | [], _ => none
  | c :: l, it => if c.addr = it then some c.node else derefIt l it

/-- Erase through an iterator (`list.erase(it)`); undefined when `it` refers
to no node of this list. -/
def eraseIt (l : List Cell) (it : Nat) : Option (List Cell) :=
  match derefIt l it with
  | none => none
  | some _ => some (l.filter (fun c => decide (c.addr ≠ it)))

/-- Write through an iterator (`it->val = value`). -/
def setValIt : List Cell → Nat → Int → Option (List Cell)
  | [], _, _ => none
  | c :: l, it, value =>
    if c.addr = it then some (⟨c.addr, ⟨c.node.key, value⟩⟩ :: l)
    else (setValIt l it value).map (fun l1 => c :: l1)

/-- The iterator `--list.end()`: address of the last node. -/
def lastIt (l : List Cell) : Option Nat := l.getLast?.map (fun c => c.addr)

/-! ## LRUCache (`src/lru_cache.h`) -/

/-- State of an `LRUCache`. -/
structure LRUCache where
  cap_ : Int
  list_ : List Cell
  key2node_ : UMap Nat
  heap_ : Nat
deriving DecidableEq

namespace LRUCache

/-- Constructor `LRUCache(int capacity)`. -/
def new (capacity : Int) : LRUCache :=
  { cap_ := capacity, list_ := [], key2node_ := [], heap_ := 0 }

/-- Private `makeRecently(key)`: copy the node to the back, erase the old
node, re-point the index. -/
def makeRecently (c : LRUCache) (key : Int) : Option LRUCache :=
  match c.key2node_.find key with
  | none => none
  | some it =>
    match derefIt c.list_ it with
    | none => none
    | some n =>
      match eraseIt (c.list_ ++ [⟨c.heap_, n⟩]) it with
      | none => none
      | some l =>
        match lastIt l with
        | none => none
        | some last =>
          some { c with list_ := l, key2node_ := c.key2node_.assign key last,
                        heap_ := c.heap_ + 1 }

/-- Private `popLeastRecently()`: drop the list head and its index entry. -/
def popLeastRecently (c : LRUCache) : Option LRUCache :=
  match c.list_ with
  | [] => none
  | front :: rest =>
    some { c with list_ := rest, key2node_ := c.key2node_.erase front.node.key }

/-- Public `get(key)`: the returned `int` and the new state. -/
def get (c : LRUCache) (key : Int) : Option (Int × LRUCache) :=
  if c.key2node_.contains key then
    match c.makeRecently key with
    | none => none
    | some c1 =>
      match c1.key2node_.find key with
      | none => none
      | some it =>
        match derefIt c1.list_ it with
        | none => none
        | some n => some (n.val, c1)
  else some (-1, c)

/-- Public `put(key, value)`. -/
def put (c : LRUCache) (key value : Int) : Option LRUCache :=
  if c.key2node_.contains key then
    match c.key2node_.find key with
    | none => none
    | some it =>
      match setValIt c.list_ it value with
      | none => none
      | some l => makeRecently { c with list_ := l } key
  else
    match (if overCap c.list_.length c.cap_ then c.popLeastRecently else some c) with
    | none => none
    | some c1 =>
      let l := c1.list_ ++ [⟨c1.heap_, ⟨key, value⟩⟩]
      match lastIt l with
      | none => none
      | some last =>
        some { c1 with list_ := l, key2node_ := c1.key2node_.assign key last,
                       heap_ := c1.heap_ + 1 }

/-- The entries in list order (head first), as key/value pairs. -/
def entries (c : LRUCache) : List (Int × Int) :=
  c.list_.map (fun x => (x.node.key, x.node.val))

/-- The stored keys in list order (head = least recently used). -/
def keys (c : LRUCache) : List Int := c.list_.map (fun x => x.node.key)

/-- What a lookup through the index sees for `k`, without touching it. -/
def peek (c : LRUCache) (k : Int) : Option Int :=
  match c.key2node_.find k with
  | none => none
  | some it => (derefIt c.list_ it).map (fun n => n.val)

end LRUCache

/-- A call of the public interface of a cache. -/
inductive Op where
  | get (key : Int)
  | put (key value : Int)
deriving DecidableEq

namespace LRUCache

/-- One call; the result of a `get` is dropped. -/
def step (c : LRUCache) : Op → Option LRUCache
  | Op.get k => (c.get k).map Prod.snd
  | Op.put k v => c.put k v

/-- A sequence of calls. -/
def run (c : LRUCache) : List Op → Option LRUCache
  | [] => some c
  | op :: ops =>
    match c.step op with
    | none => none
    | some c1 => run c1 ops

end LRUCache

/-! ## LFUCache (`src/lfu_cache.h`) -/

/-- Dereference an iterator that refers into one of the bucket lists. -/
def derefBuckets : UMap (List Cell) → Nat → Option Node
  | [], _ => none
  | (_, l) :: m, it =>
    match derefIt l it with
    | some n => some n
    | none => derefBuckets m it

/-- Write through an iterator that refers into one of the bucket lists. -/
def setValBuckets : UMap (List Cell) → Nat → Int → Option (UMap (List Cell))
  | [], _, _ => none
  | (f, l) :: m, it, value =>
    match setValIt l it value with
    | some l1 => some ((f, l1) :: m)
    | none => (setValBuckets m it value).map (fun m1 => (f, l) :: m1)

/-- State of an `LFUCache`. -/
structure LFUCache where
  cap_ : Int
  min_freq_ : Int
  key2freq_ : UMap Int
  freq2nodes_ : UMap (List Cell)
  key2node_ : UMap Nat
  heap_ : Nat
deriving DecidableEq

namespace LFUCache

/-- Constructor `LFUCache(int capacity)`.  The member `min_freq_` is not
initialised by the constructor; `junk` is the value it happens to hold. -/
def new (capacity : Int) (junk : Int) : LFUCache :=
  { cap_ := capacity, min_freq_ := junk, key2freq_ := [], freq2nodes_ := [],
    key2node_ := [], heap_ := 0 }

/-- The list `freq2nodes_[f]` (`operator[]` yields an empty list for a
frequency without a mapping). -/
def bucket (c : LFUCache) (f : Int) : List Cell := (c.freq2nodes_.find f).getD []

/-- Private `increaseFreq(key)`.  The source computes `freq + 1` and
`min_freq_ + 1` in `int`; here they are computed in the integers, which is
the same as long as `freq < INT_MAX`. -/
def increaseFreq (c : LFUCache) (key : Int) : Option LFUCache :=
  let freq := (c.key2freq_.find key).getD 0
  let k2f := c.key2freq_.assign key (freq + 1)
  match c.key2node_.find key with
  | none => none
  | some it =>
    match derefBuckets c.freq2nodes_ it with
    | none => none
    | some n =>
      let cur := (c.freq2nodes_.find (freq + 1)).getD []
      let f2n1 := c.freq2nodes_.assign (freq + 1) (cur ++ [⟨c.heap_, ⟨key, n.val⟩⟩])
      match eraseIt ((f2n1.find freq).getD []) it with
      | none => none
      | some pre =>
        let f2n2 := if pre.isEmpty then f2n1.erase freq else f2n1.assign freq pre
        let mf := if pre.isEmpty ∧ freq = c.min_freq_ then c.min_freq_ + 1 else c.min_freq_
        match lastIt ((f2n2.find (freq + 1)).getD []) with
        | none => none
        | some last =>
          some { c with min_freq_ := mf, key2freq_ := k2f, freq2nodes_ := f2n2,
                        key2node_ := c.key2node_.assign key last,
                        heap_ := c.heap_ + 1 }

/-- Private `removeMinFreqKey()`. -/
def removeMinFreqKey (c : LFUCache) : Option LFUCache :=
  match (c.freq2nodes_.find c.min_freq_).getD [] with
  | [] => none
  | front :: rest =>
    let f2n := if rest.isEmpty then c.freq2nodes_.erase c.min_freq_
               else c.freq2nodes_.assign c.min_freq_ rest
    some { c with freq2nodes_ := f2n,
                  key2node_ := c.key2node_.erase front.node.key,
                  key2freq_ := c.key2freq_.erase front.node.key }

/-- Public `get(key)`: the returned `int` and the new state. -/
def get (c : LFUCache) (key : Int) : Option (Int × LFUCache) :=
  if c.key2node_.contains key then
    match c.increaseFreq key with
    | none => none
    | some c1 =>
      match c1.key2node_.find key with
      | none => none
      | some it =>
        match derefBuckets c1.freq2nodes_ it with
        | none => none
        | some n => some (n.val, c1)
  else some (-1, c)

/-- Public `put(key, value)`. -/
def put (c : LFUCache) (key value : Int) : Option LFUCache :=
  if c.key2node_.contains key then
    match c.increaseFreq key with
    | none => none
    | some c1 =>
      match c1.key2node_.find key with
      | none => none
      | some it =>
        match setValBuckets c1.freq2nodes_ it value with
        | none => none
        | some f2n => some { c1 with freq2nodes_ := f2n }
  else
    match (if overCap c.key2node_.size c.cap_ then c.removeMinFreqKey else some c) with
    | none => none
    | some c1 =>
      let l := (c1.freq2nodes_.find 1).getD [] ++ [⟨c1.heap_, ⟨key, value⟩⟩]
      match lastIt l with
      | none => none
      | some last =>
        some { c1 with min_freq_ := 1,
                       key2freq_ := c1.key2freq_.assign key 1,
                       freq2nodes_ := c1.freq2nodes_.assign 1 l,
                       key2node_ := c1.key2node_.assign key last,
                       heap_ := c1.heap_ + 1 }

/-- The frequency recorded for `k`. -/
def freq (c : LFUCache) (k : Int) : Option Int := c.key2freq_.find k

/-- What a lookup through the index sees for `k`, without touching it. -/
def peek (c : LFUCache) (k : Int) : Option Int :=
  match c.key2node_.find k with
  | none => none
  | some it => (derefBuckets c.freq2nodes_ it).map (fun n => n.val)

/-- One call; the result of a `get` is dropped. -/
def step (c : LFUCache) : Op → Option LFUCache
  | Op.get k => (c.get k).map Prod.snd
  | Op.put k v => c.put k v

/-- A sequence of calls. -/
def run (c : LFUCache) : List Op → Option LFUCache
  | [] => some c
  | op :: ops =>
    match c.step op with
    | none => none
    | some c1 => run c1 ops

end LFUCache

/-! ## History of a run

The claims about eviction speak of the past of a key: when it was last used
and which value was last written.  A run is therefore accompanied by a record
of these facts. -/

/-- Record of the calls made so far. -/
structure History where
  /-- number of calls made -/
  clock : Nat
  /-- time of the most recent get-hit or put of a key (0: never) -/
  stamp : Int → Nat
  /-- value of the most recent put of a key -/
  written : Int → Option Int

namespace History

/-- Nothing has happened yet. -/
def init : History := { clock := 0, stamp := fun _ => 0, written := fun _ => none }

/-- Record one call; `hit` tells whether the key was stored when the call
was made. -/
def record (h : History) (hit : Bool) : Op → History
  | Op.get k =>
    { clock := h.clock + 1,
      stamp := fun j => if j = k ∧ hit = true then h.clock + 1 else h.stamp j,
      written := h.written }
  | Op.put k v =>
    { clock := h.clock + 1,
      stamp := fun j => if j = k then h.clock + 1 else h.stamp j,
      written := fun j => if j = k then some v else h.written j }

end History

/-- The key a call is about. -/
def Op.key : Op → Int
  | Op.get k => k
  | Op.put k _ => k

/-- A sequence of calls on an LRUCache, with its history. -/
def LRUCache.runH (c : LRUCache) (h : History) : List Op → Option (LRUCache × History)
  | [] => some (c, h)
  | op :: ops =>
    match c.step op with
    | none => none
    | some c1 => LRUCache.runH c1 (h.record (c.key2node_.contains op.key) op) ops

/-- A sequence of calls on an LFUCache, with its history. -/
def LFUCache.runH (c : LFUCache) (h : History) : List Op → Option (LFUCache × History)
  | [] => some (c, h)
  | op :: ops =>
    match c.step op with
    | none => none
    | some c1 => LFUCache.runH c1 (h.record (c.key2node_.contains op.key) op) ops

/-! ## Results of code with loops -/

/-- Outcome of running code that may loop: a result, no result within the
given number of loop iterations, or undefined behaviour (an access outside
the allocated array). -/
inductive Res (α : Type) where
  | ok (a : α)
  | timeout
  | undef
deriving DecidableEq

/-! ## XSFLinearProbingHashMap (`src/xsf_linear_probing_hash_map.h`) -/

/-- The enum `NodeType`. -/
inductive NodeType where
  | ACTIVE
  | EMPTY
  | DELETED
deriving DecidableEq

/-- The struct `Node` of the open-addressing table. -/
structure PNode (K V : Type) where
  key : K
  value : V
  type : NodeType
deriving DecidableEq

/-- State of an `XSFLinearProbingHashMap<K, V, Hash>`; the hash functor is a
parameter of the functions. -/
structure XSFLinearProbingHashMap (K V : Type) where
  size_ : Nat
  capacity_ : Nat
  mask_ : Nat
  table_ : List (PNode K V)
deriving DecidableEq

namespace XSFLinearProbingHashMap

variable {K V : Type} [DecidableEq K] [Inhabited K] [Inhabited V]

/-- Private `CeilToPow2(size_t n)`, in 64-bit arithmetic. -/
def CeilToPow2 (n : Nat) : Nat :=
  if n > 0x8000000000000000 then 0x8000000000000000
  else
    let n0 := (n + SIZE_MOD - 1) % SIZE_MOD
    let n1 := n0 ||| (n0 >>> 1)
    let n2 := n1 ||| (n1 >>> 2)
    let n3 := n2 ||| (n2 >>> 4)
    let n4 := n3 ||| (n3 >>> 8)
    let n5 := n4 ||| (n4 >>> 16)
    let n6 := n5 ||| (n5 >>> 32)
    (n6 + 1) % SIZE_MOD

/-- A default-constructed `Node`. -/
def emptyNode : PNode K V := { key := default, value := default, type := NodeType.EMPTY }

/-- Constructor `XSFLinearProbingHashMap(size_t capacity = 4)`. -/
def new (capacity : Nat) : XSFLinearProbingHashMap K V :=
  { size_ := 0,
    capacity_ := CeilToPow2 capacity,
    mask_ := (CeilToPow2 capacity + SIZE_MOD - 1) % SIZE_MOD,
    table_ := List.replicate (CeilToPow2 capacity) emptyNode }

/-- Private `HashIndex(key)`: `hash_(key) & mask_`. -/
def HashIndex (hash : K → Nat) (s : XSFLinearProbingHashMap K V) (key : K) : Nat :=
  hash key &&& s.mask_

/-- The step `(i + 1) & mask_` of all probe loops. -/
def nextIndex (mask i : Nat) : Nat := ((i + 1) % SIZE_MOD) &&& mask

/-- A loop `while (p(t[i])) i = (i + 1) & mask`, as it occurs in `Resize` and
in `operator[]`: the index at which it stops. -/
def scanWhile (p : PNode K V → Bool) (mask : Nat) (t : List (PNode K V)) : Nat → Nat → Res Nat
  | 0, _ => Res.timeout
  | fuel + 1, i =>
    match t[i]? with
    | none => Res.undef
    | some nd => if p nd then scanWhile p mask t fuel (nextIndex mask i) else Res.ok i

/-- The loop `while (new_table[index].type != EMPTY) index = (index + 1) & mask_`
of `Resize`. -/
def findEmpty (mask : Nat) (t : List (PNode K V)) (fuel index : Nat) : Res Nat :=
  scanWhile (fun nd => decide (nd.type ≠ NodeType.EMPTY)) mask t fuel index

/-- The loop `for (i = 0; i < capacity_; i++)` of `Resize` over the nodes of
the old table: every ACTIVE node is put into the new table. -/
def rehash (hash : K → Nat) (mask fuel : Nat) :
    List (PNode K V) → List (PNode K V) → Res (List (PNode K V))
  | [], t => Res.ok t
  | nd :: old, t =>
    if nd.type = NodeType.ACTIVE then
      match findEmpty mask t fuel (hash nd.key &&& mask) with
      | Res.ok index =>
        rehash hash mask fuel old
          (t.set index { key := nd.key, value := nd.value, type := NodeType.ACTIVE })
      | Res.timeout => Res.timeout
      | Res.undef => Res.undef
    else rehash hash mask fuel old t

/-- Private `Resize(size_t new_capacity)`. -/
def Resize (hash : K → Nat) (fuel : Nat) (s : XSFLinearProbingHashMap K V)
    (new_capacity : Nat) : Res (XSFLinearProbingHashMap K V) :=
  let cap := CeilToPow2 new_capacity
  let mask := (cap + SIZE_MOD - 1) % SIZE_MOD
  if s.table_.length < s.capacity_ then Res.undef
  else
    match rehash hash mask fuel (s.table_.take s.capacity_) (List.replicate cap emptyNode) with
    | Res.ok t => Res.ok { size_ := s.size_, capacity_ := cap, mask_ := mask, table_ := t }
    | Res.timeout => Res.timeout
    | Res.undef => Res.undef

/-- Private `LinearProbing(key, index)`: the loop from slot `i` with `step`
iterations done; yields the returned `bool`, the value of `index` and the map. -/
def LinearProbingLoop (hash : K → Nat) (key : K) :
    Nat → XSFLinearProbingHashMap K V → Nat → Nat →
      Res (Bool × Nat × XSFLinearProbingHashMap K V)
  | 0, _, _, _ => Res.timeout
  | fuel + 1, s, i, step =>
    match s.table_[i]? with
    | none => Res.undef
    | some nd =>
      match nd.type with
      | NodeType.EMPTY => Res.ok (false, i, s)
      | NodeType.DELETED => LinearProbingLoop hash key fuel s (nextIndex s.mask_ i) (step + 1)
      | NodeType.ACTIVE =>
        if nd.key = key then Res.ok (true, i, s)
        else if step > s.capacity_ then
          match Resize hash fuel s s.capacity_ with
          | Res.ok s1 =>
            match LinearProbingLoop hash key fuel s1 (HashIndex hash s1 key) 0 with
            | Res.ok (_, index, s2) => Res.ok (false, index, s2)
            | Res.timeout => Res.timeout
            | Res.undef => Res.undef
          | Res.timeout => Res.timeout
          | Res.undef => Res.undef
        else LinearProbingLoop hash key fuel s (nextIndex s.mask_ i) (step + 1)

/-- Private `LinearProbing(key, index)`. -/
def LinearProbing (hash : K → Nat) (fuel : Nat) (s : XSFLinearProbingHashMap K V) (key : K) :
    Res (Bool × Nat × XSFLinearProbingHashMap K V) :=
  LinearProbingLoop hash key fuel s (HashIndex hash s key) 0

/-- The loop `while (table_[i].type == ACTIVE) i = (i + 1) & mask_` of
`operator[]`. -/
def findFree (mask : Nat) (t : List (PNode K V)) (fuel i : Nat) : Res Nat :=
  scanWhile (fun nd => decide (nd.type = NodeType.ACTIVE)) mask t fuel i

/-- Public `operator[](key)`: the index of the slot whose `value` is returned
by reference, and the map. -/
def subscript (hash : K → Nat) (fuel : Nat) (s : XSFLinearProbingHashMap K V) (key : K) :
    Res (Nat × XSFLinearProbingHashMap K V) :=
  match (if s.size_ ≥ s.capacity_ / 2 then Resize hash fuel s (s.capacity_ * 2 % SIZE_MOD)
         else Res.ok s) with
  | Res.timeout => Res.timeout
  | Res.undef => Res.undef
  | Res.ok s1 =>
    match LinearProbing hash fuel s1 key with
    | Res.timeout => Res.timeout
    | Res.undef => Res.undef
    | Res.ok (true, index, s2) => Res.ok (index, s2)
    | Res.ok (false, _, s2) =>
      match findFree s2.mask_ s2.table_ fuel (HashIndex hash s2 key) with
      | Res.timeout => Res.timeout
      | Res.undef => Res.undef
      | Res.ok i =>
        match s2.table_[i]? with
        | none => Res.undef
        | some nd =>
          Res.ok (i, { s2 with
            table_ := s2.table_.set i { key := key, value := nd.value, type := NodeType.ACTIVE },
            size_ := (s2.size_ + 1) % SIZE_MOD })

/-- The statement `m[key] = value`. -/
def assign (hash : K → Nat) (fuel : Nat) (s : XSFLinearProbingHashMap K V) (key : K)
    (value : V) : Res (XSFLinearProbingHashMap K V) :=
  match subscript hash fuel s key with
  | Res.timeout => Res.timeout
  | Res.undef => Res.undef
  | Res.ok (index, s1) =>
    match s1.table_[index]? with
    | none => Res.undef
    | some nd => Res.ok { s1 with table_ := s1.table_.set index { nd with value := value } }

/-- Reading `m[key]`. -/
def read (hash : K → Nat) (fuel : Nat) (s : XSFLinearProbingHashMap K V) (key : K) :
    Res (V × XSFLinearProbingHashMap K V) :=
  match subscript hash fuel s key with
  | Res.timeout => Res.timeout
  | Res.undef => Res.undef
  | Res.ok (index, s1) =>
    match s1.table_[index]? with
    | none => Res.undef
    | some nd => Res.ok (nd.value, s1)

/-- Public `Contains(key)`. -/
def Contains (hash : K → Nat) (fuel : Nat) (s : XSFLinearProbingHashMap K V) (key : K) :
    Res (Bool × XSFLinearProbingHashMap K V) :=
  match LinearProbing hash fuel s key with
  | Res.timeout => Res.timeout
  | Res.undef => Res.undef
  | Res.ok (found, _, s1) => Res.ok (found, s1)

/-- Public `Erase(key)`: the returned count and the map. -/
def Erase (hash : K → Nat) (fuel : Nat) (s : XSFLinearProbingHashMap K V) (key : K) :
    Res (Nat × XSFLinearProbingHashMap K V) :=
  match LinearProbing hash fuel s key with
  | Res.timeout => Res.timeout
  | Res.undef => Res.undef
  | Res.ok (true, index, s1) =>
    match s1.table_[index]? with
    | none => Res.undef
    | some nd =>
      Res.ok (1, { s1 with
        table_ := s1.table_.set index { nd with type := NodeType.DELETED },
        size_ := (s1.size_ + SIZE_MOD - 1) % SIZE_MOD })
  | Res.ok (false, _, s1) => Res.ok (0, s1)

/-- Public `Clear()`. -/
def Clear (s : XSFLinearProbingHashMap K V) : Res (XSFLinearProbingHashMap K V) :=
  if s.table_.length < s.capacity_ then Res.undef
  else
    Res.ok { s with
      table_ := (s.table_.take s.capacity_).map
          (fun nd => if nd.type ≠ NodeType.EMPTY then { nd with type := NodeType.EMPTY } else nd)
        ++ s.table_.drop s.capacity_,
      size_ := 0 }

/-- Public `Size()`. -/
def Size (s : XSFLinearProbingHashMap K V) : Nat := s.size_

/-- Public `Empty()`. -/
def Empty (s : XSFLinearProbingHashMap K V) : Bool := decide (s.size_ = 0)

end XSFLinearProbingHashMap

/-- A call of the public interface of an `XSFLinearProbingHashMap`. -/
inductive POp (K V : Type) where
  | assign (key : K) (value : V)
  | subscript (key : K)
  | contains (key : K)
  | erase (key : K)
  | clear

namespace XSFLinearProbingHashMap

variable {K V : Type} [DecidableEq K] [Inhabited K] [Inhabited V]

/-- One call; returned values are dropped. -/
def step (hash : K → Nat) (fuel : Nat) (s : XSFLinearProbingHashMap K V) :
    POp K V → Res (XSFLinearProbingHashMap K V)
  | POp.assign k v => assign hash fuel s k v
  | POp.subscript k =>
    match subscript hash fuel s k with
    | Res.ok (_, s1) => Res.ok s1
    | Res.timeout => Res.timeout
    | Res.undef => Res.undef
  | POp.contains k =>
    match Contains hash fuel s k with
    | Res.ok (_, s1) => Res.ok s1
    | Res.timeout => Res.timeout
    | Res.undef => Res.undef
  | POp.erase k =>
    match Erase hash fuel s k with
    | Res.ok (_, s1) => Res.ok s1
    | Res.timeout => Res.timeout
    | Res.undef => Res.undef
  | POp.clear => Clear s

/-- A sequence of calls, each with `fuel` loop iterations at its disposal. -/
def run (hash : K → Nat) (fuel : Nat) (s : XSFLinearProbingHashMap K V) :
    List (POp K V) → Res (XSFLinearProbingHashMap K V)
  | [] => Res.ok s
  | op :: ops =>
    match step hash fuel s op with
    | Res.ok s1 => run hash fuel s1 ops
    | Res.timeout => Res.timeout
    | Res.undef => Res.undef

end XSFLinearProbingHashMap

/-! ## XSFSeparateChainingHashMap (`src/xsf_separate_chaining_hash_map.h`) -/

/-- A chain node `Slot::Node` of the separate-chaining map, without its
`next` pointer: the chain is kept as a list. -/
structure SNode (K V : Type) where
  key : K
  value : V
deriving DecidableEq

/-- One bucket `Slot<K, V, Hash>`. `head_` is the sentinel node
`Node(K{}, V{}, nullptr)` the constructor allocates; `chain` holds the nodes
from `head_->next` up to, not including, the sentinel `tail_`, whose fields
are never read. -/
structure Slot (K V : Type) where
  head_ : SNode K V
  chain : List (SNode K V)
  size_ : Nat
deriving DecidableEq

namespace Slot

variable {K V : Type} [DecidableEq K] [Inhabited K] [Inhabited V]

/-- Constructor `Slot()`. -/
def new : Slot K V :=
  { head_ := { key := default, value := default }, chain := [], size_ := 0 }

/-- The nodes a loop `for (p = head_; p != tail_; p = p->next)` visits. -/
def fromHead (s : Slot K V) : List (SNode K V) := s.head_ :: s.chain

/-- The loop of `FindNode` over the nodes from position `pos` on: the position
of the first node with the key. -/
def findLoop (key : K) : List (SNode K V) → Nat → Option Nat
  | [], _ => none
  | nd :: rest, pos => if nd.key = key then some pos else findLoop key rest (pos + 1)

/-- Private `FindNode(key)`: the position in `fromHead` of the node found,
`none` for `nullptr`. The loop starts at `head_`. -/
def FindNode (s : Slot K V) (key : K) : Option Nat := findLoop key s.fromHead 0

/-- Private `InsertNode(key)`: a node with value `V{}` right after `head_`. -/
def InsertNode (s : Slot K V) (key : K) : Nat × Slot K V :=
  (1, { s with chain := { key := key, value := default } :: s.chain,
               size_ := (s.size_ + 1) % SIZE_MOD })

/-- Public `operator[](key)` of the bucket: the position of the node whose
`value` is returned by reference, and the bucket. -/
def subscript (s : Slot K V) (key : K) : Nat × Slot K V :=
  match s.FindNode key with
  | some pos => (pos, s)
  | none => s.InsertNode key

/-- The value of the node at a position of `fromHead`. -/
def valueAt (s : Slot K V) (pos : Nat) : Option V :=
  match s.fromHead[pos]? with
  | some nd => some nd.value
  | none => none

/-- A write through the reference returned by `operator[]`. -/
def setValue (s : Slot K V) (pos : Nat) (value : V) : Slot K V :=
  match pos with
  | 0 => { s with head_ := { s.head_ with value := value } }
  | p + 1 =>
    match s.chain[p]? with
    | some nd => { s with chain := s.chain.set p { nd with value := value } }
    | none => s

/-- The loop of `Erase` over the nodes after `head_`: the remaining chain and
the number of nodes unlinked. -/
def eraseLoop (key : K) : List (SNode K V) → List (SNode K V) × Nat
  | [] => ([], 0)
  | nd :: rest =>
    let r := eraseLoop key rest
    if nd.key = key then (r.1, r.2 + 1) else (nd :: r.1, r.2)

/-- Public `Erase(key)` of the bucket. -/
def Erase (s : Slot K V) (key : K) : Nat × Slot K V :=
  let r := eraseLoop key s.chain
  (r.2 % SIZE_MOD,
    { s with chain := r.1, size_ := (s.size_ + SIZE_MOD - r.2 % SIZE_MOD) % SIZE_MOD })

/-- Public `Clear()` of the bucket. -/
def Clear (s : Slot K V) : Slot K V := { s with chain := [], size_ := 0 }

/-- Public `Contains(key)` of the bucket. -/
def Contains (s : Slot K V) (key : K) : Bool := (s.FindNode key).isSome

/-- Public `Count(key)` of the bucket. The loop starts at `head_`. -/
def Count (s : Slot K V) (key : K) : Nat :=
  (s.fromHead.countP (fun nd => decide (nd.key = key))) % SIZE_MOD

/-- Public `Size()` of the bucket. -/
def Size (s : Slot K V) : Nat := s.size_

/-- Public `Empty()` of the bucket. -/
def Empty (s : Slot K V) : Bool := decide (s.size_ = 0)

end Slot

/-- The class `XSFSeparateChainingHashMap<K, V, Hash>`; the hash function is a
parameter of the operations. -/
structure XSFSeparateChainingHashMap (K V : Type) where
  size_ : Nat
  capacity_ : Nat
  mask_ : Nat
  table_ : List (Slot K V)
deriving DecidableEq

namespace XSFSeparateChainingHashMap

variable {K V : Type} [DecidableEq K] [Inhabited K] [Inhabited V]

/-- Private `CeilToPow2(size_t n)` of the separate-chaining map. -/
def CeilToPow2 (n : Nat) : Nat :=
  if n > 0x8000000000000000 then 0x8000000000000000
  else
    let n0 := (n + SIZE_MOD - 1) % SIZE_MOD
    let n1 := n0 ||| (n0 >>> 1)
    let n2 := n1 ||| (n1 >>> 2)
    let n3 := n2 ||| (n2 >>> 4)
    let n4 := n3 ||| (n3 >>> 8)
    let n5 := n4 ||| (n4 >>> 16)
    let n6 := n5 ||| (n5 >>> 32)
    (n6 + 1) % SIZE_MOD

/-- Constructor `XSFSeparateChainingHashMap(size_t capacity = 4)`. -/
def new (capacity : Nat) : XSFSeparateChainingHashMap K V :=
  { size_ := 0,
    capacity_ := CeilToPow2 capacity,
    mask_ := (CeilToPow2 capacity + SIZE_MOD - 1) % SIZE_MOD,
    table_ := List.replicate (CeilToPow2 capacity) Slot.new }

/-- Private `HashIndex(key)`: `hash_(key) & mask_`. -/
def HashIndex (hash : K → Nat) (s : XSFSeparateChainingHashMap K V) (key : K) : Nat :=
  hash key &&& s.mask_

/-- The inner loop of `Resize` over the chain of one old bucket:
`new_table[index][p->key] = std::move(p->value)`. -/
def rehashChain (hash : K → Nat) (mask : Nat) :
    List (SNode K V) → List (Slot K V) → Option (List (Slot K V))
  | [], t => some t
  | p :: rest, t =>
    match t[hash p.key &&& mask]? with
    | none => none
    | some sl =>
      let r := sl.subscript p.key
      rehashChain hash mask rest (t.set (hash p.key &&& mask) (r.2.setValue r.1 p.value))

/-- The outer loop of `Resize` over the old buckets; each chain is walked
from `head_->next`. -/
def rehashSlots (hash : K → Nat) (mask : Nat) :
    List (Slot K V) → List (Slot K V) → Option (List (Slot K V))
  | [], t => some t
  | sl :: rest, t =>
    match rehashChain hash mask sl.chain t with
    | none => none
    | some t1 => rehashSlots hash mask rest t1

/-- Private `Resize(size_t new_capacity)`. -/
def Resize (hash : K → Nat) (s : XSFSeparateChainingHashMap K V) (new_capacity : Nat) :
    Option (XSFSeparateChainingHashMap K V) :=
  if s.table_.length < s.capacity_ then none
  else
    match rehashSlots hash ((new_capacity + SIZE_MOD - 1) % SIZE_MOD)
        (s.table_.take s.capacity_) (List.replicate new_capacity Slot.new) with
    | none => none
    | some t =>
      some { size_ := s.size_, capacity_ := new_capacity,
             mask_ := (new_capacity + SIZE_MOD - 1) % SIZE_MOD, table_ := t }

/-- The test `size_ >= capacity_ * 0.75` of `operator[]`. The source compares
in `double`; for sizes and capacities below `2 ^ 53` that is this comparison
of integers. -/
def overLoad (s : XSFSeparateChainingHashMap K V) : Bool :=
  decide (3 * s.capacity_ ≤ 4 * s.size_)

/-- Public `operator[](key)`: the bucket index and the position in the bucket
of the node whose `value` is returned by reference, and the map. -/
def subscript (hash : K → Nat) (s : XSFSeparateChainingHashMap K V) (key : K) :
    Option (Nat × Nat × XSFSeparateChainingHashMap K V) :=
  match (if overLoad s then Resize hash s (s.capacity_ * 2 % SIZE_MOD) else some s) with
  | none => none
  | some s1 =>
    match s1.table_[HashIndex hash s1 key]? with
    | none => none
    | some sl =>
      if sl.Contains key then
        let r := sl.subscript key
        some (HashIndex hash s1 key, r.1,
          { s1 with table_ := s1.table_.set (HashIndex hash s1 key) r.2 })
      else
        let r := sl.subscript key
        some (HashIndex hash s1 key, r.1,
          { s1 with size_ := (s1.size_ + 1) % SIZE_MOD,
                    table_ := s1.table_.set (HashIndex hash s1 key) r.2 })

/-- The statement `m[key] = value`. -/
def assign (hash : K → Nat) (s : XSFSeparateChainingHashMap K V) (key : K) (value : V) :
    Option (XSFSeparateChainingHashMap K V) :=
  match subscript hash s key with
  | none => none
  | some (index, pos, s1) =>
    match s1.table_[index]? with
    | none => none
    | some sl => some { s1 with table_ := s1.table_.set index (sl.setValue pos value) }

/-- Reading `m[key]`. -/
def read (hash : K → Nat) (s : XSFSeparateChainingHashMap K V) (key : K) :
    Option (V × XSFSeparateChainingHashMap K V) :=
  match subscript hash s key with
  | none => none
  | some (index, pos, s1) =>
    match s1.table_[index]? with
    | none => none
    | some sl =>
      match sl.valueAt pos with
      | none => none
      | some v => some (v, s1)

/-- Public `Contains(key)`. -/
def Contains (hash : K → Nat) (s : XSFSeparateChainingHashMap K V) (key : K) : Option Bool :=
  match s.table_[HashIndex hash s key]? with
  | none => none
  | some sl => some (sl.Contains key)

/-- Public `Count(key)`. -/
def Count (hash : K → Nat) (s : XSFSeparateChainingHashMap K V) (key : K) : Option Nat :=
  match s.table_[HashIndex hash s key]? with
  | none => none
  | some sl => some (sl.Count key)

/-- Public `Erase(key)`: the returned count and the map. -/
def Erase (hash : K → Nat) (s : XSFSeparateChainingHashMap K V) (key : K) :
    Option (Nat × XSFSeparateChainingHashMap K V) :=
  match s.table_[HashIndex hash s key]? with
  | none => none
  | some sl =>
    let r := sl.Erase key
    some (r.1, { s with table_ := s.table_.set (HashIndex hash s key) r.2,
                        size_ := (s.size_ + SIZE_MOD - r.1) % SIZE_MOD })

/-- Public `Clear()`. -/
def Clear (s : XSFSeparateChainingHashMap K V) : Option (XSFSeparateChainingHashMap K V) :=
  if s.table_.length < s.capacity_ then none
  else
    some { s with
      table_ := (s.table_.take s.capacity_).map Slot.Clear ++ s.table_.drop s.capacity_,
      size_ := 0 }

/-- Public `Size()`. -/
def Size (s : XSFSeparateChainingHashMap K V) : Nat := s.size_

/-- Public `Empty()`. -/
def Empty (s : XSFSeparateChainingHashMap K V) : Bool := decide (s.size_ = 0)

/-- The assignments `m[k] = v` of a list, in order. -/
def assignAll (hash : K → Nat) (s : XSFSeparateChainingHashMap K V) :
    List (K × V) → Option (XSFSeparateChainingHashMap K V)
  | [] => some s
  | (k, v) :: rest =>
    match assign hash s k v with
    | none => none
    | some s1 => assignAll hash s1 rest

end XSFSeparateChainingHashMap

/-- A call of the public interface of an `XSFSeparateChainingHashMap`. -/
inductive SOp (K V : Type) where
  | assign (key : K) (value : V)
  | subscript (key : K)
  | erase (key : K)
  | clear

namespace XSFSeparateChainingHashMap

variable {K V : Type} [DecidableEq K] [Inhabited K] [Inhabited V]

/-- One call; returned values are dropped. -/
def step (hash : K → Nat) (s : XSFSeparateChainingHashMap K V) :
    SOp K V → Option (XSFSeparateChainingHashMap K V)
  | SOp.assign k v => assign hash s k v
  | SOp.subscript k =>
    match subscript hash s k with
    | none => none
    | some (_, _, s1) => some s1
  | SOp.erase k =>
    match Erase hash s k with
    | none => none
    | some (_, s1) => some s1
  | SOp.clear => Clear s

/-- A sequence of calls. -/
def run (hash : K → Nat) (s : XSFSeparateChainingHashMap K V) :
    List (SOp K V) → Option (XSFSeparateChainingHashMap K V)
  | [] => some s
  | op :: ops =>
    match step hash s op with
    | none => none
    | some s1 => run hash s1 ops

end XSFSeparateChainingHashMap

/-! ## XSFLinkedHashMap (`src/xsf_linked_hash_map.h`) -/

/-- The struct `Node` of the linked hash map. -/
structure LNode (K V : Type) where
  key : K
  value : V
deriving DecidableEq

/-- One cell of the `std::list<Node>`: a node together with its address; a
`std::list<Node>::iterator` is such an address. -/
structure LCell (K V : Type) where
  addr : Nat
  node : LNode K V
deriving DecidableEq

/-- State of an `XSFLinkedHashMap<K, V, Hash>`: `list_`, and `map_` as an
association list from keys to iterators; `heap_` is the address the next
list node gets. -/
structure XSFLinkedHashMap (K V : Type) where
  list_ : List (LCell K V)
  map_ : List (K × Nat)
  heap_ : Nat
deriving DecidableEq

namespace XSFLinkedHashMap

variable {K V : Type} [DecidableEq K] [Inhabited K] [Inhabited V]

/-- The call `map_.find(key)`: the iterator stored under `key`, `none` for
`map_.end()`. -/
def mapFind : List (K × Nat) → K → Option Nat
  | [], _ => none
  | (k1, it) :: m, k => if k1 = k then some it else mapFind m k

/-- The call `map_.erase(it)` for the entry of `key`. -/
def mapErase (m : List (K × Nat)) (key : K) : List (K × Nat) :=
  m.filter (fun p => decide (p.1 ≠ key))

/-- The statement `map_[key] = it`. -/
def mapAssign (m : List (K × Nat)) (key : K) (it : Nat) : List (K × Nat) :=
  mapErase m key ++ [(key, it)]

/-- Dereference of a list iterator; `none` when it refers to no node of the
list. -/
def deref : List (LCell K V) → Nat → Option (LNode K V)
  | [], _ => none
  | c :: l, it => if c.addr = it then some c.node else deref l it

/-- The call `list_.erase(it)`; undefined when `it` refers to no node of the
list. -/
def listErase (l : List (LCell K V)) (it : Nat) : Option (List (LCell K V)) :=
  match deref l it with
  | none => none
  | some _ => some (l.filter (fun c => decide (c.addr ≠ it)))

/-- A write `it->value = value` through a list iterator. -/
def listSet : List (LCell K V) → Nat → V → Option (List (LCell K V))
  | [], _, _ => none
  | c :: l, it, value =>
    if c.addr = it then some (⟨c.addr, ⟨c.node.key, value⟩⟩ :: l)
    else
      match listSet l it value with
      | none => none
      | some l1 => some (c :: l1)

/-- The default-constructed map. -/
def new : XSFLinkedHashMap K V := { list_ := [], map_ := [], heap_ := 0 }

/-- Public `Keys()`: the vector is constructed with `list_.size()` elements,
each `K{}`, and the key of every node is appended to it. -/
def Keys (s : XSFLinkedHashMap K V) : List K :=
  s.list_.foldl (fun keys c => keys ++ [c.node.key]) (List.replicate s.list_.length default)

/-- Public `operator[](const K& key)`: the iterator of the node whose `value`
is returned by reference, and the map. -/
def subscript (s : XSFLinkedHashMap K V) (key : K) : Option (Nat × XSFLinkedHashMap K V) :=
  match mapFind s.map_ key with
  | some it =>
    match deref s.list_ it with
    | none => none
    | some _ => some (it, s)
  | none =>
    let l := s.list_ ++ [⟨s.heap_, ⟨key, default⟩⟩]
    let m := mapAssign s.map_ key s.heap_
    match mapFind m key with
    | none => none
    | some it =>
      match deref l it with
      | none => none
      | some _ => some (it, { list_ := l, map_ := m, heap_ := s.heap_ + 1 })

/-- Public `operator[](K&& key)`. On the path that inserts, the constructor
`Node(K&&, V&&)` moves from `key` in `list_.emplace_back(std::forward<K>(key),
V{})`; the two later uses of `key`, in `map_[std::forward<K>(key)]` and in
`map_[key]`, see the moved-from object, whose value is `moved key`. -/
def subscriptMove (moved : K → K) (s : XSFLinkedHashMap K V) (key : K) :
    Option (Nat × XSFLinkedHashMap K V) :=
  match mapFind s.map_ key with
  | some it =>
    match deref s.list_ it with
    | none => none
    | some _ => some (it, s)
  | none =>
    let l := s.list_ ++ [⟨s.heap_, ⟨key, default⟩⟩]
    let m := mapAssign s.map_ (moved key) s.heap_
    match mapFind m (moved key) with
    | none => none
    | some it =>
      match deref l it with
      | none => none
      | some _ => some (it, { list_ := l, map_ := m, heap_ := s.heap_ + 1 })

/-- The statement `m[key] = value`. -/
def assign (s : XSFLinkedHashMap K V) (key : K) (value : V) : Option (XSFLinkedHashMap K V) :=
  match subscript s key with
  | none => none
  | some (it, s1) =>
    match listSet s1.list_ it value with
    | none => none
    | some l => some { s1 with list_ := l }

/-- Reading `m[key]`. -/
def read (s : XSFLinkedHashMap K V) (key : K) : Option (V × XSFLinkedHashMap K V) :=
  match subscript s key with
  | none => none
  | some (it, s1) =>
    match deref s1.list_ it with
    | none => none
    | some nd => some (nd.value, s1)

/-- Public `Contains(key)`. -/
def Contains (s : XSFLinkedHashMap K V) (key : K) : Bool := (mapFind s.map_ key).isSome

/-- Public `Erase(const K& key)`: the returned `bool` and the map. -/
def Erase (s : XSFLinkedHashMap K V) (key : K) : Option (Bool × XSFLinkedHashMap K V) :=
  match mapFind s.map_ key with
  | none => some (false, s)
  | some it =>
    match listErase s.list_ it with
    | none => none
    | some l => some (true, { s with list_ := l, map_ := mapErase s.map_ key })

/-- Public `Clear()`. -/
def Clear (s : XSFLinkedHashMap K V) : XSFLinkedHashMap K V :=
  { s with list_ := [], map_ := [] }

/-- Public `Size()`. -/
def Size (s : XSFLinkedHashMap K V) : Nat := s.list_.length

/-- Public `Empty()`. -/
def Empty (s : XSFLinkedHashMap K V) : Bool := s.list_.isEmpty

end XSFLinkedHashMap

/-- A call of the public interface of an `XSFLinkedHashMap`. -/
inductive LOp (K V : Type) where
  | assign (key : K) (value : V)
  | subscript (key : K)
  | erase (key : K)
  | clear

namespace XSFLinkedHashMap

variable {K V : Type} [DecidableEq K] [Inhabited K] [Inhabited V]

/-- One call; returned values are dropped. -/
def step (s : XSFLinkedHashMap K V) : LOp K V → Option (XSFLinkedHashMap K V)
  | LOp.assign k v => assign s k v
  | LOp.subscript k =>
    match subscript s k with
    | none => none
    | some (_, s1) => some s1
  | LOp.erase k =>
    match Erase s k with
    | none => none
    | some (_, s1) => some s1
  | LOp.clear => some (Clear s)

/-- A sequence of calls. -/
def run (s : XSFLinkedHashMap K V) : List (LOp K V) → Option (XSFLinkedHashMap K V)
  | [] => some s
  | op :: ops =>
    match step s op with
    | none => none
    | some s1 => run s1 ops

end XSFLinkedHashMap

/-! ## XSFRingBuffer (`src/xsf_ring_buffer.h`) -/

/-- State of an `XSFRingBuffer`: `buffer_` is the list of the bytes of the
allocated block (empty for `nullptr`). -/
structure XSFRingBuffer where
  buffer_ : List Nat
  size_ : Nat
  capacity_ : Nat
  r_ : Nat
  w_ : Nat
  mask_ : Nat
deriving DecidableEq

namespace XSFRingBuffer

/-- Private `CeilToPow2(size_t n)` of the ring buffer. -/
def CeilToPow2 (n : Nat) : Nat :=
  if n > 0x8000000000000000 then 0x8000000000000000
  else
    let n0 := (n + SIZE_MOD - 1) % SIZE_MOD
    let n1 := n0 ||| (n0 >>> 1)
    let n2 := n1 ||| (n1 >>> 2)
    let n3 := n2 ||| (n2 >>> 4)
    let n4 := n3 ||| (n3 >>> 8)
    let n5 := n4 ||| (n4 >>> 16)
    let n6 := n5 ||| (n5 >>> 32)
    (n6 + 1) % SIZE_MOD

/-- The bytes `memcpy(dst, block + off, n)` copies out of a block; `none`
when the copy reads outside the block. Copying no byte is taken as allowed
for every pointer. -/
def memRead (block : List Nat) (off n : Nat) : Option (List Nat) :=
  if n = 0 then some []
  else if off + n ≤ block.length then some ((block.drop off).take n) else none

/-- The block after `memcpy(block + off, src, n)` with `src` holding `n`
bytes; `none` when the copy writes outside the block. -/
def memWrite (block : List Nat) (off : Nat) (src : List Nat) : Option (List Nat) :=
  if src.length = 0 then some block
  else if off + src.length ≤ block.length then
    some (block.take off ++ src ++ block.drop (off + src.length))
  else none

/-- Private `ReAlloc(size_t new_capacity)`; the bytes of the new block that
are not copied into are taken to be 0. -/
def ReAlloc (s : XSFRingBuffer) (new_capacity : Nat) : Option XSFRingBuffer :=
  let cap := CeilToPow2 new_capacity
  let new_block := List.replicate cap 0
  let copied :=
    if s.r_ < s.w_ then
      match memRead s.buffer_ s.r_ s.size_ with
      | none => none
      | some bytes => memWrite new_block 0 bytes
    else
      match memRead s.buffer_ s.r_ ((s.capacity_ + SIZE_MOD - s.r_) % SIZE_MOD) with
      | none => none
      | some bytes =>
        match memWrite new_block 0 bytes with
        | none => none
        | some block1 =>
          match memRead s.buffer_ 0 s.w_ with
          | none => none
          | some bytes2 =>
            memWrite block1 ((s.capacity_ + SIZE_MOD - s.r_) % SIZE_MOD) bytes2
  match copied with
  | none => none
  | some block =>
    some { buffer_ := block, size_ := s.size_, capacity_ := cap, r_ := 0, w_ := s.size_,
           mask_ := (cap + SIZE_MOD - 1) % SIZE_MOD }

/-- Constructor `XSFRingBuffer(size_t capacity = 1024)`. -/
def new (capacity : Nat) : Option XSFRingBuffer :=
  ReAlloc { buffer_ := [], size_ := 0, capacity_ := 0, r_ := 0, w_ := 0, mask_ := 0 } capacity

/-- Public `Read(out, out_size)` with `out` a block of at least `out_size`
bytes: the bytes copied to `out` (their number is the returned value) and the
buffer. -/
def Read (s : XSFRingBuffer) (out_size : Nat) : Option (List Nat × XSFRingBuffer) :=
  if s.size_ = 0 ∨ out_size = 0 then some ([], s)
  else
    let n := if out_size < s.size_ then out_size else s.size_
    let copied :=
      if s.r_ < s.w_ then memRead s.buffer_ s.r_ n
      else if (s.r_ + n) % SIZE_MOD ≤ s.capacity_ then memRead s.buffer_ s.r_ n
      else
        let m := (s.capacity_ + SIZE_MOD - s.r_) % SIZE_MOD
        match memRead s.buffer_ s.r_ m with
        | none => none
        | some part1 =>
          match memRead s.buffer_ 0 ((n + SIZE_MOD - m) % SIZE_MOD) with
          | none => none
          | some part2 => some (part1 ++ part2)
    match copied with
    | none => none
    | some bytes =>
      some (bytes, { s with r_ := ((s.r_ + n) % SIZE_MOD) &&& s.mask_,
                            size_ := (s.size_ + SIZE_MOD - n) % SIZE_MOD })

/-- Public `Write(in, in_size)` with `in` a block holding the bytes `input`
and `in_size` their number: the returned value and the buffer. -/
def Write (s : XSFRingBuffer) (input : List Nat) : Option (Nat × XSFRingBuffer) :=
  if input.length = 0 then some (0, s)
  else
    let space := (s.capacity_ + SIZE_MOD - s.size_) % SIZE_MOD
    match (if input.length > space then ReAlloc s ((s.capacity_ + input.length) % SIZE_MOD)
           else some s) with
    | none => none
    | some s1 =>
      let written :=
        if s1.r_ < s1.w_ then
          if (s1.capacity_ + SIZE_MOD - s1.w_) % SIZE_MOD ≥ input.length then
            memWrite s1.buffer_ s1.w_ input
          else
            let n := (s1.capacity_ + SIZE_MOD - s1.w_) % SIZE_MOD
            match memWrite s1.buffer_ s1.w_ (input.take n) with
            | none => none
            | some block1 => memWrite block1 0 (input.drop n)
        else memWrite s1.buffer_ s1.w_ input
      match written with
      | none => none
      | some block =>
        some (input.length,
          { s1 with buffer_ := block,
                    w_ := ((s1.w_ + input.length) % SIZE_MOD) &&& s1.mask_,
                    size_ := (s1.size_ + input.length) % SIZE_MOD })

/-- Public `Length()`. -/
def Length (s : XSFRingBuffer) : Nat := s.size_

/-- Public `Empty()`. -/
def Empty (s : XSFRingBuffer) : Bool := decide (s.size_ = 0)

end XSFRingBuffer

/-! ## XSFTreeMap (`src/xsf_tree_map.h`) -/

/-- A `Node*` of the tree map with everything reachable from it: `null` is
`nullptr`. -/
inductive TNode (K V : Type) where
  | null : TNode K V
  | node (key : K) (value : V) (left right : TNode K V) (size_ : Nat) : TNode K V
deriving DecidableEq

/-- Outcome of a call that may throw `std::out_of_range` or have undefined
behaviour. -/
inductive Thrown (α : Type) where
  | value (a : α)
  | out_of_range
  | undef
deriving DecidableEq

namespace TNode

variable {K V : Type} [LinearOrder K] [Inhabited K] [Inhabited V]

/-- Private `Size(Node* node)`. -/
def Size : TNode K V → Nat
  | null => 0
  | node _ _ _ _ s => s

/-- Private `InsertNode(Node* node, const K& key)`: the returned root. -/
def InsertNode : TNode K V → K → TNode K V
  | null, key => node key default null null 1
  | node k v l r s, key =>
    if key < k then
      node k v (InsertNode l key) r ((Size (InsertNode l key) + 1 + Size r) % SIZE_MOD)
    else if k < key then
      node k v l (InsertNode r key) ((Size l + 1 + Size (InsertNode r key)) % SIZE_MOD)
    else node k v l r s

/-- The `V&` returned by `InsertNode` and by `operator[]`, read: the value of
the node the search for `key` ends in. -/
def refGet : TNode K V → K → Option V
  | null, _ => none
  | node k v l r _, key =>
    if key < k then refGet l key
    else if k < key then refGet r key
    else some v

/-- A write through the `V&` returned by `operator[]`. -/
def refSet : TNode K V → K → V → TNode K V
  | null, _, _ => null
  | node k v l r s, key, value =>
    if key < k then node k v (refSet l key value) r s
    else if k < key then node k v l (refSet r key value) s
    else node k value l r s

/-- Private `EraseMax(Node* node)`; undefined on `nullptr`. -/
def EraseMax : TNode K V → Option (TNode K V)
  | null => none
  | node _ _ l null _ => some l
  | node k v l (node rk rv rl rr rs) s =>
    match EraseMax (node rk rv rl rr rs) with
    | none => none
    | some r1 => some (node k v l r1 ((s + SIZE_MOD - 1) % SIZE_MOD))

/-- Private `EraseMin(Node* node)`; undefined on `nullptr`. -/
def EraseMin : TNode K V → Option (TNode K V)
  | null => none
  | node _ _ null r _ => some r
  | node k v (node lk lv ll lr ls) r s =>
    match EraseMin (node lk lv ll lr ls) with
    | none => none
    | some l1 => some (node k v l1 r ((s + SIZE_MOD - 1) % SIZE_MOD))

/-- Private `FindMax(Node* node)`: the node found; undefined on `nullptr`. -/
def FindMax : TNode K V → Option (TNode K V)
  | null => none
  | node k v l null s => some (node k v l null s)
  | node _ _ _ (node rk rv rl rr rs) _ => FindMax (node rk rv rl rr rs)

/-- Private `Erase(Node* node, const K& key)`. -/
def Erase : TNode K V → K → Option (TNode K V)
  | null, _ => some null
  | node k v l r _, key =>
    if key < k then
      match Erase l key with
      | none => none
      | some l1 => some (node k v l1 r ((Size l1 + 1 + Size r) % SIZE_MOD))
    else if k < key then
      match Erase r key with
      | none => none
      | some r1 => some (node k v l r1 ((Size l + 1 + Size r1) % SIZE_MOD))
    else
      match l, r with
      | null, _ => some r
      | _, null => some l
      | _, _ =>
        match FindMax l, EraseMax l with
        | some (node mk mv _ _ _), some l1 =>
          some (node mk mv l1 r ((Size l1 + 1 + Size r) % SIZE_MOD))
        | _, _ => none

/-- Private `FindNode(Node* node, const K& key)`. -/
def FindNode : TNode K V → K → TNode K V
  | null, _ => null
  | node k v l r s, key =>
    if key < k then FindNode l key
    else if k < key then FindNode r key
    else node k v l r s

/-- Private `Rank(Node* node, const K& key)`. -/
def Rank : TNode K V → K → Nat
  | null, _ => 0
  | node k _ l r _, key =>
    if key < k then Rank l key
    else if k < key then (Size l + 1 + Rank r key) % SIZE_MOD
    else Size l

/-- Private `Select(Node* node, size_t i)`. -/
def Select : TNode K V → Nat → TNode K V
  | null, _ => null
  | node k v l r s, i =>
    if i < Size l then Select l i
    else if i > Size l then Select r (i - Size l - 1)
    else node k v l r s

/-- Private `InOrderTraverse(Node* node, std::vector<K>& keys)`: the vector
after the call. -/
def InOrderTraverse : TNode K V → List K → List K
  | null, keys => keys
  | node k _ l r _, keys => InOrderTraverse r (InOrderTraverse l keys ++ [k])

end TNode

/-- State of an `XSFTreeMap<K, V, Compare>`. The `Compare` functor is the `<`
of a linear order on `K`. -/
structure XSFTreeMap (K V : Type) where
  root_ : TNode K V
deriving DecidableEq

namespace XSFTreeMap

variable {K V : Type} [LinearOrder K] [Inhabited K] [Inhabited V]

/-- The default-constructed map. -/
def new : XSFTreeMap K V := { root_ := TNode.null }

/-- Public `operator[](const K& key)`; the returned `V&` is read with
`TNode.refGet` and written with `TNode.refSet`. -/
def subscript (s : XSFTreeMap K V) (key : K) : XSFTreeMap K V :=
  { root_ := s.root_.InsertNode key }

/-- The statement `m[key] = value`. -/
def assign (s : XSFTreeMap K V) (key : K) (value : V) : XSFTreeMap K V :=
  { root_ := (s.root_.InsertNode key).refSet key value }

/-- Reading `m[key]`. -/
def read (s : XSFTreeMap K V) (key : K) : Option V × XSFTreeMap K V :=
  ((s.root_.InsertNode key).refGet key, { root_ := s.root_.InsertNode key })

/-- Public `EraseMax()`. -/
def EraseMax (s : XSFTreeMap K V) : Option (XSFTreeMap K V) :=
  match s.root_.EraseMax with
  | none => none
  | some t => some { root_ := t }

/-- Public `EraseMin()`. -/
def EraseMin (s : XSFTreeMap K V) : Option (XSFTreeMap K V) :=
  match s.root_.EraseMin with
  | none => none
  | some t => some { root_ := t }

/-- Public `Erase(const K& key)`. -/
def Erase (s : XSFTreeMap K V) (key : K) : Option (XSFTreeMap K V) :=
  match s.root_.Erase key with
  | none => none
  | some t => some { root_ := t }

/-- Public `Clear()`. -/
def Clear (_s : XSFTreeMap K V) : XSFTreeMap K V := { root_ := TNode.null }

/-- Public `Contains(const K& key)`. -/
def Contains (s : XSFTreeMap K V) (key : K) : Bool :=
  match s.root_.FindNode key with
  | TNode.null => false
  | TNode.node _ _ _ _ _ => true

/-- Public `Rank(const K& key)`. -/
def Rank (s : XSFTreeMap K V) (key : K) : Nat := s.root_.Rank key

/-- Public `Size()`. -/
def Size (s : XSFTreeMap K V) : Nat := s.root_.Size

/-- Public `Empty()`. -/
def Empty (s : XSFTreeMap K V) : Bool :=
  match s.root_ with
  | TNode.null => true
  | TNode.node _ _ _ _ _ => false

/-- Public `Select(size_t i)`: it throws for `i >= Size()`; otherwise control
reaches the end of the function, whose return type is `K`, without a `return`
statement. -/
def Select (s : XSFTreeMap K V) (i : Nat) : Thrown K :=
  if i ≥ Size s then Thrown.out_of_range else Thrown.undef

/-- Public `Keys()`: the vector is constructed with `Size()` elements, each
`K{}`, and the traversal appends to it. -/
def Keys (s : XSFTreeMap K V) : List K :=
  s.root_.InOrderTraverse (List.replicate (Size s) default)

end XSFTreeMap

/-- A call of the public interface of an `XSFTreeMap`. -/
inductive TOp (K V : Type) where
  | assign (key : K) (value : V)
  | subscript (key : K)
  | erase (key : K)
  | eraseMin
  | eraseMax
  | clear

namespace XSFTreeMap

variable {K V : Type} [LinearOrder K] [Inhabited K] [Inhabited V]

/-- One call. -/
def step (s : XSFTreeMap K V) : TOp K V → Option (XSFTreeMap K V)
  | TOp.assign k v => some (assign s k v)
  | TOp.subscript k => some (subscript s k)
  | TOp.erase k => Erase s k
  | TOp.eraseMin => EraseMin s
  | TOp.eraseMax => EraseMax s
  | TOp.clear => some (Clear s)

/-- A sequence of calls. -/
def run (s : XSFTreeMap K V) : List (TOp K V) → Option (XSFTreeMap K V)
  | [] => some s
  | op :: ops =>
    match step s op with
    | none => none
    | some s1 => run s1 ops

end XSFTreeMap

/-! ## Definitions used to state and prove the claims -/

namespace UMap

/-- Keys of a map. -/
def keys {V : Type} (m : UMap V) : List Int := m.map Prod.fst

end UMap

/-- The cell written by `it->val = value`. -/
def Cell.withVal (a : Nat) (value : Int) (c : Cell) : Cell :=
  if c.addr = a then ⟨c.addr, ⟨c.node.key, value⟩⟩ else c

namespace LRUCache

/-- The index and the list of an LRUCache agree: addresses are unique, every
node is indexed under its key, and every index entry refers to a node. -/
structure WF (c : LRUCache) : Prop where
  nodup : (c.list_.map Cell.addr).Nodup
  index : ∀ x ∈ c.list_, c.key2node_.find x.node.key = some x.addr
  live : ∀ k a, c.key2node_.find k = some a → ∃ x ∈ c.list_, x.addr = a ∧ x.node.key = k
  fresh : ∀ x ∈ c.list_, x.addr < c.heap_
  k2n_nodup : (UMap.keys c.key2node_).Nodup

/-- The capacity is a positive `int` and is respected. -/
structure Bounded (c : LRUCache) : Prop where
  pos : 1 ≤ c.cap_
  isInt : c.cap_ ≤ INT_MAX
  le : (c.list_.length : Int) ≤ c.cap_

/-- State after the node of `key` has been moved to the back as `n`. -/
def moved (c : LRUCache) (key : Int) (n : Node) : LRUCache :=
  { c with list_ := c.list_.filter (fun y => decide (y.node.key ≠ key)) ++ [⟨c.heap_, n⟩],
           key2node_ := c.key2node_.assign key c.heap_,
           heap_ := c.heap_ + 1 }

/-- State after a new node has been appended for `key`. -/
def pushed (c : LRUCache) (key value : Int) : LRUCache :=
  { c with list_ := c.list_ ++ [⟨c.heap_, ⟨key, value⟩⟩],
           key2node_ := c.key2node_.assign key c.heap_,
           heap_ := c.heap_ + 1 }

end LRUCache

/-- The history agrees with a list of cells: every node holds the value last
written under its key, and the nodes stand in the order of their last use. -/
structure HInv (l : List Cell) (h : History) : Prop where
  value : ∀ x ∈ l, h.written x.node.key = some x.node.val
  past : ∀ x ∈ l, h.stamp x.node.key ≤ h.clock
  order : l.Pairwise (fun x y => h.stamp x.node.key < h.stamp y.node.key)

namespace LRUCache

/-- Everything that holds of a state reached with capacity at least 1. -/
structure Good (c : LRUCache) (h : History) : Prop where
  wf : c.WF
  bounded : c.Bounded
  hist : HInv c.list_ h

end LRUCache

/-- The buckets after `it->val = value`, when addresses are unique. -/
def valBuckets (m : UMap (List Cell)) (a : Nat) (value : Int) : UMap (List Cell) :=
  m.map (fun p => (p.1, p.2.map (Cell.withVal a value)))

namespace LFUCache

/-- The three maps of an LFUCache agree. -/
structure Core (c : LFUCache) : Prop where
  cells : ∀ g, ∀ y ∈ c.bucket g,
    c.key2node_.find y.node.key = some y.addr ∧ c.key2freq_.find y.node.key = some g ∧
      y.addr < c.heap_ ∧ 1 ≤ g
  bnodup : ∀ g, ((c.bucket g).map Cell.addr).Nodup
  apart : ∀ g g1, ∀ y ∈ c.bucket g, ∀ z ∈ c.bucket g1, y.addr = z.addr → g = g1
  live : ∀ j b, c.key2node_.find j = some b →
    ∃ g, ∃ y ∈ c.bucket g, y.addr = b ∧ y.node.key = j
  flive : ∀ j g, c.key2freq_.find j = some g → ∃ y ∈ c.bucket g, y.node.key = j

/-- The maps hold every key once and `freq2nodes_` holds no empty list. -/
structure Shape (c : LFUCache) : Prop where
  k2n_nodup : (UMap.keys c.key2node_).Nodup
  k2f_nodup : (UMap.keys c.key2freq_).Nodup
  f2n_nodup : (UMap.keys c.freq2nodes_).Nodup
  noEmpty : ∀ f l, c.freq2nodes_.find f = some l → l ≠ []

/-- The member `min_freq_` is the smallest frequency with a non-empty bucket,
when something is stored. -/
def MinOK (c : LFUCache) : Prop :=
  c.key2node_ ≠ [] → c.bucket c.min_freq_ ≠ [] ∧ ∀ g, c.bucket g ≠ [] → c.min_freq_ ≤ g

/-- The effect shared by all updates of the maps: the node at address `a`
(of key `k`) leaves its bucket and, when `tgt` names a bucket, a new node for
`k` is appended there. -/
structure Moves (c c1 : LFUCache) (a : Nat) (k : Int) (tgt : Option Int) (v : Int) : Prop where
  hb : ∀ g, c1.bucket g = (c.bucket g).filter (fun y => decide (y.addr ≠ a))
      ++ (if tgt = some g then [⟨c.heap_, ⟨k, v⟩⟩] else [])
  hn : ∀ j, c1.key2node_.find j
      = if j = k then tgt.map (fun _ => c.heap_) else c.key2node_.find j
  hf : ∀ j, c1.key2freq_.find j = if j = k then tgt else c.key2freq_.find j
  hka : ∀ g, ∀ y ∈ c.bucket g, y.node.key = k ↔ y.addr = a
  hh1 : c.heap_ ≤ c1.heap_
  hh2 : tgt ≠ none → c.heap_ < c1.heap_
  ht : ∀ g, tgt = some g → 1 ≤ g

/-- State after `increaseFreq` on the key of the node `x` of frequency `f`. -/
def bumped (c : LFUCache) (x : Cell) (f : Int) : LFUCache :=
  { c with
    min_freq_ :=
      if ((c.bucket f).filter (fun y => decide (y.addr ≠ x.addr))).isEmpty ∧ f = c.min_freq_
      then c.min_freq_ + 1 else c.min_freq_,
    key2freq_ := c.key2freq_.assign x.node.key (f + 1),
    freq2nodes_ :=
      if ((c.bucket f).filter (fun y => decide (y.addr ≠ x.addr))).isEmpty
      then (c.freq2nodes_.assign (f + 1)
        (c.bucket (f + 1) ++ [⟨c.heap_, ⟨x.node.key, x.node.val⟩⟩])).erase f
      else (c.freq2nodes_.assign (f + 1)
        (c.bucket (f + 1) ++ [⟨c.heap_, ⟨x.node.key, x.node.val⟩⟩])).assign f
          ((c.bucket f).filter (fun y => decide (y.addr ≠ x.addr))),
    key2node_ := c.key2node_.assign x.node.key c.heap_,
    heap_ := c.heap_ + 1 }

/-- State after `removeMinFreqKey`, when `front :: rest` is the bucket of
`min_freq_`. -/
def evicted (c : LFUCache) (front : Cell) (rest : List Cell) : LFUCache :=
  { c with
    freq2nodes_ := if rest.isEmpty then c.freq2nodes_.erase c.min_freq_
                   else c.freq2nodes_.assign c.min_freq_ rest,
    key2node_ := c.key2node_.erase front.node.key,
    key2freq_ := c.key2freq_.erase front.node.key }

/-- State after a new node has been appended for `key` with frequency 1. -/
def inserted (c : LFUCache) (key value : Int) : LFUCache :=
  { c with min_freq_ := 1,
           key2freq_ := c.key2freq_.assign key 1,
           freq2nodes_ := c.freq2nodes_.assign 1 (c.bucket 1 ++ [⟨c.heap_, ⟨key, value⟩⟩]),
           key2node_ := c.key2node_.assign key c.heap_,
           heap_ := c.heap_ + 1 }

/-- State after `it->val = value` for the iterator `a`. -/
def revalued (c : LFUCache) (a : Nat) (value : Int) : LFUCache :=
  { c with freq2nodes_ := valBuckets c.freq2nodes_ a value }

/-- The capacity is a positive `int` and is respected. -/
structure Bounded (c : LFUCache) : Prop where
  pos : 1 ≤ c.cap_
  isInt : c.cap_ ≤ INT_MAX
  le : (c.key2node_.size : Int) ≤ c.cap_

/-- Everything that holds of a state reached with capacity at least 1. -/
structure Good (c : LFUCache) (h : History) : Prop where
  core : c.Core
  shape : c.Shape
  minOK : c.MinOK
  bounded : c.Bounded
  hist : ∀ g, HInv (c.bucket g) h

end LFUCache

/-- The state and the history reached by `put(1,1); put(2,2); get(1)` on an
LRUCache of capacity 2. -/
def lruSample : LRUCache × History :=
  (({ cap_ := 2, list_ := [⟨1, ⟨2, 2⟩⟩, ⟨2, ⟨1, 1⟩⟩], key2node_ := [(2, 1), (1, 2)],
      heap_ := 3 } : LRUCache),
   ((History.init.record false (Op.put 1 1)).record false (Op.put 2 2)).record true (Op.get 1))

namespace XSFLinearProbingHashMap

variable {K V : Type} [DecidableEq K] [Inhabited K] [Inhabited V]

/-- The bits of `x` from `L` upwards are clear and the `w` bits below `L` are set. -/
def Smeared (L w x : Nat) : Prop :=
  (∀ i, L ≤ i → x.testBit i = false) ∧ (∀ i, i < L → L ≤ i + w → x.testBit i = true)

/-- Number of ACTIVE slots of a table. -/
def actives (t : List (PNode K V)) : Nat :=
  t.countP (fun nd => decide (nd.type = NodeType.ACTIVE))

/-- Number of slots of a table that are not EMPTY. -/
def used (t : List (PNode K V)) : Nat :=
  t.countP (fun nd => decide (nd.type ≠ NodeType.EMPTY))

/-- The table holds the value `v` under the key `k`, in an ACTIVE slot. -/
def Holds (t : List (PNode K V)) (k : K) (v : V) : Prop :=
  ∃ (j : Nat) (nd : PNode K V), t[j]? = some nd ∧ nd.type = NodeType.ACTIVE ∧
    nd.key = k ∧ nd.value = v

/-- The key `k` is stored: some ACTIVE slot holds it. -/
def Stored (t : List (PNode K V)) (k : K) : Prop :=
  ∃ (j : Nat) (nd : PNode K V), t[j]? = some nd ∧ nd.type = NodeType.ACTIVE ∧ nd.key = k

/-- No two ACTIVE slots hold the same key. -/
def Uniq (t : List (PNode K V)) : Prop :=
  ∀ (i j : Nat) (ni nj : PNode K V), t[i]? = some ni → t[j]? = some nj →
    ni.type = NodeType.ACTIVE → nj.type = NodeType.ACTIVE → ni.key = nj.key → i = j

/-- Probe chains are connected: no EMPTY slot lies between the hash index of
a stored key and the slot that holds it. -/
def Chain (hash : K → Nat) (t : List (PNode K V)) : Prop :=
  ∀ (j : Nat) (nj : PNode K V), t[j]? = some nj → nj.type = NodeType.ACTIVE →
    ∃ d, d < t.length ∧ (hash nj.key + d) % t.length = j ∧
      ∀ d', d' < d → ∀ n' : PNode K V,
        t[(hash nj.key + d') % t.length]? = some n' → n'.type ≠ NodeType.EMPTY

/-- The ACTIVE nodes of a list have pairwise different keys. -/
def DistinctKeys (l : List (PNode K V)) : Prop :=
  l.Pairwise (fun a b => a.type = NodeType.ACTIVE → b.type = NodeType.ACTIVE → a.key ≠ b.key)

/-- The fields of the map fit together: the capacity is a power of two, the
table has `capacity_` slots, `mask_ = capacity_ - 1` and `size_` counts the
ACTIVE slots. -/
structure Shape (s : XSFLinearProbingHashMap K V) : Prop where
  pow2 : ∃ e, e ≤ 63 ∧ s.capacity_ = 2 ^ e
  len : s.table_.length = s.capacity_
  mask : s.mask_ = s.capacity_ - 1
  size : s.size_ = actives s.table_

/-- Invariant of the table under a hash function. -/
structure Inv (hash : K → Nat) (s : XSFLinearProbingHashMap K V) : Prop where
  shape : s.Shape
  uniq : Uniq s.table_
  chain : Chain hash s.table_

/-- A table of capacity `2 ^ e` whose slots are all EMPTY. -/
def blank (e : Nat) : XSFLinearProbingHashMap K V :=
  { size_ := 0, capacity_ := 2 ^ e, mask_ := 2 ^ e - 1,
    table_ := List.replicate (2 ^ e) emptyNode }

/-- A table of capacity `2 ^ e` with the node `nd` in slot `h`, all other
slots EMPTY, and `size_ = n`. -/
def single (e h : Nat) (nd : PNode K V) (n : Nat) : XSFLinearProbingHashMap K V :=
  { size_ := n, capacity_ := 2 ^ e, mask_ := 2 ^ e - 1,
    table_ := (List.replicate (2 ^ e) emptyNode).set h nd }

/-- The calls `m[0]; Erase(0); m[1]; Erase(1); m[2]; Erase(2); m[3]` on a map
with keys of type `Nat`. -/
def tombOps7 : List (POp Nat Nat) :=
  [POp.subscript 0, POp.erase 0, POp.subscript 1, POp.erase 1, POp.subscript 2, POp.erase 2,
   POp.subscript 3]

/-- The calls of `tombOps7` followed by `Erase(3)`. -/
def tombOps8 : List (POp Nat Nat) := tombOps7 ++ [POp.erase 3]

/-- Capacity 4, slots 0, 1, 2 DELETED and key 3 ACTIVE in slot 3. -/
def threeDeleted : XSFLinearProbingHashMap Nat Nat :=
  { size_ := 1, capacity_ := 4, mask_ := 3,
    table_ := [⟨0, 0, NodeType.DELETED⟩, ⟨1, 0, NodeType.DELETED⟩, ⟨2, 0, NodeType.DELETED⟩,
               ⟨3, 0, NodeType.ACTIVE⟩] }

/-- Capacity 4 and all four slots DELETED: no slot is EMPTY or ACTIVE. -/
def allDeleted : XSFLinearProbingHashMap Nat Nat :=
  { size_ := 0, capacity_ := 4, mask_ := 3,
    table_ := [⟨0, 0, NodeType.DELETED⟩, ⟨1, 0, NodeType.DELETED⟩, ⟨2, 0, NodeType.DELETED⟩,
               ⟨3, 0, NodeType.DELETED⟩] }

/-- The calls `m[0]; m[1]` on a map with keys of type `Nat`. -/
def fillOps2 : List (POp Nat Nat) := [POp.subscript 0, POp.subscript 1]

/-- Capacity 4 with the keys 0 and 1 ACTIVE in slots 0 and 1: `Size()` is
`capacity_ / 2`. -/
def halfFull : XSFLinearProbingHashMap Nat Nat :=
  { size_ := 2, capacity_ := 4, mask_ := 3,
    table_ := [⟨0, 0, NodeType.ACTIVE⟩, ⟨1, 0, NodeType.ACTIVE⟩, ⟨0, 0, NodeType.EMPTY⟩,
               ⟨0, 0, NodeType.EMPTY⟩] }

/-- Capacity 8 with the keys 0, 1 and 2 ACTIVE in slots 0, 1 and 2. -/
def doubled : XSFLinearProbingHashMap Nat Nat :=
  { size_ := 3, capacity_ := 8, mask_ := 7,
    table_ := [⟨0, 0, NodeType.ACTIVE⟩, ⟨1, 0, NodeType.ACTIVE⟩, ⟨2, 0, NodeType.ACTIVE⟩,
               ⟨0, 0, NodeType.EMPTY⟩, ⟨0, 0, NodeType.EMPTY⟩, ⟨0, 0, NodeType.EMPTY⟩,
               ⟨0, 0, NodeType.EMPTY⟩, ⟨0, 0, NodeType.EMPTY⟩] }

/-- The value of the last assignment to `k` in a list of assignments
`m[k_i] = v_i`, if there is one. -/
def lastValue : List (K × V) → K → Option V
  | [], _ => none
  | (k1, v) :: rest, k =>
    match lastValue rest k with
    | some w => some w
    | none => if k1 = k then some v else none

/-- The calls `m[k_i] = v_i` of a list of assignments. -/
def assigns (l : List (K × V)) : List (POp K V) :=
  l.map (fun p => POp.assign p.1 p.2)

end XSFLinearProbingHashMap

namespace XSFLinkedHashMap

variable {K V : Type} [DecidableEq K] [Inhabited K] [Inhabited V]

/-- The keys of the nodes of `list_`, head first. -/
def listKeys (s : XSFLinkedHashMap K V) : List K := s.list_.map (fun c => c.node.key)

/-- The keys of the entries of `map_`. -/
def mapKeys (s : XSFLinkedHashMap K V) : List K := s.map_.map Prod.fst

/-- Index and list in lock-step: list nodes have distinct addresses below
`heap_` and distinct keys, `map_` has one entry per key, and `map_` holds
`it` under `k` exactly if the list node at address `it` has key `k`. -/
structure WF (s : XSFLinkedHashMap K V) : Prop where
  addr_lt : ∀ c ∈ s.list_, c.addr < s.heap_
  addr_nodup : (s.list_.map (fun c => c.addr)).Nodup
  keys_nodup : (listKeys s).Nodup
  map_nodup : (mapKeys s).Nodup
  index : ∀ k it, mapFind s.map_ k = some it ↔
    ∃ c ∈ s.list_, c.addr = it ∧ c.node.key = k

/-- The map after a node for `key` with value `V{}` is appended and indexed. -/
def pushed (s : XSFLinkedHashMap K V) (key : K) : XSFLinkedHashMap K V :=
  { list_ := s.list_ ++ [⟨s.heap_, ⟨key, default⟩⟩],
    map_ := mapAssign s.map_ key s.heap_,
    heap_ := s.heap_ + 1 }

/-- The order the spec gives for the stored keys: a key enters at the tail
when it is inserted while absent, stays where it is when it is assigned
again, and leaves when it is erased. -/
def insertionOrder : List K → List (LOp K V) → List K
  | acc, [] => acc
  | acc, LOp.assign k _ :: ops => insertionOrder (if k ∈ acc then acc else acc ++ [k]) ops
  | acc, LOp.subscript k :: ops => insertionOrder (if k ∈ acc then acc else acc ++ [k]) ops
  | acc, LOp.erase k :: ops => insertionOrder (acc.filter (fun x => decide (x ≠ k))) ops
  | _, LOp.clear :: ops => insertionOrder [] ops

end XSFLinkedHashMap

namespace TNode

variable {K V : Type} [LinearOrder K] [Inhabited K] [Inhabited V]

/-- The keys of the nodes, in order of an in-order walk. -/
def keys : TNode K V → List K
  | null => []
  | node k _ l r _ => keys l ++ k :: keys r

/-- The key `node->key` of a node, `none` for `nullptr`. -/
def rootKey : TNode K V → Option K
  | null => none
  | node k _ _ _ _ => some k

/-- The key/value pairs of the nodes, in order of an in-order walk. -/
def entries : TNode K V → List (K × V)
  | null => []
  | node k v l r _ => entries l ++ (k, v) :: entries r

/-- The search-tree order: left subtree keys < node key < right subtree
keys, at every node. -/
def BST : TNode K V → Prop
  | null => True
  | node k _ l r _ => BST l ∧ BST r ∧ (∀ x ∈ keys l, x < k) ∧ (∀ x ∈ keys r, k < x)

/-- Every node's `size_` is the number of nodes of its subtree. -/
def Sized : TNode K V → Prop
  | null => True
  | node _ _ l r s => Sized l ∧ Sized r ∧ s = (keys l).length + 1 + (keys r).length

end TNode

namespace XSFLinearProbingHashMap

variable {K V : Type} [DecidableEq K] [Inhabited K] [Inhabited V]

/-- Whether the loop of `LinearProbing`, run from slot `i` with `step`
iterations done, comes to the test `if (step > capacity_)` with the condition
true, the branch that calls `Resize(capacity_)` and probes again. -/
def reachesGuard (key : K) :
    Nat → XSFLinearProbingHashMap K V → Nat → Nat → Res Bool
  | 0, _, _, _ => Res.timeout
  | fuel + 1, s, i, step =>
    match s.table_[i]? with
    | none => Res.undef
    | some nd =>
      match nd.type with
      | NodeType.EMPTY => Res.ok false
      | NodeType.DELETED => reachesGuard key fuel s (nextIndex s.mask_ i) (step + 1)
      | NodeType.ACTIVE =>
        if nd.key = key then Res.ok false
        else if step > s.capacity_ then Res.ok true
        else reachesGuard key fuel s (nextIndex s.mask_ i) (step + 1)

/-- Capacity 4, slots 0, 1, 2 EMPTY and key 3 ACTIVE in slot 3: the table
`Resize(4)` builds from `threeDeleted`. -/
def threeDropped : XSFLinearProbingHashMap Nat Nat :=
  { size_ := 1, capacity_ := 4, mask_ := 3,
    table_ := [⟨0, 0, NodeType.EMPTY⟩, ⟨0, 0, NodeType.EMPTY⟩, ⟨0, 0, NodeType.EMPTY⟩,
               ⟨3, 0, NodeType.ACTIVE⟩] }

end XSFLinearProbingHashMap

namespace XSFSeparateChainingHashMap

variable {K V : Type} [DecidableEq K] [Inhabited K] [Inhabited V]

/-- The number of chain nodes of a bucket array. -/
def nodes (t : List (Slot K V)) : Nat := (t.map (fun sl => sl.chain.length)).sum

/-- The sum of the sizes `Size()` of the buckets. -/
def slotSizes (t : List (Slot K V)) : Nat := (t.map Slot.Size).sum

/-- Some chain node of the bucket array has the key `k`. -/
def hasKey (t : List (Slot K V)) (k : K) : Prop := ∃ sl ∈ t, ∃ nd ∈ sl.chain, nd.key = k

/-- A bucket array of `c` buckets under a hash function: every chain node
lies in the bucket `hash(key) & (c - 1)`, every bucket counts its chain
nodes, no chain holds a key twice or holds the key `K{}`, and the sentinels
`head_` have the key `K{}`. -/
structure Buckets (hash : K → Nat) (c : Nat) (t : List (Slot K V)) : Prop where
  len : t.length = c
  bucket : ∀ (i : Nat) (sl : Slot K V), t[i]? = some sl →
    ∀ nd ∈ sl.chain, hash nd.key &&& (c - 1) = i
  slotSize : ∀ sl ∈ t, sl.size_ = sl.chain.length
  nodup : ∀ sl ∈ t, (sl.chain.map (fun nd => nd.key)).Nodup
  nodefault : ∀ sl ∈ t, ∀ nd ∈ sl.chain, nd.key ≠ default
  heads : ∀ sl ∈ t, sl.head_.key = default

/-- Invariant of the separate-chaining map under a hash function. -/
structure Good (hash : K → Nat) (s : XSFSeparateChainingHashMap K V) : Prop where
  pow2 : ∃ e, e ≤ 63 ∧ s.capacity_ = 2 ^ e
  mask : s.mask_ = s.capacity_ - 1
  buckets : Buckets hash s.capacity_ s.table_
  size : s.size_ = nodes s.table_

end XSFSeparateChainingHashMap

/-! ## Lemmas on maps and lists -/

namespace UMap

theorem find_append {V : Type} (m1 m2 : UMap V) (k : Int) :
    find (m1 ++ m2) k = (find m1 k).orElse (fun _ => find m2 k) := by
  induction m1 with
  | nil => simp [find]
  | cons p m ih =>
    obtain ⟨k1, v⟩ := p
    by_cases h : k1 = k <;> simp [find, h, ih]

theorem find_erase {V : Type} (m : UMap V) (k j : Int) :
    find (erase m k) j = if j = k then none else find m j := by
  induction m with
  | nil => simp [find, erase]
  | cons p m ih =>
    obtain ⟨k1, v⟩ := p
    unfold erase at ih ⊢
    by_cases h1 : k1 = k
    · subst h1
      by_cases h2 : j = k1
      · subst h2; simpa [find] using ih
      · have h3 : ¬ k1 = j := fun e => h2 e.symm
        simpa [find, h2, h3] using ih
    · by_cases h2 : k1 = j
      · subst h2; simp [find, h1]
      · simp only [ne_eq, h1, not_false_eq_true, decide_True, List.filter_cons_of_pos, find, h2,
          if_false]
        exact ih

theorem find_assign {V : Type} (m : UMap V) (k j : Int) (v : V) :
    find (assign m k v) j = if j = k then some v else find m j := by
  unfold assign
  rw [find_append, find_erase]
  by_cases h : j = k
  · subst h; simp [find]
  · have h3 : ¬ k = j := fun e => h e.symm
    simp only [h, if_false, find, h3]
    cases find m j <;> simp

theorem contains_iff {V : Type} (m : UMap V) (k : Int) :
    contains m k = true ↔ ∃ v, find m k = some v := by
  unfold contains
  cases find m k <;> simp

theorem contains_false_iff {V : Type} (m : UMap V) (k : Int) :
    contains m k = false ↔ find m k = none := by
  unfold contains
  cases find m k <;> simp

theorem find_some_mem {V : Type} (m : UMap V) (k : Int) (v : V) (h : find m k = some v) :
    (k, v) ∈ m := by
  induction m with
  | nil => simp [find] at h
  | cons p m ih =>
    obtain ⟨k1, v1⟩ := p
    by_cases h1 : k1 = k
    · simp [find, h1] at h; simp [h1, h]
    · simp [find, h1] at h; exact List.mem_cons_of_mem _ (ih h)

theorem mem_find_isSome {V : Type} (m : UMap V) (k : Int) (v : V) (h : (k, v) ∈ m) :
    ∃ w, find m k = some w := by
  induction m with
  | nil => simp at h
  | cons p m ih =>
    obtain ⟨k1, v1⟩ := p
    by_cases h1 : k1 = k
    · exact ⟨v1, by simp [find, h1]⟩
    · have : (k, v) ∈ m := by
        rcases List.mem_cons.1 h with e | e
        · exact absurd (congrArg Prod.fst e).symm h1
        · exact e
      obtain ⟨w, hw⟩ := ih this
      exact ⟨w, by simp [find, h1, hw]⟩

theorem erase_of_find_none {V : Type} (m : UMap V) (k : Int) (h : find m k = none) :
    erase m k = m := by
  unfold erase
  apply List.filter_eq_self.2
  intro p hp
  obtain ⟨k1, v1⟩ := p
  by_cases h1 : k1 = k
  · subst h1
    obtain ⟨w, hw⟩ := mem_find_isSome m k1 v1 hp
    rw [h] at hw; cases hw
  · simp [h1]

theorem keys_erase {V : Type} (m : UMap V) (k : Int) :
    keys (erase m k) = (keys m).filter (fun j => decide (j ≠ k)) := by
  unfold keys erase
  rw [List.filter_map]
  rfl

theorem nodup_erase {V : Type} (m : UMap V) (k : Int) (h : (keys m).Nodup) :
    (keys (erase m k)).Nodup := by
  rw [keys_erase]; exact h.filter _

theorem nodup_assign {V : Type} (m : UMap V) (k : Int) (v : V) (h : (keys m).Nodup) :
    (keys (assign m k v)).Nodup := by
  unfold assign
  have h1 := nodup_erase m k h
  have : keys (erase m k ++ [(k, v)]) = keys (erase m k) ++ [k] := by simp [keys]
  rw [this]
  apply List.Nodup.append h1 (by simp)
  intro a ha hb
  rw [keys_erase] at ha
  simp at ha hb
  exact ha.2 hb

theorem size_erase_of_nodup {V : Type} (m : UMap V) (k : Int) (h : (keys m).Nodup)
    (hk : contains m k = true) : size (erase m k) + 1 = size m := by
  induction m with
  | nil => simp [contains, find] at hk
  | cons p m ih =>
    obtain ⟨k1, v1⟩ := p
    have hnd : k1 ∉ keys m ∧ (keys m).Nodup := by simpa [keys] using h
    by_cases h1 : k1 = k
    · subst h1
      have : find m k1 = none := by
        cases hf : find m k1 with
        | none => rfl
        | some w => exact absurd (List.mem_map_of_mem Prod.fst (find_some_mem m k1 w hf)) hnd.1
      have e := erase_of_find_none m k1 this
      unfold erase at e
      show (List.filter _ ((k1, v1) :: m)).length + 1 = ((k1, v1) :: m).length
      rw [List.filter_cons_of_neg (by simp), e]
      rfl
    · have hk2 : contains m k = true := by simpa [contains, find, h1] using hk
      have := ih hnd.2 hk2
      simp only [size, erase] at this
      show (List.filter _ ((k1, v1) :: m)).length + 1 = ((k1, v1) :: m).length
      rw [List.filter_cons_of_pos (by simp [h1])]
      simp only [List.length_cons]
      omega

theorem size_assign_of_find_none {V : Type} (m : UMap V) (k : Int) (v : V)
    (h : find m k = none) : size (assign m k v) = size m + 1 := by
  unfold assign
  rw [erase_of_find_none m k h]
  simp [size]

end UMap

theorem Cell.withVal_addr (a : Nat) (value : Int) (c : Cell) :
    (Cell.withVal a value c).addr = c.addr := by
  unfold Cell.withVal; split <;> rfl

theorem Cell.withVal_key (a : Nat) (value : Int) (c : Cell) :
    (Cell.withVal a value c).node.key = c.node.key := by
  unfold Cell.withVal; split <;> rfl

theorem derefIt_some_mem (l : List Cell) (a : Nat) (n : Node) (h : derefIt l a = some n) :
    (⟨a, n⟩ : Cell) ∈ l := by
  induction l with
  | nil => simp [derefIt] at h
  | cons c l ih =>
    by_cases h1 : c.addr = a
    · simp [derefIt, h1] at h
      subst h1; subst h
      exact List.mem_cons_self _ _
    · simp [derefIt, h1] at h
      exact List.mem_cons_of_mem _ (ih h)

theorem derefIt_none_of_forall (l : List Cell) (a : Nat) (h : ∀ x ∈ l, x.addr ≠ a) :
    derefIt l a = none := by
  induction l with
  | nil => rfl
  | cons c l ih =>
    have h1 : ¬ c.addr = a := h c (List.mem_cons_self _ _)
    simp only [derefIt, h1, if_false]
    exact ih (fun x hx => h x (List.mem_cons_of_mem _ hx))

theorem derefIt_of_mem (l : List Cell) (x : Cell) (hnd : (l.map Cell.addr).Nodup)
    (hx : x ∈ l) : derefIt l x.addr = some x.node := by
  induction l with
  | nil => simp at hx
  | cons c l ih =>
    have hnd2 : c.addr ∉ l.map Cell.addr ∧ (l.map Cell.addr).Nodup := by simpa using hnd
    rcases List.mem_cons.1 hx with e | e
    · subst e; simp [derefIt]
    · have h1 : ¬ c.addr = x.addr := by
        intro e2
        exact hnd2.1 (e2 ▸ List.mem_map_of_mem Cell.addr e)
      simp only [derefIt, h1, if_false]
      exact ih hnd2.2 e

theorem derefIt_append (l1 l2 : List Cell) (a : Nat) :
    derefIt (l1 ++ l2) a = (derefIt l1 a).orElse (fun _ => derefIt l2 a) := by
  induction l1 with
  | nil => simp [derefIt]
  | cons c l ih =>
    by_cases h : c.addr = a <;> simp [derefIt, h, ih]

theorem cell_eq_of_addr (l : List Cell) (hnd : (l.map Cell.addr).Nodup) (x y : Cell)
    (hx : x ∈ l) (hy : y ∈ l) (h : x.addr = y.addr) : x = y :=
  List.inj_on_of_nodup_map hnd hx hy h

theorem setValIt_of_mem (l : List Cell) (a : Nat) (value : Int) (x : Cell) (hx : x ∈ l)
    (ha : x.addr = a) (hnd : (l.map Cell.addr).Nodup) :
    setValIt l a value = some (l.map (Cell.withVal a value)) := by
  induction l with
  | nil => simp at hx
  | cons c l ih =>
    have hnd2 : c.addr ∉ l.map Cell.addr ∧ (l.map Cell.addr).Nodup := by simpa using hnd
    by_cases h1 : c.addr = a
    · have hrest : l.map (Cell.withVal a value) = l := by
        have hc : l.map (Cell.withVal a value) = l.map id := by
          apply List.map_congr_left
          intro y hy
          have : ¬ y.addr = a := by
            intro e
            exact hnd2.1 (by rw [h1, ← e]; exact List.mem_map_of_mem Cell.addr hy)
          simp [Cell.withVal, this]
        rw [hc, List.map_id]
      simp [setValIt, h1, Cell.withVal, hrest]
    · have hx2 : x ∈ l := by
        rcases List.mem_cons.1 hx with e | e
        · subst e; exact absurd ha h1
        · exact e
      simp [setValIt, h1, ih hx2 hnd2.2, Cell.withVal]

theorem lastIt_append_singleton (l : List Cell) (x : Cell) : lastIt (l ++ [x]) = some x.addr := by
  simp [lastIt]

/-! ## LRUCache: representation invariant -/

namespace LRUCache

theorem WF.key_inj {c : LRUCache} (w : c.WF) (x y : Cell) (hx : x ∈ c.list_) (hy : y ∈ c.list_)
    (h : x.node.key = y.node.key) : x = y := by
  apply cell_eq_of_addr c.list_ w.nodup x y hx hy
  have h1 := w.index x hx
  have h2 := w.index y hy
  rw [h, h2] at h1
  exact (Option.some.inj h1).symm

theorem WF.keys_nodup {c : LRUCache} (w : c.WF) : c.keys.Nodup := by
  unfold keys
  have hl : c.list_.Nodup := List.Nodup.of_map _ w.nodup
  exact List.Nodup.map_on (fun x hx y hy h => w.key_inj x y hx hy h) hl

theorem WF.indexed_iff {c : LRUCache} (w : c.WF) (k : Int) :
    c.key2node_.contains k = true ↔ k ∈ c.keys := by
  rw [UMap.contains_iff]
  constructor
  · rintro ⟨a, ha⟩
    obtain ⟨x, hx, _, hk⟩ := w.live k a ha
    exact hk ▸ List.mem_map_of_mem (fun x => x.node.key) hx
  · intro h
    obtain ⟨x, hx, hk⟩ := List.mem_map.1 h
    exact ⟨x.addr, hk ▸ w.index x hx⟩

theorem WF.peek_eq {c : LRUCache} (w : c.WF) (x : Cell) (hx : x ∈ c.list_) :
    c.peek x.node.key = some x.node.val := by
  unfold peek
  rw [w.index x hx]
  simp [derefIt_of_mem c.list_ x w.nodup hx]

theorem WF.peek_none {c : LRUCache} (w : c.WF) (k : Int) (hk : k ∉ c.keys) :
    c.peek k = none := by
  have h := (not_congr (w.indexed_iff k)).2 hk
  have h2 : c.key2node_.find k = none := by
    rw [← UMap.contains_false_iff]; simpa using h
  simp [peek, h2]

theorem new_WF (C : Int) : (new C).WF :=
  ⟨by simp [new], by simp [new], by simp [new, UMap.find], by simp [new],
    by simp [new, UMap.keys]⟩

theorem WF.filter_addr_eq {c : LRUCache} (w : c.WF) (x : Cell) (hx : x ∈ c.list_) :
    c.list_.filter (fun y => decide (y.addr ≠ x.addr))
      = c.list_.filter (fun y => decide (y.node.key ≠ x.node.key)) := by
  apply List.filter_congr
  intro y hy
  by_cases h : y.addr = x.addr
  · have := cell_eq_of_addr c.list_ w.nodup y x hy hx h
    subst this; simp
  · have h2 : ¬ y.node.key = x.node.key := fun e => h (congrArg Cell.addr (w.key_inj y x hy hx e))
    simp [h, h2]

theorem WF.makeRecently_eq {c : LRUCache} (w : c.WF) (x : Cell) (hx : x ∈ c.list_) :
    c.makeRecently x.node.key = some (c.moved x.node.key x.node) := by
  have hne : ¬ c.heap_ = x.addr := by have := w.fresh x hx; omega
  have h1 := w.index x hx
  have h2 := derefIt_of_mem c.list_ x w.nodup hx
  have h3 : eraseIt (c.list_ ++ [⟨c.heap_, x.node⟩]) x.addr
      = some (c.list_.filter (fun y => decide (y.node.key ≠ x.node.key)) ++ [⟨c.heap_, x.node⟩]) := by
    unfold eraseIt
    rw [derefIt_append, h2]
    simp only [Option.orElse, List.filter_append, ← w.filter_addr_eq x hx]
    simp [hne]
  unfold makeRecently
  simp only [h1, h2, h3, lastIt_append_singleton]
  rfl

theorem WF.moved_WF {c : LRUCache} (w : c.WF) (k : Int) (n : Node) (hn : n.key = k) :
    (c.moved k n).WF := by
  refine ⟨?_, ?_, ?_, ?_, UMap.nodup_assign _ _ _ w.k2n_nodup⟩
  · show ((c.list_.filter _ ++ [_]).map Cell.addr).Nodup
    rw [List.map_append]
    apply List.Nodup.append ((w.nodup.sublist ((List.filter_sublist _).map _))) (by simp)
    intro a ha hb
    simp only [List.map_cons, List.map_nil, List.mem_singleton] at hb
    obtain ⟨y, hy, rfl⟩ := List.mem_map.1 ha
    have := w.fresh y (List.mem_of_mem_filter hy)
    omega
  · intro y hy
    show (c.key2node_.assign k c.heap_).find y.node.key = some y.addr
    rw [UMap.find_assign]
    rcases List.mem_append.1 hy with h | h
    · have hk : ¬ y.node.key = k := by simpa using (List.mem_filter.1 h).2
      simp only [hk, if_false]
      exact w.index y (List.mem_of_mem_filter h)
    · simp only [List.mem_singleton] at h
      subst h; simp [hn]
  · intro j a hj
    change (c.key2node_.assign k c.heap_).find j = some a at hj
    rw [UMap.find_assign] at hj
    show ∃ x ∈ c.list_.filter _ ++ [_], _
    by_cases hk : j = k
    · simp only [hk, if_true, Option.some.injEq] at hj
      exact ⟨⟨c.heap_, n⟩, by simp, hj, by simp [hk, hn]⟩
    · simp only [hk, if_false] at hj
      obtain ⟨x, hx, hxa, hxk⟩ := w.live j a hj
      refine ⟨x, List.mem_append_left _ (List.mem_filter.2 ⟨hx, ?_⟩), hxa, hxk⟩
      simp [hxk, hk]
  · intro y hy
    show y.addr < c.heap_ + 1
    rcases List.mem_append.1 hy with h | h
    · have := w.fresh y (List.mem_of_mem_filter h); omega
    · simp only [List.mem_singleton] at h
      subst h; simp

theorem WF.get_hit {c : LRUCache} (w : c.WF) (x : Cell) (hx : x ∈ c.list_) :
    c.get x.node.key = some (x.node.val, c.moved x.node.key x.node) := by
  have hc : c.key2node_.contains x.node.key = true :=
    (UMap.contains_iff _ _).2 ⟨x.addr, w.index x hx⟩
  have w1 := w.moved_WF x.node.key x.node rfl
  have hm : (⟨c.heap_, x.node⟩ : Cell) ∈ (c.moved x.node.key x.node).list_ := by
    simp [moved]
  have h1 := w1.index _ hm
  have h2 := derefIt_of_mem _ _ w1.nodup hm
  simp only at h1 h2
  unfold get
  simp only [hc, if_true, w.makeRecently_eq x hx, h1, h2]

theorem get_miss (c : LRUCache) (k : Int) (h : c.key2node_.contains k = false) :
    c.get k = some (-1, c) := by
  simp [get, h]

theorem WF.withVal_WF {c : LRUCache} (w : c.WF) (a : Nat) (v : Int) :
    WF { c with list_ := c.list_.map (Cell.withVal a v) } := by
  refine ⟨?_, ?_, ?_, ?_, w.k2n_nodup⟩
  · show ((c.list_.map (Cell.withVal a v)).map Cell.addr).Nodup
    rw [List.map_map]
    have : (Cell.addr ∘ Cell.withVal a v) = Cell.addr := by
      funext y; exact Cell.withVal_addr a v y
    rw [this]; exact w.nodup
  · intro y hy
    obtain ⟨z, hz, rfl⟩ := List.mem_map.1 hy
    rw [Cell.withVal_addr, Cell.withVal_key]
    exact w.index z hz
  · intro k b hk
    obtain ⟨z, hz, hza, hzk⟩ := w.live k b hk
    exact ⟨Cell.withVal a v z, List.mem_map_of_mem _ hz, by rw [Cell.withVal_addr]; exact hza,
      by rw [Cell.withVal_key]; exact hzk⟩
  · intro y hy
    obtain ⟨z, hz, rfl⟩ := List.mem_map.1 hy
    rw [Cell.withVal_addr]
    exact w.fresh z hz

theorem WF.filter_withVal {c : LRUCache} (w : c.WF) (x : Cell) (hx : x ∈ c.list_) (v : Int) :
    (c.list_.map (Cell.withVal x.addr v)).filter (fun y => decide (y.node.key ≠ x.node.key))
      = c.list_.filter (fun y => decide (y.node.key ≠ x.node.key)) := by
  rw [List.filter_map]
  have h1 : ((fun y : Cell => decide (y.node.key ≠ x.node.key)) ∘ Cell.withVal x.addr v)
      = (fun y : Cell => decide (y.node.key ≠ x.node.key)) := by
    funext y; simp [Cell.withVal_key]
  rw [h1]
  have h2 : (c.list_.filter (fun y => decide (y.node.key ≠ x.node.key))).map (Cell.withVal x.addr v)
      = (c.list_.filter (fun y => decide (y.node.key ≠ x.node.key))).map id := by
    apply List.map_congr_left
    intro y hy
    have hy1 := List.mem_of_mem_filter hy
    have hy2 : ¬ y.node.key = x.node.key := by simpa using (List.mem_filter.1 hy).2
    have : ¬ y.addr = x.addr := fun e => hy2 (congrArg (fun z => z.node.key)
      (cell_eq_of_addr c.list_ w.nodup y x hy1 hx e))
    simp [Cell.withVal, this]
  rw [h2, List.map_id]

theorem WF.put_hit {c : LRUCache} (w : c.WF) (x : Cell) (hx : x ∈ c.list_) (v : Int) :
    c.put x.node.key v = some (c.moved x.node.key ⟨x.node.key, v⟩) := by
  have hc : c.key2node_.contains x.node.key = true :=
    (UMap.contains_iff _ _).2 ⟨x.addr, w.index x hx⟩
  have h1 := w.index x hx
  have h2 := setValIt_of_mem c.list_ x.addr v x hx rfl w.nodup
  have w1 := w.withVal_WF x.addr v
  have hx1 : (⟨x.addr, ⟨x.node.key, v⟩⟩ : Cell) ∈ c.list_.map (Cell.withVal x.addr v) := by
    have := List.mem_map_of_mem (Cell.withVal x.addr v) hx
    simpa [Cell.withVal] using this
  have h3 := w1.makeRecently_eq _ hx1
  simp only at h3
  unfold put
  simp only [hc, if_true, h1, h2, h3]
  unfold moved
  simp only [w.filter_withVal x hx v]

theorem WF.pushed_WF {c : LRUCache} (w : c.WF) (k v : Int) (hk : c.key2node_.find k = none) :
    (c.pushed k v).WF := by
  have hf : c.list_.filter (fun y => decide (y.node.key ≠ k)) = c.list_ := by
    apply List.filter_eq_self.2
    intro y hy
    have : ¬ y.node.key = k := by
      intro e
      have := w.index y hy
      rw [e, hk] at this; cases this
    simp [this]
  have := w.moved_WF k ⟨k, v⟩ rfl
  unfold moved at this
  rw [hf] at this
  exact this

theorem WF.pop_WF {c : LRUCache} (w : c.WF) (front : Cell) (rest : List Cell)
    (hl : c.list_ = front :: rest) :
    WF { c with list_ := rest, key2node_ := c.key2node_.erase front.node.key } := by
  have hnd : front.addr ∉ rest.map Cell.addr ∧ (rest.map Cell.addr).Nodup := by
    have := w.nodup; rw [hl] at this; simpa using this
  have hfront : front ∈ c.list_ := by rw [hl]; exact List.mem_cons_self _ _
  have hrest : ∀ y ∈ rest, y ∈ c.list_ := fun y hy => by rw [hl]; exact List.mem_cons_of_mem _ hy
  have hne : ∀ y ∈ rest, ¬ y.node.key = front.node.key := by
    intro y hy e
    have := w.key_inj y front (hrest y hy) hfront e
    subst this
    exact hnd.1 (List.mem_map_of_mem Cell.addr hy)
  refine ⟨hnd.2, ?_, ?_, fun y hy => w.fresh y (hrest y hy), UMap.nodup_erase _ _ w.k2n_nodup⟩
  · intro y hy
    show (c.key2node_.erase front.node.key).find y.node.key = some y.addr
    rw [UMap.find_erase]
    simp only [hne y hy, if_false]
    exact w.index y (hrest y hy)
  · intro k a hk
    change (c.key2node_.erase front.node.key).find k = some a at hk
    rw [UMap.find_erase] at hk
    by_cases h : k = front.node.key
    · simp [h] at hk
    · simp only [h, if_false] at hk
      obtain ⟨y, hy, hya, hyk⟩ := w.live k a hk
      rw [hl] at hy
      rcases List.mem_cons.1 hy with e | e
      · subst e; exact absurd hyk.symm h
      · exact ⟨y, e, hya, hyk⟩

theorem put_miss (c : LRUCache) (k v : Int) (h : c.key2node_.contains k = false) :
    c.put k v = (if overCap c.list_.length c.cap_ then c.popLeastRecently else some c).map
      (fun c1 => c1.pushed k v) := by
  unfold put
  simp only [h, Bool.false_eq_true, if_false, lastIt_append_singleton]
  cases (if overCap c.list_.length c.cap_ then c.popLeastRecently else some c) <;> rfl

theorem toSizeT_of_int (C : Int) (h1 : 0 ≤ C) (h2 : C ≤ INT_MAX) : (toSizeT C : Int) = C := by
  unfold toSizeT SIZE_MOD
  unfold INT_MAX at h2
  rw [Int.toNat_of_nonneg (Int.emod_nonneg _ (by norm_num))]
  apply Int.emod_eq_of_lt h1
  norm_num
  omega

theorem overCap_iff (n : Nat) (C : Int) (h1 : 0 ≤ C) (h2 : C ≤ INT_MAX) (h3 : (n : Int) ≤ C) :
    overCap n C = true ↔ (n : Int) = C := by
  have h := toSizeT_of_int C h1 h2
  unfold overCap
  unfold INT_MAX at h2
  have h4 : (n + 1) % SIZE_MOD = n + 1 := by
    apply Nat.mod_eq_of_lt
    unfold SIZE_MOD
    norm_num
    omega
  rw [h4]
  simp only [decide_eq_true_eq]
  omega

end LRUCache

/-! ## Histories and lists of cells -/

theorem length_filter_ne {α : Type} (f : α → Int) (l : List α) (k : Int)
    (hnd : (l.map f).Nodup) (hk : k ∈ l.map f) :
    (l.filter (fun y => decide (f y ≠ k))).length + 1 = l.length := by
  induction l with
  | nil => simp at hk
  | cons c l ih =>
    have hnd2 : f c ∉ l.map f ∧ (l.map f).Nodup := by simpa using hnd
    by_cases h1 : f c = k
    · have e : l.filter (fun y => decide (f y ≠ k)) = l := by
        apply List.filter_eq_self.2
        intro y hy
        have : ¬ f y = k := fun e => hnd2.1 (by rw [h1, ← e]; exact List.mem_map_of_mem f hy)
        simp [this]
      rw [List.filter_cons_of_neg (by simp [h1]), e]
      rfl
    · have hk2 : k ∈ l.map f := by
        rcases List.mem_cons.1 (by simpa using hk : k ∈ f c :: l.map f) with e | e
        · exact absurd e.symm h1
        · exact e
      have := ih hnd2.2 hk2
      rw [List.filter_cons_of_pos (by simp [h1])]
      simp only [List.length_cons]
      omega

theorem HInv.nil (h : History) : HInv [] h :=
  ⟨by simp, by simp, List.Pairwise.nil⟩

theorem HInv.sublist {l l0 : List Cell} {h : History} (hi : HInv l h) (hs : l0.Sublist l) :
    HInv l0 h :=
  ⟨fun x hx => hi.value x (hs.subset hx), fun x hx => hi.past x (hs.subset hx),
    hi.order.sublist hs⟩

/-- The history after a call that leaves the stored keys untouched in their
past: only the key `k` may have a new stamp or a new written value. -/
theorem HInv.frame {l : List Cell} {h h1 : History} (k : Int) (hi : HInv l h)
    (hk : ∀ x ∈ l, x.node.key ≠ k) (hc : h.clock ≤ h1.clock)
    (hs : ∀ j, j ≠ k → h1.stamp j = h.stamp j)
    (hw : ∀ j, j ≠ k → h1.written j = h.written j) : HInv l h1 := by
  refine ⟨?_, ?_, ?_⟩
  · intro x hx; rw [hw _ (hk x hx)]; exact hi.value x hx
  · intro x hx; rw [hs _ (hk x hx)]; exact le_trans (hi.past x hx) hc
  · apply hi.order.imp_of_mem
    intro x y hx hy hxy
    rw [hs _ (hk x hx), hs _ (hk y hy)]; exact hxy

/-- Appending the node of the key that was just used. -/
theorem HInv.snoc {l : List Cell} {h : History} (hi : HInv l h) (a : Nat) (k v : Int)
    (hk : ∀ x ∈ l, h.stamp x.node.key < h.stamp k) (hc : h.stamp k ≤ h.clock)
    (hw : h.written k = some v) : HInv (l ++ [⟨a, ⟨k, v⟩⟩]) h := by
  refine ⟨?_, ?_, ?_⟩
  · intro x hx
    rcases List.mem_append.1 hx with e | e
    · exact hi.value x e
    · simp only [List.mem_singleton] at e; subst e; exact hw
  · intro x hx
    rcases List.mem_append.1 hx with e | e
    · exact hi.past x e
    · simp only [List.mem_singleton] at e; subst e; exact hc
  · rw [List.pairwise_append]
    refine ⟨hi.order, List.pairwise_singleton _ _, ?_⟩
    intro x hx y hy
    simp only [List.mem_singleton] at hy; subst hy
    exact hk x hx

/-- A use of key `k` at the next clock tick: the nodes of the other keys keep
their order and the node of `k` goes last. -/
theorem HInv.touch {l l0 : List Cell} {h h1 : History} (hi : HInv l h) (hs : l0.Sublist l)
    (a : Nat) (k v : Int) (hk : ∀ x ∈ l0, x.node.key ≠ k) (hc : h1.clock = h.clock + 1)
    (hst : ∀ j, h1.stamp j = if j = k then h.clock + 1 else h.stamp j)
    (hw : ∀ j, j ≠ k → h1.written j = h.written j) (hv : h1.written k = some v) :
    HInv (l0 ++ [⟨a, ⟨k, v⟩⟩]) h1 := by
  have h0 : HInv l0 h1 :=
    (hi.sublist hs).frame k hk (by omega) (fun j hj => by rw [hst]; simp [hj]) hw
  apply h0.snoc a k v
  · intro x hx
    have := hi.past x (hs.subset hx)
    rw [hst, hst]
    simp only [hk x hx, if_false, if_true]
    omega
  · rw [hst, hc]; simp
  · exact hv

/-! ## LRUCache: every call keeps the invariants -/

namespace LRUCache

theorem WF.moved_length {c : LRUCache} (w : c.WF) (x : Cell) (hx : x ∈ c.list_) (n : Node) :
    (c.moved x.node.key n).list_.length = c.list_.length := by
  have := length_filter_ne (fun y : Cell => y.node.key) c.list_ x.node.key w.keys_nodup
    (List.mem_map_of_mem (fun y : Cell => y.node.key) hx)
  simp only [moved, List.length_append, List.length_singleton]
  exact this

theorem Good.moved_good {c : LRUCache} {h h1 : History} (g : Good c h) (x : Cell)
    (hx : x ∈ c.list_) (v : Int) (hc : h1.clock = h.clock + 1)
    (hst : ∀ j, h1.stamp j = if j = x.node.key then h.clock + 1 else h.stamp j)
    (hw : ∀ j, j ≠ x.node.key → h1.written j = h.written j)
    (hv : h1.written x.node.key = some v) :
    Good (c.moved x.node.key ⟨x.node.key, v⟩) h1 := by
  refine ⟨g.wf.moved_WF _ _ rfl, ⟨g.bounded.pos, g.bounded.isInt, ?_⟩, ?_⟩
  · rw [g.wf.moved_length x hx]; exact g.bounded.le
  · exact g.hist.touch (List.filter_sublist _) c.heap_ x.node.key v
      (fun y hy => by simpa using (List.mem_filter.1 hy).2) hc hst hw hv

theorem Good.pushed_good {c : LRUCache} {h : History} (h1 : History) (g : HInv c.list_ h)
    (w : c.WF)
    (k v : Int) (hk : c.key2node_.find k = none) (hc : h1.clock = h.clock + 1)
    (hst : ∀ j, h1.stamp j = if j = k then h.clock + 1 else h.stamp j)
    (hw : ∀ j, j ≠ k → h1.written j = h.written j)
    (hv : h1.written k = some v) :
    (c.pushed k v).WF ∧ HInv (c.pushed k v).list_ h1 := by
  refine ⟨w.pushed_WF k v hk, ?_⟩
  apply g.touch (List.Sublist.refl _) c.heap_ k v _ hc hst hw hv
  intro y hy e
  have := w.index y hy
  rw [e, hk] at this; cases this

theorem Good.step_good {c : LRUCache} {h : History} (g : Good c h) (op : Op) :
    ∃ c1, c.step op = some c1 ∧ c1.cap_ = c.cap_ ∧
      Good c1 (h.record (c.key2node_.contains op.key) op) := by
  cases op with
  | get k =>
    cases hc : c.key2node_.contains k with
    | true =>
      obtain ⟨x, hx, hxk⟩ := List.mem_map.1 ((g.wf.indexed_iff k).1 hc)
      subst hxk
      refine ⟨c.moved x.node.key x.node, by simp [step, g.wf.get_hit x hx], rfl, ?_⟩
      exact g.moved_good x hx x.node.val rfl (fun j => by simp [History.record, Op.key, hc])
        (fun j _ => rfl) (g.hist.value x hx)
    | false =>
      refine ⟨c, by simp [step, get_miss c k hc], rfl, g.wf, g.bounded, ?_⟩
      exact g.hist.frame k
        (fun x hx e => by
          have := (g.wf.indexed_iff k).2 (e ▸ List.mem_map_of_mem (fun y : Cell => y.node.key) hx)
          rw [hc] at this; cases this)
        (by simp [History.record]) (fun j _ => by simp [History.record, Op.key, hc])
        (fun j _ => rfl)
  | put k v =>
    cases hc : c.key2node_.contains k with
    | true =>
      obtain ⟨x, hx, hxk⟩ := List.mem_map.1 ((g.wf.indexed_iff k).1 hc)
      subst hxk
      refine ⟨c.moved x.node.key ⟨x.node.key, v⟩, by simp [step, g.wf.put_hit x hx], rfl, ?_⟩
      exact g.moved_good x hx v rfl (fun j => by simp [History.record, Op.key])
        (fun j hj => by simp [History.record, hj]) (by simp [History.record])
    | false =>
      have hfind : c.key2node_.find k = none := (UMap.contains_false_iff _ _).1 hc
      have hB := g.bounded
      have hov := overCap_iff c.list_.length c.cap_ (by have := hB.pos; omega) hB.isInt hB.le
      cases ho : overCap c.list_.length c.cap_ with
      | true =>
        have hlen := hov.1 ho
        cases hl : c.list_ with
        | nil =>
          rw [hl] at hlen
          have := hB.pos
          simp at hlen; omega
        | cons front rest =>
          have w1 := g.wf.pop_WF front rest hl
          have hfind1 : (c.key2node_.erase front.node.key).find k = none := by
            rw [UMap.find_erase, hfind]; simp
          have hi1 : HInv rest h := g.hist.sublist (by rw [hl]; exact List.sublist_cons_self _ _)
          obtain ⟨w2, hi2⟩ := Good.pushed_good
            (c := { c with list_ := rest, key2node_ := c.key2node_.erase front.node.key })
            (h.record false (Op.put k v)) hi1 w1 k v hfind1 rfl
            (fun j => by simp [History.record]) (fun j hj => by simp [History.record, hj])
            (by simp [History.record])
          refine ⟨LRUCache.pushed
            { c with list_ := rest, key2node_ := c.key2node_.erase front.node.key } k v,
            ?_, rfl, w2, ⟨hB.pos, hB.isInt, ?_⟩, hi2⟩
          · show c.put k v = _
            rw [put_miss c k v hc, ho]
            simp only [if_true, popLeastRecently, hl, Option.map_some']
          · rw [hl] at hlen
            simp only [pushed, List.length_append, List.length_singleton, List.length_cons] at hlen ⊢
            exact le_of_eq hlen
      | false =>
        obtain ⟨w2, hi2⟩ := Good.pushed_good (h.record false (Op.put k v)) g.hist g.wf k v
          hfind rfl (fun j => by simp [History.record]) (fun j hj => by simp [History.record, hj])
          (by simp [History.record])
        refine ⟨c.pushed k v, by simp only [step, put_miss c k v hc, ho, Bool.false_eq_true,
          if_false, Option.map_some'], rfl, w2, ⟨hB.pos, hB.isInt, ?_⟩, hi2⟩
        have hne : ¬ ((c.list_.length : Int) = c.cap_) := fun e => by
          rw [hov.2 e] at ho; cases ho
        have := hB.le
        simp only [pushed, List.length_append, List.length_singleton]
        push_cast
        omega

theorem Good.runH_good {c : LRUCache} {h : History} (g : Good c h) (ops : List Op) :
    ∃ c1 h1, c.runH h ops = some (c1, h1) ∧ c1.cap_ = c.cap_ ∧ Good c1 h1 := by
  induction ops generalizing c h with
  | nil => exact ⟨c, h, rfl, rfl, g⟩
  | cons op ops ih =>
    obtain ⟨c1, hs, hcap, g1⟩ := g.step_good op
    obtain ⟨c2, h2, hr, hcap2, g2⟩ := ih g1
    exact ⟨c2, h2, by simp only [runH, hs, hr], by rw [hcap2, hcap], g2⟩

theorem run_eq_runH (c : LRUCache) (h : History) (ops : List Op) :
    c.run ops = (c.runH h ops).map Prod.fst := by
  induction ops generalizing c h with
  | nil => rfl
  | cons op ops ih =>
    simp only [run, runH]
    cases c.step op with
    | none => rfl
    | some c1 => exact ih c1 _

theorem new_good (C : Int) (h1 : 1 ≤ C) (h2 : C ≤ INT_MAX) : Good (new C) History.init :=
  ⟨new_WF C, ⟨h1, h2, by simp [new]; omega⟩, HInv.nil _⟩

theorem runH_new_good (C : Int) (h1 : 1 ≤ C) (h2 : C ≤ INT_MAX) (ops : List Op) :
    ∃ s h, (new C).runH History.init ops = some (s, h) ∧ s.cap_ = C ∧ Good s h := by
  obtain ⟨s, h, hr, hc, g⟩ := (new_good C h1 h2).runH_good ops
  exact ⟨s, h, hr, hc, g⟩

theorem run_new_good (C : Int) (h1 : 1 ≤ C) (h2 : C ≤ INT_MAX) (ops : List Op) :
    ∃ s h, (new C).run ops = some s ∧ s.cap_ = C ∧ Good s h := by
  obtain ⟨s, h, hr, hc, g⟩ := runH_new_good C h1 h2 ops
  exact ⟨s, h, by rw [run_eq_runH _ History.init, hr]; rfl, hc, g⟩

end LRUCache

/-! ## Lemmas on bucket maps -/

namespace UMap

theorem find_of_mem_nodup {V : Type} (m : UMap V) (k : Int) (v : V) (hnd : (keys m).Nodup)
    (h : (k, v) ∈ m) : find m k = some v := by
  induction m with
  | nil => simp at h
  | cons p m ih =>
    obtain ⟨k1, v1⟩ := p
    have hnd2 : k1 ∉ keys m ∧ (keys m).Nodup := by simpa [keys] using hnd
    rcases List.mem_cons.1 h with e | e
    · cases e; simp [find]
    · have h1 : ¬ k1 = k := fun e2 => hnd2.1 (e2 ▸ List.mem_map_of_mem Prod.fst e)
      simp only [find, h1, if_false]
      exact ih hnd2.2 e

theorem size_assign_of_contains {V : Type} (m : UMap V) (k : Int) (v : V)
    (hnd : (keys m).Nodup) (hk : contains m k = true) : size (assign m k v) = size m := by
  have := size_erase_of_nodup m k hnd hk
  simp only [assign, size, List.length_append, List.length_singleton] at this ⊢
  exact this

theorem ne_nil_of_find {V : Type} (m : UMap V) (k : Int) (v : V) (h : find m k = some v) :
    m ≠ [] := by
  intro e; subst e; simp [find] at h

end UMap

theorem setValIt_none (l : List Cell) (a : Nat) (value : Int) (h : ∀ x ∈ l, x.addr ≠ a) :
    setValIt l a value = none := by
  induction l with
  | nil => rfl
  | cons c l ih =>
    have h1 : ¬ c.addr = a := h c (List.mem_cons_self _ _)
    simp [setValIt, h1, ih (fun x hx => h x (List.mem_cons_of_mem _ hx))]

theorem map_withVal_of_forall (l : List Cell) (a : Nat) (value : Int)
    (h : ∀ x ∈ l, x.addr ≠ a) : l.map (Cell.withVal a value) = l := by
  have hc : l.map (Cell.withVal a value) = l.map id := by
    apply List.map_congr_left
    intro y hy
    simp [Cell.withVal, h y hy]
  rw [hc, List.map_id]

theorem derefBuckets_some_mem (m : UMap (List Cell)) (a : Nat) (n : Node)
    (h : derefBuckets m a = some n) : ∃ p ∈ m, (⟨a, n⟩ : Cell) ∈ p.2 := by
  induction m with
  | nil => simp [derefBuckets] at h
  | cons p m ih =>
    obtain ⟨f, l⟩ := p
    unfold derefBuckets at h
    cases hd : derefIt l a with
    | some n1 =>
      rw [hd] at h
      simp only [Option.some.injEq] at h
      subst h
      exact ⟨(f, l), List.mem_cons_self _ _, derefIt_some_mem l a n1 hd⟩
    | none =>
      rw [hd] at h
      obtain ⟨q, hq, hq2⟩ := ih h
      exact ⟨q, List.mem_cons_of_mem _ hq, hq2⟩

theorem derefBuckets_ne_none (m : UMap (List Cell)) (a : Nat) (p : Int × List Cell)
    (hp : p ∈ m) (x : Cell) (hx : x ∈ p.2) (ha : x.addr = a) : derefBuckets m a ≠ none := by
  induction m with
  | nil => simp at hp
  | cons q m ih =>
    obtain ⟨f, l⟩ := q
    unfold derefBuckets
    cases hd : derefIt l a with
    | some n1 => simp
    | none =>
      simp only
      rcases List.mem_cons.1 hp with e | e
      · subst e
        exfalso
        have : ∀ l : List Cell, x ∈ l → derefIt l a ≠ none := by
          intro l
          induction l with
          | nil => simp
          | cons c l ih2 =>
            intro hm
            by_cases h1 : c.addr = a
            · simp [derefIt, h1]
            · simp only [derefIt, h1, if_false]
              rcases List.mem_cons.1 hm with e2 | e2
              · subst e2; exact absurd ha h1
              · exact ih2 e2
        exact this l hx hd
      · exact ih e

theorem setValBuckets_eq (m : UMap (List Cell)) (a : Nat) (value : Int)
    (hk : (UMap.keys m).Nodup)
    (hnd : ∀ p ∈ m, (p.2.map Cell.addr).Nodup)
    (hap : ∀ p ∈ m, ∀ q ∈ m, ∀ y ∈ p.2, ∀ z ∈ q.2, y.addr = a → z.addr = a → p.1 = q.1)
    (p0 : Int × List Cell) (hp0 : p0 ∈ m) (x : Cell) (hx : x ∈ p0.2) (ha : x.addr = a) :
    setValBuckets m a value = some (valBuckets m a value) := by
  induction m with
  | nil => simp at hp0
  | cons q m ih =>
    obtain ⟨f, l⟩ := q
    have hk2 : f ∉ UMap.keys m ∧ (UMap.keys m).Nodup := by simpa [UMap.keys] using hk
    by_cases hex : ∃ y ∈ l, y.addr = a
    · obtain ⟨y, hy, hya⟩ := hex
      have h1 := setValIt_of_mem l a value y hy hya (hnd (f, l) (List.mem_cons_self _ _))
      have h2 : valBuckets m a value = m := by
        unfold valBuckets
        have hc : m.map (fun p => (p.1, p.2.map (Cell.withVal a value))) = m.map id := by
          apply List.map_congr_left
          intro q hq
          have : ∀ z ∈ q.2, z.addr ≠ a := by
            intro z hz e
            have := hap (f, l) (List.mem_cons_self _ _) q (List.mem_cons_of_mem _ hq) y hy z hz hya e
            simp only at this
            exact hk2.1 (this ▸ List.mem_map_of_mem Prod.fst hq)
          simp [map_withVal_of_forall q.2 a value this]
        rw [hc, List.map_id]
      unfold setValBuckets
      rw [h1]
      simp only [valBuckets, List.map_cons] at h2 ⊢
      rw [h2]
    · have hno : ∀ y ∈ l, y.addr ≠ a := fun y hy e => hex ⟨y, hy, e⟩
      have hp1 : p0 ∈ m := by
        rcases List.mem_cons.1 hp0 with e | e
        · subst e; exact absurd ha (hno x hx)
        · exact e
      have hrec := ih hk2.2 (fun p hp => hnd p (List.mem_cons_of_mem _ hp))
        (fun p hp q hq => hap p (List.mem_cons_of_mem _ hp) q (List.mem_cons_of_mem _ hq)) hp1
      unfold setValBuckets
      rw [setValIt_none l a value hno, hrec]
      simp [valBuckets, map_withVal_of_forall l a value hno]

theorem find_valBuckets (m : UMap (List Cell)) (a : Nat) (value : Int) (g : Int) :
    UMap.find (valBuckets m a value) g
      = (UMap.find m g).map (fun l => l.map (Cell.withVal a value)) := by
  induction m with
  | nil => rfl
  | cons q m ih =>
    obtain ⟨f, l⟩ := q
    by_cases h : f = g
    · simp [valBuckets, UMap.find, h]
    · simp only [valBuckets, List.map_cons, UMap.find, h, if_false]
      exact ih

theorem keys_valBuckets (m : UMap (List Cell)) (a : Nat) (value : Int) :
    UMap.keys (valBuckets m a value) = UMap.keys m := by
  simp [valBuckets, UMap.keys, List.map_map, Function.comp_def]

/-! ## LFUCache: representation invariant -/

namespace LFUCache

theorem bucket_of_find {c : LFUCache} {f : Int} {l : List Cell}
    (h : c.freq2nodes_.find f = some l) : c.bucket f = l := by
  simp [bucket, h]

theorem find_of_mem_bucket {c : LFUCache} {f : Int} {x : Cell} (h : x ∈ c.bucket f) :
    c.freq2nodes_.find f = some (c.bucket f) := by
  unfold bucket at h ⊢
  cases hf : c.freq2nodes_.find f with
  | none => rw [hf] at h; simp at h
  | some l => simp

theorem Core.cell_eq {c : LFUCache} (w : c.Core) {g g1 : Int} {y z : Cell}
    (hy : y ∈ c.bucket g) (hz : z ∈ c.bucket g1) (h : y.addr = z.addr) : y = z ∧ g = g1 := by
  have e := w.apart g g1 y hy z hz h
  subst e
  exact ⟨cell_eq_of_addr _ (w.bnodup g) y z hy hz h, rfl⟩

theorem Core.key_eq {c : LFUCache} (w : c.Core) {g g1 : Int} {y z : Cell}
    (hy : y ∈ c.bucket g) (hz : z ∈ c.bucket g1) (h : y.node.key = z.node.key) :
    y = z ∧ g = g1 := by
  apply w.cell_eq hy hz
  have h1 := (w.cells g y hy).1
  have h2 := (w.cells g1 z hz).1
  rw [h, h2] at h1
  exact (Option.some.inj h1).symm

theorem Core.filter_other {c : LFUCache} (w : c.Core) {f g : Int} {x : Cell}
    (hx : x ∈ c.bucket f) (hg : g ≠ f) :
    (c.bucket g).filter (fun y => decide (y.addr ≠ x.addr)) = c.bucket g := by
  apply List.filter_eq_self.2
  intro y hy
  have : ¬ y.addr = x.addr := fun e => hg (w.apart g f y hy x hx e)
  simp [this]

theorem Core.stored_iff {c : LFUCache} (w : c.Core) (k : Int) :
    c.key2node_.contains k = true ↔ ∃ g, ∃ y ∈ c.bucket g, y.node.key = k := by
  rw [UMap.contains_iff]
  constructor
  · rintro ⟨a, ha⟩
    obtain ⟨g, y, hy, _, hk⟩ := w.live k a ha
    exact ⟨g, y, hy, hk⟩
  · rintro ⟨g, y, hy, hk⟩
    exact ⟨y.addr, hk ▸ (w.cells g y hy).1⟩

theorem Core.freq_iff {c : LFUCache} (w : c.Core) (k g : Int) :
    c.freq k = some g ↔ ∃ y ∈ c.bucket g, y.node.key = k := by
  constructor
  · intro h; exact w.flive k g h
  · rintro ⟨y, hy, hk⟩
    exact hk ▸ (w.cells g y hy).2.1

theorem Core.derefBuckets_eq {c : LFUCache} (w : c.Core) (sh : c.Shape) {f : Int} {x : Cell}
    (hx : x ∈ c.bucket f) : derefBuckets c.freq2nodes_ x.addr = some x.node := by
  have hmem : (f, c.bucket f) ∈ c.freq2nodes_ :=
    UMap.find_some_mem _ _ _ (find_of_mem_bucket hx)
  cases hd : derefBuckets c.freq2nodes_ x.addr with
  | none => exact absurd hd (derefBuckets_ne_none _ _ _ hmem x hx rfl)
  | some n =>
    obtain ⟨p, hp, hp2⟩ := derefBuckets_some_mem _ _ _ hd
    have hfp := UMap.find_of_mem_nodup _ p.1 p.2 sh.f2n_nodup hp
    have hb : (⟨x.addr, n⟩ : Cell) ∈ c.bucket p.1 := by rw [bucket_of_find hfp]; exact hp2
    have := (w.cell_eq hb hx rfl).1
    rw [← this]

theorem Core.peek_cell {c : LFUCache} (w : c.Core) (sh : c.Shape) {f : Int} {x : Cell}
    (hx : x ∈ c.bucket f) : c.peek x.node.key = some x.node.val := by
  unfold peek
  rw [(w.cells f x hx).1]
  simp [w.derefBuckets_eq sh hx]

theorem peek_absent (c : LFUCache) (k : Int) (h : c.key2node_.find k = none) :
    c.peek k = none := by
  simp [peek, h]

theorem Moves.mem_iff {c c1 : LFUCache} {a : Nat} {k : Int} {tgt : Option Int} {v : Int}
    (mv : Moves c c1 a k tgt v) (g : Int) (y : Cell) :
    y ∈ c1.bucket g ↔ (y ∈ c.bucket g ∧ y.addr ≠ a) ∨ (tgt = some g ∧ y = ⟨c.heap_, ⟨k, v⟩⟩) := by
  rw [mv.hb g]
  by_cases h : tgt = some g <;> simp [h, List.mem_filter]

theorem Moves.core {c c1 : LFUCache} {a : Nat} {k : Int} {tgt : Option Int} {v : Int}
    (mv : Moves c c1 a k tgt v) (w : c.Core) : c1.Core := by
  have hold : ∀ g y, y ∈ c.bucket g → y.addr ≠ a → y.node.key ≠ k :=
    fun g y hy ha e => ha ((mv.hka g y hy).1 e)
  refine ⟨?_, ?_, ?_, ?_, ?_⟩
  · intro g y hy
    rcases (mv.mem_iff g y).1 hy with ⟨h1, h2⟩ | ⟨h1, h2⟩
    · have hk := hold g y h1 h2
      obtain ⟨c1_, c2_, c3_, c4_⟩ := w.cells g y h1
      rw [mv.hn, mv.hf]
      simp only [hk, if_false]
      exact ⟨c1_, c2_, lt_of_lt_of_le c3_ mv.hh1, c4_⟩
    · subst h2
      rw [mv.hn, mv.hf]
      simp only [if_true, h1, Option.map_some']
      exact ⟨trivial, trivial, mv.hh2 (by simp [h1]), mv.ht g h1⟩
  · intro g
    rw [mv.hb g, List.map_append]
    apply List.Nodup.append (((w.bnodup g).sublist ((List.filter_sublist _).map _)))
    · split <;> simp
    · intro b hb1 hb2
      obtain ⟨y, hy, rfl⟩ := List.mem_map.1 hb1
      have := (w.cells g y (List.mem_of_mem_filter hy)).2.2.1
      split at hb2
      · simp only [List.map_cons, List.map_nil, List.mem_singleton] at hb2
        omega
      · simp at hb2
  · intro g g1 y hy z hz e
    rcases (mv.mem_iff g y).1 hy with ⟨h1, h2⟩ | ⟨h1, h2⟩
    · rcases (mv.mem_iff g1 z).1 hz with ⟨h3, h4⟩ | ⟨h3, h4⟩
      · exact w.apart g g1 y h1 z h3 e
      · subst h4
        have := (w.cells g y h1).2.2.1
        simp only at e; omega
    · rcases (mv.mem_iff g1 z).1 hz with ⟨h3, h4⟩ | ⟨h3, h4⟩
      · subst h2
        have := (w.cells g1 z h3).2.2.1
        simp only at e; omega
      · rw [h1] at h3
        exact Option.some.inj h3
  · intro j b hj
    rw [mv.hn] at hj
    by_cases hk : j = k
    · simp only [hk, if_true] at hj
      cases ht : tgt with
      | none => rw [ht] at hj; simp at hj
      | some g =>
        rw [ht] at hj
        simp only [Option.map_some', Option.some.injEq] at hj
        exact ⟨g, ⟨c.heap_, ⟨k, v⟩⟩, (mv.mem_iff g _).2 (Or.inr ⟨ht, rfl⟩), hj, hk.symm⟩
    · simp only [hk, if_false] at hj
      obtain ⟨g, y, hy, hya, hyk⟩ := w.live j b hj
      refine ⟨g, y, (mv.mem_iff g y).2 (Or.inl ⟨hy, ?_⟩), hya, hyk⟩
      intro e
      exact hk (hyk ▸ (mv.hka g y hy).2 e)
  · intro j g hj
    rw [mv.hf] at hj
    by_cases hk : j = k
    · simp only [hk, if_true] at hj
      exact ⟨⟨c.heap_, ⟨k, v⟩⟩, (mv.mem_iff g _).2 (Or.inr ⟨hj, rfl⟩), hk.symm⟩
    · simp only [hk, if_false] at hj
      obtain ⟨y, hy, hyk⟩ := w.flive j g hj
      refine ⟨y, (mv.mem_iff g y).2 (Or.inl ⟨hy, ?_⟩), hyk⟩
      intro e
      exact hk (hyk ▸ (mv.hka g y hy).2 e)

theorem bumped_find (c : LFUCache) (x : Cell) (f g : Int) :
    (c.bumped x f).freq2nodes_.find g
      = if g = f then
          (if ((c.bucket f).filter (fun y => decide (y.addr ≠ x.addr))).isEmpty then none
           else some ((c.bucket f).filter (fun y => decide (y.addr ≠ x.addr))))
        else if g = f + 1 then
          some (c.bucket (f + 1) ++ [⟨c.heap_, ⟨x.node.key, x.node.val⟩⟩])
        else c.freq2nodes_.find g := by
  unfold bumped
  simp only
  split <;> simp only [UMap.find_erase, UMap.find_assign]

theorem bumped_bucket (c : LFUCache) (x : Cell) (f g : Int) :
    (c.bumped x f).bucket g
      = if g = f then (c.bucket f).filter (fun y => decide (y.addr ≠ x.addr))
        else if g = f + 1 then c.bucket (f + 1) ++ [⟨c.heap_, ⟨x.node.key, x.node.val⟩⟩]
        else c.bucket g := by
  show ((c.bumped x f).freq2nodes_.find g).getD [] = _
  rw [bumped_find]
  by_cases h1 : g = f
  · simp only [h1, if_true]
    split
    · rename_i he
      simp only [Option.getD_none]
      exact (List.isEmpty_iff.1 he).symm
    · rfl
  · simp only [h1, if_false]
    split <;> rfl

theorem Core.increaseFreq_eq {c : LFUCache} (w : c.Core) (sh : c.Shape) {f : Int} {x : Cell}
    (hx : x ∈ c.bucket f) : c.increaseFreq x.node.key = some (c.bumped x f) := by
  obtain ⟨h1, h2, _, _⟩ := w.cells f x hx
  have h3 := w.derefBuckets_eq sh hx
  have hne : ¬ f = f + 1 := by omega
  have h4 : ((c.freq2nodes_.assign (f + 1)
      (c.bucket (f + 1) ++ [⟨c.heap_, ⟨x.node.key, x.node.val⟩⟩])).find f).getD []
      = c.bucket f := by
    rw [UMap.find_assign]; simp only [hne, if_false]; rfl
  have h5 : eraseIt (c.bucket f) x.addr
      = some ((c.bucket f).filter (fun y => decide (y.addr ≠ x.addr))) := by
    unfold eraseIt
    rw [derefIt_of_mem _ x (w.bnodup f) hx]
  have h6 := bumped_find c x f (f + 1)
  have hne2 : ¬ f + 1 = f := by omega
  simp only [hne2, if_false, if_true] at h6
  unfold increaseFreq
  simp only [h1, h2, h3, Option.getD_some]
  have hb : (c.freq2nodes_.find (f + 1)).getD [] = c.bucket (f + 1) := rfl
  rw [hb, h4, h5]
  simp only
  unfold bumped at h6
  simp only at h6
  rw [h6]
  simp only [Option.getD_some, lastIt_append_singleton]
  rfl

theorem Core.bumped_moves {c : LFUCache} (w : c.Core) {f : Int} {x : Cell}
    (hx : x ∈ c.bucket f) :
    Moves c (c.bumped x f) x.addr x.node.key (some (f + 1)) x.node.val := by
  refine ⟨?_, ?_, ?_, ?_, ?_, ?_, ?_⟩
  · intro g
    rw [bumped_bucket]
    by_cases h1 : g = f
    · have : ¬ f + 1 = g := by omega
      simp [h1]
    · simp only [h1, if_false, w.filter_other hx h1]
      by_cases h2 : g = f + 1
      · simp [h2]
      · have : ¬ f + 1 = g := fun e => h2 e.symm
        simp [h2, this]
  · intro j; simp [bumped, UMap.find_assign]
  · intro j; simp [bumped, UMap.find_assign]
  · intro g y hy
    constructor
    · intro e; exact congrArg Cell.addr (w.key_eq hy hx e).1
    · intro e; exact congrArg (fun z => z.node.key) (w.cell_eq hy hx e).1
  · simp [bumped]
  · intro _; simp [bumped]
  · intro g hg
    have := (w.cells f x hx).2.2.2
    simp only [Option.some.injEq] at hg
    omega

theorem removeMinFreqKey_eq (c : LFUCache) (front : Cell) (rest : List Cell)
    (h : c.bucket c.min_freq_ = front :: rest) :
    c.removeMinFreqKey = some (c.evicted front rest) := by
  unfold bucket at h
  unfold removeMinFreqKey
  rw [h]
  rfl

theorem evicted_bucket (c : LFUCache) (front : Cell) (rest : List Cell) (g : Int) :
    (c.evicted front rest).bucket g = if g = c.min_freq_ then rest else c.bucket g := by
  unfold bucket evicted
  simp only
  by_cases he : rest.isEmpty
  · simp only [he, if_true, UMap.find_erase]
    split
    · simp [List.isEmpty_iff.1 he]
    · rfl
  · simp only [he, Bool.false_eq_true, if_false, UMap.find_assign]
    split <;> rfl

theorem Core.evicted_moves {c : LFUCache} (w : c.Core) (front : Cell) (rest : List Cell)
    (h : c.bucket c.min_freq_ = front :: rest) :
    Moves c (c.evicted front rest) front.addr front.node.key none 0 := by
  have hx : front ∈ c.bucket c.min_freq_ := by rw [h]; exact List.mem_cons_self _ _
  refine ⟨?_, ?_, ?_, ?_, ?_, ?_, ?_⟩
  · intro g
    rw [evicted_bucket]
    by_cases h1 : g = c.min_freq_
    · subst h1
      simp only [if_true, h, if_false, List.append_nil]
      have hnd := w.bnodup c.min_freq_
      rw [h] at hnd
      have hnd2 : front.addr ∉ rest.map Cell.addr ∧ (rest.map Cell.addr).Nodup := by
        simpa using hnd
      have hfil : rest.filter (fun y => decide (y.addr ≠ front.addr)) = rest := by
        apply List.filter_eq_self.2
        intro y hy
        have : ¬ y.addr = front.addr := fun e => hnd2.1 (e ▸ List.mem_map_of_mem Cell.addr hy)
        simp [this]
      rw [List.filter_cons_of_neg (by simp), hfil]
      simp
    · simp only [h1, if_false, w.filter_other hx h1]
      simp
  · intro j; simp [evicted, UMap.find_erase]
  · intro j; simp [evicted, UMap.find_erase]
  · intro g y hy
    constructor
    · intro e; exact congrArg Cell.addr (w.key_eq hy hx e).1
    · intro e; exact congrArg (fun z => z.node.key) (w.cell_eq hy hx e).1
  · simp [evicted]
  · intro hn; exact absurd rfl hn
  · intro g hg; cases hg

theorem put_absent (c : LFUCache) (k v : Int) (h : c.key2node_.contains k = false) :
    c.put k v = (if overCap c.key2node_.size c.cap_ then c.removeMinFreqKey else some c).map
      (fun c1 => c1.inserted k v) := by
  unfold put
  simp only [h, Bool.false_eq_true, if_false, lastIt_append_singleton]
  cases (if overCap c.key2node_.size c.cap_ then c.removeMinFreqKey else some c) <;> rfl

theorem get_absent (c : LFUCache) (k : Int) (h : c.key2node_.contains k = false) :
    c.get k = some (-1, c) := by
  simp [get, h]

theorem Core.inserted_moves {c : LFUCache} (w : c.Core) (k v : Int)
    (hk : c.key2node_.find k = none) :
    Moves c (c.inserted k v) c.heap_ k (some 1) v := by
  have hfil : ∀ g, (c.bucket g).filter (fun y => decide (y.addr ≠ c.heap_)) = c.bucket g := by
    intro g
    apply List.filter_eq_self.2
    intro y hy
    have := (w.cells g y hy).2.2.1
    have : ¬ y.addr = c.heap_ := by omega
    simp [this]
  refine ⟨?_, ?_, ?_, ?_, ?_, ?_, ?_⟩
  · intro g
    rw [hfil]
    unfold bucket inserted
    simp only [UMap.find_assign]
    by_cases h1 : g = 1
    · simp [h1, bucket]
    · have : ¬ (1 : Int) = g := fun e => h1 e.symm
      simp [h1, this]
  · intro j; simp [inserted, UMap.find_assign]
  · intro j; simp [inserted, UMap.find_assign]
  · intro g y hy
    constructor
    · intro e
      have := (w.cells g y hy).1
      rw [e, hk] at this; cases this
    · intro e
      have := (w.cells g y hy).2.2.1
      omega
  · simp [inserted]
  · intro _; simp [inserted]
  · intro g hg
    simp only [Option.some.injEq] at hg
    omega

theorem Shape.bumped_shape {c : LFUCache} (sh : c.Shape) (x : Cell) (f : Int) :
    (c.bumped x f).Shape := by
  refine ⟨UMap.nodup_assign _ _ _ sh.k2n_nodup, UMap.nodup_assign _ _ _ sh.k2f_nodup, ?_, ?_⟩
  · unfold bumped
    simp only
    split
    · exact UMap.nodup_erase _ _ (UMap.nodup_assign _ _ _ sh.f2n_nodup)
    · exact UMap.nodup_assign _ _ _ (UMap.nodup_assign _ _ _ sh.f2n_nodup)
  · intro g l hl
    rw [bumped_find] at hl
    by_cases h1 : g = f
    · simp only [h1, if_true] at hl
      split at hl
      · cases hl
      · rename_i he
        simp only [Option.some.injEq] at hl
        subst hl
        intro e; exact he (List.isEmpty_iff.2 e)
    · simp only [h1, if_false] at hl
      split at hl
      · simp only [Option.some.injEq] at hl
        subst hl; simp
      · exact sh.noEmpty g l hl

theorem Shape.evicted_shape {c : LFUCache} (sh : c.Shape) (front : Cell) (rest : List Cell) :
    (c.evicted front rest).Shape := by
  refine ⟨UMap.nodup_erase _ _ sh.k2n_nodup, UMap.nodup_erase _ _ sh.k2f_nodup, ?_, ?_⟩
  · unfold evicted
    simp only
    split
    · exact UMap.nodup_erase _ _ sh.f2n_nodup
    · exact UMap.nodup_assign _ _ _ sh.f2n_nodup
  · intro g l hl
    unfold evicted at hl
    simp only at hl
    split at hl
    · rw [UMap.find_erase] at hl
      split at hl
      · cases hl
      · exact sh.noEmpty g l hl
    · rename_i he
      rw [UMap.find_assign] at hl
      split at hl
      · simp only [Option.some.injEq] at hl
        subst hl
        intro e; exact he (List.isEmpty_iff.2 e)
      · exact sh.noEmpty g l hl

theorem Shape.inserted_shape {c : LFUCache} (sh : c.Shape) (k v : Int) :
    (c.inserted k v).Shape := by
  refine ⟨UMap.nodup_assign _ _ _ sh.k2n_nodup, UMap.nodup_assign _ _ _ sh.k2f_nodup,
    UMap.nodup_assign _ _ _ sh.f2n_nodup, ?_⟩
  intro g l hl
  unfold inserted at hl
  simp only [UMap.find_assign] at hl
  split at hl
  · simp only [Option.some.injEq] at hl
    subst hl; simp
  · exact sh.noEmpty g l hl

theorem revalued_bucket (c : LFUCache) (a : Nat) (value : Int) (g : Int) :
    (c.revalued a value).bucket g = (c.bucket g).map (Cell.withVal a value) := by
  unfold bucket revalued
  simp only [find_valBuckets]
  cases c.freq2nodes_.find g <;> rfl

theorem Shape.revalued_shape {c : LFUCache} (sh : c.Shape) (a : Nat) (value : Int) :
    (c.revalued a value).Shape := by
  refine ⟨sh.k2n_nodup, sh.k2f_nodup, ?_, ?_⟩
  · show (UMap.keys (valBuckets c.freq2nodes_ a value)).Nodup
    rw [keys_valBuckets]; exact sh.f2n_nodup
  · intro g l hl
    change UMap.find (valBuckets c.freq2nodes_ a value) g = some l at hl
    rw [find_valBuckets] at hl
    cases hf : c.freq2nodes_.find g with
    | none => rw [hf] at hl; cases hl
    | some l0 =>
      rw [hf] at hl
      simp only [Option.map_some', Option.some.injEq] at hl
      subst hl
      have := sh.noEmpty g l0 hf
      simpa using this

theorem Core.setVal_eq {c : LFUCache} (w : c.Core) (sh : c.Shape) {f : Int} {x : Cell}
    (hx : x ∈ c.bucket f) (value : Int) :
    setValBuckets c.freq2nodes_ x.addr value = some (valBuckets c.freq2nodes_ x.addr value) := by
  have hb : ∀ p ∈ c.freq2nodes_, c.bucket p.1 = p.2 := fun p hp =>
    bucket_of_find (UMap.find_of_mem_nodup _ p.1 p.2 sh.f2n_nodup hp)
  apply XSF.setValBuckets_eq c.freq2nodes_ x.addr value sh.f2n_nodup
    (fun p hp => by rw [← hb p hp]; exact w.bnodup p.1)
    (fun p hp q hq y hy z hz e1 e2 => by
      rw [← hb p hp] at hy
      rw [← hb q hq] at hz
      exact w.apart p.1 q.1 y hy z hz (e1.trans e2.symm))
    (f, c.bucket f) (UMap.find_some_mem _ _ _ (find_of_mem_bucket hx)) x hx rfl

theorem Moves.revalued_moves {c c1 : LFUCache} {a : Nat} {k : Int} {g0 : Int} {v0 : Int}
    (mv : Moves c c1 a k (some g0) v0) (w : c.Core) (v : Int) :
    Moves c (c1.revalued c.heap_ v) a k (some g0) v := by
  refine ⟨?_, mv.hn, mv.hf, mv.hka, mv.hh1, mv.hh2, mv.ht⟩
  intro g
  rw [revalued_bucket, mv.hb, List.map_append]
  congr 1
  · apply map_withVal_of_forall
    intro y hy
    have := (w.cells g y (List.mem_of_mem_filter hy)).2.2.1
    omega
  · split <;> simp [Cell.withVal]

theorem Core.get_bumped {c : LFUCache} (w : c.Core) (sh : c.Shape) {f : Int} {x : Cell}
    (hx : x ∈ c.bucket f) : c.get x.node.key = some (x.node.val, c.bumped x f) := by
  have hc : c.key2node_.contains x.node.key = true :=
    (UMap.contains_iff _ _).2 ⟨x.addr, (w.cells f x hx).1⟩
  have mv := w.bumped_moves hx
  have w1 := mv.core w
  have sh1 := sh.bumped_shape x f
  have hm : (⟨c.heap_, ⟨x.node.key, x.node.val⟩⟩ : Cell) ∈ (c.bumped x f).bucket (f + 1) :=
    (mv.mem_iff _ _).2 (Or.inr ⟨rfl, rfl⟩)
  have h1 := (w1.cells _ _ hm).1
  have h2 := w1.derefBuckets_eq sh1 hm
  simp only at h1 h2
  unfold get
  simp only [hc, if_true, w.increaseFreq_eq sh hx, h1, h2]

theorem Core.put_bumped {c : LFUCache} (w : c.Core) (sh : c.Shape) {f : Int} {x : Cell}
    (hx : x ∈ c.bucket f) (v : Int) :
    c.put x.node.key v = some ((c.bumped x f).revalued c.heap_ v) := by
  have hc : c.key2node_.contains x.node.key = true :=
    (UMap.contains_iff _ _).2 ⟨x.addr, (w.cells f x hx).1⟩
  have mv := w.bumped_moves hx
  have w1 := mv.core w
  have sh1 := sh.bumped_shape x f
  have hm : (⟨c.heap_, ⟨x.node.key, x.node.val⟩⟩ : Cell) ∈ (c.bumped x f).bucket (f + 1) :=
    (mv.mem_iff _ _).2 (Or.inr ⟨rfl, rfl⟩)
  have h1 := (w1.cells _ _ hm).1
  have h2 := w1.setVal_eq sh1 hm v
  simp only at h1 h2
  unfold put
  simp only [hc, if_true, w.increaseFreq_eq sh hx, h1, h2]
  rfl

theorem Moves.minOK_bump {c c1 : LFUCache} {x : Cell} {f : Int} {v : Int}
    (mv : Moves c c1 x.addr x.node.key (some (f + 1)) v) (w : c.Core) (hx : x ∈ c.bucket f)
    (hmin : c1.min_freq_ =
      if ((c.bucket f).filter (fun y => decide (y.addr ≠ x.addr))).isEmpty ∧ f = c.min_freq_
      then c.min_freq_ + 1 else c.min_freq_)
    (m : c.MinOK) : c1.MinOK := by
  intro _
  obtain ⟨m1, m2⟩ := m (UMap.ne_nil_of_find _ _ _ (w.cells f x hx).1)
  have hnew : (⟨c.heap_, ⟨x.node.key, v⟩⟩ : Cell) ∈ c1.bucket (f + 1) :=
    (mv.mem_iff _ _).2 (Or.inr ⟨rfl, rfl⟩)
  have hfm : c.min_freq_ ≤ f := m2 f (List.ne_nil_of_mem hx)
  by_cases hcond :
      ((c.bucket f).filter (fun y => decide (y.addr ≠ x.addr))).isEmpty ∧ f = c.min_freq_
  · rw [hmin, if_pos hcond]
    obtain ⟨he, hf⟩ := hcond
    constructor
    · rw [← hf]; exact List.ne_nil_of_mem hnew
    · intro g hg
      obtain ⟨y, hy⟩ := List.exists_mem_of_ne_nil _ hg
      rcases (mv.mem_iff g y).1 hy with ⟨h1, h2⟩ | ⟨h1, _⟩
      · have hmg := m2 g (List.ne_nil_of_mem h1)
        have : g ≠ f := by
          intro e
          subst e
          have : y ∈ (c.bucket g).filter (fun y => decide (y.addr ≠ x.addr)) :=
            List.mem_filter.2 ⟨h1, by simpa using h2⟩
          rw [List.isEmpty_iff.1 he] at this
          simp at this
        omega
      · simp only [Option.some.injEq] at h1
        omega
  · rw [hmin, if_neg hcond]
    constructor
    · obtain ⟨y, hy⟩ := List.exists_mem_of_ne_nil _ m1
      by_cases hya : y.addr = x.addr
      · have hfe := (w.cell_eq hy hx hya).2
        have hpre : ¬ ((c.bucket f).filter (fun y => decide (y.addr ≠ x.addr))).isEmpty := by
          intro e; exact hcond ⟨e, hfe.symm⟩
        have hpre2 : (c.bucket f).filter (fun y => decide (y.addr ≠ x.addr)) ≠ [] :=
          fun e => hpre (List.isEmpty_iff.2 e)
        obtain ⟨z, hz⟩ := List.exists_mem_of_ne_nil _ hpre2
        have hz2 := List.mem_filter.1 hz
        rw [hfe]
        exact List.ne_nil_of_mem
          ((mv.mem_iff f z).2 (Or.inl ⟨hz2.1, by simpa using hz2.2⟩))
      · exact List.ne_nil_of_mem ((mv.mem_iff _ y).2 (Or.inl ⟨hy, hya⟩))
    · intro g hg
      obtain ⟨y, hy⟩ := List.exists_mem_of_ne_nil _ hg
      rcases (mv.mem_iff g y).1 hy with ⟨h1, _⟩ | ⟨h1, _⟩
      · exact m2 g (List.ne_nil_of_mem h1)
      · simp only [Option.some.injEq] at h1
        omega

theorem Core.inserted_minOK {c : LFUCache} (w : c.Core) (k v : Int)
    (hk : c.key2node_.find k = none) : (c.inserted k v).MinOK := by
  have mv := w.inserted_moves k v hk
  intro _
  show (c.inserted k v).bucket 1 ≠ [] ∧ ∀ g, (c.inserted k v).bucket g ≠ [] → 1 ≤ g
  constructor
  · exact List.ne_nil_of_mem ((mv.mem_iff 1 _).2 (Or.inr ⟨rfl, rfl⟩))
  · intro g hg
    obtain ⟨y, hy⟩ := List.exists_mem_of_ne_nil _ hg
    rcases (mv.mem_iff g y).1 hy with ⟨h1, _⟩ | ⟨h1, _⟩
    · exact (w.cells g y h1).2.2.2
    · simp only [Option.some.injEq] at h1
      omega

theorem Moves.hist {c c1 : LFUCache} {a : Nat} {k : Int} {g0 : Int} {v : Int}
    (mv : Moves c c1 a k (some g0) v) {h h1 : History} (hi : ∀ g, HInv (c.bucket g) h)
    (hc : h1.clock = h.clock + 1)
    (hst : ∀ j, h1.stamp j = if j = k then h.clock + 1 else h.stamp j)
    (hw : ∀ j, j ≠ k → h1.written j = h.written j) (hv : h1.written k = some v) :
    ∀ g, HInv (c1.bucket g) h1 := by
  intro g
  have hkeys : ∀ y ∈ (c.bucket g).filter (fun y => decide (y.addr ≠ a)), y.node.key ≠ k := by
    intro y hy e
    have h2 := List.mem_filter.1 hy
    have : y.addr = a := (mv.hka g y h2.1).1 e
    simp [this] at h2
  rw [mv.hb g]
  by_cases hg : g0 = g
  · subst hg
    simp only [if_true]
    exact (hi g0).touch (List.filter_sublist _) c.heap_ k v hkeys hc hst hw hv
  · have : ¬ (some g0 = some g) := fun e => hg (Option.some.inj e)
    simp only [this, if_false, List.append_nil]
    exact ((hi g).sublist (List.filter_sublist _)).frame k hkeys (by omega)
      (fun j hj => by rw [hst]; simp [hj]) hw

theorem Moves.hist_none {c c1 : LFUCache} {a : Nat} {k : Int} {v : Int}
    (mv : Moves c c1 a k none v) {h : History} (hi : ∀ g, HInv (c.bucket g) h) :
    ∀ g, HInv (c1.bucket g) h := by
  intro g
  rw [mv.hb g]
  simp only [reduceCtorEq, if_false, List.append_nil]
  exact (hi g).sublist (List.filter_sublist _)

theorem Good.bump_good {c : LFUCache} {h : History} (g : Good c h) (h1 : History) {f : Int}
    {x : Cell} (hx : x ∈ c.bucket f) (hc : h1.clock = h.clock + 1)
    (hst : ∀ j, h1.stamp j = if j = x.node.key then h.clock + 1 else h.stamp j)
    (hw : ∀ j, j ≠ x.node.key → h1.written j = h.written j) :
    (h1.written x.node.key = some x.node.val → Good (c.bumped x f) h1) ∧
    (∀ v, h1.written x.node.key = some v → Good ((c.bumped x f).revalued c.heap_ v) h1) := by
  have hcont : c.key2node_.contains x.node.key = true :=
    (UMap.contains_iff _ _).2 ⟨x.addr, (g.core.cells f x hx).1⟩
  have hsize : (c.key2node_.assign x.node.key c.heap_).size = c.key2node_.size :=
    UMap.size_assign_of_contains _ _ _ g.shape.k2n_nodup hcont
  have hB : (c.bumped x f).Bounded := ⟨g.bounded.pos, g.bounded.isInt, by
    show ((c.key2node_.assign x.node.key c.heap_).size : Int) ≤ c.cap_
    rw [hsize]; exact g.bounded.le⟩
  have mv := g.core.bumped_moves hx
  constructor
  · intro hv
    exact ⟨mv.core g.core, g.shape.bumped_shape x f, mv.minOK_bump g.core hx rfl g.minOK, hB,
      mv.hist g.hist hc hst hw hv⟩
  · intro v hv
    have mv2 := mv.revalued_moves g.core v
    exact ⟨mv2.core g.core, (g.shape.bumped_shape x f).revalued_shape _ _,
      mv2.minOK_bump g.core hx rfl g.minOK, ⟨hB.pos, hB.isInt, hB.le⟩,
      mv2.hist g.hist hc hst hw hv⟩

theorem Good.insert_good {c : LFUCache} {h : History} (h1 : History) (w : c.Core) (sh : c.Shape)
    (hi : ∀ g, HInv (c.bucket g) h) (k v : Int) (hk : c.key2node_.find k = none)
    (hc : h1.clock = h.clock + 1)
    (hst : ∀ j, h1.stamp j = if j = k then h.clock + 1 else h.stamp j)
    (hw : ∀ j, j ≠ k → h1.written j = h.written j) (hv : h1.written k = some v)
    (hB : (c.inserted k v).Bounded) : Good (c.inserted k v) h1 :=
  ⟨(w.inserted_moves k v hk).core w, sh.inserted_shape k v, w.inserted_minOK k v hk, hB,
    (w.inserted_moves k v hk).hist hi hc hst hw hv⟩

theorem Good.step_keeps {c : LFUCache} {h : History} (g : Good c h) (op : Op) :
    ∃ c1, c.step op = some c1 ∧ c1.cap_ = c.cap_ ∧
      Good c1 (h.record (c.key2node_.contains op.key) op) := by
  cases op with
  | get k =>
    cases hc : c.key2node_.contains k with
    | true =>
      obtain ⟨f, x, hx, hxk⟩ := (g.core.stored_iff k).1 hc
      subst hxk
      refine ⟨c.bumped x f, by simp [step, g.core.get_bumped g.shape hx], rfl, ?_⟩
      have hb := g.bump_good (h.record (c.key2node_.contains (Op.get x.node.key).key)
        (Op.get x.node.key)) hx rfl (fun j => by simp [History.record, Op.key, hc])
        (fun j _ => rfl)
      exact hb.1 ((g.hist f).value x hx)
    | false =>
      refine ⟨c, by simp [step, get_absent c k hc], rfl, g.core, g.shape, g.minOK, g.bounded, ?_⟩
      intro f
      exact (g.hist f).frame k
        (fun x hx e => by
          have := (g.core.stored_iff k).2 ⟨f, x, hx, e⟩
          rw [hc] at this; cases this)
        (by simp [History.record]) (fun j _ => by simp [History.record, Op.key, hc])
        (fun j _ => rfl)
  | put k v =>
    cases hc : c.key2node_.contains k with
    | true =>
      obtain ⟨f, x, hx, hxk⟩ := (g.core.stored_iff k).1 hc
      subst hxk
      refine ⟨(c.bumped x f).revalued c.heap_ v, by simp [step, g.core.put_bumped g.shape hx],
        rfl, ?_⟩
      have hb := g.bump_good (h.record (c.key2node_.contains (Op.put x.node.key v).key)
        (Op.put x.node.key v)) hx rfl (fun j => by simp [History.record])
        (fun j hj => by simp [History.record, hj])
      exact hb.2 v (by simp [History.record])
    | false =>
      have hfind : c.key2node_.find k = none := (UMap.contains_false_iff _ _).1 hc
      have hB := g.bounded
      have hov := LRUCache.overCap_iff c.key2node_.size c.cap_ (by have := hB.pos; omega)
        hB.isInt hB.le
      cases ho : overCap c.key2node_.size c.cap_ with
      | true =>
        have hlen := hov.1 ho
        have hne : c.key2node_ ≠ [] := by
          intro e
          rw [e] at hlen
          have := hB.pos
          simp [UMap.size] at hlen; omega
        obtain ⟨m1, _⟩ := g.minOK hne
        cases hl : c.bucket c.min_freq_ with
        | nil => exact absurd hl m1
        | cons front rest =>
          have hfront : front ∈ c.bucket c.min_freq_ := by rw [hl]; exact List.mem_cons_self _ _
          have mv := g.core.evicted_moves front rest hl
          have w1 := mv.core g.core
          have sh1 := g.shape.evicted_shape front rest
          have hi1 := mv.hist_none g.hist
          have hfind1 : (c.evicted front rest).key2node_.find k = none := by
            show (c.key2node_.erase front.node.key).find k = none
            rw [UMap.find_erase, hfind]; simp
          have hsz : (c.key2node_.erase front.node.key).size + 1 = c.key2node_.size :=
            UMap.size_erase_of_nodup _ _ g.shape.k2n_nodup
              ((UMap.contains_iff _ _).2 ⟨front.addr, (g.core.cells _ _ hfront).1⟩)
          refine ⟨(c.evicted front rest).inserted k v, ?_, rfl, ?_⟩
          · show c.put k v = _
            rw [put_absent c k v hc, ho]
            simp only [if_true, removeMinFreqKey_eq c front rest hl, Option.map_some']
          · apply Good.insert_good _ w1 sh1 hi1 k v hfind1 rfl
              (fun j => by simp [History.record]) (fun j hj => by simp [History.record, hj])
              (by simp [History.record])
            refine ⟨hB.pos, hB.isInt, ?_⟩
            show ((((c.key2node_.erase front.node.key).assign k c.heap_).size : Nat) : Int) ≤ c.cap_
            rw [UMap.size_assign_of_find_none (c.key2node_.erase front.node.key) k c.heap_ hfind1,
              hsz]
            exact hB.le
      | false =>
        refine ⟨c.inserted k v, ?_, rfl, ?_⟩
        · show c.put k v = _
          rw [put_absent c k v hc, ho]
          simp only [Bool.false_eq_true, if_false, Option.map_some']
        · apply Good.insert_good _ g.core g.shape g.hist k v hfind rfl
            (fun j => by simp [History.record]) (fun j hj => by simp [History.record, hj])
            (by simp [History.record])
          refine ⟨hB.pos, hB.isInt, ?_⟩
          show (((c.key2node_.assign k c.heap_).size : Nat) : Int) ≤ c.cap_
          rw [UMap.size_assign_of_find_none _ _ _ hfind]
          have hne : ¬ ((c.key2node_.size : Int) = c.cap_) := fun e => by
            rw [hov.2 e] at ho; cases ho
          have := hB.le
          push_cast
          omega

theorem Good.runH_keeps {c : LFUCache} {h : History} (g : Good c h) (ops : List Op) :
    ∃ c1 h1, c.runH h ops = some (c1, h1) ∧ c1.cap_ = c.cap_ ∧ Good c1 h1 := by
  induction ops generalizing c h with
  | nil => exact ⟨c, h, rfl, rfl, g⟩
  | cons op ops ih =>
    obtain ⟨c1, hs, hcap, g1⟩ := g.step_keeps op
    obtain ⟨c2, h2, hr, hcap2, g2⟩ := ih g1
    exact ⟨c2, h2, by simp only [runH, hs, hr], by rw [hcap2, hcap], g2⟩

theorem run_forget (c : LFUCache) (h : History) (ops : List Op) :
    c.run ops = (c.runH h ops).map Prod.fst := by
  induction ops generalizing c h with
  | nil => rfl
  | cons op ops ih =>
    simp only [run, runH]
    cases c.step op with
    | none => rfl
    | some c1 => exact ih c1 _

theorem new_core (C junk : Int) : (new C junk).Core := by
  refine ⟨?_, ?_, ?_, ?_, ?_⟩
  · intro g y hy; simp [new, bucket, UMap.find] at hy
  · intro g; simp [new, bucket, UMap.find]
  · intro g g1 y hy; simp [new, bucket, UMap.find] at hy
  · intro j b hj; simp [new, UMap.find] at hj
  · intro j g hj; simp [new, UMap.find] at hj

theorem new_shape (C junk : Int) : (new C junk).Shape := by
  refine ⟨?_, ?_, ?_, ?_⟩
  · simp [new, UMap.keys]
  · simp [new, UMap.keys]
  · simp [new, UMap.keys]
  · intro f l hl; simp [new, UMap.find] at hl

theorem fresh_good (C junk : Int) (h1 : 1 ≤ C) (h2 : C ≤ INT_MAX) :
    Good (new C junk) History.init := by
  refine ⟨new_core C junk, new_shape C junk, ?_, ⟨h1, h2, ?_⟩, ?_⟩
  · intro hne; simp [new] at hne
  · simp [new, UMap.size]; omega
  · intro g; simp only [new, bucket, UMap.find, Option.getD_none]; exact HInv.nil _

theorem runH_fresh_good (C junk : Int) (h1 : 1 ≤ C) (h2 : C ≤ INT_MAX) (ops : List Op) :
    ∃ s h, (new C junk).runH History.init ops = some (s, h) ∧ s.cap_ = C ∧ Good s h := by
  obtain ⟨s, h, hr, hc, g⟩ := (fresh_good C junk h1 h2).runH_keeps ops
  exact ⟨s, h, hr, hc, g⟩

theorem run_fresh_good (C junk : Int) (h1 : 1 ≤ C) (h2 : C ≤ INT_MAX) (ops : List Op) :
    ∃ s h, (new C junk).run ops = some s ∧ s.cap_ = C ∧ Good s h := by
  obtain ⟨s, h, hr, hc, g⟩ := runH_fresh_good C junk h1 h2 ops
  exact ⟨s, h, by rw [run_forget _ History.init, hr]; rfl, hc, g⟩

end LFUCache

/-! ## LRUCache: what the calls do to the entries -/

namespace UMap

theorem mem_keys_iff {V : Type} (m : UMap V) (k : Int) :
    k ∈ keys m ↔ contains m k = true := by
  rw [contains_iff]
  constructor
  · intro h
    obtain ⟨p, hp, hk⟩ := List.mem_map.1 h
    obtain ⟨k1, v1⟩ := p
    simp only at hk
    subst hk
    exact mem_find_isSome m k1 v1 hp
  · rintro ⟨v, hv⟩
    exact List.mem_map_of_mem Prod.fst (find_some_mem m k v hv)

end UMap

namespace LRUCache

theorem moved_entries (c : LRUCache) (k : Int) (n : Node) :
    (c.moved k n).entries
      = c.entries.filter (fun p => decide (p.1 ≠ k)) ++ [(n.key, n.val)] := by
  simp only [moved, entries, List.map_append, List.map_cons, List.map_nil, List.filter_map]
  rfl

theorem keys_eq_entries (c : LRUCache) : c.keys = c.entries.map Prod.fst := by
  simp [keys, entries, List.map_map, Function.comp_def]

theorem WF.peek_iff {c : LRUCache} (w : c.WF) (j v : Int) :
    c.peek j = some v ↔ (j, v) ∈ c.entries := by
  constructor
  · intro h
    unfold peek at h
    cases hf : c.key2node_.find j with
    | none => rw [hf] at h; cases h
    | some a =>
      rw [hf] at h
      obtain ⟨x, hx, hxa, hxk⟩ := w.live j a hf
      subst hxa
      simp only [derefIt_of_mem _ x w.nodup hx, Option.map_some', Option.some.injEq] at h
      exact List.mem_map.2 ⟨x, hx, by rw [hxk, h]⟩
  · intro h
    obtain ⟨x, hx, he⟩ := List.mem_map.1 h
    simp only [Prod.mk.injEq] at he
    rw [← he.1, ← he.2]
    exact w.peek_eq x hx

theorem WF.peek_congr {c c1 : LRUCache} (w : c.WF) (w1 : c1.WF) (j : Int)
    (h : ∀ v, (j, v) ∈ c1.entries ↔ (j, v) ∈ c.entries) : c1.peek j = c.peek j := by
  apply Option.ext
  intro v
  rw [Option.mem_def, Option.mem_def, w1.peek_iff, w.peek_iff]
  exact h v

theorem WF.size_eq {c : LRUCache} (w : c.WF) : c.key2node_.size = c.list_.length := by
  have hp : (UMap.keys c.key2node_).Perm c.keys := by
    apply (List.perm_ext_iff_of_nodup w.k2n_nodup w.keys_nodup).2
    intro j
    rw [UMap.mem_keys_iff, w.indexed_iff]
  have := hp.length_eq
  simpa [UMap.keys, keys, UMap.size] using this

theorem WF.mem_entries_key {c : LRUCache} (j v : Int) (h : (j, v) ∈ c.entries) : j ∈ c.keys := by
  rw [keys_eq_entries]
  exact List.mem_map_of_mem Prod.fst h

/-- A hit, by `get` or by `put`, moves the entry of the key to the tail and
touches nothing else. -/
theorem Good.hit_spec {c : LRUCache} {h : History} (g : Good c h) (k : Int) (hk : k ∈ c.keys) :
    ∃ v0, (k, v0) ∈ c.entries ∧ h.written k = some v0 ∧
      c.get k = some (v0, c.moved k ⟨k, v0⟩) ∧
      (∀ v, c.put k v = some (c.moved k ⟨k, v⟩)) ∧
      (∀ v, (c.moved k ⟨k, v⟩).WF) := by
  obtain ⟨x, hx, hxk⟩ := List.mem_map.1 hk
  subst hxk
  refine ⟨x.node.val, List.mem_map_of_mem (fun x => (x.node.key, x.node.val)) hx,
    g.hist.value x hx, g.wf.get_hit x hx, fun v => g.wf.put_hit x hx v,
    fun v => g.wf.moved_WF _ _ rfl⟩

theorem moved_keys (c : LRUCache) (k : Int) (n : Node) :
    (c.moved k n).keys = c.keys.filter (fun j => decide (j ≠ k)) ++ [n.key] := by
  simp only [moved, keys, List.map_append, List.map_cons, List.map_nil, List.filter_map]
  rfl

/-- The state after a hit on `k`, seen through keys and values. -/
theorem WF.moved_spec {c : LRUCache} (w : c.WF) (k v : Int) (hk : k ∈ c.keys) :
    (c.moved k ⟨k, v⟩).keys = c.keys.filter (fun j => decide (j ≠ k)) ++ [k] ∧
    (∀ j, j ∈ (c.moved k ⟨k, v⟩).keys ↔ j ∈ c.keys) ∧
    (c.moved k ⟨k, v⟩).keys.length = c.keys.length ∧
    (c.moved k ⟨k, v⟩).peek k = some v ∧
    (∀ j, j ≠ k → (c.moved k ⟨k, v⟩).peek j = c.peek j) := by
  have w1 := w.moved_WF k ⟨k, v⟩ rfl
  obtain ⟨x, hx, hxk⟩ := List.mem_map.1 hk
  refine ⟨moved_keys c k _, ?_, ?_, ?_, ?_⟩
  · intro j
    rw [moved_keys]
    simp only [List.mem_append, List.mem_filter, List.mem_singleton, decide_eq_true_eq]
    constructor
    · rintro (h | h)
      · exact h.1
      · rw [h]; exact hk
    · intro h
      by_cases e : j = k
      · exact Or.inr e
      · exact Or.inl ⟨h, e⟩
  · have := w.moved_length x hx ⟨k, v⟩
    rw [hxk] at this
    simpa [keys] using this
  · apply (w1.peek_iff _ _).2
    rw [moved_entries]; simp
  · intro j hj
    apply w.peek_congr w1
    intro v1
    rw [moved_entries]
    simp only [List.mem_append, List.mem_filter, List.mem_singleton, decide_eq_true_eq]
    constructor
    · rintro (h | h)
      · exact h.1
      · exact absurd (Prod.mk.inj h).1 hj
    · intro h; exact Or.inl ⟨h, hj⟩

/-- A `put` of a key that is not stored appends a node, after dropping the
head when the list is full. -/
theorem Good.miss_spec {c : LRUCache} {h : History} (g : Good c h) (k v : Int)
    (hc : c.key2node_.contains k = false) :
    ∃ c0, (if overCap c.list_.length c.cap_ then c.popLeastRecently else some c) = some c0 ∧
      c0.WF ∧ c0.key2node_.find k = none ∧ c.put k v = some (c0.pushed k v) := by
  have hfind : c.key2node_.find k = none := (UMap.contains_false_iff _ _).1 hc
  have hB := g.bounded
  have hov := overCap_iff c.list_.length c.cap_ (by have := hB.pos; omega) hB.isInt hB.le
  rw [put_miss c k v hc]
  cases ho : overCap c.list_.length c.cap_ with
  | true =>
    have hlen := hov.1 ho
    cases hl : c.list_ with
    | nil =>
      rw [hl] at hlen
      have := hB.pos
      simp at hlen; omega
    | cons front rest =>
      refine ⟨{ c with list_ := rest, key2node_ := c.key2node_.erase front.node.key }, ?_,
        g.wf.pop_WF front rest hl, ?_, ?_⟩
      · simp only [if_true, popLeastRecently, hl]
      · show (c.key2node_.erase front.node.key).find k = none
        rw [UMap.find_erase, hfind]; simp
      · simp only [if_true, popLeastRecently, hl, Option.map_some']
  | false =>
    exact ⟨c, by simp, g.wf, hfind, by simp⟩

/-- In a reachable state `put(k, v)` succeeds and a following `get(k)`
returns `v`. -/
theorem Good.put_get {c : LRUCache} {h : History} (g : Good c h) (k v : Int) :
    ∃ s1 s2, c.put k v = some s1 ∧ s1.get k = some (v, s2) := by
  cases hc : c.key2node_.contains k with
  | true =>
    have hk := (g.wf.indexed_iff k).1 hc
    obtain ⟨_, _, _, _, hput, hwf⟩ := g.hit_spec k hk
    have hm : (⟨c.heap_, ⟨k, v⟩⟩ : Cell) ∈ (c.moved k ⟨k, v⟩).list_ := by simp [moved]
    exact ⟨_, _, hput v, (hwf v).get_hit _ hm⟩
  | false =>
    obtain ⟨c0, _, w0, hf0, hput⟩ := g.miss_spec k v hc
    have hm : (⟨c0.heap_, ⟨k, v⟩⟩ : Cell) ∈ (c0.pushed k v).list_ := by simp [pushed]
    exact ⟨_, _, hput, (w0.pushed_WF k v hf0).get_hit _ hm⟩

end LRUCache

namespace LFUCache

theorem Moves.peek {c c1 : LFUCache} {a : Nat} {k : Int} {tgt : Option Int} {v : Int}
    (mv : Moves c c1 a k tgt v) (w : c.Core) (sh : c.Shape) (sh1 : c1.Shape) (j : Int) :
    c1.peek j = if j = k then tgt.map (fun _ => v) else c.peek j := by
  have w1 := mv.core w
  by_cases hj : j = k
  · subst hj
    simp only [if_true]
    cases ht : tgt with
    | none =>
      apply peek_absent
      rw [mv.hn, ht]; simp
    | some g0 =>
      have hm : (⟨c.heap_, ⟨j, v⟩⟩ : Cell) ∈ c1.bucket g0 :=
        (mv.mem_iff _ _).2 (Or.inr ⟨ht, rfl⟩)
      exact w1.peek_cell sh1 hm
  · simp only [hj, if_false]
    cases hf : c.key2node_.find j with
    | none =>
      rw [peek_absent c j hf]
      apply peek_absent
      rw [mv.hn]; simp [hj, hf]
    | some b =>
      obtain ⟨g0, y, hy, hya, hyk⟩ := w.live j b hf
      have hy1 : y ∈ c1.bucket g0 := (mv.mem_iff g0 y).2 (Or.inl ⟨hy, fun e =>
        hj (hyk ▸ (mv.hka g0 y hy).2 e)⟩)
      rw [← hyk, w1.peek_cell sh1 hy1, w.peek_cell sh hy]

theorem Moves.contains {c c1 : LFUCache} {a : Nat} {k : Int} {tgt : Option Int} {v : Int}
    (mv : Moves c c1 a k tgt v) (j : Int) :
    c1.key2node_.contains j = if j = k then tgt.isSome else c.key2node_.contains j := by
  unfold UMap.contains
  rw [mv.hn]
  split
  · cases tgt <;> rfl
  · rfl

/-- After a transition that stores a node for `k` with value `v`, `get(k)`
returns `v`. -/
theorem Moves.get_new {c c1 : LFUCache} {a : Nat} {k : Int} {g0 : Int} {v : Int}
    (mv : Moves c c1 a k (some g0) v) (w : c.Core) (sh1 : c1.Shape) :
    ∃ s2, c1.get k = some (v, s2) := by
  have hm : (⟨c.heap_, ⟨k, v⟩⟩ : Cell) ∈ c1.bucket g0 :=
    (mv.mem_iff _ _).2 (Or.inr ⟨rfl, rfl⟩)
  exact ⟨_, (mv.core w).get_bumped sh1 hm⟩

/-- A hit, by `get` or by `put`: the node of the key moves from the bucket of
its frequency `f` to the tail of the bucket of `f + 1`. -/
theorem Good.bump_spec {c : LFUCache} {h : History} (g : Good c h) (k : Int)
    (hc : c.key2node_.contains k = true) :
    ∃ f v0 s1, c.freq k = some f ∧ c.peek k = some v0 ∧ h.written k = some v0 ∧
      c.get k = some (v0, s1) ∧ s1.Shape ∧ (∃ a, Moves c s1 a k (some (f + 1)) v0) ∧
      (∀ v, ∃ s2, c.put k v = some s2 ∧ s2.Shape ∧ ∃ a, Moves c s2 a k (some (f + 1)) v) := by
  obtain ⟨f, x, hx, hxk⟩ := (g.core.stored_iff k).1 hc
  subst hxk
  have mv := g.core.bumped_moves hx
  refine ⟨f, x.node.val, c.bumped x f, (g.core.cells f x hx).2.1, g.core.peek_cell g.shape hx,
    (g.hist f).value x hx, g.core.get_bumped g.shape hx, g.shape.bumped_shape x f,
    ⟨x.addr, mv⟩, ?_⟩
  intro v
  exact ⟨_, g.core.put_bumped g.shape hx v, (g.shape.bumped_shape x f).revalued_shape _ _,
    x.addr, mv.revalued_moves g.core v⟩

/-- A `put` of a key that is not stored: when the cache is full the front of
the bucket of `min_freq_` is removed first; then a node of frequency 1 is
appended. -/
theorem Good.insert_spec {c : LFUCache} {h : History} (g : Good c h) (k v : Int)
    (hc : c.key2node_.contains k = false) :
    ∃ c0, (if overCap c.key2node_.size c.cap_ then c.removeMinFreqKey else some c) = some c0 ∧
      c0.Core ∧ c0.Shape ∧ c0.key2node_.find k = none ∧ c.put k v = some (c0.inserted k v) ∧
      (overCap c.key2node_.size c.cap_ = false → c0 = c) ∧
      (overCap c.key2node_.size c.cap_ = true →
        ∃ front rest, c.bucket c.min_freq_ = front :: rest ∧ c0 = c.evicted front rest) := by
  have hfind : c.key2node_.find k = none := (UMap.contains_false_iff _ _).1 hc
  have hB := g.bounded
  have hov := LRUCache.overCap_iff c.key2node_.size c.cap_ (by have := hB.pos; omega)
    hB.isInt hB.le
  rw [put_absent c k v hc]
  cases ho : overCap c.key2node_.size c.cap_ with
  | true =>
    have hlen := hov.1 ho
    have hne : c.key2node_ ≠ [] := by
      intro e
      rw [e] at hlen
      have := hB.pos
      simp [UMap.size] at hlen; omega
    obtain ⟨m1, _⟩ := g.minOK hne
    cases hl : c.bucket c.min_freq_ with
    | nil => exact absurd hl m1
    | cons front rest =>
      have mv := g.core.evicted_moves front rest hl
      refine ⟨c.evicted front rest, ?_, mv.core g.core, g.shape.evicted_shape front rest, ?_, ?_,
        (fun e => by cases e), (fun _ => ⟨front, rest, rfl, rfl⟩)⟩
      · simp only [if_true, removeMinFreqKey_eq c front rest hl]
      · show (c.key2node_.erase front.node.key).find k = none
        rw [UMap.find_erase, hfind]; simp
      · simp only [if_true, removeMinFreqKey_eq c front rest hl, Option.map_some']
  | false =>
    exact ⟨c, by simp, g.core, g.shape, hfind, by simp, (fun _ => rfl), (fun e => by cases e)⟩

/-- In a reachable state `put(k, v)` succeeds and a following `get(k)`
returns `v`. -/
theorem Good.put_then_get {c : LFUCache} {h : History} (g : Good c h) (k v : Int) :
    ∃ s1 s2, c.put k v = some s1 ∧ s1.get k = some (v, s2) := by
  cases hc : c.key2node_.contains k with
  | true =>
    obtain ⟨f, v0, s1, _, _, _, _, _, _, hput⟩ := g.bump_spec k hc
    obtain ⟨s2, hp, sh2, a, mv⟩ := hput v
    obtain ⟨s3, hg⟩ := mv.get_new g.core sh2
    exact ⟨s2, s3, hp, hg⟩
  | false =>
    obtain ⟨c0, _, w0, sh0, hf0, hput, _, _⟩ := g.insert_spec k v hc
    obtain ⟨s3, hg⟩ := (w0.inserted_moves k v hf0).get_new w0 (sh0.inserted_shape k v)
    exact ⟨_, s3, hput, hg⟩

/-! ### The range of the counters -/

/-- One call raises no frequency by more than one: when every frequency is at
most `n` before a call, every frequency is at most `n + 1` after it. -/
theorem Good.step_counters {c : LFUCache} {h : History} (g : Good c h) (op : Op) (n : Nat)
    (hn : ∀ j f, c.freq j = some f → f ≤ (n : Int)) (c1 : LFUCache)
    (hs : c.step op = some c1) : ∀ j f, c1.freq j = some f → f ≤ ((n + 1 : Nat) : Int) := by
  have hle : ∀ j f, c.freq j = some f → f ≤ ((n + 1 : Nat) : Int) := by
    intro j f hj
    have := hn j f hj
    push_cast; omega
  have hbump : ∀ k f c2 a v, c.freq k = some f → Moves c c2 a k (some (f + 1)) v →
      ∀ j f1, c2.freq j = some f1 → f1 ≤ ((n + 1 : Nat) : Int) := by
    intro k f c2 a v hf mv j f1 hj
    unfold freq at hj
    rw [mv.hf j] at hj
    by_cases hjk : j = k
    · rw [if_pos hjk] at hj
      have := hn k f hf
      have e := Option.some.inj hj
      push_cast; omega
    · rw [if_neg hjk] at hj
      exact hle j f1 hj
  cases op with
  | get k =>
    cases hc : c.key2node_.contains k with
    | true =>
      obtain ⟨f, v0, s1, hfreq, _, _, hget, _, ⟨a, mv⟩, _⟩ := g.bump_spec k hc
      simp only [step, hget, Option.map_some', Option.some.injEq] at hs
      subst hs
      exact hbump k f _ a v0 hfreq mv
    | false =>
      simp only [step, get_absent c k hc, Option.map_some', Option.some.injEq] at hs
      subst hs
      exact hle
  | put k v =>
    cases hc : c.key2node_.contains k with
    | true =>
      obtain ⟨f, v0, s1, hfreq, _, _, _, _, _, hput⟩ := g.bump_spec k hc
      obtain ⟨s2, hp, _, a, mv⟩ := hput v
      simp only [step, hp, Option.some.injEq] at hs
      subst hs
      exact hbump k f _ a v hfreq mv
    | false =>
      obtain ⟨c0, _, w0, _, hf0, hput, hsame, hev⟩ := g.insert_spec k v hc
      simp only [step, hput, Option.some.injEq] at hs
      subst hs
      have h0 : ∀ j f, c0.freq j = some f → f ≤ ((n + 1 : Nat) : Int) := by
        cases ho : overCap c.key2node_.size c.cap_ with
        | false => rw [hsame ho]; exact hle
        | true =>
          obtain ⟨front, rest, hl, rfl⟩ := hev ho
          intro j f hj
          unfold freq at hj
          rw [(g.core.evicted_moves front rest hl).hf j] at hj
          by_cases hjk : j = front.node.key
          · rw [if_pos hjk] at hj; cases hj
          · rw [if_neg hjk] at hj
            exact hle j f hj
      intro j f hj
      unfold freq at hj
      rw [(w0.inserted_moves k v hf0).hf j] at hj
      by_cases hjk : j = k
      · rw [if_pos hjk] at hj
        have e := Option.some.inj hj
        push_cast; omega
      · rw [if_neg hjk] at hj
        exact h0 j f hj

/-- Along a run every frequency grows by at most one per call. -/
theorem Good.run_counters {c : LFUCache} {h : History} (g : Good c h) (ops : List Op) (n : Nat)
    (hn : ∀ j f, c.freq j = some f → f ≤ (n : Int)) (s : LFUCache)
    (hr : c.run ops = some s) :
    ∀ j f, s.freq j = some f → f ≤ ((n + ops.length : Nat) : Int) := by
  induction ops generalizing c h n with
  | nil =>
    simp only [run, Option.some.injEq] at hr
    subst hr
    simpa using hn
  | cons op ops ih =>
    obtain ⟨c1, hs, _, g1⟩ := g.step_keeps op
    simp only [run, hs] at hr
    have := ih g1 (n + 1) (g.step_counters op n hn c1 hs) hr
    intro j f hj
    have := this j f hj
    simp only [List.length_cons]
    have e : n + (ops.length + 1) = n + 1 + ops.length := by omega
    rw [e]; exact this

/-- The counters of a run from the constructor: every frequency is at least 1
and at most the number of calls made, and so is `min_freq_` once something is
stored.  As long as fewer than `INT_MAX` calls have been made, every counter
value the code has computed (`freq + 1`, `min_freq_ + 1`) is therefore an
`int`. -/
theorem fresh_counters (C junk : Int) (h1 : 1 ≤ C) (h2 : C ≤ INT_MAX) (ops : List Op)
    (s : LFUCache) (hr : (new C junk).run ops = some s) :
    (∀ j f, s.freq j = some f → 1 ≤ f ∧ f ≤ (ops.length : Int)) ∧
    (s.key2node_ ≠ [] → 1 ≤ s.min_freq_ ∧ s.min_freq_ ≤ (ops.length : Int)) := by
  obtain ⟨s0, h, hr0, _, g⟩ := run_fresh_good C junk h1 h2 ops
  rw [hr] at hr0
  simp only [Option.some.injEq] at hr0
  subst hr0
  have hup := (fresh_good C junk h1 h2).run_counters ops 0
    (by intro j f hj; simp [freq, new, UMap.find] at hj) s hr
  have hall : ∀ j f, s.freq j = some f → 1 ≤ f ∧ f ≤ (ops.length : Int) := by
    intro j f hj
    obtain ⟨y, hy, _⟩ := g.core.flive j f hj
    refine ⟨(g.core.cells f y hy).2.2.2, ?_⟩
    simpa using hup j f hj
  refine ⟨hall, fun hne => ?_⟩
  obtain ⟨m1, _⟩ := g.minOK hne
  obtain ⟨y, hy⟩ := List.exists_mem_of_ne_nil _ m1
  exact hall y.node.key s.min_freq_ (g.core.cells _ y hy).2.1

/-- In a run of fewer than `INT_MAX` calls from the constructor no counter
leaves the range of `int`: after every initial part of the run each frequency
lies between 1 and the number of calls made, and the next call computes at
most that number plus 1. -/
theorem fresh_counters_along (C junk : Int) (h1 : 1 ≤ C) (h2 : C ≤ INT_MAX) (ops : List Op)
    (hlen : (ops.length : Int) < INT_MAX) (n : Nat) :
    ∃ s, (new C junk).run (ops.take n) = some s ∧
      ∀ j f, s.freq j = some f → 1 ≤ f ∧ f + 1 ≤ INT_MAX := by
  obtain ⟨s, h, hr, _, g⟩ := run_fresh_good C junk h1 h2 (ops.take n)
  obtain ⟨hall, _⟩ := fresh_counters C junk h1 h2 (ops.take n) s hr
  refine ⟨s, hr, fun j f hj => ⟨(hall j f hj).1, ?_⟩⟩
  have h3 := (hall j f hj).2
  have h4 : (ops.take n).length ≤ ops.length := by
    rw [List.length_take]; exact Nat.min_le_right _ _
  omega

end LFUCache

/-! ## Claims on the LRUCache

A capacity is a C++ `int`: the claims for capacity `C ≥ 1` carry the two
hypotheses `1 ≤ C` and `C ≤ INT_MAX`.  A reachable state is the result of a
run (`run`, or `runH` when the claim speaks of the past) from the freshly
constructed cache. -/

/-- C1. LRUCache eviction choice: in a state reached with capacity `C ≥ 1`
that holds exactly `C` keys, `put(k, v)` for a key `k` that is not stored
removes exactly the list head `e`, which is the stored key whose most recent
get-hit or put is the oldest; every other key keeps its value and its place,
and `k` is stored with value `v` at the tail. -/
theorem C1_lru_eviction (C : Int) (hC : 1 ≤ C) (hI : C ≤ INT_MAX) (ops : List Op)
    (s : LRUCache) (h : History)
    (hrun : (LRUCache.new C).runH History.init ops = some (s, h))
    (hfull : (s.keys.length : Int) = C) (k v : Int) (hk : k ∉ s.keys) :
    ∃ e rest s1, s.keys = e :: rest ∧ s.put k v = some s1 ∧
      (∀ j ∈ rest, h.stamp e < h.stamp j) ∧
      s1.keys = rest ++ [k] ∧
      s1.entries = s.entries.tail ++ [(k, v)] ∧
      s1.peek e = none ∧ s1.peek k = some v ∧
      (∀ j, j ≠ e → j ≠ k → s1.peek j = s.peek j) := by
  obtain ⟨s0, h0, hr, hcap, g⟩ := LRUCache.runH_new_good C hC hI ops
  rw [hrun] at hr
  simp only [Option.some.injEq, Prod.mk.injEq] at hr
  obtain ⟨rfl, rfl⟩ := hr
  have hc : s.key2node_.contains k = false := by
    cases hcc : s.key2node_.contains k with
    | false => rfl
    | true => exact absurd ((g.wf.indexed_iff k).1 hcc) hk
  have hfind : s.key2node_.find k = none := (UMap.contains_false_iff _ _).1 hc
  have hlen : (s.list_.length : Int) = s.cap_ := by
    rw [hcap]; simpa [LRUCache.keys] using hfull
  have ho : overCap s.list_.length s.cap_ = true :=
    (LRUCache.overCap_iff _ _ (by have := g.bounded.pos; omega) g.bounded.isInt
      g.bounded.le).2 hlen
  cases hl : s.list_ with
  | nil =>
    rw [hl] at hlen
    have := g.bounded.pos
    simp at hlen; omega
  | cons front rest =>
    have w1 := g.wf.pop_WF front rest hl
    have hfind1 : (s.key2node_.erase front.node.key).find k = none := by
      rw [UMap.find_erase, hfind]; simp
    have w2 := w1.pushed_WF k v hfind1
    have hkeys : s.keys = front.node.key :: rest.map (fun x => x.node.key) := by
      simp [LRUCache.keys, hl]
    have hnd := g.wf.keys_nodup
    rw [hkeys] at hnd
    have hnd2 : front.node.key ∉ rest.map (fun x => x.node.key) := (List.nodup_cons.1 hnd).1
    have hek : ¬ front.node.key = k := by
      intro e; apply hk; rw [hkeys, ← e]; exact List.mem_cons_self _ _
    have hent : (LRUCache.pushed
        { s with list_ := rest, key2node_ := s.key2node_.erase front.node.key } k v).entries
        = s.entries.tail ++ [(k, v)] := by
      simp [LRUCache.pushed, LRUCache.entries, hl]
    have hent2 : s.entries = (front.node.key, front.node.val)
        :: rest.map (fun x => (x.node.key, x.node.val)) := by
      simp [LRUCache.entries, hl]
    refine ⟨front.node.key, rest.map (fun x => x.node.key),
      LRUCache.pushed { s with list_ := rest, key2node_ := s.key2node_.erase front.node.key } k v,
      hkeys, ?_, ?_, ?_, hent, ?_, ?_, ?_⟩
    · rw [LRUCache.put_miss s k v hc, ho]
      simp only [if_true, LRUCache.popLeastRecently, hl, Option.map_some']
    · intro j hj
      obtain ⟨y, hy, rfl⟩ := List.mem_map.1 hj
      have := g.hist.order
      rw [hl] at this
      exact (List.pairwise_cons.1 this).1 y hy
    · simp [LRUCache.pushed, LRUCache.keys]
    · cases hp : LRUCache.peek _ front.node.key with
      | none => rfl
      | some v1 =>
        exfalso
        have hm := (w2.peek_iff _ _).1 hp
        rw [hent, hent2] at hm
        simp only [List.tail_cons, List.mem_append, List.mem_singleton, Prod.mk.injEq] at hm
        rcases hm with hm | hm
        · exact hnd2 (List.mem_map.2 (by
            obtain ⟨y, hy, he⟩ := List.mem_map.1 hm
            exact ⟨y, hy, (Prod.mk.inj he).1⟩))
        · exact hek hm.1
    · apply (w2.peek_iff _ _).2
      rw [hent]; simp
    · intro j hje hjk
      apply g.wf.peek_congr w2
      intro v1
      rw [hent, hent2, List.tail_cons, List.mem_append, List.mem_singleton, List.mem_cons]
      constructor
      · rintro (hm | hm)
        · exact Or.inr hm
        · exact absurd (Prod.mk.inj hm).1 hjk
      · rintro (hm | hm)
        · exact absurd (Prod.mk.inj hm).1 hje
        · exact Or.inl hm

/-- C1 at capacity 2 after `put(1,1); put(2,2); get(1)`: `put(3,3)` evicts
key 2, and then `get(2) = -1`, `get(1) = 1`, `get(3) = 3`. -/
theorem C1_lru_eviction_witness :
    (∃ e rest s1, lruSample.1.keys = e :: rest ∧ lruSample.1.put 3 3 = some s1 ∧
      (∀ j ∈ rest, lruSample.2.stamp e < lruSample.2.stamp j) ∧
      s1.keys = rest ++ [3] ∧
      s1.entries = lruSample.1.entries.tail ++ [(3, 3)] ∧
      s1.peek e = none ∧ s1.peek 3 = some 3 ∧
      (∀ j, j ≠ e → j ≠ 3 → s1.peek j = lruSample.1.peek j)) ∧
    lruSample.1.keys = [2, 1] ∧
    ((lruSample.1.put 3 3).bind (fun s => s.get 2)).map Prod.fst = some (-1) ∧
    ((lruSample.1.put 3 3).bind (fun s => s.get 1)).map Prod.fst = some 1 ∧
    ((lruSample.1.put 3 3).bind (fun s => s.get 3)).map Prod.fst = some 3 :=
  ⟨C1_lru_eviction 2 (by decide) (by decide) [Op.put 1 1, Op.put 2 2, Op.get 1]
      lruSample.1 lruSample.2 rfl (by decide) 3 3 (by decide),
    by decide, by decide, by decide, by decide⟩

/-- C6. LRUCache read effect: in every reachable state `get(k)` on a stored
key returns the value last put for `k`, makes `k` the list tail, keeps the
other keys in their order, and changes neither the set of stored keys nor any
value. -/
theorem C6_lru_read_effect (C : Int) (hC : 1 ≤ C) (hI : C ≤ INT_MAX) (ops : List Op)
    (s : LRUCache) (h : History)
    (hrun : (LRUCache.new C).runH History.init ops = some (s, h))
    (k : Int) (hk : k ∈ s.keys) :
    ∃ v s1, s.get k = some (v, s1) ∧ h.written k = some v ∧
      s1.keys = s.keys.filter (fun j => decide (j ≠ k)) ++ [k] ∧
      (∀ j, j ∈ s1.keys ↔ j ∈ s.keys) ∧
      (∀ j, s1.peek j = s.peek j) ∧
      s1.cap_ = s.cap_ := by
  obtain ⟨s0, h0, hr, _, g⟩ := LRUCache.runH_new_good C hC hI ops
  rw [hrun] at hr
  simp only [Option.some.injEq, Prod.mk.injEq] at hr
  obtain ⟨rfl, rfl⟩ := hr
  obtain ⟨v0, hmem, hwr, hget, _, _⟩ := g.hit_spec k hk
  obtain ⟨m1, m2, _, m4, m5⟩ := g.wf.moved_spec k v0 hk
  refine ⟨v0, s.moved k ⟨k, v0⟩, hget, hwr, m1, m2, ?_, rfl⟩
  intro j
  by_cases e : j = k
  · rw [e, m4, (g.wf.peek_iff k v0).2 hmem]
  · exact m5 j e

/-- C6 after `put(1,1); put(2,2); get(1)` with capacity 2, reading key 2. -/
theorem C6_lru_read_effect_witness :
    ∃ v s1, lruSample.1.get 2 = some (v, s1) ∧ lruSample.2.written 2 = some v ∧
      s1.keys = lruSample.1.keys.filter (fun j => decide (j ≠ 2)) ++ [2] ∧
      (∀ j, j ∈ s1.keys ↔ j ∈ lruSample.1.keys) ∧
      (∀ j, s1.peek j = lruSample.1.peek j) ∧
      s1.cap_ = lruSample.1.cap_ :=
  C6_lru_read_effect 2 (by decide) (by decide) [Op.put 1 1, Op.put 2 2, Op.get 1]
    lruSample.1 lruSample.2 rfl 2 (by decide)

/-- C7. LRUCache update: in every reachable state, also a full one, `put(k, v)`
on a stored key evicts nothing, keeps the number of entries, sets the value
of `k` to `v`, moves `k` to the tail and leaves the values and the relative
order of the other keys unchanged. -/
theorem C7_lru_update (C : Int) (hC : 1 ≤ C) (hI : C ≤ INT_MAX) (ops : List Op)
    (s : LRUCache) (hrun : (LRUCache.new C).run ops = some s)
    (k v : Int) (hk : k ∈ s.keys) :
    ∃ s1, s.put k v = some s1 ∧
      s1.keys = s.keys.filter (fun j => decide (j ≠ k)) ++ [k] ∧
      (∀ j, j ∈ s1.keys ↔ j ∈ s.keys) ∧
      s1.keys.length = s.keys.length ∧
      s1.peek k = some v ∧
      (∀ j, j ≠ k → s1.peek j = s.peek j) := by
  obtain ⟨s0, h0, hr, _, g⟩ := LRUCache.run_new_good C hC hI ops
  rw [hrun] at hr
  simp only [Option.some.injEq] at hr
  subst hr
  obtain ⟨_, _, _, _, hput, _⟩ := g.hit_spec k hk
  exact ⟨s.moved k ⟨k, v⟩, hput v, g.wf.moved_spec k v hk⟩

/-- C7 on the full cache reached by `put(1,1); put(2,2); get(1)` with
capacity 2, writing 7 under key 2. -/
theorem C7_lru_update_witness :
    ∃ s1, lruSample.1.put 2 7 = some s1 ∧
      s1.keys = lruSample.1.keys.filter (fun j => decide (j ≠ 2)) ++ [2] ∧
      (∀ j, j ∈ s1.keys ↔ j ∈ lruSample.1.keys) ∧
      s1.keys.length = lruSample.1.keys.length ∧
      s1.peek 2 = some 7 ∧
      (∀ j, j ≠ 2 → s1.peek j = lruSample.1.peek j) :=
  C7_lru_update 2 (by decide) (by decide) [Op.put 1 1, Op.put 2 2, Op.get 1]
    lruSample.1 (by decide) 2 7 (by decide)

/-! ## Claims on both caches -/

/-- C3. Capacity bound: with capacity `C ≥ 1` every sequence of `get` and
`put` calls runs through and leaves at most `C` entries, in the LRUCache
(list length and index size) and in the LFUCache (size of `key2node_`). -/
theorem C3_capacity_bound (C : Int) (hC : 1 ≤ C) (hI : C ≤ INT_MAX) (junk : Int)
    (ops : List Op) :
    (∃ s, (LRUCache.new C).run ops = some s ∧
      (s.list_.length : Int) ≤ C ∧ (s.key2node_.size : Int) ≤ C) ∧
    (∃ s, (LFUCache.new C junk).run ops = some s ∧ (s.key2node_.size : Int) ≤ C) := by
  constructor
  · obtain ⟨s, h, hr, hcap, g⟩ := LRUCache.run_new_good C hC hI ops
    have := g.bounded.le
    rw [hcap] at this
    exact ⟨s, hr, this, by rw [g.wf.size_eq]; exact this⟩
  · obtain ⟨s, h, hr, hcap, g⟩ := LFUCache.run_fresh_good C junk hC hI ops
    have := g.bounded.le
    rw [hcap] at this
    exact ⟨s, hr, this⟩

/-- C3 at capacity 2 for `put(1,1); put(2,2); get(1); put(3,3)`. -/
theorem C3_capacity_bound_witness :
    (∃ s, (LRUCache.new 2).run [Op.put 1 1, Op.put 2 2, Op.get 1, Op.put 3 3] = some s ∧
      (s.list_.length : Int) ≤ 2 ∧ (s.key2node_.size : Int) ≤ 2) ∧
    (∃ s, (LFUCache.new 2 0).run [Op.put 1 1, Op.put 2 2, Op.get 1, Op.put 3 3] = some s ∧
      (s.key2node_.size : Int) ≤ 2) :=
  C3_capacity_bound 2 (by decide) (by decide) 0 [Op.put 1 1, Op.put 2 2, Op.get 1, Op.put 3 3]

/-- C4. Cache round trip: in every state reached with capacity `C ≥ 1`,
`put(k, v)` followed at once by `get(k)` returns `v`, for the LRUCache and for
the LFUCache, whether or not `k` was stored and whether or not the `put`
evicted a key. -/
theorem C4_round_trip (C : Int) (hC : 1 ≤ C) (hI : C ≤ INT_MAX) (junk : Int)
    (ops : List Op) (k v : Int) :
    (∃ s s1 s2, (LRUCache.new C).run ops = some s ∧ s.put k v = some s1 ∧
      s1.get k = some (v, s2)) ∧
    (∃ s s1 s2, (LFUCache.new C junk).run ops = some s ∧ s.put k v = some s1 ∧
      s1.get k = some (v, s2)) := by
  constructor
  · obtain ⟨s, h, hr, _, g⟩ := LRUCache.run_new_good C hC hI ops
    obtain ⟨s1, s2, h1, h2⟩ := g.put_get k v
    exact ⟨s, s1, s2, hr, h1, h2⟩
  · obtain ⟨s, h, hr, _, g⟩ := LFUCache.run_fresh_good C junk hC hI ops
    obtain ⟨s1, s2, h1, h2⟩ := g.put_then_get k v
    exact ⟨s, s1, s2, hr, h1, h2⟩

/-- C4 on the full caches of capacity 2 after `put(1,1); put(2,2); get(1)`,
writing 9 under the new key 3. -/
theorem C4_round_trip_witness :
    (∃ s s1 s2, (LRUCache.new 2).run [Op.put 1 1, Op.put 2 2, Op.get 1] = some s ∧
      s.put 3 9 = some s1 ∧ s1.get 3 = some (9, s2)) ∧
    (∃ s s1 s2, (LFUCache.new 2 0).run [Op.put 1 1, Op.put 2 2, Op.get 1] = some s ∧
      s.put 3 9 = some s1 ∧ s1.get 3 = some (9, s2)) :=
  C4_round_trip 2 (by decide) (by decide) 0 [Op.put 1 1, Op.put 2 2, Op.get 1] 3 9

/-- C5. Cache miss: in every state reached with capacity `C ≥ 1`, `get(k)`
on a key that is not stored (no list node, respectively no frequency record,
for `k`) returns -1 and leaves the whole state as it was. -/
theorem C5_cache_miss (C : Int) (hC : 1 ≤ C) (hI : C ≤ INT_MAX) (junk : Int)
    (ops : List Op) (k : Int) :
    (∃ s, (LRUCache.new C).run ops = some s ∧ (k ∉ s.keys → s.get k = some (-1, s))) ∧
    (∃ s, (LFUCache.new C junk).run ops = some s ∧
      (s.freq k = none → s.get k = some (-1, s))) := by
  constructor
  · obtain ⟨s, h, hr, _, g⟩ := LRUCache.run_new_good C hC hI ops
    refine ⟨s, hr, fun hk => LRUCache.get_miss s k ?_⟩
    cases hcc : s.key2node_.contains k with
    | false => rfl
    | true => exact absurd ((g.wf.indexed_iff k).1 hcc) hk
  · obtain ⟨s, h, hr, _, g⟩ := LFUCache.run_fresh_good C junk hC hI ops
    refine ⟨s, hr, fun hk => LFUCache.get_absent s k ?_⟩
    cases hcc : s.key2node_.contains k with
    | false => rfl
    | true =>
      obtain ⟨f, y, hy, hyk⟩ := (g.core.stored_iff k).1 hcc
      have := (g.core.cells f y hy).2.1
      rw [hyk] at this
      unfold LFUCache.freq at hk
      rw [hk] at this; cases this

/-- C5 at capacity 2 after `put(1,1); put(2,2); get(1)`, reading key 5. -/
theorem C5_cache_miss_witness :
    (∃ s, (LRUCache.new 2).run [Op.put 1 1, Op.put 2 2, Op.get 1] = some s ∧
      (5 ∉ s.keys → s.get 5 = some (-1, s))) ∧
    (∃ s, (LFUCache.new 2 0).run [Op.put 1 1, Op.put 2 2, Op.get 1] = some s ∧
      (s.freq 5 = none → s.get 5 = some (-1, s))) :=
  C5_cache_miss 2 (by decide) (by decide) 0 [Op.put 1 1, Op.put 2 2, Op.get 1] 5

/-! ## Claims on the LFUCache

The frequency counters are `int` in the source.  The claims that name the
value of a counter are stated for runs of fewer than `INT_MAX` calls: in such
a run every counter stays in the range of `int`
(`LFUCache.fresh_counters_along`), and each claim states the range of the
counters it names. -/

theorem overCap_neg (n : Nat) (C : Int) (hneg : C < 0) (hmin : INT_MIN ≤ C)
    (hn : n + 1 < 2 ^ 63) : overCap n C = false := by
  unfold INT_MIN at hmin
  have h1 : (C % (SIZE_MOD : Int)) = C + 18446744073709551616 := by
    unfold SIZE_MOD
    norm_num
    omega
  have h2 : (n + 1) % SIZE_MOD = n + 1 := by
    apply Nat.mod_eq_of_lt
    unfold SIZE_MOD
    omega
  unfold overCap toSizeT
  rw [h1, h2]
  simp only [decide_eq_false_iff_not, not_lt]
  omega

namespace LRUCache

/-- A call that does not evict: the stored keys are the old ones and the key
that was put. -/
theorem WF.step_noevict {c : LRUCache} (w : c.WF)
    (ho : overCap c.list_.length c.cap_ = false) (op : Op) :
    ∃ c1, c.step op = some c1 ∧ c1.WF ∧ c1.cap_ = c.cap_ ∧
      c1.list_.length ≤ c.list_.length + 1 ∧
      ∀ j, j ∈ c1.keys ↔ (j ∈ c.keys ∨ ∃ v, op = Op.put j v) := by
  cases op with
  | get k =>
    cases hc : c.key2node_.contains k with
    | true =>
      have hk := (w.indexed_iff k).1 hc
      obtain ⟨x, hx, hxk⟩ := List.mem_map.1 hk
      subst hxk
      have hsp := w.moved_spec x.node.key x.node.val hk
      refine ⟨c.moved x.node.key x.node, by simp [step, w.get_hit x hx],
        w.moved_WF _ _ rfl, rfl, by rw [w.moved_length x hx]; omega, ?_⟩
      intro j
      rw [hsp.2.1 j]; simp
    | false =>
      exact ⟨c, by simp [step, get_miss c k hc], w, rfl, by omega, fun j => by simp⟩
  | put k v =>
    cases hc : c.key2node_.contains k with
    | true =>
      have hk := (w.indexed_iff k).1 hc
      obtain ⟨x, hx, hxk⟩ := List.mem_map.1 hk
      subst hxk
      have hsp := w.moved_spec x.node.key v hk
      refine ⟨c.moved x.node.key ⟨x.node.key, v⟩, by simp [step, w.put_hit x hx],
        w.moved_WF _ _ rfl, rfl, by rw [w.moved_length x hx]; omega, ?_⟩
      intro j
      rw [hsp.2.1 j]
      constructor
      · intro h; exact Or.inl h
      · rintro (h | ⟨v1, h⟩)
        · exact h
        · cases h; exact hk
    | false =>
      have hfind : c.key2node_.find k = none := (UMap.contains_false_iff _ _).1 hc
      refine ⟨c.pushed k v, ?_, w.pushed_WF k v hfind, rfl, by simp [pushed], ?_⟩
      · show c.put k v = _
        rw [put_miss c k v hc, ho]
        simp
      · intro j
        simp only [pushed, keys, List.map_append, List.map_cons, List.map_nil, List.mem_append,
          List.mem_singleton, Op.put.injEq]
        constructor
        · rintro (h | h)
          · exact Or.inl h
          · exact Or.inr ⟨v, h.symm, rfl⟩
        · rintro (h | ⟨v1, h, _⟩)
          · exact Or.inl h
          · exact Or.inr h.symm

theorem WF.run_noevict (C : Int) (hneg : C < 0) (hmin : INT_MIN ≤ C) (ops : List Op) :
    ∀ c : LRUCache, c.WF → c.cap_ = C → c.list_.length + ops.length < 2 ^ 63 →
      ∃ s, c.run ops = some s ∧ ∀ j, j ∈ s.keys ↔ (j ∈ c.keys ∨ ∃ v, Op.put j v ∈ ops) := by
  induction ops with
  | nil => intro c _ _ _; exact ⟨c, rfl, fun j => by simp⟩
  | cons op ops ih =>
    intro c w hcap hlen
    simp only [List.length_cons] at hlen
    have ho : overCap c.list_.length c.cap_ = false := by
      rw [hcap]; exact overCap_neg _ C hneg hmin (by omega)
    obtain ⟨c1, hs, w1, hc1, hl1, hk1⟩ := w.step_noevict ho op
    obtain ⟨s, hr, hk⟩ := ih c1 w1 (by rw [hc1, hcap]) (by omega)
    refine ⟨s, by simp only [run, hs, hr], ?_⟩
    intro j
    rw [hk j, hk1 j]
    simp only [List.mem_cons]
    constructor
    · rintro ((h | ⟨v, h⟩) | ⟨v, h⟩)
      · exact Or.inl h
      · exact Or.inr ⟨v, Or.inl h.symm⟩
      · exact Or.inr ⟨v, Or.inr h⟩
    · rintro (h | ⟨v, h | h⟩)
      · exact Or.inl (Or.inl h)
      · exact Or.inl (Or.inr ⟨v, h.symm⟩)
      · exact Or.inr ⟨v, h⟩

end LRUCache

namespace LFUCache

/-- A call that does not evict: the stored keys are the old ones and the key
that was put. -/
theorem Core.step_keeps_all {c : LFUCache} (w : c.Core) (sh : c.Shape)
    (ho : overCap c.key2node_.size c.cap_ = false) (op : Op) :
    ∃ c1, c.step op = some c1 ∧ c1.Core ∧ c1.Shape ∧ c1.cap_ = c.cap_ ∧
      c1.key2node_.size ≤ c.key2node_.size + 1 ∧
      ∀ j, c1.key2node_.contains j = true ↔
        (c.key2node_.contains j = true ∨ ∃ v, op = Op.put j v) := by
  cases op with
  | get k =>
    cases hc : c.key2node_.contains k with
    | true =>
      obtain ⟨f, x, hx, hxk⟩ := (w.stored_iff k).1 hc
      subst hxk
      have mv := w.bumped_moves hx
      refine ⟨c.bumped x f, by simp [step, w.get_bumped sh hx], mv.core w, sh.bumped_shape x f,
        rfl, ?_, ?_⟩
      · show (c.key2node_.assign x.node.key c.heap_).size ≤ _
        rw [UMap.size_assign_of_contains _ _ _ sh.k2n_nodup hc]; omega
      · intro j
        rw [mv.contains j]
        by_cases hj : j = x.node.key
        · simp [hj, hc]
        · simp [hj]
    | false =>
      exact ⟨c, by simp [step, get_absent c k hc], w, sh, rfl, by omega, fun j => by simp⟩
  | put k v =>
    cases hc : c.key2node_.contains k with
    | true =>
      obtain ⟨f, x, hx, hxk⟩ := (w.stored_iff k).1 hc
      subst hxk
      have mv := (w.bumped_moves hx).revalued_moves w v
      refine ⟨(c.bumped x f).revalued c.heap_ v, by simp [step, w.put_bumped sh hx], mv.core w,
        (sh.bumped_shape x f).revalued_shape _ _, rfl, ?_, ?_⟩
      · show (c.key2node_.assign x.node.key c.heap_).size ≤ _
        rw [UMap.size_assign_of_contains _ _ _ sh.k2n_nodup hc]; omega
      · intro j
        rw [mv.contains j]
        by_cases hj : j = x.node.key
        · simp [hj, hc]
        · simp only [hj, if_false, Op.put.injEq]
          constructor
          · intro h; exact Or.inl h
          · rintro (h | ⟨v1, h, _⟩)
            · exact h
            · exact absurd h.symm hj
    | false =>
      have hfind : c.key2node_.find k = none := (UMap.contains_false_iff _ _).1 hc
      have mv := w.inserted_moves k v hfind
      refine ⟨c.inserted k v, ?_, mv.core w, sh.inserted_shape k v, rfl, ?_, ?_⟩
      · show c.put k v = _
        rw [put_absent c k v hc, ho]
        simp
      · show (c.key2node_.assign k c.heap_).size ≤ _
        rw [UMap.size_assign_of_find_none _ _ _ hfind]
      · intro j
        rw [mv.contains j]
        by_cases hj : j = k
        · simp [hj]
        · simp only [hj, if_false, Op.put.injEq]
          constructor
          · intro h; exact Or.inl h
          · rintro (h | ⟨v1, h, _⟩)
            · exact h
            · exact absurd h.symm hj

theorem Core.run_keeps_all (C : Int) (hneg : C < 0) (hmin : INT_MIN ≤ C) (ops : List Op) :
    ∀ c : LFUCache, c.Core → c.Shape → c.cap_ = C → c.key2node_.size + ops.length < 2 ^ 63 →
      ∃ s, c.run ops = some s ∧ ∀ j, s.key2node_.contains j = true ↔
        (c.key2node_.contains j = true ∨ ∃ v, Op.put j v ∈ ops) := by
  induction ops with
  | nil => intro c _ _ _ _; exact ⟨c, rfl, fun j => by simp⟩
  | cons op ops ih =>
    intro c w sh hcap hlen
    simp only [List.length_cons] at hlen
    have ho : overCap c.key2node_.size c.cap_ = false := by
      rw [hcap]; exact overCap_neg _ C hneg hmin (by omega)
    obtain ⟨c1, hs, w1, sh1, hc1, hl1, hk1⟩ := w.step_keeps_all sh ho op
    obtain ⟨s, hr, hk⟩ := ih c1 w1 sh1 (by rw [hc1, hcap]) (by omega)
    refine ⟨s, by simp only [run, hs, hr], ?_⟩
    intro j
    rw [hk j, hk1 j]
    simp only [List.mem_cons]
    constructor
    · rintro ((h | ⟨v, h⟩) | ⟨v, h⟩)
      · exact Or.inl h
      · exact Or.inr ⟨v, Or.inl h.symm⟩
      · exact Or.inr ⟨v, Or.inr h⟩
    · rintro (h | ⟨v, h | h⟩)
      · exact Or.inl (Or.inl h)
      · exact Or.inl (Or.inr ⟨v, h.symm⟩)
      · exact Or.inr ⟨v, h⟩

end LFUCache

/-- C10, as the code has it: with capacity -1 nothing is rejected or clamped
and two puts leave two entries; with capacity 0 the first `put` takes the
front of an empty list (`popLeastRecently`, `removeMinFreqKey` with the
uninitialised `min_freq_`). -/
theorem C10_invalid_capacity_counterexample :
    (LRUCache.new (-1)).cap_ = -1 ∧ (LFUCache.new (-1) 0).cap_ = -1 ∧
    ((LRUCache.new (-1)).run [Op.put 1 1, Op.put 2 2]).map (fun s => s.list_.length)
      = some 2 ∧
    ((LFUCache.new (-1) 0).run [Op.put 1 1, Op.put 2 2]).map (fun s => s.key2node_.size)
      = some 2 ∧
    (LRUCache.new 0).cap_ = 0 ∧ (LRUCache.new 0).list_ = [] ∧
    overCap (LRUCache.new 0).list_.length (LRUCache.new 0).cap_ = true ∧
    (LRUCache.new 0).popLeastRecently = none ∧ (LRUCache.new 0).put 1 1 = none ∧
    (LFUCache.new 0 0).removeMinFreqKey = none ∧ (LFUCache.new 0 0).put 1 1 = none := by
  decide

/-- C10, amended: the constructors store every capacity unchanged; with a
negative capacity no call ever evicts, so after any sequence of fewer than
2^63 calls the run has gone through (no call took the front of an empty list)
and exactly the keys that were put are stored. -/
theorem C10_invalid_capacity (C : Int) (hneg : C < 0) (hmin : INT_MIN ≤ C) (junk : Int)
    (ops : List Op) (hlen : ops.length < 2 ^ 63) :
    (LRUCache.new C).cap_ = C ∧ (LFUCache.new C junk).cap_ = C ∧
    (∃ s, (LRUCache.new C).run ops = some s ∧
      ∀ k, k ∈ s.keys ↔ ∃ v, Op.put k v ∈ ops) ∧
    (∃ s, (LFUCache.new C junk).run ops = some s ∧
      ∀ k, s.key2node_.contains k = true ↔ ∃ v, Op.put k v ∈ ops) := by
  refine ⟨rfl, rfl, ?_, ?_⟩
  · obtain ⟨s, hr, hk⟩ := LRUCache.WF.run_noevict C hneg hmin ops (LRUCache.new C)
      (LRUCache.new_WF C) rfl (by simpa [LRUCache.new] using hlen)
    exact ⟨s, hr, fun k => by rw [hk k]; simp [LRUCache.new, LRUCache.keys]⟩
  · obtain ⟨s, hr, hk⟩ := LFUCache.Core.run_keeps_all C hneg hmin ops (LFUCache.new C junk)
      (LFUCache.new_core C junk) (LFUCache.new_shape C junk) rfl
      (by simpa [LFUCache.new, UMap.size] using hlen)
    exact ⟨s, hr, fun k => by rw [hk k]; simp [LFUCache.new, UMap.contains, UMap.find]⟩

/-- C10, amended, at capacity -1 for `put(1,1); put(2,2)`. -/
theorem C10_invalid_capacity_witness :
    (LRUCache.new (-1)).cap_ = -1 ∧ (LFUCache.new (-1) 0).cap_ = -1 ∧
    (∃ s, (LRUCache.new (-1)).run [Op.put 1 1, Op.put 2 2] = some s ∧
      ∀ k, k ∈ s.keys ↔ ∃ v, Op.put k v ∈ [Op.put 1 1, Op.put 2 2]) ∧
    (∃ s, (LFUCache.new (-1) 0).run [Op.put 1 1, Op.put 2 2] = some s ∧
      ∀ k, s.key2node_.contains k = true ↔ ∃ v, Op.put k v ∈ [Op.put 1 1, Op.put 2 2]) :=
  C10_invalid_capacity (-1) (by decide) (by decide) 0 [Op.put 1 1, Op.put 2 2] (by decide)

/-! # The open-addressing map -/

namespace XSFLinearProbingHashMap

variable {K V : Type} [DecidableEq K] [Inhabited K] [Inhabited V]

set_option linter.unusedSectionVars false
set_option linter.unusedVariables false

/-! ## CeilToPow2 -/

theorem smeared_step (L w x : Nat) (h : Smeared L w x) : Smeared L (2 * w) (x ||| x >>> w) := by
  obtain ⟨h1, h2⟩ := h
  constructor
  · intro i hi
    rw [Nat.testBit_or, Nat.testBit_shiftRight, h1 i hi, h1 (w + i) (by omega)]
    rfl
  · intro i hi hw
    rw [Nat.testBit_or, Nat.testBit_shiftRight]
    by_cases hc : L ≤ i + w
    · rw [h2 i hi hc]; rfl
    · rw [h2 (w + i) (by omega) (by omega)]; simp

theorem smeared_start (m : Nat) : Smeared (Nat.size m) 1 m := by
  constructor
  · intro i hi
    apply Nat.testBit_lt_two_pow
    exact lt_of_lt_of_le (Nat.lt_size_self m) (Nat.pow_le_pow_right (by decide) hi)
  · intro i hi hw
    have h1 : 2 ^ i ≤ m := Nat.lt_size.1 hi
    have h2 : m < 2 ^ (i + 1) := by
      have := Nat.lt_size_self m
      have e : Nat.size m = i + 1 := by omega
      rwa [e] at this
    have h3 : m / 2 ^ i = 1 := by
      apply Nat.div_eq_of_lt_le
      · simpa using h1
      · rw [pow_succ] at h2; omega
    rw [Nat.testBit, Nat.shiftRight_eq_div_pow, h3]
    rfl

theorem smeared_end (L x : Nat) (hL : L ≤ 64) (h : Smeared L 64 x) : x = 2 ^ L - 1 := by
  apply Nat.eq_of_testBit_eq
  intro i
  rw [Nat.testBit_two_pow_sub_one]
  by_cases hi : i < L
  · rw [h.2 i hi (by omega)]; simp [hi]
  · rw [h.1 i (by omega)]; simp [hi]

/-- What `CeilToPow2` computes for `1 ≤ n ≤ 2^63`. -/
theorem CeilToPow2_eq (n : Nat) (h1 : 1 ≤ n) (h2 : n ≤ 2 ^ 63) :
    CeilToPow2 n = 2 ^ Nat.size (n - 1) := by
  have hL : Nat.size (n - 1) ≤ 63 := Nat.size_le.2 (by omega)
  have hn : ¬ n > 0x8000000000000000 := by
    have : (2 : Nat) ^ 63 = 0x8000000000000000 := by norm_num
    omega
  have h0 : (n + SIZE_MOD - 1) % SIZE_MOD = n - 1 := by
    unfold SIZE_MOD
    have : (2 : Nat) ^ 63 < 2 ^ 64 := by norm_num
    have e : n + 2 ^ 64 - 1 = (n - 1) + 2 ^ 64 := by omega
    rw [e, Nat.add_mod_right, Nat.mod_eq_of_lt (by omega)]
  have s1 := smeared_step _ _ _ (smeared_start (n - 1))
  have s2 := smeared_step _ _ _ s1
  have s3 := smeared_step _ _ _ s2
  have s4 := smeared_step _ _ _ s3
  have s5 := smeared_step _ _ _ s4
  have s6 := smeared_step _ _ _ s5
  have e6 := smeared_end _ _ (by omega) s6
  unfold CeilToPow2
  rw [if_neg hn]
  simp only [h0]
  simp only [Nat.mul_one, Nat.reduceMul] at e6
  rw [e6]
  have hp : 1 ≤ 2 ^ Nat.size (n - 1) := Nat.one_le_two_pow
  have hlt : 2 ^ Nat.size (n - 1) < SIZE_MOD := by
    unfold SIZE_MOD
    exact Nat.pow_lt_pow_right (by decide) (by omega)
  rw [Nat.sub_add_cancel hp, Nat.mod_eq_of_lt hlt]

theorem CeilToPow2_pow2 (n : Nat) (h1 : 1 ≤ n) (h2 : n ≤ 2 ^ 63) :
    ∃ e, e ≤ 63 ∧ CeilToPow2 n = 2 ^ e ∧ n ≤ 2 ^ e ∧ 2 ^ e < 2 * n := by
  refine ⟨Nat.size (n - 1), Nat.size_le.2 (by omega), CeilToPow2_eq n h1 h2, ?_, ?_⟩
  · have := Nat.lt_size_self (n - 1); omega
  · by_cases h0 : Nat.size (n - 1) = 0
    · rw [h0]; omega
    · have h3 : 2 ^ (Nat.size (n - 1) - 1) ≤ n - 1 := Nat.lt_size.1 (by omega)
      have h4 : 2 ^ Nat.size (n - 1) = 2 * 2 ^ (Nat.size (n - 1) - 1) := by
        rw [← pow_succ']; congr 1; omega
      omega

theorem CeilToPow2_self (e : Nat) (he : e ≤ 63) : CeilToPow2 (2 ^ e) = 2 ^ e := by
  have : ∀ e < 64, CeilToPow2 (2 ^ e) = 2 ^ e := by decide
  exact this e (by omega)

/-! ## Index arithmetic -/

theorem two_pow_lt_SIZE_MOD (e : Nat) (he : e ≤ 63) : 2 ^ e < SIZE_MOD := by
  unfold SIZE_MOD
  exact Nat.pow_lt_pow_right (by decide) (by omega)

theorem mask_of_pow2 (e : Nat) (he : e ≤ 63) :
    (2 ^ e + SIZE_MOD - 1) % SIZE_MOD = 2 ^ e - 1 := by
  have h1 : 1 ≤ 2 ^ e := Nat.one_le_two_pow
  have h2 := two_pow_lt_SIZE_MOD e he
  have e1 : 2 ^ e + SIZE_MOD - 1 = (2 ^ e - 1) + SIZE_MOD := by omega
  rw [e1, Nat.add_mod_right, Nat.mod_eq_of_lt (by omega)]

theorem nextIndex_pow2 (e i : Nat) (he : e ≤ 63) (hi : i < 2 ^ e) :
    nextIndex (2 ^ e - 1) i = (i + 1) % 2 ^ e := by
  have h2 := two_pow_lt_SIZE_MOD e he
  unfold nextIndex
  rw [Nat.mod_eq_of_lt (by omega), Nat.and_pow_two_sub_one_eq_mod]

theorem walk_succ (c h d : Nat) : ((h + d) % c + 1) % c = (h + (d + 1)) % c := by
  rw [Nat.mod_add_mod, Nat.add_assoc]

theorem walk_inj (c h d1 d2 : Nat) (h1 : d1 < c) (h2 : d2 < c)
    (he : (h + d1) % c = (h + d2) % c) : d1 = d2 := by
  have h3 : d1 ≡ d2 [MOD c] := Nat.ModEq.add_left_cancel' h he
  exact Nat.ModEq.eq_of_lt_of_lt h3 h1 h2

theorem walk_surj (c h j : Nat) (hj : j < c) : ∃ d, d < c ∧ (h + d) % c = j := by
  refine ⟨(j + c - h % c) % c, Nat.mod_lt _ (by omega), ?_⟩
  have h1 : h % c < c := Nat.mod_lt _ (by omega)
  rw [Nat.add_mod_mod, ← Nat.mod_add_mod]
  have e1 : h % c + (j + c - h % c) = j + c := by omega
  rw [e1, Nat.add_mod_right, Nat.mod_eq_of_lt hj]

theorem walk_lt (c h d : Nat) (hc : 0 < c) : (h + d) % c < c := Nat.mod_lt _ hc

theorem exists_first (P : Nat → Prop) (h : ∃ d, P d) : ∃ d0, P d0 ∧ ∀ d', d' < d0 → ¬ P d' := by
  classical
  exact ⟨Nat.find h, Nat.find_spec h, fun d' hd' => Nat.find_min h hd'⟩

/-! ## The scanning loops -/

theorem scanWhile_stop (p : PNode K V → Bool) (mask : Nat) (t : List (PNode K V))
    (fuel i : Nat) (nd : PNode K V) (h : t[i]? = some nd) (hp : p nd = false) :
    scanWhile p mask t (fuel + 1) i = Res.ok i := by
  simp [scanWhile, h, hp]

theorem scanWhile_skip (p : PNode K V → Bool) (e : Nat) (t : List (PNode K V))
    (hlen : t.length = 2 ^ e) (he : e ≤ 63) (h n fuel : Nat) :
    ∀ d, (∀ d', d ≤ d' → d' < d + n →
        ∃ nd, t[(h + d') % 2 ^ e]? = some nd ∧ p nd = true) →
      scanWhile p (2 ^ e - 1) t (fuel + n) ((h + d) % 2 ^ e)
        = scanWhile p (2 ^ e - 1) t fuel ((h + (d + n)) % 2 ^ e) := by
  induction n with
  | zero => intro d _; rfl
  | succ n ih =>
    intro d hskip
    obtain ⟨nd, hnd, hp⟩ := hskip d (le_refl _) (by omega)
    have hpos : 0 < 2 ^ e := Nat.two_pow_pos e
    have e1 : fuel + (n + 1) = (fuel + n) + 1 := by omega
    rw [e1]
    simp only [scanWhile, hnd, hp, if_true]
    rw [nextIndex_pow2 e _ he (Nat.mod_lt _ hpos), walk_succ]
    rw [ih (d + 1) (fun d' h1 h2 => hskip d' (by omega) (by omega))]
    congr 2
    omega

/-- A scanning loop stops at the first slot, counted from its start, that
fails the loop condition. -/
theorem scanWhile_first (p : PNode K V → Bool) (e : Nat) (t : List (PNode K V))
    (hlen : t.length = 2 ^ e) (he : e ≤ 63) (h : Nat)
    (hex : ∃ (i : Nat) (nd : PNode K V), t[i]? = some nd ∧ p nd = false) :
    ∃ d0 nd0, d0 < 2 ^ e ∧ t[(h + d0) % 2 ^ e]? = some nd0 ∧ p nd0 = false ∧
      (∀ d', d' < d0 → ∃ nd, t[(h + d') % 2 ^ e]? = some nd ∧ p nd = true) ∧
      ∀ fuel, 2 ^ e ≤ fuel →
        scanWhile p (2 ^ e - 1) t fuel (h % 2 ^ e) = Res.ok ((h + d0) % 2 ^ e) := by
  have hpos : 0 < 2 ^ e := Nat.two_pow_pos e
  obtain ⟨i, nd, hi, hp⟩ := hex
  have hil : i < 2 ^ e := by
    rw [← hlen]; exact (List.getElem?_eq_some_iff.1 hi).1
  obtain ⟨d, hd, hw⟩ := walk_surj (2 ^ e) h i hil
  obtain ⟨d0, ⟨hd0, nd0, hn0, hp0⟩, hmin⟩ := exists_first
    (fun d => d < 2 ^ e ∧ ∃ nd, t[(h + d) % 2 ^ e]? = some nd ∧ p nd = false)
    ⟨d, hd, nd, by rw [hw]; exact hi, hp⟩
  have hbefore : ∀ d', d' < d0 → ∃ nd, t[(h + d') % 2 ^ e]? = some nd ∧ p nd = true := by
    intro d' hd'
    have hlt : (h + d') % 2 ^ e < t.length := by rw [hlen]; exact Nat.mod_lt _ hpos
    refine ⟨t[(h + d') % 2 ^ e], List.getElem?_eq_getElem hlt, ?_⟩
    cases hpp : p t[(h + d') % 2 ^ e] with
    | true => rfl
    | false =>
      exact absurd ⟨by omega, _, List.getElem?_eq_getElem hlt, hpp⟩ (hmin d' hd')
  refine ⟨d0, nd0, hd0, hn0, hp0, hbefore, ?_⟩
  intro fuel hf
  have e1 : fuel = (fuel - d0 - 1 + 1) + d0 := by omega
  have e2 : h % 2 ^ e = (h + 0) % 2 ^ e := rfl
  rw [e1, e2, scanWhile_skip p e t hlen he h d0 _ 0 (fun d' _ h2 => hbefore d' (by omega))]
  rw [Nat.zero_add]
  exact scanWhile_stop p _ t _ _ nd0 hn0 hp0

/-! ## The probe loop -/

theorem lt_of_getElem? (t : List (PNode K V)) (i : Nat) (nd : PNode K V)
    (h : t[i]? = some nd) : i < t.length :=
  (List.getElem?_eq_some_iff.1 h).1

theorem type_cases (nd : PNode K V) :
    nd.type = NodeType.ACTIVE ∨ nd.type = NodeType.EMPTY ∨ nd.type = NodeType.DELETED := by
  cases nd.type <;> simp

theorem used_lt_exists (t : List (PNode K V)) (h : used t < t.length) :
    ∃ (i : Nat) (nd : PNode K V), t[i]? = some nd ∧ nd.type = NodeType.EMPTY := by
  by_contra hne
  have hall : ∀ nd ∈ t, decide (nd.type ≠ NodeType.EMPTY) = true := by
    intro nd hnd
    obtain ⟨i, hi⟩ := List.mem_iff_getElem?.1 hnd
    have : ¬ nd.type = NodeType.EMPTY := fun e => hne ⟨i, nd, hi, e⟩
    simpa using this
  have := List.countP_eq_length.2 hall
  unfold used at h
  omega

theorem loop_skip (hash : K → Nat) (key : K) (s : XSFLinearProbingHashMap K V) (e : Nat)
    (hcap : s.capacity_ = 2 ^ e) (he : e ≤ 63) (hmask : s.mask_ = 2 ^ e - 1)
    (h n fuel : Nat) :
    ∀ d, (∀ d', d ≤ d' → d' < d + n →
        ∃ nd, s.table_[(h + d') % 2 ^ e]? = some nd ∧
          (nd.type = NodeType.DELETED ∨
            (nd.type = NodeType.ACTIVE ∧ nd.key ≠ key ∧ d' ≤ 2 ^ e))) →
      LinearProbingLoop hash key (fuel + n) s ((h + d) % 2 ^ e) d
        = LinearProbingLoop hash key fuel s ((h + (d + n)) % 2 ^ e) (d + n) := by
  induction n with
  | zero => intro d _; rfl
  | succ n ih =>
    intro d hskip
    obtain ⟨nd, hnd, hty⟩ := hskip d (le_refl _) (by omega)
    have hpos : 0 < 2 ^ e := Nat.two_pow_pos e
    have e1 : fuel + (n + 1) = (fuel + n) + 1 := by omega
    have hnext : nextIndex s.mask_ ((h + d) % 2 ^ e) = (h + (d + 1)) % 2 ^ e := by
      rw [hmask, nextIndex_pow2 e _ he (Nat.mod_lt _ hpos), walk_succ]
    have hrec := ih (d + 1) (fun d' h1 h2 => hskip d' (by omega) (by omega))
    have e2 : d + 1 + n = d + (n + 1) := by omega
    rw [e2] at hrec
    rw [e1]
    rcases hty with hdel | ⟨hact, hkey, hd⟩
    · simp only [LinearProbingLoop, hnd, hdel, hnext]
      exact hrec
    · have hstep : ¬ d > s.capacity_ := by rw [hcap]; omega
      simp only [LinearProbingLoop, hnd, hact, hkey, if_false, hstep, hnext]
      exact hrec

theorem loop_found (hash : K → Nat) (s : XSFLinearProbingHashMap K V) (fuel i step : Nat)
    (nd : PNode K V) (h : s.table_[i]? = some nd) (ha : nd.type = NodeType.ACTIVE) :
    LinearProbingLoop hash nd.key (fuel + 1) s i step = Res.ok (true, i, s) := by
  simp only [LinearProbingLoop, h, ha, if_true]

theorem loop_empty (hash : K → Nat) (key : K) (s : XSFLinearProbingHashMap K V)
    (fuel i step : Nat) (nd : PNode K V) (h : s.table_[i]? = some nd)
    (ha : nd.type = NodeType.EMPTY) :
    LinearProbingLoop hash key (fuel + 1) s i step = Res.ok (false, i, s) := by
  simp only [LinearProbingLoop, h, ha]

theorem Shape.hashIndex {s : XSFLinearProbingHashMap K V} (sh : s.Shape) (hash : K → Nat)
    (key : K) : HashIndex hash s key = (hash key + 0) % s.capacity_ := by
  obtain ⟨e, _, hc⟩ := sh.pow2
  unfold HashIndex
  rw [sh.mask, hc, Nat.and_pow_two_sub_one_eq_mod]
  rfl

/-- A stored key is found, in the slot that holds it. -/
theorem Inv.probe_stored {hash : K → Nat} {s : XSFLinearProbingHashMap K V}
    (inv : Inv hash s) (j : Nat) (nj : PNode K V) (hj : s.table_[j]? = some nj)
    (ha : nj.type = NodeType.ACTIVE) (fuel : Nat) (hf : s.capacity_ ≤ fuel) :
    LinearProbing hash fuel s nj.key = Res.ok (true, j, s) := by
  obtain ⟨e, he, hc⟩ := inv.shape.pow2
  have hlen : s.table_.length = 2 ^ e := by rw [inv.shape.len, hc]
  have hmask : s.mask_ = 2 ^ e - 1 := by rw [inv.shape.mask, hc]
  obtain ⟨d, hd, hw, hbefore⟩ := inv.chain j nj hj ha
  rw [hlen] at hd hw hbefore
  have hpos : 0 < 2 ^ e := Nat.two_pow_pos e
  unfold LinearProbing
  rw [inv.shape.hashIndex, hc]
  have e1 : fuel = (fuel - d - 1 + 1) + d := by omega
  rw [e1, loop_skip hash nj.key s e hc he hmask (hash nj.key) d _ 0, Nat.zero_add, hw]
  · exact loop_found hash s _ j d nj hj ha
  · intro d' _ hd'
    have hlt : (hash nj.key + d') % 2 ^ e < s.table_.length := by
      rw [hlen]; exact Nat.mod_lt _ hpos
    refine ⟨s.table_[(hash nj.key + d') % 2 ^ e], List.getElem?_eq_getElem hlt, ?_⟩
    have hne := hbefore d' (by omega) _ (List.getElem?_eq_getElem hlt)
    rcases type_cases (s.table_[(hash nj.key + d') % 2 ^ e]) with h1 | h1 | h1
    · refine Or.inr ⟨h1, ?_, by omega⟩
      intro hk
      have := inv.uniq _ _ _ _ (List.getElem?_eq_getElem hlt) hj h1 ha hk
      rw [← hw] at this
      have := walk_inj _ _ _ _ (by omega) hd this
      omega
    · exact absurd h1 hne
    · exact Or.inl h1

/-- A key that is not stored is reported missing, at an EMPTY slot, when the
table has one. -/
theorem Shape.probe_absent {s : XSFLinearProbingHashMap K V} (sh : s.Shape) (hash : K → Nat)
    (key : K) (habs : ¬ Stored s.table_ key) (hused : used s.table_ < s.capacity_) :
    ∃ (j : Nat) (nd : PNode K V), s.table_[j]? = some nd ∧ nd.type = NodeType.EMPTY ∧
      ∀ fuel, s.capacity_ ≤ fuel → LinearProbing hash fuel s key = Res.ok (false, j, s) := by
  obtain ⟨e, he, hc⟩ := sh.pow2
  have hlen : s.table_.length = 2 ^ e := by rw [sh.len, hc]
  have hmask : s.mask_ = 2 ^ e - 1 := by rw [sh.mask, hc]
  have hpos : 0 < 2 ^ e := Nat.two_pow_pos e
  obtain ⟨i, nd, hi, hE⟩ := used_lt_exists s.table_ (by rw [sh.len]; exact hused)
  have hil : i < 2 ^ e := by rw [← hlen]; exact lt_of_getElem? _ _ _ hi
  obtain ⟨d, hd, hw⟩ := walk_surj (2 ^ e) (hash key) i hil
  obtain ⟨d0, ⟨hd0, nd0, hn0, hE0⟩, hmin⟩ := exists_first
    (fun d => d < 2 ^ e ∧ ∃ nd : PNode K V,
      s.table_[(hash key + d) % 2 ^ e]? = some nd ∧ nd.type = NodeType.EMPTY)
    ⟨d, hd, nd, by rw [hw]; exact hi, hE⟩
  refine ⟨(hash key + d0) % 2 ^ e, nd0, hn0, hE0, ?_⟩
  intro fuel hf
  rw [hc] at hf
  unfold LinearProbing
  rw [sh.hashIndex, hc]
  have e1 : fuel = (fuel - d0 - 1 + 1) + d0 := by omega
  rw [e1, loop_skip hash key s e hc he hmask (hash key) d0 _ 0, Nat.zero_add]
  · exact loop_empty hash key s _ _ d0 nd0 hn0 hE0
  · intro d' _ hd'
    have hlt : (hash key + d') % 2 ^ e < s.table_.length := by
      rw [hlen]; exact Nat.mod_lt _ hpos
    refine ⟨s.table_[(hash key + d') % 2 ^ e], List.getElem?_eq_getElem hlt, ?_⟩
    rcases type_cases (s.table_[(hash key + d') % 2 ^ e]) with h1 | h1 | h1
    · refine Or.inr ⟨h1, ?_, by omega⟩
      intro hk
      exact habs ⟨_, _, List.getElem?_eq_getElem hlt, h1, hk⟩
    · exact absurd ⟨by omega, _, List.getElem?_eq_getElem hlt, h1⟩ (hmin d' (by omega))
    · exact Or.inl h1

/-! ## Writing one slot -/

theorem getElem?_set_iff (t : List (PNode K V)) (j i : Nat) (a x : PNode K V)
    (hj : j < t.length) :
    (t.set j a)[i]? = some x ↔ (i = j ∧ x = a) ∨ (i ≠ j ∧ t[i]? = some x) := by
  rw [List.getElem?_set]
  by_cases h : j = i
  · subst h
    simp [hj, eq_comm]
  · have h2 : ¬ i = j := fun e => h e.symm
    simp [h, h2]

theorem countP_set_of (p : PNode K V → Bool) (t : List (PNode K V)) (j : Nat)
    (old a : PNode K V) (h : t[j]? = some old) :
    (t.set j a).countP p + (if p old then 1 else 0)
      = t.countP p + (if p a then 1 else 0) := by
  obtain ⟨hj, he⟩ := List.getElem?_eq_some_iff.1 h
  rw [List.countP_set p t j a hj, he]
  have := List.boole_getElem_le_countP p t j hj
  rw [he] at this
  omega

/-- Writing a key that is not stored into a slot that is not ACTIVE and that
its probe chain reaches. -/
theorem set_active (hash : K → Nat) (t : List (PNode K V)) (hu : Uniq t) (hc : Chain hash t)
    (j : Nat) (old : PNode K V) (hj : t[j]? = some old) (hold : old.type ≠ NodeType.ACTIVE)
    (k : K) (v : V) (habs : ¬ Stored t k) (d : Nat) (hd : d < t.length)
    (hw : (hash k + d) % t.length = j)
    (hbefore : ∀ d', d' < d → ∀ n' : PNode K V,
      t[(hash k + d') % t.length]? = some n' → n'.type ≠ NodeType.EMPTY) :
    Uniq (t.set j ⟨k, v, NodeType.ACTIVE⟩) ∧
    Chain hash (t.set j ⟨k, v, NodeType.ACTIVE⟩) ∧
    (∀ k' v', Holds (t.set j ⟨k, v, NodeType.ACTIVE⟩) k' v' ↔
      ((k' = k ∧ v' = v) ∨ Holds t k' v')) ∧
    actives (t.set j ⟨k, v, NodeType.ACTIVE⟩) = actives t + 1 ∧
    used (t.set j ⟨k, v, NodeType.ACTIVE⟩)
      = used t + (if old.type = NodeType.EMPTY then 1 else 0) := by
  have hjl : j < t.length := lt_of_getElem? _ _ _ hj
  refine ⟨?_, ?_, ?_, ?_, ?_⟩
  · intro i1 i2 n1 n2 h1 h2 a1 a2 hk
    rw [getElem?_set_iff t j _ _ _ hjl] at h1 h2
    rcases h1 with ⟨e1, x1⟩ | ⟨e1, x1⟩ <;> rcases h2 with ⟨e2, x2⟩ | ⟨e2, x2⟩
    · rw [e1, e2]
    · subst x1
      exact absurd ⟨i2, n2, x2, a2, hk.symm⟩ habs
    · subst x2
      exact absurd ⟨i1, n1, x1, a1, hk⟩ habs
    · exact hu i1 i2 n1 n2 x1 x2 a1 a2 hk
  · intro i ni hi ha
    rw [List.length_set]
    rw [getElem?_set_iff t j _ _ _ hjl] at hi
    rcases hi with ⟨e1, x1⟩ | ⟨e1, x1⟩
    · subst x1
      refine ⟨d, hd, by rw [hw, e1], ?_⟩
      intro d' hd' n' hn'
      rw [getElem?_set_iff t j _ _ _ hjl] at hn'
      rcases hn' with ⟨_, x2⟩ | ⟨_, x2⟩
      · subst x2; simp
      · exact hbefore d' hd' n' x2
    · obtain ⟨d1, hd1, hw1, hb1⟩ := hc i ni x1 ha
      refine ⟨d1, hd1, hw1, ?_⟩
      intro d' hd' n' hn'
      rw [getElem?_set_iff t j _ _ _ hjl] at hn'
      rcases hn' with ⟨_, x2⟩ | ⟨_, x2⟩
      · subst x2; simp
      · exact hb1 d' hd' n' x2
  · intro k' v'
    constructor
    · rintro ⟨i, ni, hi, ha, hk, hv⟩
      rw [getElem?_set_iff t j _ _ _ hjl] at hi
      rcases hi with ⟨_, x1⟩ | ⟨_, x1⟩
      · subst x1
        exact Or.inl ⟨hk.symm, hv.symm⟩
      · exact Or.inr ⟨i, ni, x1, ha, hk, hv⟩
    · rintro (⟨hk, hv⟩ | ⟨i, ni, hi, ha, hk, hv⟩)
      · exact ⟨j, ⟨k, v, NodeType.ACTIVE⟩,
          (getElem?_set_iff t j _ _ _ hjl).2 (Or.inl ⟨rfl, rfl⟩), rfl, hk.symm, hv.symm⟩
      · have hij : i ≠ j := by
          intro e
          subst e
          rw [hj] at hi
          cases hi
          exact hold ha
        exact ⟨i, ni, (getElem?_set_iff t j _ _ _ hjl).2 (Or.inr ⟨hij, hi⟩), ha, hk, hv⟩
  · have := countP_set_of (fun nd => decide (nd.type = NodeType.ACTIVE)) t j old
      ⟨k, v, NodeType.ACTIVE⟩ hj
    simp only [hold, decide_False, Bool.false_eq_true, if_false, decide_True, if_true] at this
    exact this
  · have := countP_set_of (fun nd => decide (nd.type ≠ NodeType.EMPTY)) t j old
      ⟨k, v, NodeType.ACTIVE⟩ hj
    by_cases he : old.type = NodeType.EMPTY
    · simp [he] at this
      simp [used, he, this]
    · simp [he] at this
      simp [used, he, this]

/-- Marking the slot of a stored key DELETED. -/
theorem set_deleted (hash : K → Nat) (t : List (PNode K V)) (hu : Uniq t) (hc : Chain hash t)
    (j : Nat) (old : PNode K V) (hj : t[j]? = some old) (hold : old.type = NodeType.ACTIVE) :
    Uniq (t.set j { old with type := NodeType.DELETED }) ∧
    Chain hash (t.set j { old with type := NodeType.DELETED }) ∧
    (∀ k' v', Holds (t.set j { old with type := NodeType.DELETED }) k' v' ↔
      (k' ≠ old.key ∧ Holds t k' v')) ∧
    actives (t.set j { old with type := NodeType.DELETED }) + 1 = actives t ∧
    used (t.set j { old with type := NodeType.DELETED }) = used t := by
  have hjl : j < t.length := lt_of_getElem? _ _ _ hj
  refine ⟨?_, ?_, ?_, ?_, ?_⟩
  · intro i1 i2 n1 n2 h1 h2 a1 a2 hk
    rw [getElem?_set_iff t j _ _ _ hjl] at h1 h2
    rcases h1 with ⟨e1, x1⟩ | ⟨e1, x1⟩
    · subst x1; cases a1
    · rcases h2 with ⟨e2, x2⟩ | ⟨e2, x2⟩
      · subst x2; cases a2
      · exact hu i1 i2 n1 n2 x1 x2 a1 a2 hk
  · intro i ni hi ha
    rw [List.length_set]
    rw [getElem?_set_iff t j _ _ _ hjl] at hi
    rcases hi with ⟨e1, x1⟩ | ⟨e1, x1⟩
    · subst x1; cases ha
    · obtain ⟨d1, hd1, hw1, hb1⟩ := hc i ni x1 ha
      refine ⟨d1, hd1, hw1, ?_⟩
      intro d' hd' n' hn'
      rw [getElem?_set_iff t j _ _ _ hjl] at hn'
      rcases hn' with ⟨_, x2⟩ | ⟨_, x2⟩
      · subst x2; simp
      · exact hb1 d' hd' n' x2
  · intro k' v'
    constructor
    · rintro ⟨i, ni, hi, ha, hk, hv⟩
      rw [getElem?_set_iff t j _ _ _ hjl] at hi
      rcases hi with ⟨_, x1⟩ | ⟨hij, x1⟩
      · subst x1; cases ha
      · refine ⟨?_, i, ni, x1, ha, hk, hv⟩
        intro e
        exact hij (hu i j ni old x1 hj ha hold (by rw [hk, e]))
    · rintro ⟨hne, i, ni, hi, ha, hk, hv⟩
      have hij : i ≠ j := by
        intro e
        subst e
        rw [hj] at hi
        cases hi
        exact hne hk.symm
      exact ⟨i, ni, (getElem?_set_iff t j _ _ _ hjl).2 (Or.inr ⟨hij, hi⟩), ha, hk, hv⟩
  · have := countP_set_of (fun nd => decide (nd.type = NodeType.ACTIVE)) t j old
      { old with type := NodeType.DELETED } hj
    simp [hold] at this
    simp [actives, this]
  · have := countP_set_of (fun nd => decide (nd.type ≠ NodeType.EMPTY)) t j old
      { old with type := NodeType.DELETED } hj
    simp [hold] at this
    simp [used, this]

/-- Writing the value of an ACTIVE slot. -/
theorem set_value (hash : K → Nat) (t : List (PNode K V)) (hu : Uniq t) (hc : Chain hash t)
    (j : Nat) (old : PNode K V) (hj : t[j]? = some old) (hold : old.type = NodeType.ACTIVE)
    (v : V) :
    Uniq (t.set j { old with value := v }) ∧
    Chain hash (t.set j { old with value := v }) ∧
    (∀ k' v', Holds (t.set j { old with value := v }) k' v' ↔
      ((k' = old.key ∧ v' = v) ∨ (k' ≠ old.key ∧ Holds t k' v'))) ∧
    actives (t.set j { old with value := v }) = actives t ∧
    used (t.set j { old with value := v }) = used t := by
  have hjl : j < t.length := lt_of_getElem? _ _ _ hj
  refine ⟨?_, ?_, ?_, ?_, ?_⟩
  · intro i1 i2 n1 n2 h1 h2 a1 a2 hk
    rw [getElem?_set_iff t j _ _ _ hjl] at h1 h2
    rcases h1 with ⟨e1, x1⟩ | ⟨e1, x1⟩ <;> rcases h2 with ⟨e2, x2⟩ | ⟨e2, x2⟩
    · rw [e1, e2]
    · subst x1
      exact absurd (hu j i2 old n2 hj x2 hold a2 hk) (fun e => e2 e.symm)
    · subst x2
      exact absurd (hu i1 j n1 old x1 hj a1 hold hk) e1
    · exact hu i1 i2 n1 n2 x1 x2 a1 a2 hk
  · intro i ni hi ha
    rw [List.length_set]
    have hchain : ∀ (i : Nat) (ni : PNode K V), t[i]? = some ni → ni.type = NodeType.ACTIVE →
        ∃ d, d < t.length ∧ (hash ni.key + d) % t.length = i ∧
          ∀ d', d' < d → ∀ n' : PNode K V,
            (t.set j { old with value := v })[(hash ni.key + d') % t.length]? = some n' →
              n'.type ≠ NodeType.EMPTY := by
      intro i ni hi ha
      obtain ⟨d1, hd1, hw1, hb1⟩ := hc i ni hi ha
      refine ⟨d1, hd1, hw1, ?_⟩
      intro d' hd' n' hn'
      rw [getElem?_set_iff t j _ _ _ hjl] at hn'
      rcases hn' with ⟨_, x2⟩ | ⟨_, x2⟩
      · subst x2; simp [hold]
      · exact hb1 d' hd' n' x2
    rw [getElem?_set_iff t j _ _ _ hjl] at hi
    rcases hi with ⟨e1, x1⟩ | ⟨e1, x1⟩
    · subst x1
      rw [e1]
      exact hchain j old hj hold
    · exact hchain i ni x1 ha
  · intro k' v'
    constructor
    · rintro ⟨i, ni, hi, ha, hk, hv⟩
      rw [getElem?_set_iff t j _ _ _ hjl] at hi
      rcases hi with ⟨_, x1⟩ | ⟨hij, x1⟩
      · subst x1
        exact Or.inl ⟨hk.symm, hv.symm⟩
      · refine Or.inr ⟨?_, i, ni, x1, ha, hk, hv⟩
        intro e
        exact hij (hu i j ni old x1 hj ha hold (by rw [hk, e]))
    · rintro (⟨hk, hv⟩ | ⟨hne, i, ni, hi, ha, hk, hv⟩)
      · exact ⟨j, { old with value := v },
          (getElem?_set_iff t j _ _ _ hjl).2 (Or.inl ⟨rfl, rfl⟩), hold, hk.symm, hv.symm⟩
      · have hij : i ≠ j := by
          intro e
          subst e
          rw [hj] at hi
          cases hi
          exact hne hk.symm
        exact ⟨i, ni, (getElem?_set_iff t j _ _ _ hjl).2 (Or.inr ⟨hij, hi⟩), ha, hk, hv⟩
  · have := countP_set_of (fun nd => decide (nd.type = NodeType.ACTIVE)) t j old
      { old with value := v } hj
    simp [hold] at this
    simp [actives, hold, this]
  · have := countP_set_of (fun nd => decide (nd.type ≠ NodeType.EMPTY)) t j old
      { old with value := v } hj
    simp [hold] at this
    simp [used, hold, this]

/-! ## Resize -/

theorem stored_iff_holds (t : List (PNode K V)) (k : K) : Stored t k ↔ ∃ v, Holds t k v := by
  constructor
  · rintro ⟨j, nd, h1, h2, h3⟩
    exact ⟨nd.value, j, nd, h1, h2, h3, rfl⟩
  · rintro ⟨v, j, nd, h1, h2, h3, _⟩
    exact ⟨j, nd, h1, h2, h3⟩

theorem actives_cons (nd : PNode K V) (t : List (PNode K V)) :
    actives (nd :: t) = actives t + (if nd.type = NodeType.ACTIVE then 1 else 0) := by
  unfold actives
  rw [List.countP_cons]
  simp

theorem rehash_spec (hash : K → Nat) (e : Nat) (he : e ≤ 63) (fuel : Nat) (hf : 2 ^ e ≤ fuel) :
    ∀ (old t : List (PNode K V)), t.length = 2 ^ e → Uniq t → Chain hash t →
      used t = actives t → DistinctKeys old →
      (∀ nd ∈ old, nd.type = NodeType.ACTIVE → ¬ Stored t nd.key) →
      actives t + actives old < 2 ^ e →
      ∃ t1, rehash hash (2 ^ e - 1) fuel old t = Res.ok t1 ∧ t1.length = 2 ^ e ∧ Uniq t1 ∧
        Chain hash t1 ∧ used t1 = actives t1 ∧ actives t1 = actives t + actives old ∧
        ∀ k v, Holds t1 k v ↔
          (Holds t k v ∨ ∃ nd ∈ old, nd.type = NodeType.ACTIVE ∧ nd.key = k ∧ nd.value = v) := by
  intro old
  induction old with
  | nil =>
    intro t hlen hu hc hnt _ _ _
    exact ⟨t, rfl, hlen, hu, hc, hnt, by simp [actives], fun k v => by simp⟩
  | cons nd old ih =>
    intro t hlen hu hc hnt hdist hfresh hroom
    have hd2 := List.pairwise_cons.1 hdist
    by_cases ha : nd.type = NodeType.ACTIVE
    · rw [actives_cons, if_pos ha] at hroom
      have hex : ∃ (i : Nat) (n0 : PNode K V), t[i]? = some n0 ∧
          (fun n : PNode K V => decide (n.type ≠ NodeType.EMPTY)) n0 = false := by
        obtain ⟨i, n0, h1, h2⟩ := used_lt_exists t (by rw [hnt, hlen]; omega)
        exact ⟨i, n0, h1, by simp [h2]⟩
      obtain ⟨d0, n0, hd0, hn0, hp0, hbefore, hscan⟩ :=
        scanWhile_first _ e t hlen he (hash nd.key) hex
      have hE : n0.type = NodeType.EMPTY := by simpa using hp0
      have habs : ¬ Stored t nd.key := hfresh nd (List.mem_cons_self _ _) ha
      obtain ⟨u1, c1, hold1, a1, us1⟩ := set_active hash t hu hc ((hash nd.key + d0) % 2 ^ e)
        n0 (by rw [hlen] at *; exact hn0) (by rw [hE]; simp) nd.key nd.value habs d0
        (by rw [hlen]; exact hd0) (by rw [hlen])
        (fun d' hd' n' hn' => by
          rw [hlen] at hn'
          obtain ⟨n2, h2, hp2⟩ := hbefore d' hd'
          rw [h2] at hn'
          cases hn'
          simpa using hp2)
      rw [if_pos hE] at us1
      obtain ⟨t1, hr, hl1, hu1, hc1, hnt1, hact1, hh1⟩ :=
        ih (t.set ((hash nd.key + d0) % 2 ^ e) ⟨nd.key, nd.value, NodeType.ACTIVE⟩)
          (by rw [List.length_set]; exact hlen) u1 c1 (by rw [us1, a1, hnt]) hd2.2
          (fun n' hn' ha' => by
            rw [stored_iff_holds]
            rintro ⟨v, hv⟩
            rcases (hold1 _ _).1 hv with ⟨hk, _⟩ | hv2
            · exact hd2.1 n' hn' ha ha' hk.symm
            · exact hfresh n' (List.mem_cons_of_mem _ hn') ha'
                ((stored_iff_holds _ _).2 ⟨v, hv2⟩))
          (by rw [a1]; omega)
      refine ⟨t1, ?_, hl1, hu1, hc1, hnt1, ?_, ?_⟩
      · simp only [rehash, ha, if_true, findEmpty, Nat.and_pow_two_sub_one_eq_mod]
        rw [hscan fuel hf]
        exact hr
      · rw [hact1, a1, actives_cons, if_pos ha]; omega
      · intro k v
        rw [hh1 k v, hold1 k v]
        constructor
        · rintro ((⟨hk, hv⟩ | h) | ⟨n', hn', h⟩)
          · exact Or.inr ⟨nd, List.mem_cons_self _ _, ha, hk.symm, hv.symm⟩
          · exact Or.inl h
          · exact Or.inr ⟨n', List.mem_cons_of_mem _ hn', h⟩
        · rintro (h | ⟨n', hn', h1, h2, h3⟩)
          · exact Or.inl (Or.inr h)
          · rcases List.mem_cons.1 hn' with e1 | e1
            · subst e1
              exact Or.inl (Or.inl ⟨h2.symm, h3.symm⟩)
            · exact Or.inr ⟨n', e1, h1, h2, h3⟩
    · rw [actives_cons, if_neg ha] at hroom
      obtain ⟨t1, hr, hl1, hu1, hc1, hnt1, hact1, hh1⟩ :=
        ih t hlen hu hc hnt hd2.2
          (fun n' hn' ha' => hfresh n' (List.mem_cons_of_mem _ hn') ha') (by omega)
      refine ⟨t1, ?_, hl1, hu1, hc1, hnt1, ?_, ?_⟩
      · simp only [rehash, ha, if_false]
        exact hr
      · rw [hact1, actives_cons, if_neg ha]; omega
      · intro k v
        rw [hh1 k v]
        constructor
        · rintro (h | ⟨n', hn', h⟩)
          · exact Or.inl h
          · exact Or.inr ⟨n', List.mem_cons_of_mem _ hn', h⟩
        · rintro (h | ⟨n', hn', h1, h2, h3⟩)
          · exact Or.inl h
          · rcases List.mem_cons.1 hn' with e1 | e1
            · subst e1; exact absurd h1 ha
            · exact Or.inr ⟨n', e1, h1, h2, h3⟩

theorem replicate_empty_facts (hash : K → Nat) (n : Nat) :
    Uniq (List.replicate n (emptyNode : PNode K V)) ∧
    Chain hash (List.replicate n (emptyNode : PNode K V)) ∧
    used (List.replicate n (emptyNode : PNode K V)) = 0 ∧
    actives (List.replicate n (emptyNode : PNode K V)) = 0 ∧
    ∀ k v, ¬ Holds (List.replicate n (emptyNode : PNode K V)) k v := by
  have hty : ∀ (i : Nat) (nd : PNode K V),
      (List.replicate n (emptyNode : PNode K V))[i]? = some nd → nd.type = NodeType.EMPTY := by
    intro i nd h
    have := List.eq_of_mem_replicate (List.mem_iff_getElem?.2 ⟨i, h⟩)
    rw [this]; rfl
  refine ⟨?_, ?_, ?_, ?_, ?_⟩
  · intro i j ni nj hi _ ha
    rw [hty i ni hi] at ha; cases ha
  · intro j nj hj ha
    rw [hty j nj hj] at ha; cases ha
  · unfold used
    rw [List.countP_eq_zero]
    intro a ha
    rw [List.eq_of_mem_replicate ha]
    simp [emptyNode]
  · unfold actives
    rw [List.countP_eq_zero]
    intro a ha
    rw [List.eq_of_mem_replicate ha]
    simp [emptyNode]
  · rintro k v ⟨j, nd, hj, ha, _⟩
    rw [hty j nd hj] at ha; cases ha

theorem Uniq.distinctKeys {t : List (PNode K V)} (hu : Uniq t) : DistinctKeys t := by
  unfold DistinctKeys
  rw [List.pairwise_iff_getElem]
  intro i j hi hj hij ha hb hk
  have := hu i j _ _ (List.getElem?_eq_getElem hi) (List.getElem?_eq_getElem hj) ha hb hk
  omega

/-- The call `Resize` to a power of two with room for all entries: a table without
DELETED slots that holds the same entries. -/
theorem Inv.resize_spec {hash : K → Nat} {s : XSFLinearProbingHashMap K V} (inv : Inv hash s)
    (n e : Nat) (he : e ≤ 63) (hn : CeilToPow2 n = 2 ^ e) (hroom : s.size_ < 2 ^ e)
    (fuel : Nat) (hf : 2 ^ e ≤ fuel) :
    ∃ s1, Resize hash fuel s n = Res.ok s1 ∧ Inv hash s1 ∧ s1.capacity_ = 2 ^ e ∧
      s1.size_ = s.size_ ∧ used s1.table_ = s1.size_ ∧
      ∀ k v, Holds s1.table_ k v ↔ Holds s.table_ k v := by
  obtain ⟨r1, r2, r3, r4, r5⟩ := replicate_empty_facts (V := V) hash (2 ^ e)
  obtain ⟨t1, hr, hl1, hu1, hc1, hnt1, hact1, hh1⟩ :=
    rehash_spec hash e he fuel hf s.table_ (List.replicate (2 ^ e) emptyNode)
      (by simp) r1 r2 (by rw [r3, r4]) inv.uniq.distinctKeys
      (fun nd _ _ h => by
        obtain ⟨v, hv⟩ := (stored_iff_holds _ _).1 h
        exact r5 _ _ hv)
      (by rw [r4, ← inv.shape.size]; omega)
  have hlt : ¬ s.table_.length < s.capacity_ := by rw [inv.shape.len]; omega
  have htake : s.table_.take s.capacity_ = s.table_ :=
    List.take_of_length_le (by rw [inv.shape.len])
  refine ⟨{ size_ := s.size_, capacity_ := 2 ^ e, mask_ := 2 ^ e - 1, table_ := t1 }, ?_,
    ⟨⟨⟨e, he, rfl⟩, hl1, rfl, ?_⟩, hu1, hc1⟩, rfl, rfl, ?_, ?_⟩
  · unfold Resize
    simp only [hn, mask_of_pow2 e he, hlt, if_false, htake, hr]
  · show s.size_ = actives t1
    rw [hact1, r4, inv.shape.size]; omega
  · show used t1 = s.size_
    rw [hnt1, hact1, r4, inv.shape.size]; omega
  · intro k v
    show Holds t1 k v ↔ Holds s.table_ k v
    rw [hh1 k v]
    constructor
    · rintro (h | ⟨nd, hnd, h1, h2, h3⟩)
      · exact absurd h (r5 _ _)
      · obtain ⟨i, hi⟩ := List.mem_iff_getElem?.1 hnd
        exact ⟨i, nd, hi, h1, h2, h3⟩
    · rintro ⟨i, nd, hi, h1, h2, h3⟩
      exact Or.inr ⟨nd, List.mem_iff_getElem?.2 ⟨i, hi⟩, h1, h2, h3⟩

/-! ## The public operations on a table with an EMPTY slot -/

theorem used_cons (nd : PNode K V) (t : List (PNode K V)) :
    used (nd :: t) = used t + (if nd.type = NodeType.EMPTY then 0 else 1) := by
  unfold used
  rw [List.countP_cons]
  by_cases h : nd.type = NodeType.EMPTY <;> simp [h]

theorem actives_le_used (t : List (PNode K V)) : actives t ≤ used t := by
  induction t with
  | nil => simp [actives, used]
  | cons nd t ih =>
    rw [actives_cons, used_cons]
    rcases type_cases nd with h | h | h <;> simp [h] <;> omega

/-- A table with as many ACTIVE as non-EMPTY slots has no DELETED slot. -/
theorem noTomb_of_used_eq (t : List (PNode K V)) (h : used t = actives t) :
    ∀ nd ∈ t, nd.type ≠ NodeType.DELETED := by
  induction t with
  | nil => intro nd hnd; simp at hnd
  | cons n t ih =>
    rw [actives_cons, used_cons] at h
    have hle := actives_le_used t
    intro nd hnd
    rcases List.mem_cons.1 hnd with e | e
    · subst e
      intro hd
      simp [hd] at h
      omega
    · apply ih _ nd e
      rcases type_cases n with h1 | h1 | h1 <;> simp [h1] at h <;> omega

theorem Inv.holds_unique {hash : K → Nat} {s : XSFLinearProbingHashMap K V} (inv : Inv hash s)
    (k : K) (v w : V) (h1 : Holds s.table_ k v) (h2 : Holds s.table_ k w) : v = w := by
  obtain ⟨i, ni, hi, ai, ki, vi⟩ := h1
  obtain ⟨j, nj, hj, aj, kj, vj⟩ := h2
  have := inv.uniq i j ni nj hi hj ai aj (by rw [ki, kj])
  subst this
  rw [hi] at hj
  cases hj
  rw [← vi, ← vj]

/-- The first part of `operator[]`: the doubling `Resize` when the table is
half full. -/
theorem Inv.grow_spec {hash : K → Nat} {s : XSFLinearProbingHashMap K V} (inv : Inv hash s)
    (hcap : s.size_ ≥ s.capacity_ / 2 → s.capacity_ ≤ 2 ^ 62) (hload : 2 * s.size_ ≤ s.capacity_)
    (hused : s.size_ < s.capacity_ / 2 → used s.table_ < s.capacity_)
    (fuel : Nat) (hf : 2 ^ 63 ≤ fuel) :
    ∃ s1, (if s.size_ ≥ s.capacity_ / 2 then Resize hash fuel s (s.capacity_ * 2 % SIZE_MOD)
        else Res.ok s) = Res.ok s1 ∧
      Inv hash s1 ∧ s1.size_ = s.size_ ∧
      s1.capacity_ = (if s.size_ ≥ s.capacity_ / 2 then 2 * s.capacity_ else s.capacity_) ∧
      2 * (s1.size_ + 1) ≤ s1.capacity_ ∧
      used s1.table_ < s1.capacity_ ∧
      used s1.table_ ≤ (if s.size_ ≥ s.capacity_ / 2 then s.size_ else used s.table_) ∧
      (used s.table_ = s.size_ → used s1.table_ = s1.size_) ∧
      ∀ k v, Holds s1.table_ k v ↔ Holds s.table_ k v := by
  obtain ⟨e, he, hc⟩ := inv.shape.pow2
  have hpos : 0 < 2 ^ e := Nat.two_pow_pos e
  by_cases hg : s.size_ ≥ s.capacity_ / 2
  · have he62 : e ≤ 62 := by
      have hcap' := hcap hg
      by_contra hcon
      have : 2 ^ 63 ≤ 2 ^ e := Nat.pow_le_pow_right (by decide) (by omega)
      have h62 : (2 : Nat) ^ 62 < 2 ^ 63 := by norm_num
      omega
    have h2 : s.capacity_ * 2 = 2 ^ (e + 1) := by rw [hc, pow_succ]
    have hlt := two_pow_lt_SIZE_MOD (e + 1) (by omega)
    have hn : CeilToPow2 (s.capacity_ * 2 % SIZE_MOD) = 2 ^ (e + 1) := by
      rw [h2, Nat.mod_eq_of_lt hlt, CeilToPow2_self (e + 1) (by omega)]
    have hle : 2 ^ (e + 1) ≤ fuel :=
      le_trans (Nat.pow_le_pow_right (by decide) (by omega)) hf
    have hp : 2 ^ (e + 1) = 2 * 2 ^ e := by rw [pow_succ]; omega
    obtain ⟨s1, hr, inv1, hc1, hs1, hu1, hh1⟩ :=
      inv.resize_spec _ (e + 1) (by omega) hn (by omega) fuel hle
    refine ⟨s1, by rw [if_pos hg]; exact hr, inv1, hs1, by rw [if_pos hg, hc1, hc, hp],
      ?_, ?_, ?_, fun _ => hu1, hh1⟩
    · rw [hs1, hc1, hp]
      have hpos2 : 1 ≤ 2 ^ e := hpos
      omega
    · rw [hu1, hs1, hc1]; omega
    · rw [if_pos hg, hu1, hs1]
  · refine ⟨s, by rw [if_neg hg], inv, rfl, by rw [if_neg hg], ?_, hused (by omega), ?_,
      fun h => h, fun _ _ => Iff.rfl⟩
    · have : s.size_ < s.capacity_ / 2 := by omega
      omega
    · rw [if_neg hg]

/-- The call `operator[]` on a table with few enough non-EMPTY slots: the slot of the
key is returned; a key that was not stored is entered, and no other entry
changes. -/
theorem Inv.subscript_spec {hash : K → Nat} {s : XSFLinearProbingHashMap K V}
    (inv : Inv hash s) (hcap : s.size_ ≥ s.capacity_ / 2 → s.capacity_ ≤ 2 ^ 62) (hload : 2 * s.size_ ≤ s.capacity_)
    (hused : s.size_ < s.capacity_ / 2 → used s.table_ < s.capacity_)
    (key : K) (fuel : Nat) (hf : 2 ^ 63 ≤ fuel) :
    ∃ (index : Nat) (s1 : XSFLinearProbingHashMap K V) (nd : PNode K V),
      subscript hash fuel s key = Res.ok (index, s1) ∧ Inv hash s1 ∧
      s1.table_[index]? = some nd ∧ nd.type = NodeType.ACTIVE ∧ nd.key = key ∧
      s1.capacity_ = (if s.size_ ≥ s.capacity_ / 2 then 2 * s.capacity_ else s.capacity_) ∧
      2 * s1.size_ ≤ s1.capacity_ ∧
      s1.size_ ≤ s.size_ + 1 ∧
      (Stored s.table_ key → s1.size_ = s.size_) ∧
      (¬ Stored s.table_ key → s1.size_ = s.size_ + 1) ∧
      used s1.table_
        ≤ (if s.size_ ≥ s.capacity_ / 2 then s.size_ else used s.table_) + 1 ∧
      (used s.table_ = s.size_ → used s1.table_ = s1.size_) ∧
      (∀ k v, k ≠ key → (Holds s1.table_ k v ↔ Holds s.table_ k v)) ∧
      (∀ v, Holds s.table_ key v → nd.value = v) := by
  obtain ⟨s0, hgrow, inv0, hs0, hc0, hl0, hu0, hub0, hnt0, hh0⟩ :=
    inv.grow_spec hcap hload hused fuel hf
  obtain ⟨e, he, hc⟩ := inv0.shape.pow2
  have hlen : s0.table_.length = 2 ^ e := by rw [inv0.shape.len, hc]
  have hfc : s0.capacity_ ≤ fuel := by
    rw [hc]
    exact le_trans (Nat.pow_le_pow_right (by decide) he) hf
  have hstored : Stored s0.table_ key ↔ Stored s.table_ key := by
    rw [stored_iff_holds, stored_iff_holds]
    exact exists_congr (fun v => hh0 key v)
  by_cases hst : Stored s0.table_ key
  · obtain ⟨j, nj, hj, ha, hk⟩ := hst
    have hp := inv0.probe_stored j nj hj ha fuel hfc
    rw [hk] at hp
    refine ⟨j, s0, nj, ?_, inv0, hj, ha, hk, hc0, by omega, by omega,
      fun _ => hs0, fun h => absurd (hstored.1 ⟨j, nj, hj, ha, hk⟩) h, by omega,
      fun h => hnt0 h, fun k v _ => hh0 k v, ?_⟩
    · unfold subscript
      rw [hgrow]
      simp only [hp]
    · intro v hv
      have h1 : Holds s0.table_ key v := (hh0 key v).2 hv
      exact inv0.holds_unique key _ _ ⟨j, nj, hj, ha, hk, rfl⟩ h1
  · obtain ⟨j0, n0, _, _, hp⟩ := inv0.shape.probe_absent hash key hst hu0
    have hex : ∃ (i : Nat) (n1 : PNode K V), s0.table_[i]? = some n1 ∧
        (fun n : PNode K V => decide (n.type = NodeType.ACTIVE)) n1 = false := by
      obtain ⟨i, n1, h1, h2⟩ := used_lt_exists s0.table_ (by rw [inv0.shape.len]; exact hu0)
      exact ⟨i, n1, h1, by simp [h2]⟩
    obtain ⟨d0, n1, hd0, hn1, hp1, hbefore, hscan⟩ :=
      scanWhile_first _ e s0.table_ hlen he (hash key) hex
    have hna : n1.type ≠ NodeType.ACTIVE := by simpa using hp1
    obtain ⟨u1, c1, hold1, a1, us1⟩ := set_active hash s0.table_ inv0.uniq inv0.chain
      ((hash key + d0) % 2 ^ e) n1 hn1 hna key n1.value hst d0
      (by rw [hlen]; exact hd0) (by rw [hlen])
      (fun d' hd' n' hn' => by
        rw [hlen] at hn'
        obtain ⟨n2, h2, hp2⟩ := hbefore d' hd'
        rw [h2] at hn'
        have e1 : n2 = n' := Option.some.inj hn'
        have : n2.type = NodeType.ACTIVE := by simpa using hp2
        rw [← e1, this]; simp)
    have hsz : (s0.size_ + 1) % SIZE_MOD = s0.size_ + 1 := by
      apply Nat.mod_eq_of_lt
      have := two_pow_lt_SIZE_MOD e he
      omega
    have hmask : s0.mask_ = 2 ^ e - 1 := by rw [inv0.shape.mask, hc]
    have hfe : 2 ^ e ≤ fuel := by rw [← hc]; exact hfc
    have hjl : (hash key + d0) % 2 ^ e < s0.table_.length := lt_of_getElem? _ _ _ hn1
    refine ⟨(hash key + d0) % 2 ^ e,
      { s0 with
        table_ := s0.table_.set ((hash key + d0) % 2 ^ e)
          { key := key, value := n1.value, type := NodeType.ACTIVE },
        size_ := (s0.size_ + 1) % SIZE_MOD },
      { key := key, value := n1.value, type := NodeType.ACTIVE }, ?_,
      ⟨⟨⟨e, he, hc⟩, by simp [inv0.shape.len], inv0.shape.mask, ?_⟩, u1, c1⟩, ?_, rfl, rfl,
      hc0, ?_, ?_, fun h => absurd (hstored.2 h) hst, ?_, ?_, ?_, ?_, ?_⟩
    · unfold subscript
      rw [hgrow]
      simp only [hp fuel hfc, findFree, HashIndex, hmask, Nat.and_pow_two_sub_one_eq_mod,
        hscan fuel hfe, hn1]
    · show (s0.size_ + 1) % SIZE_MOD = actives _
      rw [hsz, a1, inv0.shape.size]
    · exact (getElem?_set_iff _ _ _ _ _ hjl).2 (Or.inl ⟨rfl, rfl⟩)
    · show 2 * ((s0.size_ + 1) % SIZE_MOD) ≤ s0.capacity_
      rw [hsz]; exact hl0
    · show (s0.size_ + 1) % SIZE_MOD ≤ s.size_ + 1
      rw [hsz, hs0]
    · intro _
      show (s0.size_ + 1) % SIZE_MOD = s.size_ + 1
      rw [hsz, hs0]
    · show used (s0.table_.set _ _) ≤ _
      rw [us1]
      split <;> omega
    · intro h
      show used (s0.table_.set _ _) = (s0.size_ + 1) % SIZE_MOD
      have h0 := hnt0 h
      have hE : n1.type = NodeType.EMPTY := by
        rcases type_cases n1 with h1 | h1 | h1
        · exact absurd h1 hna
        · exact h1
        · have hcnt : used s0.table_ = actives s0.table_ := by rw [h0, inv0.shape.size]
          exact absurd h1 (noTomb_of_used_eq _ hcnt n1 (List.mem_iff_getElem?.2 ⟨_, hn1⟩))
      rw [us1, if_pos hE, hsz, h0]
    · intro k v hk
      show Holds (s0.table_.set _ _) k v ↔ _
      rw [hold1 k v, ← hh0 k v]
      constructor
      · rintro (⟨h1, _⟩ | h1)
        · exact absurd h1 hk
        · exact h1
      · intro h1; exact Or.inr h1
    · intro v hv
      exact absurd ((stored_iff_holds _ _).2 ⟨v, (hh0 key v).2 hv⟩) hst

/-! ## The public operations: what they return -/

/-- The statement `m[key] = value` on a table with few enough non-EMPTY
slots. -/
theorem Inv.assign_spec {hash : K → Nat} {s : XSFLinearProbingHashMap K V}
    (inv : Inv hash s) (hcap : s.size_ ≥ s.capacity_ / 2 → s.capacity_ ≤ 2 ^ 62) (hload : 2 * s.size_ ≤ s.capacity_)
    (hused : s.size_ < s.capacity_ / 2 → used s.table_ < s.capacity_)
    (key : K) (value : V) (fuel : Nat) (hf : 2 ^ 63 ≤ fuel) :
    ∃ s1, assign hash fuel s key value = Res.ok s1 ∧ Inv hash s1 ∧
      s1.capacity_ = (if s.size_ ≥ s.capacity_ / 2 then 2 * s.capacity_ else s.capacity_) ∧
      2 * s1.size_ ≤ s1.capacity_ ∧
      s1.size_ ≤ s.size_ + 1 ∧
      (Stored s.table_ key → s1.size_ = s.size_) ∧
      (¬ Stored s.table_ key → s1.size_ = s.size_ + 1) ∧
      used s1.table_
        ≤ (if s.size_ ≥ s.capacity_ / 2 then s.size_ else used s.table_) + 1 ∧
      (used s.table_ = s.size_ → used s1.table_ = s1.size_) ∧
      (∀ k v, Holds s1.table_ k v ↔
        ((k = key ∧ v = value) ∨ (k ≠ key ∧ Holds s.table_ k v))) := by
  obtain ⟨index, s0, nd, hsub, inv0, hnd, ha, hk, hc0, hl0, hsz0, hst0, hnst0, hu0, hnt0, hh0, _⟩ :=
    inv.subscript_spec hcap hload hused key fuel hf
  obtain ⟨u1, c1, hold1, a1, us1⟩ :=
    set_value hash s0.table_ inv0.uniq inv0.chain index nd hnd ha value
  refine ⟨{ s0 with table_ := s0.table_.set index { nd with value := value } }, ?_,
    ⟨⟨inv0.shape.pow2, by simp [inv0.shape.len], inv0.shape.mask, ?_⟩, u1, c1⟩,
    hc0, hl0, hsz0, hst0, hnst0, ?_, ?_, ?_⟩
  · unfold assign
    simp only [hsub, hnd]
  · show s0.size_ = actives _
    rw [a1, inv0.shape.size]
  · show used (s0.table_.set _ _) ≤ _
    rw [us1]; exact hu0
  · intro h
    show used (s0.table_.set _ _) = s0.size_
    rw [us1]; exact hnt0 h
  · intro k v
    show Holds (s0.table_.set _ _) k v ↔ _
    rw [hold1 k v, hk]
    constructor
    · rintro (h | ⟨h1, h2⟩)
      · exact Or.inl h
      · exact Or.inr ⟨h1, (hh0 k v h1).1 h2⟩
    · rintro (h | ⟨h1, h2⟩)
      · exact Or.inl h
      · exact Or.inr ⟨h1, (hh0 k v h1).2 h2⟩

/-- Reading `m[key]` for a stored key yields the stored value. -/
theorem Inv.read_spec {hash : K → Nat} {s : XSFLinearProbingHashMap K V}
    (inv : Inv hash s) (hcap : s.size_ ≥ s.capacity_ / 2 → s.capacity_ ≤ 2 ^ 62) (hload : 2 * s.size_ ≤ s.capacity_)
    (hused : s.size_ < s.capacity_ / 2 → used s.table_ < s.capacity_)
    (key : K) (v : V) (hv : Holds s.table_ key v) (fuel : Nat) (hf : 2 ^ 63 ≤ fuel) :
    ∃ s1, read hash fuel s key = Res.ok (v, s1) ∧ s1.size_ = s.size_ := by
  obtain ⟨index, s0, nd, hsub, inv0, hnd, ha, hk, hc0, hl0, hsz0, hst0, hnst0, hu0, hnt0, hh0,
    hval⟩ := inv.subscript_spec hcap hload hused key fuel hf
  refine ⟨s0, ?_, hst0 ((stored_iff_holds _ _).2 ⟨v, hv⟩)⟩
  unfold read
  simp only [hsub, hnd, hval v hv]

theorem Inv.contains_stored {hash : K → Nat} {s : XSFLinearProbingHashMap K V}
    (inv : Inv hash s) (key : K) (hst : Stored s.table_ key) (fuel : Nat)
    (hf : s.capacity_ ≤ fuel) : Contains hash fuel s key = Res.ok (true, s) := by
  obtain ⟨j, nj, hj, ha, hk⟩ := hst
  have hp := inv.probe_stored j nj hj ha fuel hf
  rw [hk] at hp
  unfold Contains
  simp only [hp]

theorem Inv.contains_absent {hash : K → Nat} {s : XSFLinearProbingHashMap K V}
    (inv : Inv hash s) (key : K) (hst : ¬ Stored s.table_ key)
    (hused : used s.table_ < s.capacity_) (fuel : Nat) (hf : s.capacity_ ≤ fuel) :
    Contains hash fuel s key = Res.ok (false, s) := by
  obtain ⟨j0, n0, _, _, hp⟩ := inv.shape.probe_absent hash key hst hused
  unfold Contains
  simp only [hp fuel hf]

theorem Inv.erase_absent {hash : K → Nat} {s : XSFLinearProbingHashMap K V}
    (inv : Inv hash s) (key : K) (hst : ¬ Stored s.table_ key)
    (hused : used s.table_ < s.capacity_) (fuel : Nat) (hf : s.capacity_ ≤ fuel) :
    Erase hash fuel s key = Res.ok (0, s) := by
  obtain ⟨j0, n0, _, _, hp⟩ := inv.shape.probe_absent hash key hst hused
  unfold Erase
  simp only [hp fuel hf]

/-- The call `Erase` of a stored key: its slot becomes DELETED, nothing else changes. -/
theorem Inv.erase_stored {hash : K → Nat} {s : XSFLinearProbingHashMap K V}
    (inv : Inv hash s) (key : K) (hst : Stored s.table_ key) (fuel : Nat)
    (hf : s.capacity_ ≤ fuel) :
    ∃ s1, Erase hash fuel s key = Res.ok (1, s1) ∧ Inv hash s1 ∧
      s1.capacity_ = s.capacity_ ∧ s1.size_ + 1 = s.size_ ∧
      used s1.table_ = used s.table_ ∧
      ∀ k v, Holds s1.table_ k v ↔ (k ≠ key ∧ Holds s.table_ k v) := by
  obtain ⟨j, nj, hj, ha, hk⟩ := hst
  have hp := inv.probe_stored j nj hj ha fuel hf
  rw [hk] at hp
  obtain ⟨u1, c1, hold1, a1, us1⟩ := set_deleted hash s.table_ inv.uniq inv.chain j nj hj ha
  obtain ⟨e, he, hc⟩ := inv.shape.pow2
  have hlt : s.size_ < SIZE_MOD := by
    have h1 : s.size_ ≤ s.table_.length := by
      rw [inv.shape.size]; exact List.countP_le_length _
    have := two_pow_lt_SIZE_MOD e he
    rw [inv.shape.len, hc] at h1
    omega
  have hge : 1 ≤ s.size_ := by rw [inv.shape.size]; omega
  have hsz : (s.size_ + SIZE_MOD - 1) % SIZE_MOD = s.size_ - 1 := by
    have e1 : s.size_ + SIZE_MOD - 1 = (s.size_ - 1) + SIZE_MOD := by omega
    rw [e1, Nat.add_mod_right, Nat.mod_eq_of_lt (by omega)]
  refine ⟨{ s with
      table_ := s.table_.set j { nj with type := NodeType.DELETED },
      size_ := (s.size_ + SIZE_MOD - 1) % SIZE_MOD }, ?_,
    ⟨⟨inv.shape.pow2, by simp [inv.shape.len], inv.shape.mask, ?_⟩, u1, c1⟩, rfl, ?_, us1, ?_⟩
  · unfold Erase
    simp only [hp, hj]
  · show (s.size_ + SIZE_MOD - 1) % SIZE_MOD
      = actives (s.table_.set j { nj with type := NodeType.DELETED })
    rw [hsz, inv.shape.size]; omega
  · show (s.size_ + SIZE_MOD - 1) % SIZE_MOD + 1 = s.size_
    rw [hsz]; omega
  · intro k v
    show Holds (s.table_.set _ _) k v ↔ _
    rw [hold1 k v, hk]

/-- The constructor yields a power of two for every argument from 1 on. -/
theorem CeilToPow2_pos (n0 : Nat) (h1 : 1 ≤ n0) : ∃ e, e ≤ 63 ∧ CeilToPow2 n0 = 2 ^ e := by
  by_cases h : n0 ≤ 2 ^ 63
  · obtain ⟨e, he, hc, _, _⟩ := CeilToPow2_pow2 n0 h1 h
    exact ⟨e, he, hc⟩
  · refine ⟨63, le_refl _, ?_⟩
    have h' : n0 > 0x8000000000000000 := by
      have : (0x8000000000000000 : Nat) = 2 ^ 63 := by norm_num
      omega
    unfold CeilToPow2
    rw [if_pos h']
    norm_num

/-- The freshly constructed map. -/
theorem new_inv (hash : K → Nat) (n0 : Nat) (h1 : 1 ≤ n0) :
    Inv hash (new n0 : XSFLinearProbingHashMap K V) ∧
    (new n0 : XSFLinearProbingHashMap K V).size_ = 0 ∧
    1 ≤ (new n0 : XSFLinearProbingHashMap K V).capacity_ ∧
    used (new n0 : XSFLinearProbingHashMap K V).table_ = 0 ∧
    ∀ k v, ¬ Holds (new n0 : XSFLinearProbingHashMap K V).table_ k v := by
  obtain ⟨e, he, hc⟩ := CeilToPow2_pos n0 h1
  obtain ⟨r1, r2, r3, r4, r5⟩ := replicate_empty_facts (V := V) hash (CeilToPow2 n0)
  refine ⟨⟨⟨⟨e, he, hc⟩, by simp [new], ?_, ?_⟩, r1, r2⟩, rfl, ?_, r3, r5⟩
  · show (CeilToPow2 n0 + SIZE_MOD - 1) % SIZE_MOD = CeilToPow2 n0 - 1
    rw [hc]; exact mask_of_pow2 e he
  · show 0 = actives (List.replicate (CeilToPow2 n0) emptyNode)
    rw [r4]
  · show 1 ≤ CeilToPow2 n0
    rw [hc]; exact Nat.one_le_two_pow

/-! ## Runs of assignments -/

theorem lastValue_none_iff (l : List (K × V)) (k : K) :
    lastValue l k = none ↔ k ∉ l.map Prod.fst := by
  induction l with
  | nil => simp [lastValue]
  | cons p rest ih =>
    obtain ⟨k1, v1⟩ := p
    simp only [lastValue, List.map_cons, List.mem_cons, not_or]
    cases hr : lastValue rest k with
    | some w =>
      have : ¬ (k ∉ rest.map Prod.fst) := by rw [← ih, hr]; simp
      simp only [reduceCtorEq, false_iff, not_and]
      exact fun _ => this
    | none =>
      have : k ∉ rest.map Prod.fst := by rw [← ih]; exact hr
      by_cases hk : k1 = k
      · simp [hk] 
      · have hk' : ¬ k = k1 := fun h => hk h.symm
        simp [hk, hk', this]

theorem lastValue_append (l1 l2 : List (K × V)) (k : K) (v : V)
    (hk : k ∉ l2.map Prod.fst) : lastValue (l1 ++ (k, v) :: l2) k = some v := by
  induction l1 with
  | nil =>
    have h := (lastValue_none_iff l2 k).2 hk
    simp [lastValue, h]
  | cons p rest ih =>
    obtain ⟨k1, v1⟩ := p
    simp [lastValue, ih]

/-- A list of assignments run on a table without tombstones. -/
theorem run_assigns (hash : K → Nat) (fuel : Nat) (hf : 2 ^ 63 ≤ fuel) :
    ∀ (l : List (K × V)) (s : XSFLinearProbingHashMap K V) (t : Nat),
      Inv hash s → used s.table_ = s.size_ → 2 * s.size_ ≤ s.capacity_ →
      s.size_ ≤ t → t + l.length < 2 ^ 61 →
      ∃ s1, run hash fuel s (assigns l) = Res.ok s1 ∧ Inv hash s1 ∧
        used s1.table_ = s1.size_ ∧ 2 * s1.size_ ≤ s1.capacity_ ∧
        s1.size_ ≤ t + l.length ∧
        ∀ k v, Holds s1.table_ k v ↔
          (match lastValue l k with
           | some w => w = v
           | none => Holds s.table_ k v) := by
  have h62 : (2 : Nat) ^ 62 = 2 * 2 ^ 61 := by norm_num
  intro l
  induction l with
  | nil =>
    intro s t inv hu hl ht hlen
    refine ⟨s, rfl, inv, hu, hl, by simpa using ht, ?_⟩
    intro k v
    simp [lastValue]
  | cons p rest ih =>
    intro s t inv hu hl ht hlen
    obtain ⟨k1, v1⟩ := p
    simp only [List.length_cons] at hlen
    obtain ⟨s0, hrun0, inv0, hc0, hl0, hsz0, _, _, _, hnt0, hh0⟩ :=
      inv.assign_spec (by intro h; omega) hl (by intro h; rw [hu]; omega) k1 v1 fuel hf
    obtain ⟨s1, hrun1, inv1, hu1, hl1, hc1, hh1⟩ :=
      ih s0 (t + 1) inv0 (hnt0 hu) hl0 (by omega) (by omega)
    refine ⟨s1, ?_, inv1, hu1, hl1, by simp only [List.length_cons]; omega, ?_⟩
    · show run hash fuel s (POp.assign k1 v1 :: assigns rest) = _
      simp only [run, step, hrun0]
      exact hrun1
    · intro k v
      rw [hh1 k v]
      simp only [lastValue]
      cases hr : lastValue rest k with
      | some w => simp
      | none =>
        simp only
        rw [hh0 k v]
        by_cases hk : k1 = k
        · subst hk
          simp [eq_comm]
        · have hk' : k ≠ k1 := fun h => hk h.symm
          simp [hk, hk']

/-- Assignments only, from a freshly constructed map: the run returns, every
assigned key is found with the value of its last assignment, every other key
is not found. -/
theorem assigns_from_new (hash : K → Nat) (n0 : Nat) (h1 : 1 ≤ n0)
    (l : List (K × V)) (hlen : l.length < 2 ^ 61) (fuel : Nat) (hf : 2 ^ 63 ≤ fuel) :
    ∃ s : XSFLinearProbingHashMap K V, run hash fuel (new n0) (assigns l) = Res.ok s ∧
      (∀ k, k ∈ l.map Prod.fst → ∃ v, lastValue l k = some v ∧
        Contains hash fuel s k = Res.ok (true, s) ∧
        ∃ s1, read hash fuel s k = Res.ok (v, s1)) ∧
      (∀ k, k ∉ l.map Prod.fst → Contains hash fuel s k = Res.ok (false, s)) := by
  have h62 : (2 : Nat) ^ 62 = 2 * 2 ^ 61 := by norm_num
  obtain ⟨inv, hsz, hcap1, hused, hnone⟩ := new_inv (V := V) hash n0 h1
  obtain ⟨s, hrun, inv1, hu1, hl1, hc1, hh1⟩ :=
    run_assigns hash fuel hf l (new n0) 0 inv (by rw [hused, hsz]) (by rw [hsz]; omega)
      (by rw [hsz]) (by omega)
  obtain ⟨e, he, hce⟩ := inv1.shape.pow2
  have hfc : s.capacity_ ≤ fuel := by
    rw [hce]; exact le_trans (Nat.pow_le_pow_right (by decide) he) hf
  have hpos : 1 ≤ s.capacity_ := by
    rw [hce]; exact Nat.one_le_two_pow
  refine ⟨s, hrun, ?_, ?_⟩
  · intro k hk
    cases hr : lastValue l k with
    | none => exact absurd ((lastValue_none_iff l k).1 hr) (by simpa using hk)
    | some v =>
      have hv : Holds s.table_ k v := by
        rw [hh1 k v, hr]
      refine ⟨v, rfl, ?_, ?_⟩
      · exact inv1.contains_stored k ((stored_iff_holds _ _).2 ⟨v, hv⟩) fuel hfc
      · obtain ⟨s1, hs1, _⟩ :=
          inv1.read_spec (by intro h; omega) hl1 (by intro h; rw [hu1]; omega) k v hv fuel hf
        exact ⟨s1, hs1⟩
  · intro k hk
    have hr := (lastValue_none_iff l k).2 hk
    have hns : ¬ Stored s.table_ k := by
      rw [stored_iff_holds]
      rintro ⟨v, hv⟩
      rw [hh1 k v, hr] at hv
      exact hnone k v hv
    exact inv1.contains_absent k hns (by rw [hu1]; omega) fuel hfc

/-! ## One key, one tombstone: the states written out -/

theorem new_eq_blank (n0 e : Nat) (he : e ≤ 63) (hc : CeilToPow2 n0 = 2 ^ e) :
    (new n0 : XSFLinearProbingHashMap K V) = blank e := by
  unfold new blank
  rw [hc, mask_of_pow2 e he]

theorem loop_deleted (hash : K → Nat) (key : K) (s : XSFLinearProbingHashMap K V)
    (fuel i step : Nat) (nd : PNode K V) (h : s.table_[i]? = some nd)
    (ha : nd.type = NodeType.DELETED) :
    LinearProbingLoop hash key (fuel + 1) s i step
      = LinearProbingLoop hash key fuel s (nextIndex s.mask_ i) (step + 1) := by
  simp [LinearProbingLoop, h, ha]

theorem hashIndex_blank (hash : K → Nat) (e : Nat) (key : K) :
    HashIndex hash (blank e : XSFLinearProbingHashMap K V) key = hash key % 2 ^ e := by
  unfold HashIndex blank
  exact Nat.and_pow_two_sub_one_eq_mod _ _

theorem hashIndex_single (hash : K → Nat) (e h : Nat) (nd : PNode K V) (n : Nat) (key : K) :
    HashIndex hash (single e h nd n) key = hash key % 2 ^ e := by
  unfold HashIndex single
  exact Nat.and_pow_two_sub_one_eq_mod _ _

theorem single_get_self (e h : Nat) (nd : PNode K V) (n : Nat) (hh : h < 2 ^ e) :
    (single e h nd n).table_[h]? = some nd := by
  simp [single, hh]

theorem single_get_other (e h : Nat) (nd : PNode K V) (n j : Nat) (hj : j < 2 ^ e)
    (hne : h ≠ j) : (single e h nd n).table_[j]? = some emptyNode := by
  simp [single, List.getElem?_set, hne, hj]

/-- The statement `m[key] = value` on an empty table of capacity at least 2. -/
theorem assign_blank (hash : K → Nat) (e : Nat) (he1 : 1 ≤ e) (he : e ≤ 63)
    (key : K) (value : V) (fuel : Nat) :
    assign hash (fuel + 1) (blank e) key value
      = Res.ok (single e (hash key % 2 ^ e) ⟨key, value, NodeType.ACTIVE⟩ 1) := by
  have hpos : 0 < 2 ^ e := Nat.two_pow_pos e
  have hlt : hash key % 2 ^ e < 2 ^ e := Nat.mod_lt _ hpos
  have h2 : 2 ≤ 2 ^ e := by
    calc 2 = 2 ^ 1 := rfl
      _ ≤ 2 ^ e := Nat.pow_le_pow_right (by decide) he1
  have hget : (blank e : XSFLinearProbingHashMap K V).table_[hash key % 2 ^ e]?
      = some emptyNode := by
    simp [blank, hlt]
  have hnr : ¬ ((blank e : XSFLinearProbingHashMap K V).size_
      ≥ (blank e : XSFLinearProbingHashMap K V).capacity_ / 2) := by
    show ¬ (0 ≥ 2 ^ e / 2)
    omega
  have hprobe : LinearProbing hash (fuel + 1) (blank e) key
      = Res.ok (false, hash key % 2 ^ e, (blank e : XSFLinearProbingHashMap K V)) := by
    unfold LinearProbing
    rw [hashIndex_blank]
    exact loop_empty hash key _ fuel _ 0 emptyNode hget rfl
  have hfree : findFree (blank e : XSFLinearProbingHashMap K V).mask_
      (blank e : XSFLinearProbingHashMap K V).table_ (fuel + 1)
      (HashIndex hash (blank e : XSFLinearProbingHashMap K V) key)
      = Res.ok (hash key % 2 ^ e) := by
    unfold findFree
    rw [hashIndex_blank]
    exact scanWhile_stop _ _ _ fuel _ emptyNode hget (by simp [emptyNode])
  have hsz : ((blank e : XSFLinearProbingHashMap K V).size_ + 1) % SIZE_MOD = 1 := by
    show (0 + 1) % SIZE_MOD = 1
    exact Nat.mod_eq_of_lt (by unfold SIZE_MOD; exact Nat.one_lt_two_pow (by decide))
  unfold assign subscript
  rw [if_neg hnr]
  simp only [hprobe, hfree, hget, hsz]
  simp [blank, single, hlt, emptyNode]

/-- On an empty table of capacity 1 the first `m[key] = value` doubles the
capacity before it inserts. -/
theorem assign_blank_zero (hash : K → Nat) (key : K) (value : V) (fuel : Nat) :
    assign hash fuel (blank 0) key value = assign hash fuel (blank 1) key value := by
  have hr : Resize hash fuel (blank 0 : XSFLinearProbingHashMap K V) (1 * 2 % SIZE_MOD)
      = Res.ok (blank 1) := by
    have hc : CeilToPow2 (1 * 2 % SIZE_MOD) = 2 := by decide
    have hm : (2 + SIZE_MOD - 1) % SIZE_MOD = 2 ^ 1 - 1 := mask_of_pow2 1 (by decide)
    unfold Resize
    rw [hc]
    simp only [hm]
    simp [blank, rehash, emptyNode]
  have hnr : ¬ ((blank 1 : XSFLinearProbingHashMap K V).size_
      ≥ (blank 1 : XSFLinearProbingHashMap K V).capacity_ / 2) := by
    show ¬ (0 ≥ 2 ^ 1 / 2)
    decide
  have hy : ((blank 0 : XSFLinearProbingHashMap K V).size_
      ≥ (blank 0 : XSFLinearProbingHashMap K V).capacity_ / 2) := by
    show (0 ≥ 2 ^ 0 / 2)
    decide
  have hcap : (blank 0 : XSFLinearProbingHashMap K V).capacity_ = 1 := rfl
  unfold assign subscript
  rw [if_pos hy, if_neg hnr, hcap, hr]

/-- The call `Erase(key)` on a table that holds only `key`, in its home slot. -/
theorem erase_single (hash : K → Nat) (e : Nat) (he : e ≤ 63) (key : K) (value : V)
    (fuel : Nat) :
    Erase hash (fuel + 1) (single e (hash key % 2 ^ e) ⟨key, value, NodeType.ACTIVE⟩ 1) key
      = Res.ok (1, single e (hash key % 2 ^ e) ⟨key, value, NodeType.DELETED⟩ 0) := by
  have hpos : 0 < 2 ^ e := Nat.two_pow_pos e
  have hlt : hash key % 2 ^ e < 2 ^ e := Nat.mod_lt _ hpos
  have hget := single_get_self e (hash key % 2 ^ e)
    (⟨key, value, NodeType.ACTIVE⟩ : PNode K V) 1 hlt
  have hprobe : LinearProbing hash (fuel + 1)
      (single e (hash key % 2 ^ e) ⟨key, value, NodeType.ACTIVE⟩ 1) key
      = Res.ok (true, hash key % 2 ^ e,
          single e (hash key % 2 ^ e) ⟨key, value, NodeType.ACTIVE⟩ 1) := by
    unfold LinearProbing
    rw [hashIndex_single]
    exact loop_found hash _ fuel _ 0 ⟨key, value, NodeType.ACTIVE⟩ hget rfl
  have hsz : ((single e (hash key % 2 ^ e) (⟨key, value, NodeType.ACTIVE⟩ : PNode K V) 1).size_
      + SIZE_MOD - 1) % SIZE_MOD = 0 := by
    show (1 + SIZE_MOD - 1) % SIZE_MOD = 0
    rw [Nat.add_sub_cancel_left, Nat.mod_self]
  unfold Erase
  simp only [hprobe, hget, hsz]
  simp [single]

/-- The statement `m[key] = value` on a table whose only non-EMPTY slot is a tombstone in
the home slot of `key`: the tombstone is taken. -/
theorem assign_tombstone (hash : K → Nat) (e : Nat) (he1 : 1 ≤ e) (he : e ≤ 63)
    (key0 : K) (value0 : V) (key : K) (value : V) (fuel : Nat) :
    assign hash (fuel + 2) (single e (hash key % 2 ^ e) ⟨key0, value0, NodeType.DELETED⟩ 0)
        key value
      = Res.ok (single e (hash key % 2 ^ e) ⟨key, value, NodeType.ACTIVE⟩ 1) := by
  have hpos : 0 < 2 ^ e := Nat.two_pow_pos e
  have hlt : hash key % 2 ^ e < 2 ^ e := Nat.mod_lt _ hpos
  have h2 : 2 ≤ 2 ^ e := by
    calc 2 = 2 ^ 1 := rfl
      _ ≤ 2 ^ e := Nat.pow_le_pow_right (by decide) he1
  have hget := single_get_self e (hash key % 2 ^ e)
    (⟨key0, value0, NodeType.DELETED⟩ : PNode K V) 0 hlt
  have hnext : nextIndex (2 ^ e - 1) (hash key % 2 ^ e) = (hash key % 2 ^ e + 1) % 2 ^ e :=
    nextIndex_pow2 e _ he hlt
  have hne : hash key % 2 ^ e ≠ (hash key % 2 ^ e + 1) % 2 ^ e := by
    intro h
    by_cases hc : hash key % 2 ^ e + 1 < 2 ^ e
    · rw [Nat.mod_eq_of_lt hc] at h; omega
    · have : hash key % 2 ^ e + 1 = 2 ^ e := by omega
      rw [this, Nat.mod_self] at h
      omega
  have hget2 := single_get_other e (hash key % 2 ^ e)
    (⟨key0, value0, NodeType.DELETED⟩ : PNode K V) 0 _ (Nat.mod_lt _ hpos) hne
  have hnr : ¬ ((single e (hash key % 2 ^ e) (⟨key0, value0, NodeType.DELETED⟩ : PNode K V) 0).size_
      ≥ (single e (hash key % 2 ^ e)
          (⟨key0, value0, NodeType.DELETED⟩ : PNode K V) 0).capacity_ / 2) := by
    show ¬ (0 ≥ 2 ^ e / 2)
    omega
  have hprobe : LinearProbing hash (fuel + 2)
      (single e (hash key % 2 ^ e) ⟨key0, value0, NodeType.DELETED⟩ 0) key
      = Res.ok (false, (hash key % 2 ^ e + 1) % 2 ^ e,
          single e (hash key % 2 ^ e) ⟨key0, value0, NodeType.DELETED⟩ 0) := by
    unfold LinearProbing
    rw [hashIndex_single, loop_deleted hash key _ (fuel + 1) _ 0 _ hget rfl]
    have hm : (single e (hash key % 2 ^ e)
        (⟨key0, value0, NodeType.DELETED⟩ : PNode K V) 0).mask_ = 2 ^ e - 1 := rfl
    rw [hm, hnext]
    exact loop_empty hash key _ fuel _ _ emptyNode hget2 rfl
  have hfree : findFree
      (single e (hash key % 2 ^ e) (⟨key0, value0, NodeType.DELETED⟩ : PNode K V) 0).mask_
      (single e (hash key % 2 ^ e) (⟨key0, value0, NodeType.DELETED⟩ : PNode K V) 0).table_
      (fuel + 2)
      (HashIndex hash
        (single e (hash key % 2 ^ e) (⟨key0, value0, NodeType.DELETED⟩ : PNode K V) 0) key)
      = Res.ok (hash key % 2 ^ e) := by
    unfold findFree
    rw [hashIndex_single]
    exact scanWhile_stop _ _ _ (fuel + 1) _ _ hget (by simp)
  have hsz : ((single e (hash key % 2 ^ e) (⟨key0, value0, NodeType.DELETED⟩ : PNode K V) 0).size_
      + 1) % SIZE_MOD = 1 := by
    show (0 + 1) % SIZE_MOD = 1
    exact Nat.mod_eq_of_lt (by unfold SIZE_MOD; exact Nat.one_lt_two_pow (by decide))
  unfold assign subscript
  rw [if_neg hnr]
  simp only [hprobe, hfree, hget, hsz]
  simp [single, hlt]

/-! ## Insert, erase, insert at the same index -/

/-- The state after the first `m[key] = value` on a freshly constructed map. -/
theorem assign_new (hash : K → Nat) (n0 : Nat) (h1 : 1 ≤ n0)
    (key : K) (value : V) (fuel : Nat) (hf : 1 ≤ fuel) :
    ∃ e, 1 ≤ e ∧ e ≤ 63 ∧
      assign hash fuel (new n0) key value
        = Res.ok (single e (hash key % 2 ^ e) ⟨key, value, NodeType.ACTIVE⟩ 1) ∧
      ∀ (k : K) (v : V), assign hash fuel (blank e) k v
        = Res.ok (single e (hash k % 2 ^ e) ⟨k, v, NodeType.ACTIVE⟩ 1) := by
  obtain ⟨e, he, hc⟩ := CeilToPow2_pos n0 h1
  obtain ⟨f, rfl⟩ : ∃ f, fuel = f + 1 := ⟨fuel - 1, by omega⟩
  rw [new_eq_blank n0 e he hc]
  by_cases h0 : e = 0
  · subst h0
    refine ⟨1, le_refl _, by decide, ?_, fun k v => assign_blank hash 1 (le_refl _) (by decide) k v f⟩
    rw [assign_blank_zero]
    exact assign_blank hash 1 (le_refl _) (by decide) key value f
  · exact ⟨e, by omega, he, assign_blank hash e (by omega) he key value f,
      fun k v => assign_blank hash e (by omega) he k v f⟩

/-- Insert `A`, erase it, insert `B` with the same hash index. -/
theorem tombstone_scenario (hash : K → Nat) (n0 : Nat) (h1 : 1 ≤ n0)
    (A B : K) (x y : V) (hAB : A ≠ B) (fuel : Nat) (hf : 2 ^ 63 ≤ fuel)
    (hidx : ∀ s1 : XSFLinearProbingHashMap K V,
      assign hash fuel (new n0) A x = Res.ok s1 → HashIndex hash s1 A = HashIndex hash s1 B) :
    ∃ s1 s2 s3 : XSFLinearProbingHashMap K V,
      assign hash fuel (new n0) A x = Res.ok s1 ∧
      Erase hash fuel s1 A = Res.ok (1, s2) ∧
      assign hash fuel s2 B y = Res.ok s3 ∧
      Contains hash fuel s3 A = Res.ok (false, s3) ∧
      Contains hash fuel s3 B = Res.ok (true, s3) ∧
      (∃ s4, read hash fuel s3 B = Res.ok (y, s4)) ∧
      Size s3 = 1 := by
  have h63 : (1 : Nat) < 2 ^ 63 := Nat.one_lt_two_pow (by decide)
  obtain ⟨e, he1, he63, hA, hblank⟩ := assign_new hash n0 h1 A x fuel (by omega)
  have h2e : 2 ≤ 2 ^ e := by
    calc 2 = 2 ^ 1 := rfl
      _ ≤ 2 ^ e := Nat.pow_le_pow_right (by decide) he1
  have h4 : (4 : Nat) ≤ 2 ^ 62 := by norm_num
  have hfe63 : 2 ^ e ≤ fuel := le_trans (Nat.pow_le_pow_right (by decide) he63) hf
  have hi := hidx _ hA
  rw [hashIndex_single, hashIndex_single] at hi
  obtain ⟨f, hfe⟩ : ∃ f, fuel = f + 2 := ⟨fuel - 2, by omega⟩
  have hE : Erase hash fuel (single e (hash A % 2 ^ e) ⟨A, x, NodeType.ACTIVE⟩ 1) A
      = Res.ok (1, single e (hash A % 2 ^ e) ⟨A, x, NodeType.DELETED⟩ 0) := by
    rw [hfe]; exact erase_single hash e (by omega) A x (f + 1)
  have hB : assign hash fuel (single e (hash A % 2 ^ e) ⟨A, x, NodeType.DELETED⟩ 0) B y
      = Res.ok (single e (hash B % 2 ^ e) ⟨B, y, NodeType.ACTIVE⟩ 1) := by
    rw [hfe, hi]; exact assign_tombstone hash e he1 (by omega) A x B y f
  -- the final state is the one reached by inserting `B` into an empty table
  obtain ⟨inv, hsz, hcap1, hused, hnone⟩ :=
    new_inv (V := V) hash (2 ^ e) Nat.one_le_two_pow
  have hnb : (new (2 ^ e) : XSFLinearProbingHashMap K V) = blank e :=
    new_eq_blank (2 ^ e) e (by omega) (CeilToPow2_self e (by omega))
  have hcb : (new (2 ^ e) : XSFLinearProbingHashMap K V).capacity_ = 2 ^ e := by
    rw [hnb]; rfl
  obtain ⟨s3, hrun, inv3, hc3, hl3, _, _, hsz3, _, hu3, hh3⟩ :=
    inv.assign_spec (by intro h; rw [hsz, hcb] at h; omega) (by rw [hsz]; omega)
      (by intro _; rw [hused]; omega) B y fuel hf
  rw [hnb, hblank B y] at hrun
  have hs3 : single e (hash B % 2 ^ e) ⟨B, y, NodeType.ACTIVE⟩ 1 = s3 := Res.ok.inj hrun
  have hns : ¬ Stored (new (2 ^ e) : XSFLinearProbingHashMap K V).table_ B := by
    rw [stored_iff_holds]
    rintro ⟨v, hv⟩
    exact hnone B v hv
  have hsize : s3.size_ = 1 := by rw [hsz3 hns, hsz]
  have hused3 : used s3.table_ = s3.size_ := hu3 (by rw [hused, hsz])
  have hcap3 : s3.capacity_ = 2 ^ e := by
    rw [← hs3]; rfl
  refine ⟨_, _, _, hA, hE, hB, ?_, ?_, ?_, ?_⟩
  · rw [hs3]
    refine inv3.contains_absent A ?_ (by omega) fuel (by omega)
    rw [stored_iff_holds]
    rintro ⟨v, hv⟩
    rcases (hh3 A v).1 hv with ⟨h, _⟩ | ⟨_, h⟩
    · exact hAB h
    · exact hnone A v h
  · rw [hs3]
    exact inv3.contains_stored B ((stored_iff_holds _ _).2 ⟨y, (hh3 B y).2 (Or.inl ⟨rfl, rfl⟩)⟩)
      fuel (by omega)
  · rw [hs3]
    obtain ⟨s4, h4, _⟩ := inv3.read_spec (by intro _; omega) hl3 (by intro _; omega) B y
      ((hh3 B y).2 (Or.inl ⟨rfl, rfl⟩)) fuel hf
    exact ⟨s4, h4⟩
  · rfl

/-! ## What every call that returns preserves -/

theorem scanWhile_ok (p : PNode K V → Bool) (mask : Nat) (t : List (PNode K V)) :
    ∀ (fuel i j : Nat), scanWhile p mask t fuel i = Res.ok j →
      ∃ nd, t[j]? = some nd ∧ p nd = false := by
  intro fuel
  induction fuel with
  | zero => intro i j h; simp [scanWhile] at h
  | succ n ih =>
    intro i j h
    unfold scanWhile at h
    cases hi : t[i]? with
    | none => simp [hi] at h
    | some nd =>
      simp only [hi] at h
      by_cases hp : p nd = true
      · rw [if_pos hp] at h
        exact ih _ _ h
      · rw [if_neg hp] at h
        have : i = j := Res.ok.inj h
        subst this
        exact ⟨nd, hi, by simpa using hp⟩

theorem rehash_ok (hash : K → Nat) (mask fuel : Nat) :
    ∀ (old t t1 : List (PNode K V)), rehash hash mask fuel old t = Res.ok t1 →
      t1.length = t.length ∧ actives t1 = actives t + actives old := by
  intro old
  induction old with
  | nil =>
    intro t t1 h
    have : t = t1 := Res.ok.inj h
    subst this
    simp [actives]
  | cons nd old ih =>
    intro t t1 h
    unfold rehash at h
    by_cases ha : nd.type = NodeType.ACTIVE
    · rw [if_pos ha] at h
      cases hf : findEmpty mask t fuel (hash nd.key &&& mask) with
      | timeout => simp [hf] at h
      | undef => simp [hf] at h
      | ok index =>
        simp only [hf] at h
        obtain ⟨o, ho, hpo⟩ := scanWhile_ok _ mask t fuel _ index hf
        have hoe : o.type = NodeType.EMPTY := by simpa using hpo
        obtain ⟨h1, h2⟩ := ih _ _ h
        have hc := countP_set_of (fun n : PNode K V => decide (n.type = NodeType.ACTIVE)) t index o
          ⟨nd.key, nd.value, NodeType.ACTIVE⟩ ho
        simp [hoe] at hc
        refine ⟨by rw [h1]; simp, ?_⟩
        rw [h2]
        have e1 : actives (nd :: old) = actives old + 1 := by
          simp [actives, List.countP_cons, ha]
        rw [e1]
        unfold actives at *
        omega
    · rw [if_neg ha] at h
      obtain ⟨h1, h2⟩ := ih _ _ h
      refine ⟨h1, ?_⟩
      rw [h2]
      have e1 : actives (nd :: old) = actives old := by
        simp [actives, List.countP_cons, ha]
      rw [e1]

theorem Shape.resize_ok {s : XSFLinearProbingHashMap K V} (sh : s.Shape) (hash : K → Nat)
    (fuel n : Nat) (s1 : XSFLinearProbingHashMap K V) (e : Nat) (he : e ≤ 63)
    (hn : CeilToPow2 n = 2 ^ e) (h : Resize hash fuel s n = Res.ok s1) :
    s1.Shape ∧ s1.capacity_ = 2 ^ e ∧ s1.size_ = s.size_ := by
  unfold Resize at h
  simp only [sh.len, lt_irrefl, if_false] at h
  cases hr : rehash hash ((CeilToPow2 n + SIZE_MOD - 1) % SIZE_MOD) fuel
      (s.table_.take s.capacity_) (List.replicate (CeilToPow2 n) emptyNode) with
  | timeout => simp [hr] at h
  | undef => simp [hr] at h
  | ok t =>
    simp only [hr] at h
    have hs := Res.ok.inj h
    obtain ⟨h1, h2⟩ := rehash_ok hash _ fuel _ _ _ hr
    have htake : s.table_.take s.capacity_ = s.table_ := by
      rw [← sh.len]; exact List.take_length _
    rw [htake] at h2
    obtain ⟨_, _, _, r4, _⟩ := replicate_empty_facts (V := V) hash (CeilToPow2 n)
    rw [r4] at h2
    rw [← hs]
    refine ⟨⟨⟨e, he, hn⟩, ?_, ?_, ?_⟩, hn, rfl⟩
    · show t.length = CeilToPow2 n
      rw [h1]; simp
    · show (CeilToPow2 n + SIZE_MOD - 1) % SIZE_MOD = CeilToPow2 n - 1
      rw [hn]; exact mask_of_pow2 e he
    · show s.size_ = actives t
      rw [h2, sh.size]; omega

theorem Shape.loop_ok (hash : K → Nat) (key : K) :
    ∀ (fuel : Nat) (s : XSFLinearProbingHashMap K V) (i step : Nat) (b : Bool) (idx : Nat)
      (s2 : XSFLinearProbingHashMap K V), s.Shape →
      LinearProbingLoop hash key fuel s i step = Res.ok (b, idx, s2) →
      s2.Shape ∧ s2.size_ = s.size_ ∧ s2.capacity_ = s.capacity_ ∧
        (b = true → ∃ nd, s2.table_[idx]? = some nd ∧ nd.type = NodeType.ACTIVE) := by
  intro fuel
  induction fuel with
  | zero => intro s i step b idx s2 _ h; simp [LinearProbingLoop] at h
  | succ n ih =>
    intro s i step b idx s2 sh h
    unfold LinearProbingLoop at h
    cases hi : s.table_[i]? with
    | none => simp [hi] at h
    | some nd =>
      simp only [hi] at h
      cases ht : nd.type with
      | EMPTY =>
        simp only [ht] at h
        have := Res.ok.inj h
        simp only [Prod.mk.injEq] at this
        obtain ⟨hb, _, hs⟩ := this
        subst hs
        exact ⟨sh, rfl, rfl, fun h' => by rw [← hb] at h'; cases h'⟩
      | DELETED =>
        simp only [ht] at h
        exact ih _ _ _ _ _ _ sh h
      | ACTIVE =>
        simp only [ht] at h
        by_cases hk : nd.key = key
        · rw [if_pos hk] at h
          have := Res.ok.inj h
          simp only [Prod.mk.injEq] at this
          obtain ⟨_, hidx, hs⟩ := this
          subst hs; subst hidx
          exact ⟨sh, rfl, rfl, fun _ => ⟨nd, hi, ht⟩⟩
        · rw [if_neg hk] at h
          by_cases hg : step > s.capacity_
          · rw [if_pos hg] at h
            obtain ⟨e, he, hc⟩ := sh.pow2
            cases hr : Resize hash n s s.capacity_ with
            | timeout => simp [hr] at h
            | undef => simp [hr] at h
            | ok s1 =>
              simp only [hr] at h
              have hn : CeilToPow2 s.capacity_ = 2 ^ e := by rw [hc]; exact CeilToPow2_self e he
              obtain ⟨sh1, hc1, hz1⟩ := sh.resize_ok hash n s.capacity_ s1 e he hn hr
              cases hl : LinearProbingLoop hash key n s1 (HashIndex hash s1 key) 0 with
              | timeout => simp [hl] at h
              | undef => simp [hl] at h
              | ok r =>
                obtain ⟨b', idx', s2'⟩ := r
                simp only [hl] at h
                have := Res.ok.inj h
                simp only [Prod.mk.injEq] at this
                obtain ⟨hb, _, hs⟩ := this
                subst hs
                obtain ⟨sh2, hz2, hc2, _⟩ := ih _ _ _ _ _ _ sh1 hl
                exact ⟨sh2, by rw [hz2, hz1], by rw [hc2, hc1, hc],
                  fun h' => by rw [← hb] at h'; cases h'⟩
          · rw [if_neg hg] at h
            exact ih _ _ _ _ _ _ sh h

/-! ## The public operations: what a call that returns preserves -/

theorem Shape.size_lt {s : XSFLinearProbingHashMap K V} (sh : s.Shape) :
    s.size_ ≤ s.capacity_ ∧ s.capacity_ < SIZE_MOD ∧ 1 ≤ s.capacity_ := by
  obtain ⟨e, he, hc⟩ := sh.pow2
  refine ⟨?_, by rw [hc]; exact two_pow_lt_SIZE_MOD e he, by rw [hc]; exact Nat.one_le_two_pow⟩
  rw [sh.size, ← sh.len]
  exact List.countP_le_length _

/-- A call of `operator[]` that returns: the capacity rule and the load bound. -/
theorem Shape.subscript_ok {s : XSFLinearProbingHashMap K V} (sh : s.Shape) (hash : K → Nat)
    (hload : 2 * s.size_ ≤ s.capacity_)
    (hcap : s.size_ ≥ s.capacity_ / 2 → s.capacity_ ≤ 2 ^ 62)
    (fuel : Nat) (key : K) (idx : Nat) (s1 : XSFLinearProbingHashMap K V)
    (h : subscript hash fuel s key = Res.ok (idx, s1)) :
    s1.Shape ∧ 2 * s1.size_ ≤ s1.capacity_ ∧
      s1.capacity_ = (if s.size_ ≥ s.capacity_ / 2 then 2 * s.capacity_ else s.capacity_) ∧
      s1.size_ ≤ s.size_ + 1 ∧ idx < s1.table_.length := by
  obtain ⟨e, he, hc⟩ := sh.pow2
  obtain ⟨hsl, hclt, hc1⟩ := sh.size_lt
  -- the state after the resize test
  have hpre : ∃ s0 : XSFLinearProbingHashMap K V,
      (if s.size_ ≥ s.capacity_ / 2 then Resize hash fuel s (s.capacity_ * 2 % SIZE_MOD)
        else Res.ok s) = Res.ok s0 ∧ s0.Shape ∧ s0.size_ = s.size_ ∧
      s0.capacity_ = (if s.size_ ≥ s.capacity_ / 2 then 2 * s.capacity_ else s.capacity_) := by
    unfold subscript at h
    by_cases hg : s.size_ ≥ s.capacity_ / 2
    · have he62 : e ≤ 62 := by
        have hcap' := hcap hg
        by_contra hcon
        have : 2 ^ 63 ≤ 2 ^ e := Nat.pow_le_pow_right (by decide) (by omega)
        have h63 : (2 : Nat) ^ 63 = 2 * 2 ^ 62 := by norm_num
        have h62 : (0 : Nat) < 2 ^ 62 := Nat.two_pow_pos 62
        omega
      rw [if_pos hg] at h ⊢
      cases hr : Resize hash fuel s (s.capacity_ * 2 % SIZE_MOD) with
      | timeout => simp [hr] at h
      | undef => simp [hr] at h
      | ok s0 =>
        have hn : CeilToPow2 (s.capacity_ * 2 % SIZE_MOD) = 2 ^ (e + 1) := by
          have h2 : s.capacity_ * 2 = 2 ^ (e + 1) := by rw [hc, pow_succ]
          rw [h2, Nat.mod_eq_of_lt (two_pow_lt_SIZE_MOD (e + 1) (by omega))]
          exact CeilToPow2_self (e + 1) (by omega)
        obtain ⟨sh0, hc0, hz0⟩ := sh.resize_ok hash fuel _ s0 (e + 1) (by omega) hn hr
        refine ⟨s0, rfl, sh0, hz0, ?_⟩
        rw [if_pos hg, hc0, hc, pow_succ, Nat.mul_comm]
    · rw [if_neg hg]
      exact ⟨s, rfl, sh, rfl, by rw [if_neg hg]⟩
  obtain ⟨s0, hs0, sh0, hz0, hc0⟩ := hpre
  have hl0 : 2 * (s0.size_ + 1) ≤ s0.capacity_ := by
    rw [hz0, hc0]
    split <;> omega
  unfold subscript at h
  simp only [hs0] at h
  cases hp : LinearProbing hash fuel s0 key with
  | timeout => simp [hp] at h
  | undef => simp [hp] at h
  | ok r =>
    obtain ⟨b, j, s2⟩ := r
    obtain ⟨sh2, hz2, hc2, hfound⟩ := Shape.loop_ok hash key fuel s0 _ 0 b j s2 sh0 hp
    cases b with
    | true =>
      simp only [hp] at h
      have := Res.ok.inj h
      simp only [Prod.mk.injEq] at this
      obtain ⟨hj, hs⟩ := this
      subst hs; subst hj
      obtain ⟨nd, hnd, _⟩ := hfound rfl
      refine ⟨sh2, by omega, by rw [hc2, hc0], by omega, lt_of_getElem? _ _ _ hnd⟩
    | false =>
      simp only [hp] at h
      cases hfr : findFree s2.mask_ s2.table_ fuel (HashIndex hash s2 key) with
      | timeout => simp [hfr] at h
      | undef => simp [hfr] at h
      | ok i =>
        simp only [hfr] at h
        obtain ⟨o, ho, hpo⟩ := scanWhile_ok _ _ _ fuel _ i hfr
        have hoa : o.type ≠ NodeType.ACTIVE := by simpa using hpo
        simp only [ho] at h
        have := Res.ok.inj h
        simp only [Prod.mk.injEq] at this
        obtain ⟨hj, hs⟩ := this
        subst hj
        have hilt := lt_of_getElem? _ _ _ ho
        have hc := countP_set_of (fun n : PNode K V => decide (n.type = NodeType.ACTIVE))
          s2.table_ i o ⟨key, o.value, NodeType.ACTIVE⟩ ho
        simp [hoa] at hc
        have hlt : s2.size_ + 1 < SIZE_MOD := by
          have := sh0.size_lt
          omega
        rw [← hs]
        refine ⟨⟨sh2.pow2, ?_, sh2.mask, ?_⟩, ?_, ?_, ?_, ?_⟩
        · show (s2.table_.set _ _).length = s2.capacity_
          rw [List.length_set]; exact sh2.len
        · show (s2.size_ + 1) % SIZE_MOD = actives (s2.table_.set _ _)
          rw [Nat.mod_eq_of_lt hlt, sh2.size]
          unfold actives
          omega
        · show 2 * ((s2.size_ + 1) % SIZE_MOD) ≤ s2.capacity_
          rw [Nat.mod_eq_of_lt hlt]; omega
        · show s2.capacity_ = _
          rw [hc2, hc0]
        · show (s2.size_ + 1) % SIZE_MOD ≤ s.size_ + 1
          rw [Nat.mod_eq_of_lt hlt]; omega
        · show i < (s2.table_.set _ _).length
          rw [List.length_set]; exact hilt

theorem Shape.assign_ok {s : XSFLinearProbingHashMap K V} (sh : s.Shape) (hash : K → Nat)
    (hload : 2 * s.size_ ≤ s.capacity_)
    (hcap : s.size_ ≥ s.capacity_ / 2 → s.capacity_ ≤ 2 ^ 62)
    (fuel : Nat) (key : K) (value : V) (s1 : XSFLinearProbingHashMap K V)
    (h : assign hash fuel s key value = Res.ok s1) :
    s1.Shape ∧ 2 * s1.size_ ≤ s1.capacity_ ∧
      s1.capacity_ = (if s.size_ ≥ s.capacity_ / 2 then 2 * s.capacity_ else s.capacity_) ∧
      s1.size_ ≤ s.size_ + 1 := by
  unfold assign at h
  cases hs : subscript hash fuel s key with
  | timeout => simp [hs] at h
  | undef => simp [hs] at h
  | ok r =>
    obtain ⟨idx, s0⟩ := r
    obtain ⟨sh0, hl0, hc0, hz0, hidx⟩ := sh.subscript_ok hash hload hcap fuel key idx s0 hs
    simp only [hs] at h
    cases hg : s0.table_[idx]? with
    | none => simp [hg] at h
    | some nd =>
      simp only [hg] at h
      have hs1 := Res.ok.inj h
      have hc := countP_set_of (fun n : PNode K V => decide (n.type = NodeType.ACTIVE))
        s0.table_ idx nd { nd with value := value } hg
      simp at hc
      rw [← hs1]
      refine ⟨⟨sh0.pow2, ?_, sh0.mask, ?_⟩, hl0, hc0, hz0⟩
      · show (s0.table_.set _ _).length = s0.capacity_
        rw [List.length_set]; exact sh0.len
      · show s0.size_ = actives (s0.table_.set _ _)
        rw [sh0.size]
        unfold actives
        omega

theorem Shape.erase_ok {s : XSFLinearProbingHashMap K V} (sh : s.Shape) (hash : K → Nat)
    (fuel : Nat) (key : K) (n : Nat) (s1 : XSFLinearProbingHashMap K V)
    (h : Erase hash fuel s key = Res.ok (n, s1)) :
    s1.Shape ∧ s1.capacity_ = s.capacity_ ∧ s1.size_ + n = s.size_ ∧ n ≤ 1 := by
  unfold Erase at h
  cases hp : LinearProbing hash fuel s key with
  | timeout => simp [hp] at h
  | undef => simp [hp] at h
  | ok r =>
    obtain ⟨b, j, s2⟩ := r
    obtain ⟨sh2, hz2, hc2, hfound⟩ := Shape.loop_ok hash key fuel s _ 0 b j s2 sh hp
    cases b with
    | false =>
      simp only [hp] at h
      have := Res.ok.inj h
      simp only [Prod.mk.injEq] at this
      obtain ⟨hn, hs⟩ := this
      subst hs; subst hn
      exact ⟨sh2, hc2, by omega, by omega⟩
    | true =>
      simp only [hp] at h
      obtain ⟨nd, hnd, ha⟩ := hfound rfl
      simp only [hnd] at h
      have := Res.ok.inj h
      simp only [Prod.mk.injEq] at this
      obtain ⟨hn, hs⟩ := this
      subst hn
      have hc := countP_set_of (fun n : PNode K V => decide (n.type = NodeType.ACTIVE))
        s2.table_ j nd { nd with type := NodeType.DELETED } hnd
      simp [ha] at hc
      have hsz : s2.size_ = actives s2.table_ := sh2.size
      have hge : 1 ≤ s2.size_ := by rw [hsz]; unfold actives; omega
      have hlt := sh2.size_lt
      have hm : (s2.size_ + SIZE_MOD - 1) % SIZE_MOD = s2.size_ - 1 := by
        have e1 : s2.size_ + SIZE_MOD - 1 = (s2.size_ - 1) + SIZE_MOD := by omega
        rw [e1, Nat.add_mod_right, Nat.mod_eq_of_lt (by omega)]
      rw [← hs]
      refine ⟨⟨sh2.pow2, ?_, sh2.mask, ?_⟩, hc2, ?_, le_refl _⟩
      · show (s2.table_.set _ _).length = s2.capacity_
        rw [List.length_set]; exact sh2.len
      · show (s2.size_ + SIZE_MOD - 1) % SIZE_MOD = actives (s2.table_.set _ _)
        rw [hm, hsz]
        unfold actives
        omega
      · show (s2.size_ + SIZE_MOD - 1) % SIZE_MOD + 1 = s.size_
        rw [hm]; omega

theorem Shape.contains_ok {s : XSFLinearProbingHashMap K V} (sh : s.Shape) (hash : K → Nat)
    (fuel : Nat) (key : K) (b : Bool) (s1 : XSFLinearProbingHashMap K V)
    (h : Contains hash fuel s key = Res.ok (b, s1)) :
    s1.Shape ∧ s1.capacity_ = s.capacity_ ∧ s1.size_ = s.size_ := by
  unfold Contains at h
  cases hp : LinearProbing hash fuel s key with
  | timeout => simp [hp] at h
  | undef => simp [hp] at h
  | ok r =>
    obtain ⟨b', j, s2⟩ := r
    obtain ⟨sh2, hz2, hc2, _⟩ := Shape.loop_ok hash key fuel s _ 0 b' j s2 sh hp
    simp only [hp] at h
    have := Res.ok.inj h
    simp only [Prod.mk.injEq] at this
    obtain ⟨_, hs⟩ := this
    subst hs
    exact ⟨sh2, hc2, hz2⟩

theorem Shape.clear_ok {s : XSFLinearProbingHashMap K V} (sh : s.Shape)
    (s1 : XSFLinearProbingHashMap K V) (h : Clear s = Res.ok s1) :
    s1.Shape ∧ s1.capacity_ = s.capacity_ ∧ s1.size_ = 0 := by
  unfold Clear at h
  simp only [sh.len, lt_irrefl, if_false] at h
  have hs := Res.ok.inj h
  rw [← hs]
  have hdrop : s.table_.drop s.capacity_ = [] := by
    rw [← sh.len]; exact List.drop_length _
  refine ⟨⟨sh.pow2, ?_, sh.mask, ?_⟩, rfl, rfl⟩
  · show (_ ++ _ : List (PNode K V)).length = s.capacity_
    rw [hdrop]
    simp [sh.len]
  · show 0 = actives (_ ++ _)
    rw [hdrop, List.append_nil]
    unfold actives
    rw [List.countP_map]
    symm
    rw [List.countP_eq_zero]
    intro nd _
    simp only [Function.comp]
    by_cases hne : nd.type = NodeType.EMPTY
    · simp [hne]
    · simp [hne]

/-! ## Runs of calls -/

theorem Shape.step_ok {s : XSFLinearProbingHashMap K V} (sh : s.Shape) (hash : K → Nat)
    (hload : 2 * s.size_ ≤ s.capacity_)
    (hcap : s.size_ ≥ s.capacity_ / 2 → s.capacity_ ≤ 2 ^ 62)
    (fuel : Nat) (op : POp K V) (s1 : XSFLinearProbingHashMap K V)
    (h : step hash fuel s op = Res.ok s1) :
    s1.Shape ∧ 2 * s1.size_ ≤ s1.capacity_ ∧ s1.size_ ≤ s.size_ + 1 := by
  cases op with
  | assign k v =>
    obtain ⟨a, b, _, d⟩ := sh.assign_ok hash hload hcap fuel k v s1 h
    exact ⟨a, b, d⟩
  | subscript k =>
    unfold step at h
    cases hs : subscript hash fuel s k with
    | timeout => simp [hs] at h
    | undef => simp [hs] at h
    | ok r =>
      obtain ⟨idx, s0⟩ := r
      simp only [hs] at h
      have := Res.ok.inj h
      subst this
      obtain ⟨a, b, _, d, _⟩ := sh.subscript_ok hash hload hcap fuel k idx s0 hs
      exact ⟨a, b, d⟩
  | contains k =>
    unfold step at h
    cases hs : Contains hash fuel s k with
    | timeout => simp [hs] at h
    | undef => simp [hs] at h
    | ok r =>
      obtain ⟨b, s0⟩ := r
      simp only [hs] at h
      have := Res.ok.inj h
      subst this
      obtain ⟨a, hc, hz⟩ := sh.contains_ok hash fuel k b s0 hs
      exact ⟨a, by omega, by omega⟩
  | erase k =>
    unfold step at h
    cases hs : Erase hash fuel s k with
    | timeout => simp [hs] at h
    | undef => simp [hs] at h
    | ok r =>
      obtain ⟨n, s0⟩ := r
      simp only [hs] at h
      have := Res.ok.inj h
      subst this
      obtain ⟨a, hc, hz, _⟩ := sh.erase_ok hash fuel k n s0 hs
      exact ⟨a, by omega, by omega⟩
  | clear =>
    obtain ⟨a, hc, hz⟩ := sh.clear_ok s1 h
    exact ⟨a, by omega, by omega⟩

theorem Shape.run_ok (hash : K → Nat) (fuel : Nat) :
    ∀ (ops : List (POp K V)) (s s1 : XSFLinearProbingHashMap K V) (t : Nat), s.Shape →
      2 * s.size_ ≤ s.capacity_ → s.size_ ≤ t → t + ops.length < 2 ^ 61 →
      run hash fuel s ops = Res.ok s1 →
      s1.Shape ∧ 2 * s1.size_ ≤ s1.capacity_ ∧ s1.size_ ≤ t + ops.length := by
  intro ops
  induction ops with
  | nil =>
    intro s s1 t sh hl ht _ h
    have := Res.ok.inj h
    subst this
    exact ⟨sh, hl, by simpa using ht⟩
  | cons op ops ih =>
    intro s s1 t sh hl ht hlen h
    simp only [List.length_cons] at hlen ⊢
    have h62 : (2 : Nat) ^ 62 = 2 * 2 ^ 61 := by norm_num
    unfold run at h
    cases hs : step hash fuel s op with
    | timeout => simp [hs] at h
    | undef => simp [hs] at h
    | ok s0 =>
      simp only [hs] at h
      obtain ⟨sh0, hl0, hz0⟩ := sh.step_ok hash hl (by intro _; omega) fuel op s0 hs
      obtain ⟨a, b, c⟩ := ih s0 s1 (t + 1) sh0 hl0 (by omega) (by omega) h
      exact ⟨a, b, by omega⟩

/-- After any calls that return, from a freshly constructed map: the load is
at most one half, `size_` counts the ACTIVE slots, and a further `operator[]`
that returns has doubled the capacity exactly if `size_ >= capacity_ / 2` held
on entry, and keeps the load bound. -/
theorem load_factor (hash : K → Nat) (n0 : Nat) (h1 : 1 ≤ n0) (ops : List (POp K V))
    (hlen : ops.length < 2 ^ 61) (fuel : Nat) (s : XSFLinearProbingHashMap K V)
    (hrun : run hash fuel (new n0) ops = Res.ok s) :
    2 * Size s ≤ s.capacity_ ∧ Size s = actives s.table_ ∧
    ∀ (fuel1 : Nat) (key : K) (index : Nat) (s1 : XSFLinearProbingHashMap K V),
      subscript hash fuel1 s key = Res.ok (index, s1) →
      s1.capacity_ = (if Size s ≥ s.capacity_ / 2 then 2 * s.capacity_ else s.capacity_) ∧
      2 * Size s1 ≤ s1.capacity_ ∧ Size s1 = actives s1.table_ := by
  have h62 : (2 : Nat) ^ 62 = 2 * 2 ^ 61 := by norm_num
  obtain ⟨inv, hsz, hcap1, hused, hnone⟩ := new_inv (V := V) hash n0 h1
  obtain ⟨sh, hl, hz⟩ := Shape.run_ok hash fuel ops (new n0) s 0 inv.shape
    (by rw [hsz]; omega) (by rw [hsz]) (by omega) hrun
  refine ⟨hl, sh.size, ?_⟩
  intro fuel1 key index s1 h
  obtain ⟨sh1, hl1, hc1, _, _⟩ :=
    sh.subscript_ok hash hl (by intro _; omega) fuel1 key index s1 h
  exact ⟨hc1, hl1, sh1.size⟩

/-! ## A table of tombstones -/

theorem run_tombOps7 (fuel : Nat) :
    run (fun k : Nat => k) (fuel + 1) (new 4) tombOps7 = Res.ok threeDeleted := by
  rfl

theorem run_tombOps8 (fuel : Nat) :
    run (fun k : Nat => k) (fuel + 1) (new 4) tombOps8 = Res.ok allDeleted := by
  rfl

theorem erase_threeDeleted (fuel : Nat) :
    Erase (fun k : Nat => k) (fuel + 1) threeDeleted 3 = Res.ok (1, allDeleted) := by
  rfl

theorem contains_threeDeleted (fuel : Nat) :
    Contains (fun k : Nat => k) (fuel + 1) threeDeleted 3 = Res.ok (true, threeDeleted) := by
  rfl

/-- Keys 1 and 5 share a hash index in the table that holds key 1. -/
theorem same_index_sample (fuel : Nat) (hf : 1 ≤ fuel) (s1 : XSFLinearProbingHashMap Nat Nat)
    (h : assign (fun k : Nat => k) fuel (new 4) 1 10 = Res.ok s1) :
    HashIndex (fun k : Nat => k) s1 1 = HashIndex (fun k : Nat => k) s1 5 := by
  obtain ⟨f, rfl⟩ : ∃ f, fuel = f + 1 := ⟨fuel - 1, by omega⟩
  rw [new_eq_blank 4 2 (by decide) (by decide),
    assign_blank (fun k : Nat => k) 2 (by decide) (by decide) 1 10 f] at h
  rw [← Res.ok.inj h, hashIndex_single, hashIndex_single]
  decide

/-- On the table of tombstones the probe loop uses up every amount of fuel:
each slot is DELETED, so the loop takes the `continue` branch forever. -/
theorem loop_allDeleted (key : Nat) :
    ∀ (fuel i step : Nat), i < 4 →
      LinearProbingLoop (fun k : Nat => k) key fuel allDeleted i step = Res.timeout := by
  intro fuel
  induction fuel with
  | zero => intro i step _; rfl
  | succ n ih =>
    intro i step hi
    have hnext : nextIndex allDeleted.mask_ i < 4 := by
      have h3 : allDeleted.mask_ = 2 ^ 2 - 1 := rfl
      rw [h3, nextIndex_pow2 2 i (by decide) hi]
      exact Nat.mod_lt _ (by decide)
    have hd : ∃ nd, allDeleted.table_[i]? = some nd ∧ nd.type = NodeType.DELETED := by
      have : i = 0 ∨ i = 1 ∨ i = 2 ∨ i = 3 := by omega
      rcases this with h | h | h | h <;> subst h <;> exact ⟨_, rfl, rfl⟩
    obtain ⟨nd, hnd, ht⟩ := hd
    rw [loop_deleted _ key allDeleted n i step nd hnd ht]
    exact ih _ _ hnext

theorem probe_allDeleted (key fuel : Nat) :
    LinearProbing (fun k : Nat => k) fuel allDeleted key = Res.timeout := by
  unfold LinearProbing
  apply loop_allDeleted
  have h3 : allDeleted.mask_ = 2 ^ 2 - 1 := rfl
  unfold HashIndex
  rw [h3, Nat.and_pow_two_sub_one_eq_mod]
  exact Nat.mod_lt _ (by decide)

theorem contains_allDeleted (key fuel : Nat) :
    Contains (fun k : Nat => k) fuel allDeleted key = Res.timeout := by
  unfold Contains
  rw [probe_allDeleted]

theorem erase_allDeleted (key fuel : Nat) :
    Erase (fun k : Nat => k) fuel allDeleted key = Res.timeout := by
  unfold Erase
  rw [probe_allDeleted]

theorem subscript_allDeleted (key fuel : Nat) :
    subscript (fun k : Nat => k) fuel allDeleted key = Res.timeout := by
  have hnr : ¬ (allDeleted.size_ ≥ allDeleted.capacity_ / 2) := by decide
  unfold subscript
  rw [if_neg hnr]
  simp only [probe_allDeleted]

/-- No slot of the table of tombstones is ACTIVE: no key is stored. -/
theorem allDeleted_not_stored (key : Nat) : ¬ Stored allDeleted.table_ key := by
  rintro ⟨j, nd, hj, ha, _⟩
  have hlt := lt_of_getElem? _ _ _ hj
  have h4 : allDeleted.table_.length = 4 := rfl
  have : j = 0 ∨ j = 1 ∨ j = 2 ∨ j = 3 := by omega
  rcases this with h | h | h | h <;> subst h <;>
    · have e1 := Option.some.inj hj
      rw [← e1] at ha
      cases ha

/-! ## Constructor argument 0 -/

theorem CeilToPow2_zero : CeilToPow2 0 = 0 := by decide

theorem mask_zero : (0 + SIZE_MOD - 1) % SIZE_MOD = SIZE_MOD - 1 := by
  rw [Nat.zero_add]
  exact Nat.mod_eq_of_lt (Nat.sub_lt (by unfold SIZE_MOD; exact Nat.two_pow_pos 64) (by decide))

/-- The map built with constructor argument 0 has no slot at all. -/
theorem new_zero_eq : (new 0 : XSFLinearProbingHashMap K V)
    = { size_ := 0, capacity_ := 0, mask_ := SIZE_MOD - 1, table_ := [] } := by
  unfold new
  rw [CeilToPow2_zero, mask_zero]
  rfl

theorem loop_no_slot (hash : K → Nat) (key : K) (s : XSFLinearProbingHashMap K V)
    (ht : s.table_ = []) (fuel i step : Nat) :
    LinearProbingLoop hash key (fuel + 1) s i step = Res.undef := by
  unfold LinearProbingLoop
  rw [ht]
  rfl

theorem resize_no_slot (hash : K → Nat) (fuel : Nat) (s : XSFLinearProbingHashMap K V)
    (hc : s.capacity_ = 0) (hm : s.mask_ = SIZE_MOD - 1) (ht : s.table_ = []) :
    Resize hash fuel s (s.capacity_ * 2 % SIZE_MOD) = Res.ok s := by
  have h0 : s.capacity_ * 2 % SIZE_MOD = 0 := by rw [hc, Nat.zero_mul]; exact Nat.zero_mod _
  unfold Resize
  rw [h0, CeilToPow2_zero]
  simp only [mask_zero]
  rw [ht, hc, if_neg (Nat.not_lt_zero _), List.take_nil, List.replicate_zero]
  simp only [rehash]
  cases s
  simp only at hc hm ht
  subst hc hm ht
  rfl

/-- On a map without slots `operator[]` reads a slot of a table that has
none. -/
theorem subscript_no_slot (hash : K → Nat) (fuel : Nat) (s : XSFLinearProbingHashMap K V)
    (hz : s.size_ = 0) (hc : s.capacity_ = 0) (hm : s.mask_ = SIZE_MOD - 1) (ht : s.table_ = [])
    (key : K) : subscript hash (fuel + 1) s key = Res.undef := by
  have hy : s.size_ ≥ s.capacity_ / 2 := by rw [hz, hc]
  unfold subscript
  rw [if_pos hy, resize_no_slot hash (fuel + 1) s hc hm ht]
  simp only [LinearProbing]
  rw [loop_no_slot hash key s ht]

end XSFLinearProbingHashMap

/-! ## Claims on the open-addressing map -/

/-- C11 (OpenAddressIndex resize transparency). For every hash function,
every constructor argument from 1 on and every list of assignments
`m[k_i] = v_i` (fewer than 2^61 of them, keys may repeat) the run returns
once every loop may take 2^63 iterations; afterwards `Contains(k)` is true
and `m[k]` reads `v` whenever `m[k] = v` is the last assignment to `k` in the
list, and `Contains(k)` is false for every key that was never assigned. -/
theorem C11_open_address_resize_transparency {K V : Type} [DecidableEq K] [Inhabited K]
    [Inhabited V] (hash : K → Nat) (n0 : Nat) (h1 : 1 ≤ n0) (l : List (K × V))
    (hlen : l.length < 2 ^ 61) (fuel : Nat) (hf : 2 ^ 63 ≤ fuel) :
    ∃ s : XSFLinearProbingHashMap K V,
      XSFLinearProbingHashMap.run hash fuel (XSFLinearProbingHashMap.new n0)
        (XSFLinearProbingHashMap.assigns l) = Res.ok s ∧
      (∀ (l1 l2 : List (K × V)) (k : K) (v : V), l = l1 ++ (k, v) :: l2 →
        k ∉ l2.map Prod.fst →
        XSFLinearProbingHashMap.Contains hash fuel s k = Res.ok (true, s) ∧
        ∃ s1, XSFLinearProbingHashMap.read hash fuel s k = Res.ok (v, s1)) ∧
      (∀ k, k ∉ l.map Prod.fst →
        XSFLinearProbingHashMap.Contains hash fuel s k = Res.ok (false, s)) := by
  obtain ⟨s, hrun, hin, hout⟩ :=
    XSFLinearProbingHashMap.assigns_from_new hash n0 h1 l hlen fuel hf
  refine ⟨s, hrun, ?_, hout⟩
  intro l1 l2 k v hl hk
  have hmem : k ∈ l.map Prod.fst := by
    rw [hl]; simp
  obtain ⟨w, hw, hc, hr⟩ := hin k hmem
  have hlast := XSFLinearProbingHashMap.lastValue_append l1 l2 k v hk
  rw [← hl, hw] at hlast
  have hwv : w = v := Option.some.inj hlast
  rw [hwv] at hr
  exact ⟨hc, hr⟩

theorem C11_open_address_resize_transparency_witness :
    ∃ s : XSFLinearProbingHashMap Nat Nat,
      XSFLinearProbingHashMap.run (fun k => k) (2 ^ 63) (XSFLinearProbingHashMap.new 4)
        (XSFLinearProbingHashMap.assigns [(1, 10), (5, 20), (1, 30), (9, 40)]) = Res.ok s ∧
      (∀ (l1 l2 : List (Nat × Nat)) (k : Nat) (v : Nat),
        [(1, 10), (5, 20), (1, 30), (9, 40)] = l1 ++ (k, v) :: l2 →
        k ∉ l2.map Prod.fst →
        XSFLinearProbingHashMap.Contains (fun k => k) (2 ^ 63) s k = Res.ok (true, s) ∧
        ∃ s1, XSFLinearProbingHashMap.read (fun k => k) (2 ^ 63) s k = Res.ok (v, s1)) ∧
      (∀ k, k ∉ [(1, 10), (5, 20), (1, 30), (9, 40)].map Prod.fst →
        XSFLinearProbingHashMap.Contains (fun k => k) (2 ^ 63) s k = Res.ok (false, s)) :=
  C11_open_address_resize_transparency (fun k => k) 4 (by decide)
    [(1, 10), (5, 20), (1, 30), (9, 40)] (by norm_num) (2 ^ 63) (le_refl _)

/-- C12 (OpenAddressIndex key uniqueness and size): the code fails it.
The calls `m[0]; Erase(0); m[1]; Erase(1); m[2]; Erase(2); m[3]; Erase(3)` on
a map of capacity 4 with the identity hash return and leave the table with
four DELETED slots, `Size() = 0` and no key stored; `operator[]` on any key,
which is absent, then uses up every amount of fuel: it never returns, so it
does not raise `Size()` by 1. -/
theorem C12_subscript_absent_key_diverges :
    (∀ fuel, XSFLinearProbingHashMap.run (fun k : Nat => k) (fuel + 1)
      (XSFLinearProbingHashMap.new 4) XSFLinearProbingHashMap.tombOps8
        = Res.ok XSFLinearProbingHashMap.allDeleted) ∧
    XSFLinearProbingHashMap.Size XSFLinearProbingHashMap.allDeleted = 0 ∧
    (∀ key, ¬ XSFLinearProbingHashMap.Stored XSFLinearProbingHashMap.allDeleted.table_ key) ∧
    ∀ fuel key, XSFLinearProbingHashMap.subscript (fun k : Nat => k) fuel
      XSFLinearProbingHashMap.allDeleted key = Res.timeout :=
  ⟨XSFLinearProbingHashMap.run_tombOps8, rfl, XSFLinearProbingHashMap.allDeleted_not_stored,
    fun fuel key => XSFLinearProbingHashMap.subscript_allDeleted key fuel⟩

/-- C13 (OpenAddressIndex tombstone correctness). For every hash function,
every constructor argument from 1 on and all keys `A ≠ B` that have the same
hash index in the table that holds `A`: the calls `m[A] = x; Erase(A);
m[B] = y` return once every loop may take 2^63 iterations, `Erase(A)` returns
1, and afterwards `Contains(A)` is false, `Contains(B)` is true, `m[B]` reads
`y` and `Size()` is 1. -/
theorem C13_tombstone_correctness {K V : Type} [DecidableEq K] [Inhabited K] [Inhabited V]
    (hash : K → Nat) (n0 : Nat) (h1 : 1 ≤ n0) (A B : K) (x y : V) (hAB : A ≠ B)
    (fuel : Nat) (hf : 2 ^ 63 ≤ fuel)
    (hidx : ∀ s1 : XSFLinearProbingHashMap K V,
      XSFLinearProbingHashMap.assign hash fuel (XSFLinearProbingHashMap.new n0) A x = Res.ok s1 →
      XSFLinearProbingHashMap.HashIndex hash s1 A = XSFLinearProbingHashMap.HashIndex hash s1 B) :
    ∃ s1 s2 s3 : XSFLinearProbingHashMap K V,
      XSFLinearProbingHashMap.assign hash fuel (XSFLinearProbingHashMap.new n0) A x = Res.ok s1 ∧
      XSFLinearProbingHashMap.Erase hash fuel s1 A = Res.ok (1, s2) ∧
      XSFLinearProbingHashMap.assign hash fuel s2 B y = Res.ok s3 ∧
      XSFLinearProbingHashMap.Contains hash fuel s3 A = Res.ok (false, s3) ∧
      XSFLinearProbingHashMap.Contains hash fuel s3 B = Res.ok (true, s3) ∧
      (∃ s4, XSFLinearProbingHashMap.read hash fuel s3 B = Res.ok (y, s4)) ∧
      XSFLinearProbingHashMap.Size s3 = 1 :=
  XSFLinearProbingHashMap.tombstone_scenario hash n0 h1 A B x y hAB fuel hf hidx

theorem C13_tombstone_correctness_witness :
    ∃ s1 s2 s3 : XSFLinearProbingHashMap Nat Nat,
      XSFLinearProbingHashMap.assign (fun k => k) (2 ^ 63) (XSFLinearProbingHashMap.new 4) 1 10
        = Res.ok s1 ∧
      XSFLinearProbingHashMap.Erase (fun k => k) (2 ^ 63) s1 1 = Res.ok (1, s2) ∧
      XSFLinearProbingHashMap.assign (fun k => k) (2 ^ 63) s2 5 20 = Res.ok s3 ∧
      XSFLinearProbingHashMap.Contains (fun k => k) (2 ^ 63) s3 1 = Res.ok (false, s3) ∧
      XSFLinearProbingHashMap.Contains (fun k => k) (2 ^ 63) s3 5 = Res.ok (true, s3) ∧
      (∃ s4, XSFLinearProbingHashMap.read (fun k => k) (2 ^ 63) s3 5 = Res.ok (20, s4)) ∧
      XSFLinearProbingHashMap.Size s3 = 1 :=
  C13_tombstone_correctness (fun k => k) 4 (by decide) 1 5 10 20 (by decide) (2 ^ 63)
    (le_refl _) (XSFLinearProbingHashMap.same_index_sample (2 ^ 63) Nat.one_le_two_pow)

/-- C14 (OpenAddressIndex Erase of a missing key): the code fails it.
On the reachable table with four DELETED slots (capacity 4, identity hash,
after `m[0]; Erase(0); m[1]; Erase(1); m[2]; Erase(2); m[3]; Erase(3)`) no key
is stored, and `Erase(k)` uses up every amount of fuel for every `k`: it never
returns 0. -/
theorem C14_erase_missing_key_diverges :
    (∀ fuel, XSFLinearProbingHashMap.run (fun k : Nat => k) (fuel + 1)
      (XSFLinearProbingHashMap.new 4) XSFLinearProbingHashMap.tombOps8
        = Res.ok XSFLinearProbingHashMap.allDeleted) ∧
    (∀ key, ¬ XSFLinearProbingHashMap.Stored XSFLinearProbingHashMap.allDeleted.table_ key) ∧
    ∀ fuel key, XSFLinearProbingHashMap.Erase (fun k : Nat => k) fuel
      XSFLinearProbingHashMap.allDeleted key = Res.timeout :=
  ⟨XSFLinearProbingHashMap.run_tombOps8, XSFLinearProbingHashMap.allDeleted_not_stored,
    fun fuel key => XSFLinearProbingHashMap.erase_allDeleted key fuel⟩

/-- C15 (OpenAddressIndex Erase keeps probe chains connected): the code fails
it. After `m[0]; Erase(0); m[1]; Erase(1); m[2]; Erase(2); m[3]` (capacity 4,
identity hash) key 3 is stored; `Erase(3)` returns 1 and leaves four DELETED
slots, and then `Contains(3)` uses up every amount of fuel instead of
returning false. -/
theorem C15_contains_after_erase_diverges :
    (∀ fuel, XSFLinearProbingHashMap.run (fun k : Nat => k) (fuel + 1)
      (XSFLinearProbingHashMap.new 4) XSFLinearProbingHashMap.tombOps7
        = Res.ok XSFLinearProbingHashMap.threeDeleted) ∧
    (∀ fuel, XSFLinearProbingHashMap.Contains (fun k : Nat => k) (fuel + 1)
      XSFLinearProbingHashMap.threeDeleted 3
        = Res.ok (true, XSFLinearProbingHashMap.threeDeleted)) ∧
    (∀ fuel, XSFLinearProbingHashMap.Erase (fun k : Nat => k) (fuel + 1)
      XSFLinearProbingHashMap.threeDeleted 3
        = Res.ok (1, XSFLinearProbingHashMap.allDeleted)) ∧
    ∀ fuel, XSFLinearProbingHashMap.Contains (fun k : Nat => k) fuel
      XSFLinearProbingHashMap.allDeleted 3 = Res.timeout :=
  ⟨XSFLinearProbingHashMap.run_tombOps7, XSFLinearProbingHashMap.contains_threeDeleted,
    XSFLinearProbingHashMap.erase_threeDeleted,
    fun fuel => XSFLinearProbingHashMap.contains_allDeleted 3 fuel⟩

/-- C16 (OpenAddressIndex capacity is always a power of two): the code fails
it. With constructor argument 0, `CeilToPow2` returns 0: `capacity_` is 0,
which is no power of two, the table has no slot, `mask_` is 2^64 - 1, and the
first `operator[]` reads outside the table. -/
theorem C16_capacity_zero :
    (XSFLinearProbingHashMap.new 0 : XSFLinearProbingHashMap Nat Nat).capacity_ = 0 ∧
    (∀ e, (XSFLinearProbingHashMap.new 0 : XSFLinearProbingHashMap Nat Nat).capacity_ ≠ 2 ^ e) ∧
    (XSFLinearProbingHashMap.new 0 : XSFLinearProbingHashMap Nat Nat).mask_ = SIZE_MOD - 1 ∧
    (XSFLinearProbingHashMap.new 0 : XSFLinearProbingHashMap Nat Nat).table_ = [] ∧
    ∀ fuel key, XSFLinearProbingHashMap.subscript (fun k : Nat => k) (fuel + 1)
      (XSFLinearProbingHashMap.new 0 : XSFLinearProbingHashMap Nat Nat) key = Res.undef := by
  have h := XSFLinearProbingHashMap.new_zero_eq (K := Nat) (V := Nat)
  have hz : (XSFLinearProbingHashMap.new 0 : XSFLinearProbingHashMap Nat Nat).size_ = 0 := by
    rw [h]
  have hc : (XSFLinearProbingHashMap.new 0 : XSFLinearProbingHashMap Nat Nat).capacity_ = 0 := by
    rw [h]
  have hm : (XSFLinearProbingHashMap.new 0 : XSFLinearProbingHashMap Nat Nat).mask_
      = SIZE_MOD - 1 := by
    rw [h]
  have ht : (XSFLinearProbingHashMap.new 0 : XSFLinearProbingHashMap Nat Nat).table_ = [] := by
    rw [h]
  refine ⟨hc, ?_, hm, ht, ?_⟩
  · intro e
    rw [hc]
    exact (Nat.two_pow_pos e).ne
  · intro fuel key
    exact XSFLinearProbingHashMap.subscript_no_slot (fun k : Nat => k) fuel
      (XSFLinearProbingHashMap.new 0 : XSFLinearProbingHashMap Nat Nat) hz hc hm ht key

/-- C18 (OpenAddressIndex probes terminate): the code fails it. On the
reachable table with four DELETED slots (capacity 4, identity hash, after
`m[0]; Erase(0); m[1]; Erase(1); m[2]; Erase(2); m[3]; Erase(3)`) the probe
loop of `Contains`, `Erase` and `operator[]` uses up every amount of fuel, for
every key: a DELETED slot takes the `continue` branch, which skips the test
`step > capacity_`. -/
theorem C18_probe_diverges :
    (∀ fuel, XSFLinearProbingHashMap.run (fun k : Nat => k) (fuel + 1)
      (XSFLinearProbingHashMap.new 4) XSFLinearProbingHashMap.tombOps8
        = Res.ok XSFLinearProbingHashMap.allDeleted) ∧
    ∀ fuel key,
      XSFLinearProbingHashMap.LinearProbing (fun k : Nat => k) fuel
        XSFLinearProbingHashMap.allDeleted key = Res.timeout ∧
      XSFLinearProbingHashMap.Contains (fun k : Nat => k) fuel
        XSFLinearProbingHashMap.allDeleted key = Res.timeout ∧
      XSFLinearProbingHashMap.Erase (fun k : Nat => k) fuel
        XSFLinearProbingHashMap.allDeleted key = Res.timeout ∧
      XSFLinearProbingHashMap.subscript (fun k : Nat => k) fuel
        XSFLinearProbingHashMap.allDeleted key = Res.timeout :=
  ⟨XSFLinearProbingHashMap.run_tombOps8, fun fuel key =>
    ⟨XSFLinearProbingHashMap.probe_allDeleted key fuel,
      XSFLinearProbingHashMap.contains_allDeleted key fuel,
      XSFLinearProbingHashMap.erase_allDeleted key fuel,
      XSFLinearProbingHashMap.subscript_allDeleted key fuel⟩⟩

/-! ## Claims on the separate-chaining map -/

/-- C19 (ChainedIndex resize transparency): the code fails it for the key
`K{}`. With `int`-like keys, the identity hash and capacity 4, `m[0] = 5`
writes into the sentinel `head_` of bucket 0 and leaves `Size() = 0`; after
`m[0] = 5; m[1] = 1; m[2] = 2; m[3] = 3; m[4] = 4`, five distinct keys, the
capacity has doubled to 8, `Size()` is 4 and `m[0]` reads 0. -/
theorem C19_default_key_lost :
    (∃ s, XSFSeparateChainingHashMap.assignAll (fun k : Nat => k)
        (XSFSeparateChainingHashMap.new 4) [(0, 5)] = some s ∧
      XSFSeparateChainingHashMap.Size s = 0 ∧
      ∃ s1, XSFSeparateChainingHashMap.read (fun k : Nat => k) s 0 = some (5, s1)) ∧
    ∃ s, XSFSeparateChainingHashMap.assignAll (fun k : Nat => k)
        (XSFSeparateChainingHashMap.new 4) [(0, 5), (1, 1), (2, 2), (3, 3), (4, 4)] = some s ∧
      s.capacity_ = 8 ∧ XSFSeparateChainingHashMap.Size s = 4 ∧
      ∃ s1, XSFSeparateChainingHashMap.read (fun k : Nat => k) s 0 = some (0, s1) :=
  ⟨⟨_, rfl, rfl, _, rfl⟩, _, rfl, rfl, rfl, _, rfl⟩

/-- C20 (ChainedIndex Count): the code fails it for the key `K{}`. With
`int`-like keys, the identity hash and capacity 4, `Count(0)` is 1 on the
freshly constructed map, it is 1 after `m[7] = 5` as well, and `Erase(0)`
returns 0 there and leaves `Count(0) = 1`; `Count(8)`, for a key that shares
bucket 0, is 0. -/
theorem C20_count_default_key :
    XSFSeparateChainingHashMap.Count (fun k : Nat => k)
      (XSFSeparateChainingHashMap.new 4 : XSFSeparateChainingHashMap Nat Nat) 0 = some 1 ∧
    XSFSeparateChainingHashMap.Contains (fun k : Nat => k)
      (XSFSeparateChainingHashMap.new 4 : XSFSeparateChainingHashMap Nat Nat) 0 = some true ∧
    ∃ s, XSFSeparateChainingHashMap.assign (fun k : Nat => k)
        (XSFSeparateChainingHashMap.new 4) 7 5 = some s ∧
      XSFSeparateChainingHashMap.Count (fun k : Nat => k) s 0 = some 1 ∧
      XSFSeparateChainingHashMap.Count (fun k : Nat => k) s 8 = some 0 ∧
      XSFSeparateChainingHashMap.Count (fun k : Nat => k) s 7 = some 1 ∧
      ∃ s1, XSFSeparateChainingHashMap.Erase (fun k : Nat => k) s 0 = some (0, s1) ∧
        XSFSeparateChainingHashMap.Count (fun k : Nat => k) s1 0 = some 1 :=
  ⟨rfl, rfl, _, rfl, rfl, rfl, rfl, _, rfl, rfl⟩

/-! # The linked hash map -/

namespace XSFLinkedHashMap

variable {K V : Type} [DecidableEq K] [Inhabited K] [Inhabited V]

set_option linter.unusedSectionVars false
set_option linter.unusedVariables false

/-! ## The index `map_` -/

theorem mapFind_none_iff (m : List (K × Nat)) (k : K) :
    mapFind m k = none ↔ k ∉ m.map Prod.fst := by
  induction m with
  | nil => simp [mapFind]
  | cons p m ih =>
    obtain ⟨k1, it⟩ := p
    by_cases h : k1 = k
    · simp [mapFind, h]
    · have h' : ¬ k = k1 := fun e => h e.symm
      simp [mapFind, h, h', ih]

theorem mapFind_mapErase (m : List (K × Nat)) (k k' : K) :
    mapFind (mapErase m k) k' = if k' = k then none else mapFind m k' := by
  induction m with
  | nil => simp [mapErase, mapFind]
  | cons p m ih =>
    obtain ⟨k1, it⟩ := p
    unfold mapErase at ih ⊢
    by_cases h1 : k1 = k
    · subst h1
      simp only [List.filter_cons, ne_eq, not_true_eq_false, decide_False, Bool.false_eq_true,
        if_false, ih]
      by_cases h2 : k' = k1
      · simp [h2]
      · have : ¬ k1 = k' := fun e => h2 e.symm
        simp [h2, mapFind, this]
    · simp only [List.filter_cons, ne_eq, h1, not_false_eq_true, decide_True, if_true, mapFind, ih]
      by_cases h2 : k1 = k'
      · subst h2
        simp [h1]
      · simp [h2]

theorem mapFind_snoc (m : List (K × Nat)) (k : K) (it : Nat) (k' : K) :
    mapFind (m ++ [(k, it)]) k'
      = match mapFind m k' with
        | some x => some x
        | none => if k = k' then some it else none := by
  induction m with
  | nil => simp [mapFind]
  | cons p m ih =>
    obtain ⟨k1, it1⟩ := p
    by_cases h : k1 = k'
    · simp [mapFind, h]
    · simp [mapFind, h, ih]

theorem mapFind_mapAssign (m : List (K × Nat)) (k : K) (it : Nat) (k' : K) :
    mapFind (mapAssign m k it) k' = if k' = k then some it else mapFind m k' := by
  unfold mapAssign
  rw [mapFind_snoc, mapFind_mapErase]
  by_cases h : k' = k
  · subst h; simp
  · have h' : ¬ k = k' := fun e => h e.symm
    simp only [h, if_false, h']
    cases mapFind m k' <;> rfl

theorem mapKeys_mapErase (m : List (K × Nat)) (k : K) :
    (mapErase m k).map Prod.fst = (m.map Prod.fst).filter (fun x => decide (x ≠ k)) := by
  unfold mapErase
  rw [List.filter_map]
  rfl

theorem filter_ne_of_not_mem (l : List K) (k : K) (h : k ∉ l) :
    l.filter (fun x => decide (x ≠ k)) = l := by
  rw [List.filter_eq_self]
  intro x hx
  simp only [ne_eq, decide_eq_true_eq]
  intro e
  exact h (e ▸ hx)

theorem length_filter_ne_of_mem (l : List K) (k : K) (hn : l.Nodup) (h : k ∈ l) :
    (l.filter (fun x => decide (x ≠ k))).length + 1 = l.length := by
  induction l with
  | nil => cases h
  | cons a l ih =>
    rw [List.nodup_cons] at hn
    by_cases ha : a = k
    · subst ha
      simp only [List.filter_cons, ne_eq, not_true_eq_false, decide_False, Bool.false_eq_true,
        if_false, List.length_cons]
      rw [filter_ne_of_not_mem l a hn.1]
    · have hk : k ∈ l := by
        rcases List.mem_cons.1 h with e | e
        · exact absurd e.symm ha
        · exact e
      simp only [List.filter_cons, ne_eq, ha, not_false_eq_true, decide_True, if_true,
        List.length_cons]
      rw [ih hn.2 hk]

/-! ## The list `list_` -/

theorem deref_some_iff (l : List (LCell K V)) (hn : (l.map (fun c => c.addr)).Nodup) (it : Nat)
    (nd : LNode K V) : deref l it = some nd ↔ (⟨it, nd⟩ : LCell K V) ∈ l := by
  induction l with
  | nil => simp [deref]
  | cons c l ih =>
    simp only [List.map_cons, List.nodup_cons] at hn
    unfold deref
    by_cases h : c.addr = it
    · rw [if_pos h]
      constructor
      · intro e
        have e1 : c.node = nd := Option.some.inj e
        apply List.mem_cons.2
        left
        cases c
        simp only at h e1
        rw [h, e1]
      · intro hm
        rcases List.mem_cons.1 hm with e | e
        · rw [← e]
        · exfalso
          apply hn.1
          rw [h]
          exact List.mem_map.2 ⟨_, e, rfl⟩
    · rw [if_neg h, ih hn.2]
      constructor
      · intro hm; exact List.mem_cons_of_mem _ hm
      · intro hm
        rcases List.mem_cons.1 hm with e | e
        · exfalso; apply h; rw [← e]
        · exact e

theorem deref_isSome_of_mem (l : List (LCell K V)) (c : LCell K V) (h : c ∈ l) :
    ∃ nd, deref l c.addr = some nd := by
  induction l with
  | nil => cases h
  | cons a l ih =>
    unfold deref
    by_cases e : a.addr = c.addr
    · exact ⟨a.node, by rw [if_pos e]⟩
    · rw [if_neg e]
      rcases List.mem_cons.1 h with e1 | e1
      · exact absurd (by rw [e1]) e
      · exact ih e1

theorem listSet_spec (l : List (LCell K V)) (c : LCell K V) (h : c ∈ l) (value : V) :
    ∃ l1, listSet l c.addr value = some l1 ∧
      l1.map (fun x => (x.addr, x.node.key)) = l.map (fun x => (x.addr, x.node.key)) := by
  induction l with
  | nil => cases h
  | cons a l ih =>
    unfold listSet
    by_cases e : a.addr = c.addr
    · exact ⟨_, by rw [if_pos e], by simp⟩
    · rw [if_neg e]
      have hc : c ∈ l := by
        rcases List.mem_cons.1 h with e1 | e1
        · exact absurd (by rw [e1]) e
        · exact e1
      obtain ⟨l1, h1, h2⟩ := ih hc
      exact ⟨a :: l1, by rw [h1], by simp [h2]⟩

theorem cell_iff_pair (l : List (LCell K V)) (it : Nat) (k : K) :
    (∃ c ∈ l, c.addr = it ∧ c.node.key = k) ↔ (it, k) ∈ l.map (fun x => (x.addr, x.node.key)) := by
  rw [List.mem_map]
  constructor
  · rintro ⟨c, hc, h1, h2⟩
    exact ⟨c, hc, by rw [h1, h2]⟩
  · rintro ⟨c, hc, h⟩
    have h1 : c.addr = it := congrArg Prod.fst h
    have h2 : c.node.key = k := congrArg Prod.snd h
    exact ⟨c, hc, h1, h2⟩

theorem addrs_of_pairs (l : List (LCell K V)) :
    l.map (fun x => x.addr) = (l.map (fun x => (x.addr, x.node.key))).map Prod.fst := by
  rw [List.map_map]; rfl

theorem keys_of_pairs (l : List (LCell K V)) :
    l.map (fun x => x.node.key) = (l.map (fun x => (x.addr, x.node.key))).map Prod.snd := by
  rw [List.map_map]; rfl

/-! ## Index and list in lock-step -/

theorem new_lockstep : WF (new : XSFLinkedHashMap K V) :=
  ⟨fun c h => (by cases h), List.nodup_nil, List.nodup_nil, List.nodup_nil,
    fun k it => by simp [new, mapFind]⟩

theorem WF.mem_listKeys_iff {s : XSFLinkedHashMap K V} (wf : WF s) (k : K) :
    k ∈ listKeys s ↔ ∃ it, mapFind s.map_ k = some it := by
  unfold listKeys
  rw [List.mem_map]
  constructor
  · rintro ⟨c, hc, h⟩
    exact ⟨c.addr, (wf.index k c.addr).2 ⟨c, hc, rfl, h⟩⟩
  · rintro ⟨it, h⟩
    obtain ⟨c, hc, _, h2⟩ := (wf.index k it).1 h
    exact ⟨c, hc, h2⟩

theorem WF.mapKeys_iff {s : XSFLinkedHashMap K V} (wf : WF s) (k : K) :
    k ∈ mapKeys s ↔ k ∈ listKeys s := by
  rw [wf.mem_listKeys_iff]
  unfold mapKeys
  constructor
  · intro h
    cases hf : mapFind s.map_ k with
    | none => exact absurd h ((mapFind_none_iff _ _).1 hf)
    | some it => exact ⟨it, rfl⟩
  · rintro ⟨it, h⟩
    by_contra hn
    rw [(mapFind_none_iff _ _).2 hn] at h
    cases h

theorem WF.contains_iff_mem {s : XSFLinkedHashMap K V} (wf : WF s) (k : K) :
    Contains s k = true ↔ k ∈ listKeys s := by
  rw [wf.mem_listKeys_iff]
  unfold Contains
  cases mapFind s.map_ k <;> simp

/-- The call `operator[]` on a stored key changes nothing. -/
theorem WF.subscript_stored {s : XSFLinkedHashMap K V} (wf : WF s) (k : K)
    (hk : k ∈ listKeys s) :
    ∃ c ∈ s.list_, c.node.key = k ∧ subscript s k = some (c.addr, s) := by
  obtain ⟨it, hit⟩ := (wf.mem_listKeys_iff k).1 hk
  obtain ⟨c, hc, h1, h2⟩ := (wf.index k it).1 hit
  obtain ⟨nd, hnd⟩ := deref_isSome_of_mem s.list_ c hc
  refine ⟨c, hc, h2, ?_⟩
  unfold subscript
  rw [hit, ← h1]
  simp only [hnd]

/-- The call `operator[]` on an absent key appends a node with the value
`V{}`. -/
theorem WF.subscript_absent {s : XSFLinkedHashMap K V} (wf : WF s) (k : K)
    (hk : k ∉ listKeys s) :
    subscript s k = some (s.heap_, pushed s k) ∧ WF (pushed s k) := by
  have hnone : mapFind s.map_ k = none := by
    cases hf : mapFind s.map_ k with
    | none => rfl
    | some it => exact absurd ((wf.mem_listKeys_iff k).2 ⟨it, hf⟩) hk
  have hfresh : ∀ c ∈ s.list_, c.addr ≠ s.heap_ := fun c hc => Nat.ne_of_lt (wf.addr_lt c hc)
  have hderef : ∃ nd, deref (s.list_ ++ [(⟨s.heap_, ⟨k, default⟩⟩ : LCell K V)]) s.heap_
      = some nd :=
    deref_isSome_of_mem _ (⟨s.heap_, ⟨k, default⟩⟩ : LCell K V) (by simp)
  obtain ⟨nd, hnd⟩ := hderef
  constructor
  · unfold subscript
    rw [hnone]
    simp only [mapFind_mapAssign, if_true, hnd]
    rfl
  · refine ⟨?_, ?_, ?_, ?_, ?_⟩
    · intro c hc
      show c.addr < s.heap_ + 1
      rcases List.mem_append.1 hc with h | h
      · exact Nat.lt_succ_of_lt (wf.addr_lt c h)
      · rw [List.mem_singleton.1 h]; exact Nat.lt_succ_self _
    · show ((s.list_ ++ [(⟨s.heap_, ⟨k, default⟩⟩ : LCell K V)]).map (fun c => c.addr)).Nodup
      rw [List.map_append, List.nodup_append]
      refine ⟨wf.addr_nodup, by simp, ?_⟩
      intro a ha hb
      obtain ⟨c, hc, e⟩ := List.mem_map.1 ha
      simp only [List.map_cons, List.map_nil, List.mem_singleton] at hb
      exact hfresh c hc (by rw [e, hb])
    · show ((s.list_ ++ [(⟨s.heap_, ⟨k, default⟩⟩ : LCell K V)]).map (fun c => c.node.key)).Nodup
      rw [List.map_append, List.nodup_append]
      refine ⟨wf.keys_nodup, by simp, ?_⟩
      intro a ha hb
      simp only [List.map_cons, List.map_nil, List.mem_singleton] at hb
      rw [hb] at ha
      exact hk ha
    · show ((mapAssign s.map_ k s.heap_).map Prod.fst).Nodup
      unfold mapAssign
      rw [List.map_append, mapKeys_mapErase, List.nodup_append]
      refine ⟨wf.map_nodup.filter _, by simp, ?_⟩
      intro a ha hb
      simp only [List.map_cons, List.map_nil, List.mem_singleton] at hb
      rw [hb] at ha
      simp at ha
    · intro k' it
      show mapFind (mapAssign s.map_ k s.heap_) k' = some it ↔
        ∃ c ∈ s.list_ ++ [(⟨s.heap_, ⟨k, default⟩⟩ : LCell K V)], c.addr = it ∧ c.node.key = k'
      rw [mapFind_mapAssign]
      by_cases e : k' = k
      · subst e
        rw [if_pos rfl]
        constructor
        · intro h
          have h1 : s.heap_ = it := Option.some.inj h
          exact ⟨⟨s.heap_, ⟨k', default⟩⟩, by simp, h1, rfl⟩
        · rintro ⟨c, hc, h1, h2⟩
          rcases List.mem_append.1 hc with h | h
          · exact absurd (List.mem_map.2 ⟨c, h, h2⟩) hk
          · rw [List.mem_singleton.1 h] at h1
            rw [← h1]
      · rw [if_neg e, wf.index k' it]
        constructor
        · rintro ⟨c, hc, h1, h2⟩
          exact ⟨c, List.mem_append_left _ hc, h1, h2⟩
        · rintro ⟨c, hc, h1, h2⟩
          rcases List.mem_append.1 hc with h | h
          · exact ⟨c, h, h1, h2⟩
          · rw [List.mem_singleton.1 h] at h2
            exact absurd h2.symm e

theorem listKeys_pushed (s : XSFLinkedHashMap K V) (k : K) :
    listKeys (pushed s k) = listKeys s ++ [k] := by
  simp [listKeys, pushed]

/-- Writing values keeps the lock-step: only addresses and keys matter. -/
theorem WF.of_pairs {s : XSFLinkedHashMap K V} (wf : WF s) (l1 : List (LCell K V))
    (h : l1.map (fun x => (x.addr, x.node.key)) = s.list_.map (fun x => (x.addr, x.node.key))) :
    WF ({ s with list_ := l1 } : XSFLinkedHashMap K V) ∧
    listKeys ({ s with list_ := l1 } : XSFLinkedHashMap K V) = listKeys s := by
  have ha : l1.map (fun x => x.addr) = s.list_.map (fun x => x.addr) := by
    rw [addrs_of_pairs, addrs_of_pairs s.list_, h]
  have hk : l1.map (fun x => x.node.key) = s.list_.map (fun x => x.node.key) := by
    rw [keys_of_pairs, keys_of_pairs s.list_, h]
  refine ⟨⟨?_, ?_, ?_, wf.map_nodup, ?_⟩, hk⟩
  · intro c hc
    have : c.addr ∈ s.list_.map (fun x => x.addr) := by
      rw [← ha]; exact List.mem_map.2 ⟨c, hc, rfl⟩
    obtain ⟨c', hc', e⟩ := List.mem_map.1 this
    show c.addr < s.heap_
    rw [← e]; exact wf.addr_lt c' hc'
  · show (l1.map (fun x => x.addr)).Nodup
    rw [ha]; exact wf.addr_nodup
  · show (l1.map (fun x => x.node.key)).Nodup
    rw [hk]; exact wf.keys_nodup
  · intro k it
    show mapFind s.map_ k = some it ↔ ∃ c ∈ l1, c.addr = it ∧ c.node.key = k
    rw [wf.index k it, cell_iff_pair, cell_iff_pair, h]

/-- The statement `m[key] = value` returns and keeps the lock-step; the key
is appended to the list if it was absent, and stays where it is otherwise. -/
theorem WF.assign_keeps {s : XSFLinkedHashMap K V} (wf : WF s) (k : K) (v : V) :
    ∃ s1, assign s k v = some s1 ∧ WF s1 ∧
      listKeys s1 = (if k ∈ listKeys s then listKeys s else listKeys s ++ [k]) := by
  by_cases hk : k ∈ listKeys s
  · obtain ⟨c, hc, _, hsub⟩ := wf.subscript_stored k hk
    obtain ⟨l1, hl1, hp⟩ := listSet_spec s.list_ c hc v
    obtain ⟨wf1, hk1⟩ := wf.of_pairs l1 hp
    refine ⟨{ s with list_ := l1 }, ?_, wf1, by rw [hk1, if_pos hk]⟩
    unfold assign
    rw [hsub]
    simp only [hl1]
  · obtain ⟨hsub, wf0⟩ := wf.subscript_absent k hk
    have hc : (⟨s.heap_, ⟨k, default⟩⟩ : LCell K V) ∈ (pushed s k).list_ := by
      simp [pushed]
    obtain ⟨l1, hl1, hp⟩ := listSet_spec (pushed s k).list_ _ hc v
    obtain ⟨wf1, hk1⟩ := wf0.of_pairs l1 hp
    refine ⟨{ pushed s k with list_ := l1 }, ?_, wf1, by rw [hk1, if_neg hk, listKeys_pushed]⟩
    unfold assign
    rw [hsub]
    simp only [hl1]

/-- The call `operator[]` returns and keeps the lock-step. -/
theorem WF.subscript_keeps {s : XSFLinkedHashMap K V} (wf : WF s) (k : K) :
    ∃ it s1, subscript s k = some (it, s1) ∧ WF s1 ∧
      listKeys s1 = (if k ∈ listKeys s then listKeys s else listKeys s ++ [k]) := by
  by_cases hk : k ∈ listKeys s
  · obtain ⟨c, hc, _, hsub⟩ := wf.subscript_stored k hk
    exact ⟨c.addr, s, hsub, wf, by rw [if_pos hk]⟩
  · obtain ⟨hsub, wf0⟩ := wf.subscript_absent k hk
    exact ⟨s.heap_, pushed s k, hsub, wf0, by rw [if_neg hk, listKeys_pushed]⟩

theorem WF.erase_missing {s : XSFLinkedHashMap K V} (wf : WF s) (k : K)
    (hk : k ∉ listKeys s) : Erase s k = some (false, s) := by
  have hnone : mapFind s.map_ k = none := by
    cases hf : mapFind s.map_ k with
    | none => rfl
    | some it => exact absurd ((wf.mem_listKeys_iff k).2 ⟨it, hf⟩) hk
  unfold Erase
  rw [hnone]

/-- In a list with distinct addresses and distinct keys, the node at the
address stored for `k` is the one node with key `k`. -/
theorem WF.addr_iff_key {s : XSFLinkedHashMap K V} (wf : WF s) (c : LCell K V)
    (hc : c ∈ s.list_) (c' : LCell K V) (hc' : c' ∈ s.list_) :
    c'.addr = c.addr ↔ c'.node.key = c.node.key := by
  constructor
  · intro h
    have := List.inj_on_of_nodup_map wf.addr_nodup hc' hc h
    rw [this]
  · intro h
    have hn : (s.list_.map (fun x => x.node.key)).Nodup := wf.keys_nodup
    have := List.inj_on_of_nodup_map hn hc' hc h
    rw [this]

/-- The call `Erase` on a stored key returns true and removes the node of
that key, nothing else. -/
theorem WF.erase_present {s : XSFLinkedHashMap K V} (wf : WF s) (k : K)
    (hk : k ∈ listKeys s) :
    ∃ s1, Erase s k = some (true, s1) ∧ WF s1 ∧
      s1.list_ = s.list_.filter (fun c => decide (c.node.key ≠ k)) ∧
      listKeys s1 = (listKeys s).filter (fun x => decide (x ≠ k)) ∧
      s1.list_.length + 1 = s.list_.length ∧ k ∉ listKeys s1 := by
  obtain ⟨it, hit⟩ := (wf.mem_listKeys_iff k).1 hk
  obtain ⟨c, hc, h1, h2⟩ := (wf.index k it).1 hit
  obtain ⟨nd, hnd⟩ := deref_isSome_of_mem s.list_ c hc
  have hfilter : s.list_.filter (fun x => decide (x.addr ≠ it))
      = s.list_.filter (fun x => decide (x.node.key ≠ k)) := by
    apply List.filter_congr
    intro x hx
    have := wf.addr_iff_key c hc x hx
    rw [h1, h2] at this
    simp only [ne_eq, decide_not, this]
  have hkeys : (s.list_.filter (fun x => decide (x.node.key ≠ k))).map (fun x => x.node.key)
      = (listKeys s).filter (fun x => decide (x ≠ k)) := by
    unfold listKeys
    rw [List.filter_map]
    rfl
  refine ⟨{ s with list_ := s.list_.filter (fun x => decide (x.node.key ≠ k)),
                   map_ := mapErase s.map_ k }, ?_, ⟨?_, ?_, ?_, ?_, ?_⟩, rfl, hkeys, ?_, ?_⟩
  · unfold Erase listErase
    rw [hit, ← h1]
    simp only [hnd]
    rw [h1, hfilter]
  · intro x hx
    exact wf.addr_lt x (List.mem_of_mem_filter hx)
  · show ((s.list_.filter _).map (fun x => x.addr)).Nodup
    exact (wf.addr_nodup.sublist ((List.filter_sublist _).map _))
  · show ((s.list_.filter _).map (fun x => x.node.key)).Nodup
    exact (wf.keys_nodup.sublist ((List.filter_sublist _).map _))
  · show ((mapErase s.map_ k).map Prod.fst).Nodup
    rw [mapKeys_mapErase]
    exact wf.map_nodup.filter _
  · intro k' it'
    show mapFind (mapErase s.map_ k) k' = some it' ↔
      ∃ x ∈ s.list_.filter (fun x => decide (x.node.key ≠ k)), x.addr = it' ∧ x.node.key = k'
    rw [mapFind_mapErase]
    by_cases e : k' = k
    · subst e
      rw [if_pos rfl]
      constructor
      · intro h; cases h
      · rintro ⟨x, hx, _, hx2⟩
        have := (List.mem_filter.1 hx).2
        simp [hx2] at this
    · rw [if_neg e, wf.index k' it']
      constructor
      · rintro ⟨x, hx, hx1, hx2⟩
        exact ⟨x, List.mem_filter.2 ⟨hx, by simp [hx2, e]⟩, hx1, hx2⟩
      · rintro ⟨x, hx, hx1, hx2⟩
        exact ⟨x, List.mem_of_mem_filter hx, hx1, hx2⟩
  · show (s.list_.filter _).length + 1 = s.list_.length
    have h3 := length_filter_ne_of_mem (listKeys s) k wf.keys_nodup hk
    rw [← hkeys, List.length_map] at h3
    rw [h3]
    simp [listKeys]
  · show k ∉ (s.list_.filter _).map (fun x => x.node.key)
    rw [hkeys]
    simp

theorem clear_lockstep (s : XSFLinkedHashMap K V) : WF (Clear s) ∧ listKeys (Clear s) = [] :=
  ⟨⟨fun c h => (by cases h), List.nodup_nil, List.nodup_nil, List.nodup_nil,
    fun k it => by simp [Clear, mapFind]⟩, rfl⟩

/-- Every call returns, keeps the lock-step and moves the keys of the list
as the insertion order prescribes. -/
theorem WF.step_lockstep {s : XSFLinkedHashMap K V} (wf : WF s) (op : LOp K V) :
    ∃ s1, step s op = some s1 ∧ WF s1 ∧
      ∀ ops, insertionOrder (listKeys s) (op :: ops) = insertionOrder (listKeys s1) ops := by
  cases op with
  | assign k v =>
    obtain ⟨s1, h1, wf1, hk1⟩ := wf.assign_keeps k v
    exact ⟨s1, h1, wf1, fun ops => by rw [hk1]; rfl⟩
  | subscript k =>
    obtain ⟨it, s1, h1, wf1, hk1⟩ := wf.subscript_keeps k
    refine ⟨s1, ?_, wf1, fun ops => by rw [hk1]; rfl⟩
    simp only [step, h1]
  | erase k =>
    by_cases hk : k ∈ listKeys s
    · obtain ⟨s1, h1, wf1, _, hk1, _, _⟩ := wf.erase_present k hk
      refine ⟨s1, ?_, wf1, fun ops => by rw [hk1]; rfl⟩
      simp only [step, h1]
    · refine ⟨s, ?_, wf, fun ops => ?_⟩
      · simp only [step, wf.erase_missing k hk]
      · show insertionOrder ((listKeys s).filter _) ops = _
        rw [filter_ne_of_not_mem _ _ hk]
  | clear =>
    exact ⟨Clear s, rfl, (clear_lockstep s).1, fun ops => by rw [(clear_lockstep s).2]; rfl⟩

theorem WF.run_lockstep (ops : List (LOp K V)) :
    ∀ {s : XSFLinkedHashMap K V}, WF s →
      ∃ s1, run s ops = some s1 ∧ WF s1 ∧ listKeys s1 = insertionOrder (listKeys s) ops := by
  induction ops with
  | nil => intro s wf; exact ⟨s, rfl, wf, rfl⟩
  | cons op ops ih =>
    intro s wf
    obtain ⟨s0, h0, wf0, hord⟩ := wf.step_lockstep op
    obtain ⟨s1, h1, wf1, hk1⟩ := ih wf0
    refine ⟨s1, ?_, wf1, by rw [hk1, hord ops]⟩
    unfold run
    rw [h0]
    exact h1

theorem mapFind_of_mem (m : List (K × Nat)) (hn : (m.map Prod.fst).Nodup) (k : K) (it : Nat)
    (h : (k, it) ∈ m) : mapFind m k = some it := by
  induction m with
  | nil => cases h
  | cons p m ih =>
    obtain ⟨k1, it1⟩ := p
    simp only [List.map_cons, List.nodup_cons] at hn
    unfold mapFind
    rcases List.mem_cons.1 h with e | e
    · have e1 : k = k1 := congrArg Prod.fst e
      have e2 : it = it1 := congrArg Prod.snd e
      rw [if_pos e1.symm, e2]
    · have hne : k1 ≠ k := by
        intro e1
        apply hn.1
        rw [e1]
        exact List.mem_map.2 ⟨(k, it), e, rfl⟩
      rw [if_neg hne]
      exact ih hn.2 e

/-- The facts of the lock-step invariant, as the calls of the interface see
them. -/
theorem WF.facts {s : XSFLinkedHashMap K V} (wf : WF s) :
    (∀ k, k ∈ mapKeys s ↔ k ∈ listKeys s) ∧ (listKeys s).Nodup ∧
    (∀ k it, (k, it) ∈ s.map_ → ∃ nd, deref s.list_ it = some nd ∧ nd.key = k) ∧
    Size s = s.map_.length := by
  refine ⟨wf.mapKeys_iff, wf.keys_nodup, ?_, ?_⟩
  · intro k it h
    have hf := mapFind_of_mem s.map_ wf.map_nodup k it h
    obtain ⟨c, hc, h1, h2⟩ := (wf.index k it).1 hf
    refine ⟨c.node, ?_, h2⟩
    rw [deref_some_iff s.list_ wf.addr_nodup, ← h1]
    exact hc
  · have hp : (listKeys s).Perm (mapKeys s) :=
      (List.perm_ext_iff_of_nodup wf.keys_nodup wf.map_nodup).2 (fun k => (wf.mapKeys_iff k).symm)
    have := hp.length_eq
    simp only [listKeys, mapKeys, List.length_map] at this
    exact this

/-- The vector `Keys()` returns: `Size()` times `K{}`, then the keys of the
list. -/
theorem Keys_eq (s : XSFLinkedHashMap K V) :
    Keys s = List.replicate (Size s) default ++ listKeys s := by
  have h : ∀ (l : List (LCell K V)) (acc : List K),
      l.foldl (fun keys c => keys ++ [c.node.key]) acc = acc ++ l.map (fun c => c.node.key) := by
    intro l
    induction l with
    | nil => intro acc; simp
    | cons c l ih => intro acc; simp [ih]
  unfold Keys Size listKeys
  rw [h]

end XSFLinkedHashMap

/-! # The tree map -/

namespace TNode

variable {K V : Type} [LinearOrder K] [Inhabited K] [Inhabited V]

set_option linter.unusedSectionVars false
set_option linter.unusedVariables false

/-! ## Search trees: keys, order, sizes -/

theorem Sized.size_eq_length {t : TNode K V} (h : Sized t) : Size t = (keys t).length := by
  cases t with
  | null => rfl
  | node k v l r s =>
    simp only [keys, List.length_append, List.length_cons]
    rw [Size, h.2.2]
    omega

theorem BST.sorted : ∀ {t : TNode K V}, BST t → (keys t).Pairwise (· < ·)
  | null, _ => List.Pairwise.nil
  | node k v l r s, h => by
    obtain ⟨hl, hr, h1, h2⟩ := h
    simp only [keys]
    rw [List.pairwise_append]
    refine ⟨hl.sorted, ?_, ?_⟩
    · rw [List.pairwise_cons]
      exact ⟨h2, hr.sorted⟩
    · intro a ha b hb
      rcases List.mem_cons.1 hb with e | e
      · rw [e]; exact h1 a ha
      · exact lt_trans (h1 a ha) (h2 b e)

theorem BST.nodup {t : TNode K V} (h : BST t) : (keys t).Nodup :=
  h.sorted.imp (fun hab => ne_of_lt hab)

/-! ## InsertNode -/

theorem mem_keys_InsertNode (key : K) :
    ∀ (t : TNode K V) (x : K), x ∈ keys (InsertNode t key) ↔ x = key ∨ x ∈ keys t
  | null, x => by simp [InsertNode, keys]
  | node k v l r s, x => by
    unfold InsertNode
    by_cases h1 : key < k
    · rw [if_pos h1]
      simp only [keys, List.mem_append, List.mem_cons, mem_keys_InsertNode key l x]
      tauto
    · rw [if_neg h1]
      by_cases h2 : k < key
      · rw [if_pos h2]
        simp only [keys, List.mem_append, List.mem_cons, mem_keys_InsertNode key r x]
        tauto
      · rw [if_neg h2]
        have e : key = k := le_antisymm (not_lt.1 h2) (not_lt.1 h1)
        simp only [keys, List.mem_append, List.mem_cons, e]
        tauto

theorem BST.InsertNode_bst (key : K) : ∀ {t : TNode K V}, BST t → BST (InsertNode t key)
  | null, _ => by simp [InsertNode, BST, keys]
  | node k v l r s, h => by
    obtain ⟨hl, hr, h1, h2⟩ := h
    unfold InsertNode
    by_cases c1 : key < k
    · rw [if_pos c1]
      refine ⟨hl.InsertNode_bst key, hr, ?_, h2⟩
      intro x hx
      rcases (mem_keys_InsertNode key l x).1 hx with e | e
      · rw [e]; exact c1
      · exact h1 x e
    · rw [if_neg c1]
      by_cases c2 : k < key
      · rw [if_pos c2]
        refine ⟨hl, hr.InsertNode_bst key, h1, ?_⟩
        intro x hx
        rcases (mem_keys_InsertNode key r x).1 hx with e | e
        · rw [e]; exact c2
        · exact h2 x e
      · rw [if_neg c2]
        exact ⟨hl, hr, h1, h2⟩

theorem length_keys_InsertNode (key : K) :
    ∀ (t : TNode K V), BST t →
      (keys (InsertNode t key)).length = (keys t).length + (if key ∈ keys t then 0 else 1)
  | null, _ => by simp [InsertNode, keys]
  | node k v l r s, h => by
    obtain ⟨hl, hr, h1, h2⟩ := h
    unfold InsertNode
    by_cases c1 : key < k
    · rw [if_pos c1]
      have hnr : key ∉ keys r := fun hm => lt_asymm c1 (h2 key hm)
      have hne : key ≠ k := ne_of_lt c1
      simp only [keys, List.length_append, List.length_cons, List.mem_append, List.mem_cons,
        length_keys_InsertNode key l hl, hnr, hne, or_false, false_or]
      split <;> omega
    · rw [if_neg c1]
      by_cases c2 : k < key
      · rw [if_pos c2]
        have hnl : key ∉ keys l := fun hm => lt_asymm c2 (h1 key hm)
        have hne : key ≠ k := ne_of_gt c2
        simp only [keys, List.length_append, List.length_cons, List.mem_append, List.mem_cons,
          length_keys_InsertNode key r hr, hnl, hne, or_false, false_or]
        split <;> omega
      · rw [if_neg c2]
        have e : key = k := le_antisymm (not_lt.1 c2) (not_lt.1 c1)
        simp [keys, e]

theorem Sized.InsertNode_sized (key : K) :
    ∀ {t : TNode K V}, BST t → Sized t → (keys t).length + 1 < SIZE_MOD →
      Sized (InsertNode t key)
  | null, _, _, _ => by simp [InsertNode, Sized, keys]
  | node k v l r s, hb, h, hlt => by
    obtain ⟨hbl, hbr, _, _⟩ := hb
    obtain ⟨hl, hr, hs⟩ := h
    simp only [keys, List.length_append, List.length_cons] at hlt
    unfold InsertNode
    by_cases c1 : key < k
    · rw [if_pos c1]
      have hl1 := hl.InsertNode_sized key hbl (by omega)
      have hlen := length_keys_InsertNode key l hbl
      refine ⟨hl1, hr, ?_⟩
      rw [hl1.size_eq_length, hr.size_eq_length, Nat.mod_eq_of_lt]
      rw [hlen]; split <;> omega
    · rw [if_neg c1]
      by_cases c2 : k < key
      · rw [if_pos c2]
        have hr1 := hr.InsertNode_sized key hbr (by omega)
        have hlen := length_keys_InsertNode key r hbr
        refine ⟨hl, hr1, ?_⟩
        rw [hl.size_eq_length, hr1.size_eq_length, Nat.mod_eq_of_lt]
        rw [hlen]; split <;> omega
      · rw [if_neg c2]
        exact ⟨hl, hr, hs⟩

/-! ## The reference returned by `operator[]` -/

theorem keys_refSet (key : K) (value : V) :
    ∀ (t : TNode K V), keys (refSet t key value) = keys t
  | null => rfl
  | node k v l r s => by
    unfold refSet
    split
    · simp [keys, keys_refSet key value l]
    · split
      · simp [keys, keys_refSet key value r]
      · simp [keys]

theorem BST.refSet_bst (key : K) (value : V) :
    ∀ {t : TNode K V}, BST t → BST (refSet t key value)
  | null, _ => trivial
  | node k v l r s, h => by
    obtain ⟨hl, hr, h1, h2⟩ := h
    unfold refSet
    split
    · exact ⟨hl.refSet_bst key value, hr, by rw [keys_refSet]; exact h1, h2⟩
    · split
      · exact ⟨hl, hr.refSet_bst key value, h1, by rw [keys_refSet]; exact h2⟩
      · exact ⟨hl, hr, h1, h2⟩

theorem Sized.refSet_sized (key : K) (value : V) :
    ∀ {t : TNode K V}, Sized t → Sized (refSet t key value)
  | null, _ => trivial
  | node k v l r s, h => by
    obtain ⟨hl, hr, hs⟩ := h
    unfold refSet
    split
    · exact ⟨hl.refSet_sized key value, hr, by rw [keys_refSet]; exact hs⟩
    · split
      · exact ⟨hl, hr.refSet_sized key value, by rw [keys_refSet]; exact hs⟩
      · exact ⟨hl, hr, hs⟩

theorem keys_eq_map_entries : ∀ (t : TNode K V), keys t = (entries t).map Prod.fst
  | null => rfl
  | node k v l r s => by
    simp [keys, entries, keys_eq_map_entries l, keys_eq_map_entries r]

theorem filter_entries_of_forall_ne (l : List (K × V)) (key : K)
    (h : ∀ x ∈ l.map Prod.fst, x ≠ key) :
    l.filter (fun p => decide (p.1 ≠ key)) = l := by
  rw [List.filter_eq_self]
  intro p hp
  simp only [ne_eq, decide_eq_true_eq]
  exact h p.1 (List.mem_map.2 ⟨p, hp, rfl⟩)

theorem keys_of_entries_filter (t t1 : TNode K V) (key : K)
    (h : entries t1 = (entries t).filter (fun p => decide (p.1 ≠ key))) :
    keys t1 = (keys t).filter (fun x => decide (x ≠ key)) := by
  rw [keys_eq_map_entries, keys_eq_map_entries, h, List.filter_map]
  rfl

/-! ## EraseMax, EraseMin, FindMax -/

theorem EraseMax_spec :
    ∀ (t : TNode K V), t ≠ null →
      ∃ (t1 : TNode K V) (m : K) (mv : V) (ml mr : TNode K V) (ms : Nat),
        EraseMax t = some t1 ∧ FindMax t = some (node m mv ml mr ms) ∧
        entries t = entries t1 ++ [(m, mv)] ∧ (BST t → BST t1) ∧
        (Sized t → (keys t).length < SIZE_MOD → Sized t1)
  | null, h => absurd rfl h
  | node k v l null s, _ => by
    refine ⟨l, k, v, l, null, s, rfl, rfl, by simp [entries], fun h => h.1, fun h _ => h.1⟩
  | node k v l (node rk rv rl rr rs) s, _ => by
    obtain ⟨r1, m, mv, ml, mr, ms, h1, h2, h3, h4, h5⟩ :=
      EraseMax_spec (node rk rv rl rr rs) (by simp)
    have hk : keys (node rk rv rl rr rs) = keys r1 ++ [m] := by
      rw [keys_eq_map_entries, keys_eq_map_entries, h3]; simp
    refine ⟨node k v l r1 ((s + SIZE_MOD - 1) % SIZE_MOD), m, mv, ml, mr, ms, ?_, ?_, ?_, ?_, ?_⟩
    · simp only [EraseMax, h1]
    · simp only [FindMax, h2]
    · show entries l ++ (k, v) :: entries (node rk rv rl rr rs) = _
      rw [h3]
      simp [entries]
    · intro hb
      obtain ⟨hl, hr, b1, b2⟩ := hb
      refine ⟨hl, h4 hr, b1, ?_⟩
      intro x hx
      exact b2 x (by rw [hk]; exact List.mem_append_left _ hx)
    · intro hs hlt
      obtain ⟨hl, hr, e⟩ := hs
      simp only [keys, List.length_append, List.length_cons] at hlt
      have e2 : (keys (node rk rv rl rr rs)).length = (keys r1).length + 1 := by
        rw [hk]; simp
      have e3 : (keys (node rk rv rl rr rs)).length
          = (keys rl).length + 1 + (keys rr).length := by
        simp only [keys, List.length_append, List.length_cons]; omega
      refine ⟨hl, h5 hr (by rw [e3]; omega), ?_⟩
      have e1 : s + SIZE_MOD - 1 = (s - 1) + SIZE_MOD := by omega
      rw [e1, Nat.add_mod_right, Nat.mod_eq_of_lt (by omega)]
      omega

theorem EraseMin_spec :
    ∀ (t : TNode K V), t ≠ null →
      ∃ (t1 : TNode K V) (m : K) (mv : V),
        EraseMin t = some t1 ∧ entries t = (m, mv) :: entries t1 ∧ (BST t → BST t1) ∧
        (Sized t → (keys t).length < SIZE_MOD → Sized t1)
  | null, h => absurd rfl h
  | node k v null r s, _ => by
    refine ⟨r, k, v, rfl, by simp [entries], fun h => h.2.1, fun h _ => h.2.1⟩
  | node k v (node lk lv ll lr ls) r s, _ => by
    obtain ⟨l1, m, mv, h1, h3, h4, h5⟩ := EraseMin_spec (node lk lv ll lr ls) (by simp)
    have hk : keys (node lk lv ll lr ls) = m :: keys l1 := by
      rw [keys_eq_map_entries, keys_eq_map_entries, h3]; simp
    refine ⟨node k v l1 r ((s + SIZE_MOD - 1) % SIZE_MOD), m, mv, ?_, ?_, ?_, ?_⟩
    · simp only [EraseMin, h1]
    · show entries (node lk lv ll lr ls) ++ (k, v) :: entries r = _
      rw [h3]
      simp [entries]
    · intro hb
      obtain ⟨hl, hr, b1, b2⟩ := hb
      refine ⟨h4 hl, hr, ?_, b2⟩
      intro x hx
      exact b1 x (by rw [hk]; exact List.mem_cons_of_mem _ hx)
    · intro hs hlt
      obtain ⟨hl, hr, e⟩ := hs
      simp only [keys, List.length_append, List.length_cons] at hlt
      have e2 : (keys (node lk lv ll lr ls)).length = (keys l1).length + 1 := by
        rw [hk]; simp
      have e3 : (keys (node lk lv ll lr ls)).length
          = (keys ll).length + 1 + (keys lr).length := by
        simp only [keys, List.length_append, List.length_cons]; omega
      refine ⟨h5 hl (by rw [e3]; omega), hr, ?_⟩
      have e1 : s + SIZE_MOD - 1 = (s - 1) + SIZE_MOD := by omega
      rw [e1, Nat.add_mod_right, Nat.mod_eq_of_lt (by omega)]
      omega

/-! ## Erase -/

theorem length_filter_le_keys (t t1 : TNode K V) (key : K)
    (h : entries t1 = (entries t).filter (fun p => decide (p.1 ≠ key))) :
    (keys t1).length ≤ (keys t).length ∧ ∀ x ∈ keys t1, x ∈ keys t := by
  have hk := keys_of_entries_filter t t1 key h
  rw [hk]
  exact ⟨List.length_filter_le _ _, fun x hx => List.mem_of_mem_filter hx⟩

/-- The private `Erase` on a search tree: it returns, the entry of the key
is gone, every other entry is kept, in order, and order and sizes are kept. -/
theorem Erase_spec (key : K) :
    ∀ (t : TNode K V), BST t →
      ∃ t1, Erase t key = some t1 ∧
        entries t1 = (entries t).filter (fun p => decide (p.1 ≠ key)) ∧ BST t1 ∧
        (Sized t → (keys t).length < SIZE_MOD → Sized t1)
  | null, _ => ⟨null, rfl, rfl, trivial, fun _ _ => trivial⟩
  | node k v l r s, hb => by
    obtain ⟨hl, hr, b1, b2⟩ := hb
    have hkl : ∀ x ∈ (entries l).map Prod.fst, x < k := by
      rw [← keys_eq_map_entries]; exact b1
    have hkr : ∀ x ∈ (entries r).map Prod.fst, k < x := by
      rw [← keys_eq_map_entries]; exact b2
    by_cases c1 : key < k
    · obtain ⟨l1, e1, e2, e3, e4⟩ := Erase_spec key l hl
      obtain ⟨hle, hsub⟩ := length_filter_le_keys l l1 key e2
      refine ⟨node k v l1 r ((Size l1 + 1 + Size r) % SIZE_MOD), ?_, ?_, ⟨e3, hr, ?_, b2⟩, ?_⟩
      · simp only [Erase, if_pos c1, e1]
      · have hne : k ≠ key := ne_of_gt c1
        simp only [entries, List.filter_append, List.filter_cons, ne_eq, hne, not_false_eq_true,
          decide_True, if_true, ← e2]
        rw [filter_entries_of_forall_ne (entries r) key
          (fun x hx => ne_of_gt (lt_trans c1 (hkr x hx)))]
      · intro x hx; exact b1 x (hsub x hx)
      · intro hs hlt
        obtain ⟨sl, sr, e⟩ := hs
        simp only [keys, List.length_append, List.length_cons] at hlt
        have sl1 := e4 sl (by omega)
        refine ⟨sl1, sr, ?_⟩
        rw [sl1.size_eq_length, sr.size_eq_length, Nat.mod_eq_of_lt (by omega)]
    · by_cases c2 : k < key
      · obtain ⟨r1, e1, e2, e3, e4⟩ := Erase_spec key r hr
        obtain ⟨hle, hsub⟩ := length_filter_le_keys r r1 key e2
        refine ⟨node k v l r1 ((Size l + 1 + Size r1) % SIZE_MOD), ?_, ?_, ⟨hl, e3, b1, ?_⟩, ?_⟩
        · simp only [Erase, if_neg c1, if_pos c2, e1]
        · have hne : k ≠ key := ne_of_lt c2
          simp only [entries, List.filter_append, List.filter_cons, ne_eq, hne, not_false_eq_true,
            decide_True, if_true, ← e2]
          rw [filter_entries_of_forall_ne (entries l) key
            (fun x hx => ne_of_lt (lt_trans (hkl x hx) c2))]
        · intro x hx; exact b2 x (hsub x hx)
        · intro hs hlt
          obtain ⟨sl, sr, e⟩ := hs
          simp only [keys, List.length_append, List.length_cons] at hlt
          have sr1 := e4 sr (by omega)
          refine ⟨sl, sr1, ?_⟩
          rw [sl.size_eq_length, sr1.size_eq_length, Nat.mod_eq_of_lt (by omega)]
      · have e : key = k := le_antisymm (not_lt.1 c2) (not_lt.1 c1)
        subst e
        have hfl : (entries l).filter (fun p => decide (p.1 ≠ key)) = entries l :=
          filter_entries_of_forall_ne (entries l) key (fun x hx => ne_of_lt (hkl x hx))
        have hfr : (entries r).filter (fun p => decide (p.1 ≠ key)) = entries r :=
          filter_entries_of_forall_ne (entries r) key (fun x hx => ne_of_gt (hkr x hx))
        have hent : (entries (node key v l r s)).filter (fun p => decide (p.1 ≠ key))
            = entries l ++ entries r := by
          simp only [entries, List.filter_append, List.filter_cons, ne_eq, not_true_eq_false,
            decide_False, Bool.false_eq_true, if_false]
          rw [hfl, hfr]
        rw [hent]
        cases l with
        | null =>
          refine ⟨r, ?_, by simp [entries], hr, fun hs _ => hs.2.1⟩
          simp only [Erase, if_neg c1]
        | node lk lv ll lr ls =>
          cases r with
          | null =>
            refine ⟨node lk lv ll lr ls, ?_, by simp [entries], hl, fun hs _ => hs.1⟩
            simp only [Erase, if_neg c1]
          | node rk rv rl rr rs =>
            obtain ⟨l1, m, mv, ml, mr, ms, h1, h2, h3, h4, h5⟩ :=
              EraseMax_spec (node lk lv ll lr ls) (by simp)
            have hk : keys (node lk lv ll lr ls) = keys l1 ++ [m] := by
              rw [keys_eq_map_entries, keys_eq_map_entries, h3]; simp
            have hm : m < key := b1 m (by rw [hk]; simp)
            have hsorted := hl.sorted
            rw [hk, List.pairwise_append] at hsorted
            refine ⟨node m mv l1 (node rk rv rl rr rs)
              ((Size l1 + 1 + Size (node rk rv rl rr rs)) % SIZE_MOD), ?_, ?_,
              ⟨h4 hl, hr, ?_, ?_⟩, ?_⟩
            · simp only [Erase, if_neg c1, h1, h2]
            · rw [h3]; simp [entries]
            · intro x hx
              exact hsorted.2.2 x hx m (by simp)
            · intro x hx
              exact lt_trans hm (b2 x hx)
            · intro hs hlt
              obtain ⟨sl, sr, e⟩ := hs
              have hlen : (keys (node lk lv ll lr ls)).length = (keys l1).length + 1 := by
                rw [hk]; simp
              have hlt2 : (keys (node lk lv ll lr ls)).length + 1
                  + (keys (node rk rv rl rr rs)).length < SIZE_MOD := by
                simp only [keys, List.length_append, List.length_cons] at hlt ⊢
                omega
              have sl1 := h5 sl (by omega)
              refine ⟨sl1, sr, ?_⟩
              rw [sl1.size_eq_length, sr.size_eq_length, Nat.mod_eq_of_lt (by omega)]

/-! ## FindNode and Rank -/

theorem BST.findNode_iff (key : K) :
    ∀ {t : TNode K V}, BST t → (FindNode t key ≠ null ↔ key ∈ keys t)
  | null, _ => by simp [FindNode, keys]
  | node k v l r s, hb => by
    obtain ⟨hl, hr, b1, b2⟩ := hb
    unfold FindNode
    by_cases c1 : key < k
    · rw [if_pos c1, hl.findNode_iff key]
      have hnr : key ∉ keys r := fun hm => lt_asymm c1 (b2 key hm)
      have hne : key ≠ k := ne_of_lt c1
      simp [keys, hnr, hne]
    · rw [if_neg c1]
      by_cases c2 : k < key
      · rw [if_pos c2, hr.findNode_iff key]
        have hnl : key ∉ keys l := fun hm => lt_asymm c2 (b1 key hm)
        have hne : key ≠ k := ne_of_gt c2
        simp [keys, hnl, hne]
      · rw [if_neg c2]
        have e : key = k := le_antisymm (not_lt.1 c2) (not_lt.1 c1)
        simp [keys, e]

/-- The private `Rank` on a search tree with right sizes counts the keys
below `key`. -/
theorem Rank_spec (key : K) :
    ∀ (t : TNode K V), BST t → Sized t → (keys t).length < SIZE_MOD →
      Rank t key = (keys t).countP (fun x => decide (x < key))
  | null, _, _, _ => rfl
  | node k v l r s, hb, hs, hlt => by
    obtain ⟨hl, hr, b1, b2⟩ := hb
    obtain ⟨sl, sr, e⟩ := hs
    simp only [keys, List.length_append, List.length_cons] at hlt
    simp only [keys, List.countP_append, List.countP_cons]
    unfold Rank
    by_cases c1 : key < k
    · rw [if_pos c1, Rank_spec key l hl sl (by omega)]
      have h0 : (keys r).countP (fun x => decide (x < key)) = 0 := by
        rw [List.countP_eq_zero]
        intro x hx
        simp only [decide_eq_true_eq, not_lt]
        exact le_of_lt (lt_trans c1 (b2 x hx))
      have hk : ¬ k < key := not_lt.2 (le_of_lt c1)
      simp [h0, hk]
    · rw [if_neg c1]
      have hall : (keys l).countP (fun x => decide (x < key)) = (keys l).length := by
        rw [List.countP_eq_length]
        intro x hx
        simp only [decide_eq_true_eq]
        exact lt_of_lt_of_le (b1 x hx) (not_lt.1 c1)
      by_cases c2 : k < key
      · rw [if_pos c2, Rank_spec key r hr sr (by omega), sl.size_eq_length, hall]
        have hle : (keys r).countP (fun x => decide (x < key)) ≤ (keys r).length :=
          List.countP_le_length _
        rw [Nat.mod_eq_of_lt (by omega)]
        simp [c2]
        omega
      · rw [if_neg c2, sl.size_eq_length, hall]
        have h0 : (keys r).countP (fun x => decide (x < key)) = 0 := by
          rw [List.countP_eq_zero]
          intro x hx
          simp only [decide_eq_true_eq, not_lt]
          exact le_of_lt (lt_of_le_of_lt (not_lt.1 c2) (b2 x hx))
        simp [h0, c2]

end TNode

namespace XSFTreeMap

variable {K V : Type} [LinearOrder K] [Inhabited K] [Inhabited V]

set_option linter.unusedSectionVars false
set_option linter.unusedVariables false

/-! ## Runs of calls on the tree map -/

theorem empty_iff (s : XSFTreeMap K V) : Empty s = true ↔ s.root_ = TNode.null := by
  unfold Empty
  cases s.root_ <;> simp

theorem contains_iff_mem_keys (s : XSFTreeMap K V) (hb : s.root_.BST) (k : K) :
    Contains s k = true ↔ k ∈ s.root_.keys := by
  rw [← hb.findNode_iff k]
  unfold Contains
  cases s.root_.FindNode k <;> simp

/-- One call on a search tree with right sizes: it returns a search tree with
right sizes, or it is `EraseMin` or `EraseMax` on the empty tree. -/
theorem step_tree (s : XSFTreeMap K V) (hb : s.root_.BST) (hs : s.root_.Sized)
    (hlt : s.root_.keys.length + 1 < SIZE_MOD) (op : TOp K V) :
    (∃ s1, step s op = some s1 ∧ s1.root_.BST ∧ s1.root_.Sized ∧
      s1.root_.keys.length ≤ s.root_.keys.length + 1) ∨
    (step s op = none ∧ s.root_ = TNode.null ∧ (op = TOp.eraseMin ∨ op = TOp.eraseMax)) := by
  have hins : ∀ k, (s.root_.InsertNode k).keys.length ≤ s.root_.keys.length + 1 := by
    intro k
    rw [TNode.length_keys_InsertNode k s.root_ hb]
    split <;> omega
  cases op with
  | assign k v =>
    left
    refine ⟨assign s k v, rfl, (hb.InsertNode_bst k).refSet_bst k v,
      (hs.InsertNode_sized k hb hlt).refSet_sized k v, ?_⟩
    show ((s.root_.InsertNode k).refSet k v).keys.length ≤ _
    rw [TNode.keys_refSet]
    exact hins k
  | subscript k =>
    left
    exact ⟨subscript s k, rfl, hb.InsertNode_bst k, hs.InsertNode_sized k hb hlt, hins k⟩
  | erase k =>
    left
    obtain ⟨t1, e1, e2, e3, e4⟩ := TNode.Erase_spec k s.root_ hb
    obtain ⟨hle, _⟩ := TNode.length_filter_le_keys s.root_ t1 k e2
    refine ⟨{ root_ := t1 }, ?_, e3, e4 hs (by omega), by show t1.keys.length ≤ _; omega⟩
    simp only [step, Erase, e1]
  | eraseMin =>
    by_cases hn : s.root_ = TNode.null
    · right
      refine ⟨?_, hn, Or.inl rfl⟩
      simp only [step, EraseMin, hn, TNode.EraseMin]
    · left
      obtain ⟨t1, m, mv, e1, e2, e3, e4⟩ := TNode.EraseMin_spec s.root_ hn
      have hk : s.root_.keys = m :: t1.keys := by
        rw [TNode.keys_eq_map_entries, TNode.keys_eq_map_entries, e2]; simp
      refine ⟨{ root_ := t1 }, ?_, e3 hb, e4 hs (by omega), ?_⟩
      · simp only [step, EraseMin, e1]
      · show t1.keys.length ≤ _
        rw [hk]; simp; omega
  | eraseMax =>
    by_cases hn : s.root_ = TNode.null
    · right
      refine ⟨?_, hn, Or.inr rfl⟩
      simp only [step, EraseMax, hn, TNode.EraseMax]
    · left
      obtain ⟨t1, m, mv, ml, mr, ms, e1, _, e2, e3, e4⟩ := TNode.EraseMax_spec s.root_ hn
      have hk : s.root_.keys = t1.keys ++ [m] := by
        rw [TNode.keys_eq_map_entries, TNode.keys_eq_map_entries, e2]; simp
      refine ⟨{ root_ := t1 }, ?_, e3 hb, e4 hs (by omega), ?_⟩
      · simp only [step, EraseMax, e1]
      · show t1.keys.length ≤ _
        rw [hk]; simp; omega
  | clear =>
    left
    exact ⟨Clear s, rfl, trivial, trivial, by show (0 : Nat) ≤ _; omega⟩

/-- A sequence of calls on a search tree with right sizes: it returns a
search tree with right sizes, or some call in it is `EraseMin` or `EraseMax`
on the empty tree. -/
theorem run_tree (ops : List (TOp K V)) :
    ∀ (s : XSFTreeMap K V) (n : Nat), s.root_.BST → s.root_.Sized →
      s.root_.keys.length ≤ n → n + ops.length < SIZE_MOD →
      (∃ s1, run s ops = some s1 ∧ s1.root_.BST ∧ s1.root_.Sized ∧
        s1.root_.keys.length < SIZE_MOD) ∨
      (run s ops = none ∧ ∃ (pre : List (TOp K V)) (op : TOp K V) (post : List (TOp K V))
        (s1 : XSFTreeMap K V), ops = pre ++ op :: post ∧ run s pre = some s1 ∧
          Empty s1 = true ∧ (op = TOp.eraseMin ∨ op = TOp.eraseMax)) := by
  induction ops with
  | nil =>
    intro s n hb hs hn hlt
    left
    exact ⟨s, rfl, hb, hs, by simp at hlt; omega⟩
  | cons op ops ih =>
    intro s n hb hs hn hlt
    simp only [List.length_cons] at hlt
    rcases step_tree s hb hs (by omega) op with ⟨s0, h0, hb0, hs0, hl0⟩ | ⟨h0, hnull, hop⟩
    · rcases ih s0 (n + 1) hb0 hs0 (by omega) (by omega) with
        ⟨s1, h1, hb1, hs1, hl1⟩ | ⟨h1, pre, op1, post, s1, e1, e2, e3, e4⟩
      · left
        refine ⟨s1, ?_, hb1, hs1, hl1⟩
        simp only [run, h0, h1]
      · right
        refine ⟨by simp only [run, h0, h1], op :: pre, op1, post, s1, by rw [e1]; rfl, ?_, e3, e4⟩
        simp only [run, h0, e2]
    · right
      exact ⟨by simp only [run, h0], [], op, ops, s, rfl, rfl, (empty_iff s).2 hnull, hop⟩

end XSFTreeMap

/-! ## Claims on the separate-chaining map: the key `K{}` -/

/-- C21 (ChainedIndex Erase): the code fails it for the key `K{}`. On a
freshly constructed map with `int`-like keys, the identity hash and capacity
4, `Contains(0)` is true, `Erase(0)` returns 0, and `Contains(0)` is still
true afterwards. -/
theorem C21_erase_default_key :
    XSFSeparateChainingHashMap.Contains (fun k : Nat => k)
      (XSFSeparateChainingHashMap.new 4 : XSFSeparateChainingHashMap Nat Nat) 0 = some true ∧
    ∃ s1, XSFSeparateChainingHashMap.Erase (fun k : Nat => k)
        (XSFSeparateChainingHashMap.new 4 : XSFSeparateChainingHashMap Nat Nat) 0 = some (0, s1) ∧
      XSFSeparateChainingHashMap.Contains (fun k : Nat => k) s1 0 = some true :=
  ⟨rfl, _, rfl, rfl⟩

/-- C22 (ChainedIndex empty container): the code fails it for the key `K{}`.
On a freshly constructed map with `int`-like keys, the identity hash and
capacity 4, `Size()` is 0 and `Empty()` is true, but `Contains(0)` is true;
after `m[1] = 10; m[2] = 20; Clear()` it is the same: `Contains(1)` is false,
`Contains(0)` is true. -/
theorem C22_empty_map_contains_default_key :
    XSFSeparateChainingHashMap.Size
      (XSFSeparateChainingHashMap.new 4 : XSFSeparateChainingHashMap Nat Nat) = 0 ∧
    XSFSeparateChainingHashMap.Empty
      (XSFSeparateChainingHashMap.new 4 : XSFSeparateChainingHashMap Nat Nat) = true ∧
    XSFSeparateChainingHashMap.Contains (fun k : Nat => k)
      (XSFSeparateChainingHashMap.new 4 : XSFSeparateChainingHashMap Nat Nat) 0 = some true ∧
    ∃ s s1, XSFSeparateChainingHashMap.assignAll (fun k : Nat => k)
        (XSFSeparateChainingHashMap.new 4) [(1, 10), (2, 20)] = some s ∧
      XSFSeparateChainingHashMap.Clear s = some s1 ∧
      XSFSeparateChainingHashMap.Size s1 = 0 ∧ XSFSeparateChainingHashMap.Empty s1 = true ∧
      XSFSeparateChainingHashMap.Contains (fun k : Nat => k) s1 1 = some false ∧
      XSFSeparateChainingHashMap.Contains (fun k : Nat => k) s1 0 = some true :=
  ⟨rfl, rfl, rfl, _, _, rfl, rfl, rfl, rfl, rfl, rfl⟩

/-! ## Claims on the linked hash map -/

/-- C23 (OrderedIndex insertion-order law): the code fails it. After
`m[1] = 10; m[2] = 20; m[1] = 30` (put(a); put(b); put(a) with a = 1, b = 2)
the list holds the keys 1, 2 in this order, but `Keys()` returns
`[0, 0, 1, 2]`: the vector starts with `Size()` copies of `K{}`. -/
theorem C23_keys_starts_with_default_keys :
    ∃ s : XSFLinkedHashMap Nat Nat,
      XSFLinkedHashMap.run XSFLinkedHashMap.new
        [LOp.assign 1 10, LOp.assign 2 20, LOp.assign 1 30] = some s ∧
      XSFLinkedHashMap.listKeys s = [1, 2] ∧
      XSFLinkedHashMap.Keys s = [0, 0, 1, 2] ∧
      XSFLinkedHashMap.Keys s ≠ [1, 2] :=
  ⟨_, rfl, rfl, rfl, by decide⟩

/-- C24 (OrderedIndex uniqueness of enumeration): the code fails it. After
`m[7] = 1` the vector `Keys()` returns has length 2 while `Size()` is 1; after
`m[7] = 1; m[9] = 2` it is `[0, 0, 7, 9]`, in which the key 0 occurs twice;
in general it is `Size()` copies of `K{}` followed by the keys of the list. -/
theorem C24_keys_twice_as_long :
    (∃ s : XSFLinkedHashMap Nat Nat,
      XSFLinkedHashMap.run XSFLinkedHashMap.new [LOp.assign 7 1] = some s ∧
      XSFLinkedHashMap.Keys s = [0, 7] ∧ XSFLinkedHashMap.Size s = 1) ∧
    (∃ s : XSFLinkedHashMap Nat Nat,
      XSFLinkedHashMap.run XSFLinkedHashMap.new [LOp.assign 7 1, LOp.assign 9 2] = some s ∧
      XSFLinkedHashMap.Keys s = [0, 0, 7, 9] ∧ XSFLinkedHashMap.Size s = 2 ∧
      ¬ (XSFLinkedHashMap.Keys s).Nodup) ∧
    ∀ s : XSFLinkedHashMap Nat Nat,
      (XSFLinkedHashMap.Keys s).length = 2 * XSFLinkedHashMap.Size s := by
  refine ⟨⟨_, rfl, rfl, rfl⟩, ⟨_, rfl, rfl, rfl, by decide⟩, ?_⟩
  intro s
  rw [XSFLinkedHashMap.Keys_eq]
  simp [XSFLinkedHashMap.listKeys, XSFLinkedHashMap.Size]
  omega

/-- The list order under `operator[](const K&)`. Every sequence of calls
(`m[k] = v` and `operator[]` through the overload for `const K&`, `Erase`,
`Clear`) on a default-constructed map returns, and
afterwards the keys of `list_`, head first, are the stored keys in insertion
order: a key enters at the tail when it is inserted while absent, keeps its
place when assigned again, and leaves when erased. In that state `Erase(k)` on
a stored key returns true and removes the node of `k` and no other, keeping
the order of the rest, and `operator[]` for `k` right after it appends `k` at
the tail; `Erase(k)` on a missing key returns false and changes nothing. -/
theorem list_order_const_ref {K V : Type} [DecidableEq K] [Inhabited K] [Inhabited V]
    (ops : List (LOp K V)) :
    ∃ s : XSFLinkedHashMap K V,
      XSFLinkedHashMap.run XSFLinkedHashMap.new ops = some s ∧
      XSFLinkedHashMap.listKeys s = XSFLinkedHashMap.insertionOrder [] ops ∧
      (∀ k, XSFLinkedHashMap.Contains s k = true ↔ k ∈ XSFLinkedHashMap.listKeys s) ∧
      (∀ k, k ∈ XSFLinkedHashMap.listKeys s →
        ∃ s1, XSFLinkedHashMap.Erase s k = some (true, s1) ∧
          s1.list_ = s.list_.filter (fun c => decide (c.node.key ≠ k)) ∧
          s1.list_.length + 1 = s.list_.length ∧
          ∃ it s2, XSFLinkedHashMap.subscript s1 k = some (it, s2) ∧
            XSFLinkedHashMap.listKeys s2 = XSFLinkedHashMap.listKeys s1 ++ [k]) ∧
      (∀ k, k ∉ XSFLinkedHashMap.listKeys s →
        XSFLinkedHashMap.Erase s k = some (false, s)) := by
  obtain ⟨s, hrun, wf, hk⟩ := XSFLinkedHashMap.WF.run_lockstep ops
    (XSFLinkedHashMap.new_lockstep (K := K) (V := V))
  refine ⟨s, hrun, hk, wf.contains_iff_mem, ?_, wf.erase_missing⟩
  intro k hmem
  obtain ⟨s1, h1, wf1, h2, _, h3, h4⟩ := wf.erase_present k hmem
  obtain ⟨it, s2, h5, _, h6⟩ := wf1.subscript_keeps k
  rw [if_neg h4] at h6
  exact ⟨s1, h1, h2, h3, it, s2, h5, h6⟩

/-- The list order after `m[1] = 10; m[2] = 20; m[3] = 30; m[1] = 40;
Erase(2); m[2]`: the keys are 1, 3, 2. -/
theorem list_order_const_ref_sample :
    (∃ s : XSFLinkedHashMap Nat Nat,
      XSFLinkedHashMap.run XSFLinkedHashMap.new
        [LOp.assign 1 10, LOp.assign 2 20, LOp.assign 3 30, LOp.assign 1 40, LOp.erase 2,
          LOp.subscript 2] = some s ∧
      XSFLinkedHashMap.listKeys s = XSFLinkedHashMap.insertionOrder []
        [LOp.assign 1 10, LOp.assign 2 20, LOp.assign 3 30, LOp.assign 1 40, LOp.erase 2,
          LOp.subscript 2] ∧
      (∀ k, XSFLinkedHashMap.Contains s k = true ↔ k ∈ XSFLinkedHashMap.listKeys s) ∧
      (∀ k, k ∈ XSFLinkedHashMap.listKeys s →
        ∃ s1, XSFLinkedHashMap.Erase s k = some (true, s1) ∧
          s1.list_ = s.list_.filter (fun c => decide (c.node.key ≠ k)) ∧
          s1.list_.length + 1 = s.list_.length ∧
          ∃ it s2, XSFLinkedHashMap.subscript s1 k = some (it, s2) ∧
            XSFLinkedHashMap.listKeys s2 = XSFLinkedHashMap.listKeys s1 ++ [k]) ∧
      (∀ k, k ∉ XSFLinkedHashMap.listKeys s →
        XSFLinkedHashMap.Erase s k = some (false, s))) ∧
    (XSFLinkedHashMap.run (XSFLinkedHashMap.new : XSFLinkedHashMap Nat Nat)
        [LOp.assign 1 10, LOp.assign 2 20, LOp.assign 3 30, LOp.assign 1 40, LOp.erase 2,
          LOp.subscript 2]).map XSFLinkedHashMap.listKeys = some [1, 3, 2] :=
  ⟨list_order_const_ref [LOp.assign 1 10, LOp.assign 2 20, LOp.assign 3 30, LOp.assign 1 40,
      LOp.erase 2, LOp.subscript 2], rfl⟩

/-- C26 (OrderedIndex index/list lock-step invariant). Every sequence of
calls (`m[k] = v`, `operator[](const K&)`, `Erase`, `Clear`) on a
default-constructed map returns, and afterwards the keys of `map_` are the
keys of the nodes of `list_`, `list_` holds no key twice, every entry of
`map_` under a key `k` refers to a node of `list_` whose key is `k`, and
`Size()` is the number of entries of `map_`. -/
theorem C26_lock_step {K V : Type} [DecidableEq K] [Inhabited K] [Inhabited V]
    (ops : List (LOp K V)) :
    ∃ s : XSFLinkedHashMap K V,
      XSFLinkedHashMap.run XSFLinkedHashMap.new ops = some s ∧
      (∀ k, k ∈ XSFLinkedHashMap.mapKeys s ↔ k ∈ XSFLinkedHashMap.listKeys s) ∧
      (XSFLinkedHashMap.listKeys s).Nodup ∧
      (∀ k it, (k, it) ∈ s.map_ →
        ∃ nd, XSFLinkedHashMap.deref s.list_ it = some nd ∧ nd.key = k) ∧
      XSFLinkedHashMap.Size s = s.map_.length := by
  obtain ⟨s, hrun, wf, _⟩ := XSFLinkedHashMap.WF.run_lockstep ops
    (XSFLinkedHashMap.new_lockstep (K := K) (V := V))
  exact ⟨s, hrun, wf.facts⟩

theorem C26_lock_step_witness :
    (∃ s : XSFLinkedHashMap Nat Nat,
      XSFLinkedHashMap.run XSFLinkedHashMap.new
        [LOp.assign 1 10, LOp.assign 2 20, LOp.erase 1, LOp.subscript 3, LOp.assign 1 5]
          = some s ∧
      (∀ k, k ∈ XSFLinkedHashMap.mapKeys s ↔ k ∈ XSFLinkedHashMap.listKeys s) ∧
      (XSFLinkedHashMap.listKeys s).Nodup ∧
      (∀ k it, (k, it) ∈ s.map_ →
        ∃ nd, XSFLinkedHashMap.deref s.list_ it = some nd ∧ nd.key = k) ∧
      XSFLinkedHashMap.Size s = s.map_.length) ∧
    (XSFLinkedHashMap.run (XSFLinkedHashMap.new : XSFLinkedHashMap Nat Nat)
        [LOp.assign 1 10, LOp.assign 2 20, LOp.erase 1, LOp.subscript 3, LOp.assign 1 5]).map
      (fun s => (s.list_.map (fun c => (c.addr, c.node.key, c.node.value)), s.map_))
      = some ([(1, 2, 20), (2, 3, 0), (3, 1, 5)], [(2, 1), (3, 2), (1, 3)]) :=
  ⟨C26_lock_step [LOp.assign 1 10, LOp.assign 2 20, LOp.erase 1, LOp.subscript 3,
      LOp.assign 1 5], rfl⟩

/-! ## Claims on the ring buffer -/

/-- C27 (XSFRingBuffer is a FIFO byte queue): the code fails it, on the
claim's own example. With capacity 4, `Write` of the bytes 1, 2, 3 returns 3
and `Read` of 3 bytes returns them; then `r_ = w_ = 3` and `Length() = 0`, and
`Write` of 2 bytes takes the branch for `r_ >= w_`, which copies both bytes to
`buffer_ + 3`: the second byte is written outside the block of 4 bytes. -/
theorem C27_write_outside_the_block :
    ∃ s0 s1 s2, XSFRingBuffer.new 4 = some s0 ∧
      XSFRingBuffer.Write s0 [1, 2, 3] = some (3, s1) ∧
      XSFRingBuffer.Read s1 3 = some ([1, 2, 3], s2) ∧
      s2.capacity_ = 4 ∧ s2.buffer_.length = 4 ∧ XSFRingBuffer.Length s2 = 0 ∧
      s2.r_ = 3 ∧ s2.w_ = 3 ∧ s2.w_ + [4, 5].length > s2.capacity_ ∧
      XSFRingBuffer.memWrite s2.buffer_ s2.w_ [4, 5] = none ∧
      XSFRingBuffer.Write s2 [4, 5] = none :=
  ⟨_, _, _, rfl, rfl, rfl, rfl, rfl, rfl, rfl, rfl, by decide, rfl, rfl⟩

/-! ## Claims on the tree map -/

/-- C28 (XSFTreeMap Keys()): the code fails it. After `m[2] = 20; m[1] = 10`
the tree holds the keys 1, 2, `Size()` is 2, and `Keys()` returns
`[0, 0, 1, 2]`: the vector starts with `Size()` copies of `K{}`. -/
theorem C28_tree_keys_start_with_default_keys :
    ∃ s : XSFTreeMap Nat Nat,
      XSFTreeMap.run XSFTreeMap.new [TOp.assign 2 20, TOp.assign 1 10] = some s ∧
      s.root_.keys = [1, 2] ∧ XSFTreeMap.Size s = 2 ∧
      XSFTreeMap.Keys s = [0, 0, 1, 2] :=
  ⟨_, rfl, rfl, rfl, rfl⟩

/-- C29 (XSFTreeMap Rank). For every sequence of fewer than 2^64 calls
(`m[k] = v`, `operator[]`, `Erase`, `EraseMin`, `EraseMax`, `Clear`) on a
default-constructed map under a linear order: if the run returns, the keys of
the tree in in-order are strictly ascending, they are the keys `Contains`
finds, and `Rank(k)` is the number of them below `k`, for every `k`; and the
run fails to return only if one of its calls is `EraseMin` or `EraseMax` on
the empty tree. -/
theorem C29_rank {K V : Type} [LinearOrder K] [Inhabited K] [Inhabited V]
    (ops : List (TOp K V)) (hlen : ops.length < SIZE_MOD) :
    (∀ s, XSFTreeMap.run XSFTreeMap.new ops = some s →
      s.root_.keys.Pairwise (· < ·) ∧
      (∀ k, XSFTreeMap.Contains s k = true ↔ k ∈ s.root_.keys) ∧
      ∀ k, XSFTreeMap.Rank s k = s.root_.keys.countP (fun x => decide (x < k))) ∧
    (XSFTreeMap.run XSFTreeMap.new ops = none →
      ∃ (pre : List (TOp K V)) (op : TOp K V) (post : List (TOp K V)) (s1 : XSFTreeMap K V),
        ops = pre ++ op :: post ∧ XSFTreeMap.run XSFTreeMap.new pre = some s1 ∧
        XSFTreeMap.Empty s1 = true ∧ (op = TOp.eraseMin ∨ op = TOp.eraseMax)) := by
  have h := XSFTreeMap.run_tree ops (XSFTreeMap.new : XSFTreeMap K V) 0 trivial trivial
    (Nat.le_refl 0) (by rw [Nat.zero_add]; exact hlen)
  constructor
  · intro s hs
    rcases h with ⟨s1, h1, hb, hz, hl⟩ | ⟨h1, _⟩
    · rw [hs] at h1
      have e : s = s1 := Option.some.inj h1
      subst e
      exact ⟨hb.sorted, XSFTreeMap.contains_iff_mem_keys s hb,
        fun k => TNode.Rank_spec k s.root_ hb hz hl⟩
    · rw [hs] at h1; cases h1
  · intro hn
    rcases h with ⟨s1, h1, _⟩ | ⟨_, h2⟩
    · rw [hn] at h1; cases h1
    · exact h2

theorem C29_rank_witness :
    ((∀ s, XSFTreeMap.run (XSFTreeMap.new : XSFTreeMap Nat Nat)
        [TOp.assign 5 50, TOp.assign 2 20, TOp.assign 8 80, TOp.assign 3 30, TOp.erase 5,
          TOp.eraseMin] = some s →
      s.root_.keys.Pairwise (· < ·) ∧
      (∀ k, XSFTreeMap.Contains s k = true ↔ k ∈ s.root_.keys) ∧
      ∀ k, XSFTreeMap.Rank s k = s.root_.keys.countP (fun x => decide (x < k))) ∧
    (XSFTreeMap.run (XSFTreeMap.new : XSFTreeMap Nat Nat)
        [TOp.assign 5 50, TOp.assign 2 20, TOp.assign 8 80, TOp.assign 3 30, TOp.erase 5,
          TOp.eraseMin] = none →
      ∃ (pre : List (TOp Nat Nat)) (op : TOp Nat Nat) (post : List (TOp Nat Nat))
        (s1 : XSFTreeMap Nat Nat),
        [TOp.assign 5 50, TOp.assign 2 20, TOp.assign 8 80, TOp.assign 3 30, TOp.erase 5,
          TOp.eraseMin] = pre ++ op :: post ∧
        XSFTreeMap.run XSFTreeMap.new pre = some s1 ∧
        XSFTreeMap.Empty s1 = true ∧ (op = TOp.eraseMin ∨ op = TOp.eraseMax))) ∧
    (XSFTreeMap.run (XSFTreeMap.new : XSFTreeMap Nat Nat)
        [TOp.assign 5 50, TOp.assign 2 20, TOp.assign 8 80, TOp.assign 3 30, TOp.erase 5,
          TOp.eraseMin]).map
      (fun s => (s.root_.keys, XSFTreeMap.Rank s 3, XSFTreeMap.Rank s 8, XSFTreeMap.Rank s 9))
      = some ([3, 8], 0, 1, 2) :=
  ⟨C29_rank [TOp.assign 5 50, TOp.assign 2 20, TOp.assign 8 80, TOp.assign 3 30, TOp.erase 5,
      TOp.eraseMin] (by decide), rfl⟩

/-- C30 (XSFTreeMap Select): the code fails it. The public `Select(i)` throws
for `i >= Size()` and has no `return` statement: after `m[2] = 20; m[1] = 10`,
`Select(2)` throws `out_of_range`, and `Select(0)` and `Select(1)` run off the
end of the function and return no key, although the private
`Select(Node*, size_t)`, which is never called, finds the keys 1 and 2. -/
theorem C30_select_returns_nothing :
    ∃ s : XSFTreeMap Nat Nat,
      XSFTreeMap.run XSFTreeMap.new [TOp.assign 2 20, TOp.assign 1 10] = some s ∧
      XSFTreeMap.Size s = 2 ∧
      XSFTreeMap.Select s 2 = Thrown.out_of_range ∧
      XSFTreeMap.Select s 0 = Thrown.undef ∧
      XSFTreeMap.Select s 1 = Thrown.undef ∧
      (∀ i, XSFTreeMap.Select s i ≠ Thrown.value 1) ∧
      (s.root_.Select 0).rootKey = some 1 ∧ (s.root_.Select 1).rootKey = some 2 :=
  ⟨_, rfl, rfl, rfl, rfl, rfl,
    fun i => by unfold XSFTreeMap.Select; split <;> simp, rfl, rfl⟩

/-! # The open-addressing map: every table that can be reached -/

namespace XSFLinearProbingHashMap

set_option linter.unusedSectionVars false
set_option linter.unusedVariables false

variable {K V : Type} [DecidableEq K] [Inhabited K] [Inhabited V]

/-! ## CeilToPow2: the least power of two -/

theorem CeilToPow2_big (n : Nat) (h : 2 ^ 63 < n) : CeilToPow2 n = 2 ^ 63 := by
  have h1 : n > 0x8000000000000000 := by
    have : (0x8000000000000000 : Nat) = 2 ^ 63 := by norm_num
    omega
  unfold CeilToPow2
  rw [if_pos h1]
  norm_num

theorem CeilToPow2_least (n : Nat) (h1 : 1 ≤ n) (h2 : n ≤ 2 ^ 63) :
    ∃ e, e ≤ 63 ∧ CeilToPow2 n = 2 ^ e ∧ n ≤ 2 ^ e ∧ ∀ e1, n ≤ 2 ^ e1 → 2 ^ e ≤ 2 ^ e1 := by
  obtain ⟨e, he, hc, hle, hlt⟩ := CeilToPow2_pow2 n h1 h2
  refine ⟨e, he, hc, hle, ?_⟩
  intro e1 hn
  apply Nat.pow_le_pow_right (by decide)
  have h3 : 2 ^ e < 2 ^ (e1 + 1) := by
    rw [Nat.pow_succ]
    omega
  have := (Nat.pow_lt_pow_iff_right (by decide : 1 < 2)).1 h3
  omega

theorem CeilToPow2_twelve : CeilToPow2 12 = 16 := by
  decide

/-! ## More fuel gives the same result -/

theorem scanWhile_mono (p : PNode K V → Bool) (mask : Nat) (t : List (PNode K V)) (n : Nat) :
    ∀ (fuel i j : Nat), scanWhile p mask t fuel i = Res.ok j →
      scanWhile p mask t (fuel + n) i = Res.ok j := by
  intro fuel
  induction fuel with
  | zero => intro i j h; simp [scanWhile] at h
  | succ m ih =>
    intro i j h
    rw [Nat.add_right_comm]
    unfold scanWhile at h ⊢
    cases hi : t[i]? with
    | none => simp [hi] at h
    | some nd =>
      simp only [hi] at h ⊢
      by_cases hp : p nd = true
      · rw [if_pos hp] at h ⊢
        exact ih _ _ h
      · rw [if_neg hp] at h ⊢
        exact h

theorem rehash_mono (hash : K → Nat) (mask fuel n : Nat) :
    ∀ (old t t1 : List (PNode K V)), rehash hash mask fuel old t = Res.ok t1 →
      rehash hash mask (fuel + n) old t = Res.ok t1 := by
  intro old
  induction old with
  | nil => intro t t1 h; exact h
  | cons nd old ih =>
    intro t t1 h
    unfold rehash at h ⊢
    by_cases ha : nd.type = NodeType.ACTIVE
    · rw [if_pos ha] at h ⊢
      cases hf : findEmpty mask t fuel (hash nd.key &&& mask) with
      | timeout => simp [hf] at h
      | undef => simp [hf] at h
      | ok index =>
        have hf2 : findEmpty mask t (fuel + n) (hash nd.key &&& mask) = Res.ok index :=
          scanWhile_mono _ mask t n fuel _ index hf
        simp only [hf] at h
        simp only [hf2]
        exact ih _ _ h
    · rw [if_neg ha] at h ⊢
      exact ih _ _ h

theorem Resize_mono (hash : K → Nat) (fuel n : Nat) (s s1 : XSFLinearProbingHashMap K V)
    (c : Nat) (h : Resize hash fuel s c = Res.ok s1) :
    Resize hash (fuel + n) s c = Res.ok s1 := by
  unfold Resize at h ⊢
  by_cases hl : s.table_.length < s.capacity_
  · simp [hl] at h
  · simp only [hl, if_false] at h ⊢
    cases hr : rehash hash ((CeilToPow2 c + SIZE_MOD - 1) % SIZE_MOD) fuel
        (s.table_.take s.capacity_) (List.replicate (CeilToPow2 c) emptyNode) with
    | timeout => simp [hr] at h
    | undef => simp [hr] at h
    | ok t =>
      simp only [hr] at h
      simp only [rehash_mono hash _ fuel n _ _ _ hr]
      exact h

/-- A call of `Resize` that returns, on a table that has room in the new
capacity: the invariant holds afterwards, no tombstone is left and the
content is the same. -/
theorem Inv.resize_sound {hash : K → Nat} {s : XSFLinearProbingHashMap K V} (inv : Inv hash s)
    (n e : Nat) (he : e ≤ 63) (hn : CeilToPow2 n = 2 ^ e) (hroom : s.size_ < 2 ^ e)
    (fuel : Nat) (s1 : XSFLinearProbingHashMap K V) (h : Resize hash fuel s n = Res.ok s1) :
    Inv hash s1 ∧ s1.capacity_ = 2 ^ e ∧ s1.size_ = s.size_ ∧ used s1.table_ = s1.size_ ∧
      ∀ k v, Holds s1.table_ k v ↔ Holds s.table_ k v := by
  obtain ⟨s2, hr, r⟩ := inv.resize_spec n e he hn hroom (fuel + 2 ^ e) (by omega)
  rw [Resize_mono hash fuel (2 ^ e) s s1 n h] at hr
  have : s1 = s2 := Res.ok.inj hr
  subst this
  exact r

/-! ## The slots a loop has passed -/

theorem scanWhile_path (p : PNode K V → Bool) (e : Nat) (t : List (PNode K V))
    (hlen : t.length = 2 ^ e) (he : e ≤ 63) (h : Nat) :
    ∀ (fuel d j : Nat), scanWhile p (2 ^ e - 1) t fuel ((h + d) % 2 ^ e) = Res.ok j →
      ∃ n, j = (h + (d + n)) % 2 ^ e ∧
        (∀ d', d ≤ d' → d' < d + n → ∃ nd, t[(h + d') % 2 ^ e]? = some nd ∧ p nd = true) ∧
        ∃ nd, t[j]? = some nd ∧ p nd = false := by
  intro fuel
  induction fuel with
  | zero => intro d j hs; simp [scanWhile] at hs
  | succ m ih =>
    intro d j hs
    have hpos : 0 < 2 ^ e := Nat.two_pow_pos e
    unfold scanWhile at hs
    cases hi : t[(h + d) % 2 ^ e]? with
    | none => simp [hi] at hs
    | some nd =>
      simp only [hi] at hs
      by_cases hp : p nd = true
      · rw [if_pos hp, nextIndex_pow2 e _ he (Nat.mod_lt _ hpos), walk_succ] at hs
        obtain ⟨n, hj, hbefore, hend⟩ := ih (d + 1) j hs
        refine ⟨n + 1, by rw [hj]; congr 2; omega, ?_, hend⟩
        intro d' h1 h2
        by_cases hd : d' = d
        · subst hd; exact ⟨nd, hi, hp⟩
        · exact hbefore d' (by omega) (by omega)
      · rw [if_neg hp] at hs
        have hj : (h + d) % 2 ^ e = j := Res.ok.inj hs
        refine ⟨0, by rw [← hj]; rfl, ?_, ⟨nd, by rw [← hj]; exact hi, by simpa using hp⟩⟩
        intro d' h1 h2
        omega

/-- The number of slots a loop from the hash index has passed before it
stops is below the capacity. -/
theorem path_lt (p : PNode K V → Bool) (e : Nat) (t : List (PNode K V)) (h n : Nat)
    (hbefore : ∀ d', d' < n → ∃ nd, t[(h + d') % 2 ^ e]? = some nd ∧ p nd = true)
    (hend : ∃ nd, t[(h + n) % 2 ^ e]? = some nd ∧ p nd = false) : n < 2 ^ e := by
  by_contra hcon
  obtain ⟨nd, h1, h2⟩ := hend
  obtain ⟨nd', h3, h4⟩ := hbefore (n - 2 ^ e) (by have := Nat.two_pow_pos e; omega)
  have e1 : (h + n) % 2 ^ e = (h + (n - 2 ^ e)) % 2 ^ e := by
    have : h + n = (h + (n - 2 ^ e)) + 2 ^ e := by omega
    rw [this, Nat.add_mod_right]
  rw [e1, h3] at h1
  have : nd' = nd := Option.some.inj h1
  subst this
  rw [h4] at h2
  cases h2

/-! ## The probe loop: what a call that returns has found -/

/-- No slot of a table all of whose slots, seen from the hash index of `key`,
are DELETED or hold another key, stores `key`. -/
theorem not_stored_of_cycle (e : Nat) (t : List (PNode K V)) (hlen : t.length = 2 ^ e)
    (h : Nat) (key : K) (d : Nat) (hd : 2 ^ e ≤ d)
    (hseen : ∀ d', d' < d → ∃ nd, t[(h + d') % 2 ^ e]? = some nd ∧
      (nd.type = NodeType.DELETED ∨ (nd.type = NodeType.ACTIVE ∧ nd.key ≠ key))) :
    ¬ Stored t key := by
  rintro ⟨j, nj, hj, ha, hk⟩
  have hjl : j < 2 ^ e := by rw [← hlen]; exact lt_of_getElem? _ _ _ hj
  obtain ⟨dj, hdj, hw⟩ := walk_surj (2 ^ e) h j hjl
  obtain ⟨nd, h1, h2⟩ := hseen dj (by omega)
  rw [hw, hj] at h1
  have : nj = nd := Option.some.inj h1
  subst this
  rcases h2 with h2 | ⟨_, h2⟩
  · rw [ha] at h2; cases h2
  · exact h2 hk

/-- A probe that stops at an EMPTY slot, having passed only tombstones and
other keys: the key is not stored. -/
theorem not_stored_of_empty (hash : K → Nat) (e : Nat) (t : List (PNode K V))
    (hlen : t.length = 2 ^ e) (hc : Chain hash t) (key : K) (d : Nat) (nd : PNode K V)
    (hi : t[(hash key + d) % 2 ^ e]? = some nd) (he : nd.type = NodeType.EMPTY)
    (hseen : ∀ d', d' < d → ∃ nd, t[(hash key + d') % 2 ^ e]? = some nd ∧
      (nd.type = NodeType.DELETED ∨ (nd.type = NodeType.ACTIVE ∧ nd.key ≠ key))) :
    ¬ Stored t key := by
  rintro ⟨j, nj, hj, ha, hk⟩
  obtain ⟨dj, hdj, hw, hbefore⟩ := hc j nj hj ha
  rw [hk, hlen] at hw
  rw [hk] at hbefore
  rcases Nat.lt_trichotomy dj d with h1 | h1 | h1
  · obtain ⟨n1, h2, h3⟩ := hseen dj h1
    rw [hw, hj] at h2
    have : nj = n1 := Option.some.inj h2
    subst this
    rcases h3 with h3 | ⟨_, h3⟩
    · rw [ha] at h3; cases h3
    · exact h3 hk
  · subst h1
    rw [hw, hj] at hi
    have : nj = nd := Option.some.inj hi
    subst this
    rw [ha] at he; cases he
  · have := hbefore d h1 nd (by rw [hlen]; exact hi)
    exact this he

theorem Inv.loop_sound (hash : K → Nat) (key : K) (e : Nat) (he : e ≤ 63) :
    ∀ (fuel : Nat) (s : XSFLinearProbingHashMap K V) (d : Nat) (b : Bool) (idx : Nat)
      (s2 : XSFLinearProbingHashMap K V), Inv hash s → s.capacity_ = 2 ^ e →
      2 * s.size_ ≤ s.capacity_ →
      (∀ d', d' < d → ∃ nd, s.table_[(hash key + d') % 2 ^ e]? = some nd ∧
        (nd.type = NodeType.DELETED ∨ (nd.type = NodeType.ACTIVE ∧ nd.key ≠ key))) →
      LinearProbingLoop hash key fuel s ((hash key + d) % 2 ^ e) d = Res.ok (b, idx, s2) →
      Inv hash s2 ∧ s2.size_ = s.size_ ∧ s2.capacity_ = s.capacity_ ∧
        (∀ k v, Holds s2.table_ k v ↔ Holds s.table_ k v) ∧
        (b = true → s2 = s ∧ ∃ nd, s.table_[idx]? = some nd ∧ nd.type = NodeType.ACTIVE ∧
          nd.key = key) ∧
        (b = false → ¬ Stored s.table_ key) := by
  intro fuel
  induction fuel with
  | zero => intro s d b idx s2 _ _ _ _ h; simp [LinearProbingLoop] at h
  | succ n ih =>
    intro s d b idx s2 inv hc hload hseen h
    have hpos : 0 < 2 ^ e := Nat.two_pow_pos e
    have hlen : s.table_.length = 2 ^ e := by rw [inv.shape.len, hc]
    have hmask : s.mask_ = 2 ^ e - 1 := by rw [inv.shape.mask, hc]
    have hnext : nextIndex s.mask_ ((hash key + d) % 2 ^ e) = (hash key + (d + 1)) % 2 ^ e := by
      rw [hmask, nextIndex_pow2 e _ he (Nat.mod_lt _ hpos), walk_succ]
    unfold LinearProbingLoop at h
    cases hi : s.table_[(hash key + d) % 2 ^ e]? with
    | none => simp [hi] at h
    | some nd =>
      simp only [hi] at h
      have hstep : (nd.type = NodeType.DELETED ∨ (nd.type = NodeType.ACTIVE ∧ nd.key ≠ key)) →
          ∀ d', d' < d + 1 → ∃ nd, s.table_[(hash key + d') % 2 ^ e]? = some nd ∧
            (nd.type = NodeType.DELETED ∨ (nd.type = NodeType.ACTIVE ∧ nd.key ≠ key)) := by
        intro hnd d' hd'
        by_cases hd : d' = d
        · subst hd; exact ⟨nd, hi, hnd⟩
        · exact hseen d' (by omega)
      cases ht : nd.type with
      | EMPTY =>
        simp only [ht] at h
        have := Res.ok.inj h
        simp only [Prod.mk.injEq] at this
        obtain ⟨hb, _, hs⟩ := this
        subst hs
        refine ⟨inv, rfl, rfl, fun _ _ => Iff.rfl, (fun h' => by rw [← hb] at h'; cases h'), ?_⟩
        intro _
        exact not_stored_of_empty hash e s.table_ hlen inv.chain key d nd hi ht hseen
      | DELETED =>
        simp only [ht] at h
        rw [hnext] at h
        exact ih s (d + 1) b idx s2 inv hc hload (hstep (Or.inl ht)) h
      | ACTIVE =>
        simp only [ht] at h
        by_cases hk : nd.key = key
        · rw [if_pos hk] at h
          have := Res.ok.inj h
          simp only [Prod.mk.injEq] at this
          obtain ⟨hb, hidx, hs⟩ := this
          subst hs; subst hidx
          refine ⟨inv, rfl, rfl, fun _ _ => Iff.rfl, fun _ => ⟨rfl, nd, hi, ht, hk⟩, ?_⟩
          intro h'; rw [← hb] at h'; cases h'
        · rw [if_neg hk] at h
          by_cases hg : d > s.capacity_
          · rw [if_pos hg] at h
            cases hr : Resize hash n s s.capacity_ with
            | timeout => simp [hr] at h
            | undef => simp [hr] at h
            | ok s1 =>
              simp only [hr] at h
              have hn : CeilToPow2 s.capacity_ = 2 ^ e := by rw [hc]; exact CeilToPow2_self e he
              have hroom : s.size_ < 2 ^ e := by omega
              obtain ⟨inv1, hc1, hz1, _, hh1⟩ := inv.resize_sound s.capacity_ e he hn hroom n s1 hr
              have hidx1 : HashIndex hash s1 key = (hash key + 0) % 2 ^ e := by
                rw [inv1.shape.hashIndex, hc1]
              rw [hidx1] at h
              cases hl : LinearProbingLoop hash key n s1 ((hash key + 0) % 2 ^ e) 0 with
              | timeout => rw [hl] at h; simp at h
              | undef => rw [hl] at h; simp at h
              | ok r =>
                obtain ⟨b', idx', s2'⟩ := r
                rw [hl] at h
                simp only at h
                have := Res.ok.inj h
                simp only [Prod.mk.injEq] at this
                obtain ⟨hb, _, hs⟩ := this
                subst hs
                obtain ⟨inv2, hz2, hc2, hh2, _, _⟩ :=
                  ih s1 0 b' idx' s2' inv1 hc1 (by rw [hz1, hc1, ← hc]; exact hload)
                    (fun d' hd' => absurd hd' (Nat.not_lt_zero _)) hl
                refine ⟨inv2, by rw [hz2, hz1], by rw [hc2, hc1, hc],
                  fun k v => (hh2 k v).trans (hh1 k v),
                  (fun h' => by rw [← hb] at h'; cases h'), ?_⟩
                intro _
                exact not_stored_of_cycle e s.table_ hlen (hash key) key d (by omega) hseen
          · rw [if_neg hg, hnext] at h
            exact ih s (d + 1) b idx s2 inv hc hload (hstep (Or.inr ⟨ht, hk⟩)) h

/-- A call of `LinearProbing` that returns. -/
theorem Inv.probe_sound {hash : K → Nat} {s : XSFLinearProbingHashMap K V} (inv : Inv hash s)
    (hload : 2 * s.size_ ≤ s.capacity_) (key : K) (fuel : Nat) (b : Bool) (idx : Nat)
    (s2 : XSFLinearProbingHashMap K V)
    (h : LinearProbing hash fuel s key = Res.ok (b, idx, s2)) :
    Inv hash s2 ∧ s2.size_ = s.size_ ∧ s2.capacity_ = s.capacity_ ∧
      (∀ k v, Holds s2.table_ k v ↔ Holds s.table_ k v) ∧
      (b = true → s2 = s ∧ ∃ nd, s.table_[idx]? = some nd ∧ nd.type = NodeType.ACTIVE ∧
        nd.key = key) ∧
      (b = false → ¬ Stored s.table_ key) := by
  obtain ⟨e, he, hc⟩ := inv.shape.pow2
  unfold LinearProbing at h
  rw [inv.shape.hashIndex, hc] at h
  exact Inv.loop_sound hash key e he fuel s 0 b idx s2 inv hc hload
    (fun d' hd' => absurd hd' (Nat.not_lt_zero _)) h

/-! ## The public operations keep the invariant -/

/-- A call of `operator[]` that returns keeps the invariant and returns an
ACTIVE slot that holds the key. -/
theorem Inv.subscript_sound {hash : K → Nat} {s : XSFLinearProbingHashMap K V}
    (inv : Inv hash s) (hload : 2 * s.size_ ≤ s.capacity_)
    (hcap : s.size_ ≥ s.capacity_ / 2 → s.capacity_ ≤ 2 ^ 62)
    (fuel : Nat) (key : K) (idx : Nat) (s1 : XSFLinearProbingHashMap K V)
    (h : subscript hash fuel s key = Res.ok (idx, s1)) :
    Inv hash s1 ∧ ∃ nd, s1.table_[idx]? = some nd ∧ nd.type = NodeType.ACTIVE ∧ nd.key = key := by
  obtain ⟨sh1, _, _, _, _⟩ := inv.shape.subscript_ok hash hload hcap fuel key idx s1 h
  obtain ⟨e, he, hc⟩ := inv.shape.pow2
  obtain ⟨hsl, hclt, hc1⟩ := inv.shape.size_lt
  -- the state after the resize test
  have hpre : ∃ s0 : XSFLinearProbingHashMap K V,
      (if s.size_ ≥ s.capacity_ / 2 then Resize hash fuel s (s.capacity_ * 2 % SIZE_MOD)
        else Res.ok s) = Res.ok s0 ∧ Inv hash s0 ∧ 2 * s0.size_ ≤ s0.capacity_ := by
    unfold subscript at h
    by_cases hg : s.size_ ≥ s.capacity_ / 2
    · have he62 : e ≤ 62 := by
        have hcap' := hcap hg
        by_contra hcon
        have : 2 ^ 63 ≤ 2 ^ e := Nat.pow_le_pow_right (by decide) (by omega)
        have h63 : (2 : Nat) ^ 63 = 2 * 2 ^ 62 := by norm_num
        have h62 : (0 : Nat) < 2 ^ 62 := Nat.two_pow_pos 62
        omega
      rw [if_pos hg] at h ⊢
      cases hr : Resize hash fuel s (s.capacity_ * 2 % SIZE_MOD) with
      | timeout => simp [hr] at h
      | undef => simp [hr] at h
      | ok s0 =>
        have h2 : s.capacity_ * 2 = 2 ^ (e + 1) := by rw [hc, pow_succ]
        have hn : CeilToPow2 (s.capacity_ * 2 % SIZE_MOD) = 2 ^ (e + 1) := by
          rw [h2, Nat.mod_eq_of_lt (two_pow_lt_SIZE_MOD (e + 1) (by omega))]
          exact CeilToPow2_self (e + 1) (by omega)
        have hp : 2 ^ (e + 1) = 2 * 2 ^ e := by rw [pow_succ]; omega
        obtain ⟨inv0, hc0, hz0, _, _⟩ :=
          inv.resize_sound _ (e + 1) (by omega) hn (by omega) fuel s0 hr
        exact ⟨s0, rfl, inv0, by rw [hz0, hc0, hp]; omega⟩
    · rw [if_neg hg]
      exact ⟨s, rfl, inv, hload⟩
  obtain ⟨s0, hs0, inv0, hl0⟩ := hpre
  unfold subscript at h
  simp only [hs0] at h
  cases hp : LinearProbing hash fuel s0 key with
  | timeout => simp [hp] at h
  | undef => simp [hp] at h
  | ok r =>
    obtain ⟨b, j, s2⟩ := r
    obtain ⟨inv2, hz2, hc2, hh2, hfound, hmiss⟩ := inv0.probe_sound hl0 key fuel b j s2 hp
    cases b with
    | true =>
      simp only [hp] at h
      have := Res.ok.inj h
      simp only [Prod.mk.injEq] at this
      obtain ⟨hj, hs⟩ := this
      subst hs; subst hj
      obtain ⟨e2, nd, hnd, ha, hk⟩ := hfound rfl
      subst e2
      exact ⟨inv2, nd, hnd, ha, hk⟩
    | false =>
      simp only [hp] at h
      obtain ⟨e2, he2, hce2⟩ := inv2.shape.pow2
      have hlen2 : s2.table_.length = 2 ^ e2 := by rw [inv2.shape.len, hce2]
      have hmask2 : s2.mask_ = 2 ^ e2 - 1 := by rw [inv2.shape.mask, hce2]
      have hidx2 : HashIndex hash s2 key = (hash key + 0) % 2 ^ e2 := by
        rw [inv2.shape.hashIndex, hce2]
      have hns2 : ¬ Stored s2.table_ key := by
        intro hst
        obtain ⟨v, hv⟩ := (stored_iff_holds _ _).1 hst
        exact hmiss rfl ((stored_iff_holds _ _).2 ⟨v, (hh2 key v).1 hv⟩)
      cases hfr : findFree s2.mask_ s2.table_ fuel (HashIndex hash s2 key) with
      | timeout => simp [hfr] at h
      | undef => simp [hfr] at h
      | ok i =>
        simp only [hfr] at h
        have hfr2 := hfr
        unfold findFree at hfr2
        rw [hmask2, hidx2] at hfr2
        obtain ⟨n, hin, hbefore, o, ho, hpo⟩ :=
          scanWhile_path _ e2 s2.table_ hlen2 he2 (hash key) fuel 0 i hfr2
        have hoa : o.type ≠ NodeType.ACTIVE := by simpa using hpo
        have hin' : i = (hash key + n) % 2 ^ e2 := by rw [hin, Nat.zero_add]
        have hnlt : n < 2 ^ e2 := by
          apply path_lt (fun nd : PNode K V => decide (nd.type = NodeType.ACTIVE)) e2 s2.table_
            (hash key) n
          · intro d' hd'
            exact hbefore d' (Nat.zero_le _) (by omega)
          · exact ⟨o, by rw [← hin']; exact ho, hpo⟩
        simp only [ho] at h
        have := Res.ok.inj h
        simp only [Prod.mk.injEq] at this
        obtain ⟨hj, hs⟩ := this
        subst hj
        obtain ⟨u1, c1, _, _, _⟩ := set_active hash s2.table_ inv2.uniq inv2.chain
          i o ho hoa key o.value hns2 n (by rw [hlen2]; exact hnlt) (by rw [hlen2]; exact hin'.symm)
          (fun d' hd' n' hn' => by
            rw [hlen2] at hn'
            obtain ⟨n2, h2, hp2⟩ := hbefore d' (Nat.zero_le _) (by omega)
            rw [h2] at hn'
            have e1 : n2 = n' := Option.some.inj hn'
            have : n2.type = NodeType.ACTIVE := by simpa using hp2
            rw [← e1, this]; simp)
        have hil : i < s2.table_.length := lt_of_getElem? _ _ _ ho
        rw [← hs] at sh1 ⊢
        refine ⟨⟨sh1, u1, c1⟩, ⟨key, o.value, NodeType.ACTIVE⟩, ?_, rfl, rfl⟩
        exact (getElem?_set_iff _ _ _ _ _ hil).2 (Or.inl ⟨rfl, rfl⟩)

/-- A statement `m[key] = value` that returns keeps the invariant. -/
theorem Inv.assign_sound {hash : K → Nat} {s : XSFLinearProbingHashMap K V}
    (inv : Inv hash s) (hload : 2 * s.size_ ≤ s.capacity_)
    (hcap : s.size_ ≥ s.capacity_ / 2 → s.capacity_ ≤ 2 ^ 62)
    (fuel : Nat) (key : K) (value : V) (s1 : XSFLinearProbingHashMap K V)
    (h : assign hash fuel s key value = Res.ok s1) : Inv hash s1 := by
  obtain ⟨sh1, _, _, _⟩ := inv.shape.assign_ok hash hload hcap fuel key value s1 h
  unfold assign at h
  cases hs : subscript hash fuel s key with
  | timeout => simp [hs] at h
  | undef => simp [hs] at h
  | ok r =>
    obtain ⟨idx, s0⟩ := r
    obtain ⟨inv0, nd, hnd, ha, hk⟩ := inv.subscript_sound hload hcap fuel key idx s0 hs
    simp only [hs, hnd] at h
    have hs1 := Res.ok.inj h
    obtain ⟨u1, c1, _, _, _⟩ := set_value hash s0.table_ inv0.uniq inv0.chain idx nd hnd ha value
    rw [← hs1] at sh1 ⊢
    exact ⟨sh1, u1, c1⟩

/-- A call of `Contains` that returns keeps the invariant. -/
theorem Inv.contains_sound {hash : K → Nat} {s : XSFLinearProbingHashMap K V}
    (inv : Inv hash s) (hload : 2 * s.size_ ≤ s.capacity_)
    (fuel : Nat) (key : K) (b : Bool) (s1 : XSFLinearProbingHashMap K V)
    (h : Contains hash fuel s key = Res.ok (b, s1)) : Inv hash s1 := by
  unfold Contains at h
  cases hp : LinearProbing hash fuel s key with
  | timeout => simp [hp] at h
  | undef => simp [hp] at h
  | ok r =>
    obtain ⟨b', j, s2⟩ := r
    obtain ⟨inv2, _⟩ := inv.probe_sound hload key fuel b' j s2 hp
    simp only [hp] at h
    have := Res.ok.inj h
    simp only [Prod.mk.injEq] at this
    obtain ⟨_, hs⟩ := this
    subst hs
    exact inv2

/-- A call of `Erase` that returns keeps the invariant. -/
theorem Inv.erase_sound {hash : K → Nat} {s : XSFLinearProbingHashMap K V}
    (inv : Inv hash s) (hload : 2 * s.size_ ≤ s.capacity_)
    (fuel : Nat) (key : K) (n : Nat) (s1 : XSFLinearProbingHashMap K V)
    (h : Erase hash fuel s key = Res.ok (n, s1)) : Inv hash s1 := by
  obtain ⟨sh1, _, _, _⟩ := inv.shape.erase_ok hash fuel key n s1 h
  unfold Erase at h
  cases hp : LinearProbing hash fuel s key with
  | timeout => simp [hp] at h
  | undef => simp [hp] at h
  | ok r =>
    obtain ⟨b, j, s2⟩ := r
    obtain ⟨inv2, _, _, _, hfound, _⟩ := inv.probe_sound hload key fuel b j s2 hp
    cases b with
    | false =>
      simp only [hp] at h
      have := Res.ok.inj h
      simp only [Prod.mk.injEq] at this
      obtain ⟨_, hs⟩ := this
      subst hs
      exact inv2
    | true =>
      simp only [hp] at h
      obtain ⟨e2, nd, hnd, ha, hk⟩ := hfound rfl
      subst e2
      simp only [hnd] at h
      have := Res.ok.inj h
      simp only [Prod.mk.injEq] at this
      obtain ⟨_, hs⟩ := this
      obtain ⟨u1, c1, _, _, _⟩ := set_deleted hash s2.table_ inv2.uniq inv2.chain j nd hnd ha
      rw [← hs] at sh1 ⊢
      exact ⟨sh1, u1, c1⟩

/-- A call of `Clear` keeps the invariant. -/
theorem Inv.clear_sound {hash : K → Nat} {s : XSFLinearProbingHashMap K V}
    (inv : Inv hash s) (s1 : XSFLinearProbingHashMap K V)
    (h : Clear s = Res.ok s1) : Inv hash s1 := by
  obtain ⟨sh1, _, _⟩ := inv.shape.clear_ok s1 h
  have hall : ∀ (i : Nat) (nd : PNode K V), s1.table_[i]? = some nd →
      nd.type = NodeType.EMPTY := by
    unfold Clear at h
    simp only [inv.shape.len, lt_irrefl, if_false] at h
    have hs := Res.ok.inj h
    have hdrop : s.table_.drop s.capacity_ = [] := by
      rw [← inv.shape.len]; exact List.drop_length _
    intro i nd hi
    have hmem : nd ∈ s1.table_ := List.mem_iff_getElem?.2 ⟨i, hi⟩
    rw [← hs] at hmem
    simp only [hdrop, List.append_nil, List.mem_map] at hmem
    obtain ⟨o, _, ho⟩ := hmem
    by_cases hne : o.type = NodeType.EMPTY
    · simp [hne] at ho
      rw [← ho]; exact hne
    · simp [hne] at ho
      rw [← ho]
  refine ⟨sh1, ?_, ?_⟩
  · intro i j ni nj hi hj hai
    rw [hall i ni hi] at hai
    cases hai
  · intro j nj hj haj
    rw [hall j nj hj] at haj
    cases haj

/-- One call that returns keeps the invariant and the load bound. -/
theorem Inv.step_sound {hash : K → Nat} {s : XSFLinearProbingHashMap K V}
    (inv : Inv hash s) (hload : 2 * s.size_ ≤ s.capacity_)
    (hcap : s.size_ ≥ s.capacity_ / 2 → s.capacity_ ≤ 2 ^ 62)
    (fuel : Nat) (op : POp K V) (s1 : XSFLinearProbingHashMap K V)
    (h : step hash fuel s op = Res.ok s1) :
    Inv hash s1 ∧ 2 * s1.size_ ≤ s1.capacity_ ∧ s1.size_ ≤ s.size_ + 1 := by
  obtain ⟨_, hl1, hz1⟩ := inv.shape.step_ok hash hload hcap fuel op s1 h
  refine ⟨?_, hl1, hz1⟩
  cases op with
  | assign k v => exact inv.assign_sound hload hcap fuel k v s1 h
  | subscript k =>
    unfold step at h
    cases hs : subscript hash fuel s k with
    | timeout => simp [hs] at h
    | undef => simp [hs] at h
    | ok r =>
      obtain ⟨idx, s0⟩ := r
      simp only [hs] at h
      have := Res.ok.inj h
      subst this
      exact (inv.subscript_sound hload hcap fuel k idx s0 hs).1
  | contains k =>
    unfold step at h
    cases hs : Contains hash fuel s k with
    | timeout => simp [hs] at h
    | undef => simp [hs] at h
    | ok r =>
      obtain ⟨b, s0⟩ := r
      simp only [hs] at h
      have := Res.ok.inj h
      subst this
      exact inv.contains_sound hload fuel k b s0 hs
  | erase k =>
    unfold step at h
    cases hs : Erase hash fuel s k with
    | timeout => simp [hs] at h
    | undef => simp [hs] at h
    | ok r =>
      obtain ⟨n, s0⟩ := r
      simp only [hs] at h
      have := Res.ok.inj h
      subst this
      exact inv.erase_sound hload fuel k n s0 hs
  | clear => exact inv.clear_sound s1 h

theorem Inv.run_sound (hash : K → Nat) (fuel : Nat) :
    ∀ (ops : List (POp K V)) (s s1 : XSFLinearProbingHashMap K V) (t : Nat), Inv hash s →
      2 * s.size_ ≤ s.capacity_ → s.size_ ≤ t → t + ops.length < 2 ^ 61 →
      run hash fuel s ops = Res.ok s1 →
      Inv hash s1 ∧ 2 * s1.size_ ≤ s1.capacity_ ∧ s1.size_ ≤ t + ops.length := by
  intro ops
  induction ops with
  | nil =>
    intro s s1 t inv hl ht _ h
    have := Res.ok.inj h
    subst this
    exact ⟨inv, hl, by simpa using ht⟩
  | cons op ops ih =>
    intro s s1 t inv hl ht hlen h
    simp only [List.length_cons] at hlen ⊢
    have h62 : (2 : Nat) ^ 62 = 2 * 2 ^ 61 := by norm_num
    unfold run at h
    cases hs : step hash fuel s op with
    | timeout => simp [hs] at h
    | undef => simp [hs] at h
    | ok s0 =>
      simp only [hs] at h
      obtain ⟨inv0, hl0, hz0⟩ := inv.step_sound hl (by intro _; omega) fuel op s0 hs
      obtain ⟨a, b, c⟩ := ih s0 s1 (t + 1) inv0 hl0 (by omega) (by omega) h
      exact ⟨a, b, by omega⟩

/-- Every table reached from a freshly constructed map satisfies the
invariant and is at most half full. -/
theorem reach_inv (hash : K → Nat) (n0 : Nat) (h1 : 1 ≤ n0) (ops : List (POp K V))
    (hlen : ops.length < 2 ^ 61) (fuel : Nat) (s : XSFLinearProbingHashMap K V)
    (hrun : run hash fuel (new n0) ops = Res.ok s) :
    Inv hash s ∧ 2 * s.size_ ≤ s.capacity_ := by
  obtain ⟨inv, hsz, hcap1, hused, hnone⟩ := new_inv (V := V) hash n0 h1
  obtain ⟨a, b, _⟩ := Inv.run_sound hash fuel ops (new n0) s 0 inv
    (by rw [hsz]; omega) (by rw [hsz]) (by omega) hrun
  exact ⟨a, b⟩

/-! ## The guard of the probe loop -/

/-- A probe that returns within `capacity_ + 1` iterations has not come to the
guard. -/
theorem loop_guard_free (hash : K → Nat) (key : K) :
    ∀ (fuel : Nat) (s : XSFLinearProbingHashMap K V) (i step : Nat)
      (r : Bool × Nat × XSFLinearProbingHashMap K V),
      step + fuel ≤ s.capacity_ + 1 →
      LinearProbingLoop hash key fuel s i step = Res.ok r →
      reachesGuard key fuel s i step = Res.ok false := by
  intro fuel
  induction fuel with
  | zero => intro s i step r _ h; simp [LinearProbingLoop] at h
  | succ n ih =>
    intro s i step r hle h
    unfold LinearProbingLoop at h
    unfold reachesGuard
    cases hi : s.table_[i]? with
    | none => simp [hi] at h
    | some nd =>
      simp only [hi] at h ⊢
      cases ht : nd.type with
      | EMPTY => rfl
      | DELETED =>
        simp only [ht] at h ⊢
        exact ih s _ _ r (by omega) h
      | ACTIVE =>
        simp only [ht] at h ⊢
        by_cases hk : nd.key = key
        · rw [if_pos hk]
        · have hg : ¬ step > s.capacity_ := by omega
          rw [if_neg hk, if_neg hg] at h ⊢
          exact ih s _ _ r (by omega) h

theorem reachesGuard_mono (key : K) (n : Nat) :
    ∀ (fuel : Nat) (s : XSFLinearProbingHashMap K V) (i step : Nat) (b : Bool),
      reachesGuard key fuel s i step = Res.ok b →
      reachesGuard key (fuel + n) s i step = Res.ok b := by
  intro fuel
  induction fuel with
  | zero => intro s i step b h; simp [reachesGuard] at h
  | succ m ih =>
    intro s i step b h
    rw [Nat.add_right_comm]
    unfold reachesGuard at h ⊢
    cases hi : s.table_[i]? with
    | none => simp [hi] at h
    | some nd =>
      simp only [hi] at h ⊢
      cases ht : nd.type with
      | EMPTY => simp only [ht] at h ⊢; exact h
      | DELETED =>
        simp only [ht] at h ⊢
        exact ih s _ _ b h
      | ACTIVE =>
        simp only [ht] at h ⊢
        by_cases hk : nd.key = key
        · rw [if_pos hk] at h ⊢; exact h
        · rw [if_neg hk] at h ⊢
          by_cases hg : step > s.capacity_
          · rw [if_pos hg] at h ⊢; exact h
          · rw [if_neg hg] at h ⊢
            exact ih s _ _ b h

/-- A table with an EMPTY slot has fewer non-EMPTY slots than slots. -/
theorem used_lt_of_empty (t : List (PNode K V))
    (h : ∃ (i : Nat) (nd : PNode K V), t[i]? = some nd ∧ nd.type = NodeType.EMPTY) :
    used t < t.length := by
  obtain ⟨i, nd, hi, he⟩ := h
  apply lt_of_le_of_ne (List.countP_le_length _)
  intro heq
  have hall := List.countP_eq_length.1 heq nd (List.mem_iff_getElem?.2 ⟨i, hi⟩)
  simp [he] at hall

/-- On a table that satisfies the invariant and has an EMPTY slot or stores
the key, a probe ends within `capacity_` iterations, at the slot of the key or
at an EMPTY slot, without coming to the guard, and leaves the table as it is. -/
theorem Inv.probe_no_guard {hash : K → Nat} {s : XSFLinearProbingHashMap K V}
    (inv : Inv hash s) (key : K)
    (hor : (∃ (i : Nat) (nd : PNode K V), s.table_[i]? = some nd ∧ nd.type = NodeType.EMPTY) ∨
      Stored s.table_ key)
    (fuel : Nat) (hf : s.capacity_ ≤ fuel) :
    reachesGuard key fuel s (HashIndex hash s key) 0 = Res.ok false ∧
    ∃ (b : Bool) (j : Nat) (nd : PNode K V),
      LinearProbing hash fuel s key = Res.ok (b, j, s) ∧ s.table_[j]? = some nd ∧
      (b = true → nd.type = NodeType.ACTIVE ∧ nd.key = key) ∧
      (b = false → nd.type = NodeType.EMPTY ∧ ¬ Stored s.table_ key) := by
  have hprobe : ∃ (b : Bool) (j : Nat) (nd : PNode K V),
      (∀ fuel, s.capacity_ ≤ fuel → LinearProbing hash fuel s key = Res.ok (b, j, s)) ∧
      s.table_[j]? = some nd ∧
      (b = true → nd.type = NodeType.ACTIVE ∧ nd.key = key) ∧
      (b = false → nd.type = NodeType.EMPTY ∧ ¬ Stored s.table_ key) := by
    by_cases hst : Stored s.table_ key
    · obtain ⟨j, nj, hj, ha, hk⟩ := hst
      refine ⟨true, j, nj, ?_, hj, fun _ => ⟨ha, hk⟩, fun h => (by cases h)⟩
      intro fuel hf
      have := inv.probe_stored j nj hj ha fuel hf
      rw [hk] at this
      exact this
    · have hempty := hor.resolve_right hst
      have hused : used s.table_ < s.capacity_ := by
        rw [← inv.shape.len]; exact used_lt_of_empty _ hempty
      obtain ⟨j, nd, hj, he, hp⟩ := inv.shape.probe_absent hash key hst hused
      exact ⟨false, j, nd, hp, hj, fun h => (by cases h), fun _ => ⟨he, hst⟩⟩
  obtain ⟨b, j, nd, hp, hj, h1, h2⟩ := hprobe
  refine ⟨?_, b, j, nd, hp fuel hf, hj, h1, h2⟩
  have h0 := hp s.capacity_ (le_refl _)
  unfold LinearProbing at h0
  have hg := loop_guard_free hash key s.capacity_ s (HashIndex hash s key) 0 _ (by omega) h0
  have := reachesGuard_mono key (fuel - s.capacity_) s.capacity_ s _ 0 false hg
  rw [Nat.add_sub_cancel' hf] at this
  exact this

theorem guard_threeDeleted (fuel : Nat) :
    reachesGuard 7 (fuel + 9) threeDeleted (HashIndex (fun k : Nat => k) threeDeleted 7) 0
      = Res.ok true := by
  rfl

theorem contains_guard_threeDeleted (fuel : Nat) :
    Contains (fun k : Nat => k) (fuel + 11) threeDeleted 7 = Res.ok (false, threeDropped) := by
  rfl

/-- The probe loop passes DELETED slots, and slots with another key while
`step` is at most the capacity, without coming to the guard. -/
theorem guard_skip (key : K) (s : XSFLinearProbingHashMap K V) (e : Nat)
    (hcap : s.capacity_ = 2 ^ e) (he : e ≤ 63) (hmask : s.mask_ = 2 ^ e - 1)
    (h n fuel : Nat) :
    ∀ d, (∀ d', d ≤ d' → d' < d + n →
        ∃ nd, s.table_[(h + d') % 2 ^ e]? = some nd ∧
          (nd.type = NodeType.DELETED ∨
            (nd.type = NodeType.ACTIVE ∧ nd.key ≠ key ∧ d' ≤ 2 ^ e))) →
      reachesGuard key (fuel + n) s ((h + d) % 2 ^ e) d
        = reachesGuard key fuel s ((h + (d + n)) % 2 ^ e) (d + n) := by
  induction n with
  | zero => intro d _; rfl
  | succ n ih =>
    intro d hskip
    obtain ⟨nd, hnd, hty⟩ := hskip d (le_refl _) (by omega)
    have hpos : 0 < 2 ^ e := Nat.two_pow_pos e
    have e1 : fuel + (n + 1) = (fuel + n) + 1 := by omega
    have hnext : nextIndex s.mask_ ((h + d) % 2 ^ e) = (h + (d + 1)) % 2 ^ e := by
      rw [hmask, nextIndex_pow2 e _ he (Nat.mod_lt _ hpos), walk_succ]
    have hrec := ih (d + 1) (fun d' h1 h2 => hskip d' (by omega) (by omega))
    have e2 : d + 1 + n = d + (n + 1) := by omega
    rw [e2] at hrec
    rw [e1]
    rcases hty with hdel | ⟨hact, hkey, hd⟩
    · simp only [reachesGuard, hnd, hdel, hnext]
      exact hrec
    · have hstep : ¬ d > s.capacity_ := by rw [hcap]; omega
      simp only [reachesGuard, hnd, hact, hkey, if_false, hstep, hnext]
      exact hrec

/-- On a table without an EMPTY slot that has an ACTIVE slot, the probe for a
key that is not stored comes to the guard, within `2 * capacity_ + 1`
iterations. -/
theorem Shape.guard_reached {s : XSFLinearProbingHashMap K V} (sh : s.Shape) (hash : K → Nat)
    (key : K) (hfull : ∀ nd ∈ s.table_, nd.type ≠ NodeType.EMPTY)
    (habs : ¬ Stored s.table_ key) (hact : ∃ nd ∈ s.table_, nd.type = NodeType.ACTIVE)
    (fuel : Nat) (hf : 2 * s.capacity_ + 1 ≤ fuel) :
    reachesGuard key fuel s (HashIndex hash s key) 0 = Res.ok true := by
  obtain ⟨e, he, hc⟩ := sh.pow2
  have hpos : 0 < 2 ^ e := Nat.two_pow_pos e
  have hlen : s.table_.length = 2 ^ e := by rw [sh.len, hc]
  have hmask : s.mask_ = 2 ^ e - 1 := by rw [sh.mask, hc]
  -- every slot is a tombstone or holds another key
  have hslot : ∀ d, ∃ nd, s.table_[(hash key + d) % 2 ^ e]? = some nd ∧
      (nd.type = NodeType.DELETED ∨ (nd.type = NodeType.ACTIVE ∧ nd.key ≠ key)) := by
    intro d
    have hlt : (hash key + d) % 2 ^ e < s.table_.length := by
      rw [hlen]; exact Nat.mod_lt _ hpos
    refine ⟨s.table_[(hash key + d) % 2 ^ e], List.getElem?_eq_getElem hlt, ?_⟩
    have hmem : s.table_[(hash key + d) % 2 ^ e] ∈ s.table_ := List.getElem_mem _
    rcases type_cases (s.table_[(hash key + d) % 2 ^ e]) with h1 | h1 | h1
    · refine Or.inr ⟨h1, fun hk => habs ⟨_, _, List.getElem?_eq_getElem hlt, h1, hk⟩⟩
    · exact absurd h1 (hfull _ hmem)
    · exact Or.inl h1
  -- the first ACTIVE slot the loop comes to with `step > capacity_`
  have hex : ∃ d, 2 ^ e < d ∧ ∃ nd, s.table_[(hash key + d) % 2 ^ e]? = some nd ∧
      nd.type = NodeType.ACTIVE := by
    obtain ⟨nd, hnd, ha⟩ := hact
    obtain ⟨j, hj⟩ := List.mem_iff_getElem?.1 hnd
    have hjl : j < 2 ^ e := by rw [← hlen]; exact lt_of_getElem? _ _ _ hj
    obtain ⟨dj, _, hw⟩ := walk_surj (2 ^ e) (hash key) j hjl
    refine ⟨dj + 2 ^ e + 2 ^ e, by omega, nd, ?_, ha⟩
    have e1 : hash key + (dj + 2 ^ e + 2 ^ e) = hash key + dj + 2 ^ e + 2 ^ e := by omega
    rw [e1, Nat.add_mod_right, Nat.add_mod_right, hw]
    exact hj
  obtain ⟨d0, ⟨hd0, nd0, hnd0, ha0⟩, hmin⟩ := exists_first _ hex
  have hle : d0 ≤ 2 * 2 ^ e := by
    by_contra hcon
    apply hmin (d0 - 2 ^ e) (by omega)
    refine ⟨by omega, nd0, ?_, ha0⟩
    have e1 : hash key + d0 = hash key + (d0 - 2 ^ e) + 2 ^ e := by omega
    rw [e1, Nat.add_mod_right] at hnd0
    exact hnd0
  have hk0 : nd0.key ≠ key := fun hk => habs ⟨_, nd0, hnd0, ha0, hk⟩
  obtain ⟨f, hfe⟩ : ∃ f, fuel = (f + 1) + d0 := ⟨fuel - d0 - 1, by omega⟩
  have hskip := guard_skip key s e hc he hmask (hash key) d0 (f + 1) 0
    (fun d' _ h2 => by
      obtain ⟨nd, hnd, hty⟩ := hslot d'
      refine ⟨nd, hnd, ?_⟩
      rcases hty with h1 | ⟨h1, h3⟩
      · exact Or.inl h1
      · refine Or.inr ⟨h1, h3, ?_⟩
        by_contra hcon
        exact hmin d' (by omega) ⟨by omega, nd, hnd, h1⟩)
  rw [sh.hashIndex, hc, hfe, hskip, Nat.zero_add]
  have hg : d0 > s.capacity_ := by rw [hc]; exact hd0
  simp only [reachesGuard, hnd0, ha0, hk0, if_false, hg, if_true]

/-- Key 3 is the only key the table `threeDeleted` stores. -/
theorem threeDeleted_not_stored (key : Nat) (h3 : key ≠ 3) :
    ¬ Stored threeDeleted.table_ key := by
  rintro ⟨j, nd, hj, ha, hk⟩
  have hlt := lt_of_getElem? _ _ _ hj
  have h4 : threeDeleted.table_.length = 4 := rfl
  have : j = 0 ∨ j = 1 ∨ j = 2 ∨ j = 3 := by omega
  rcases this with h | h | h | h <;> subst h <;>
    · have e1 := Option.some.inj hj
      rw [← e1] at ha hk
      first
        | exact h3 hk.symm
        | cases ha

theorem threeDeleted_full : ∀ nd ∈ threeDeleted.table_, nd.type ≠ NodeType.EMPTY := by
  decide

/-- On a table all of whose slots are DELETED the probe loop does not come to
the guard, whatever number of iterations it may take. -/
theorem Shape.guard_all_deleted {s : XSFLinearProbingHashMap K V} (sh : s.Shape) (key : K)
    (hdel : ∀ nd ∈ s.table_, nd.type = NodeType.DELETED) :
    ∀ (fuel i step : Nat), i < s.capacity_ → reachesGuard key fuel s i step = Res.timeout := by
  obtain ⟨e, he, hc⟩ := sh.pow2
  intro fuel
  induction fuel with
  | zero => intro i step _; rfl
  | succ n ih =>
    intro i step hi
    have hlt : i < s.table_.length := by rw [sh.len]; exact hi
    have hget : s.table_[i]? = some s.table_[i] := List.getElem?_eq_getElem hlt
    have hty := hdel _ (List.getElem_mem hlt)
    simp only [reachesGuard, hget, hty]
    apply ih
    rw [sh.mask, hc, nextIndex_pow2 e i he (by rw [← hc]; exact hi)]
    exact Nat.mod_lt _ (Nat.two_pow_pos e)

/-- A call of `Resize` on a reachable table, with a new capacity above
`Size()`. -/
theorem Inv.resize_full {hash : K → Nat} {s : XSFLinearProbingHashMap K V} (inv : Inv hash s)
    (n : Nat) (hn : s.size_ < CeilToPow2 n) (fuel : Nat) (hf : 2 ^ 63 ≤ fuel) :
    ∃ s1, Resize hash fuel s n = Res.ok s1 ∧ Inv hash s1 ∧ s1.capacity_ = CeilToPow2 n ∧
      (∀ nd ∈ s1.table_, nd.type ≠ NodeType.DELETED) ∧
      (∀ k v, Holds s1.table_ k v ↔ Holds s.table_ k v) ∧
      actives s1.table_ = actives s.table_ ∧ s1.size_ = s.size_ ∧
      ∀ k, Stored s.table_ k → ∃ (j : Nat) (nd : PNode K V),
        LinearProbing hash fuel s1 k = Res.ok (true, j, s1) ∧ s1.table_[j]? = some nd ∧
        nd.type = NodeType.ACTIVE ∧ nd.key = k := by
  have h1 : 1 ≤ n := by
    by_contra hcon
    have h0 : n = 0 := by omega
    rw [h0] at hn
    have : CeilToPow2 0 = 0 := by decide
    omega
  obtain ⟨e, he, hc⟩ := CeilToPow2_pos n h1
  have hfe : 2 ^ e ≤ fuel := le_trans (Nat.pow_le_pow_right (by decide) he) hf
  obtain ⟨s1, hr, inv1, hc1, hz1, hu1, hh1⟩ :=
    inv.resize_spec n e he hc (by rw [← hc]; exact hn) fuel hfe
  refine ⟨s1, hr, inv1, by rw [hc1, hc], ?_, hh1, ?_, hz1, ?_⟩
  · exact noTomb_of_used_eq _ (by rw [hu1, inv1.shape.size])
  · rw [← inv1.shape.size, ← inv.shape.size, hz1]
  · intro k hst
    obtain ⟨v, hv⟩ := (stored_iff_holds _ _).1 hst
    obtain ⟨j, nj, hj, ha, hk, _⟩ := (hh1 k v).2 hv
    refine ⟨j, nj, ?_, hj, ha, hk⟩
    have := inv1.probe_stored j nj hj ha fuel (by rw [hc1]; exact hfe)
    rw [hk] at this
    exact this

/-! ## A slot that is taken again keeps its value -/

/-- The probe for `key` on a table whose only non-EMPTY slot is a tombstone in
the home slot of `key`. -/
theorem probe_tombstone (hash : K → Nat) (e : Nat) (he1 : 1 ≤ e) (he : e ≤ 63)
    (key0 : K) (value0 : V) (key : K) (fuel : Nat) :
    LinearProbing hash (fuel + 2)
        (single e (hash key % 2 ^ e) ⟨key0, value0, NodeType.DELETED⟩ 0) key
      = Res.ok (false, (hash key % 2 ^ e + 1) % 2 ^ e,
          single e (hash key % 2 ^ e) ⟨key0, value0, NodeType.DELETED⟩ 0) := by
  have hpos : 0 < 2 ^ e := Nat.two_pow_pos e
  have hlt : hash key % 2 ^ e < 2 ^ e := Nat.mod_lt _ hpos
  have h2 : 2 ≤ 2 ^ e := by
    calc 2 = 2 ^ 1 := rfl
      _ ≤ 2 ^ e := Nat.pow_le_pow_right (by decide) he1
  have hget := single_get_self e (hash key % 2 ^ e)
    (⟨key0, value0, NodeType.DELETED⟩ : PNode K V) 0 hlt
  have hnext : nextIndex (2 ^ e - 1) (hash key % 2 ^ e) = (hash key % 2 ^ e + 1) % 2 ^ e :=
    nextIndex_pow2 e _ he hlt
  have hne : hash key % 2 ^ e ≠ (hash key % 2 ^ e + 1) % 2 ^ e := by
    intro h
    by_cases hc : hash key % 2 ^ e + 1 < 2 ^ e
    · rw [Nat.mod_eq_of_lt hc] at h; omega
    · have : hash key % 2 ^ e + 1 = 2 ^ e := by omega
      rw [this, Nat.mod_self] at h
      omega
  have hget2 := single_get_other e (hash key % 2 ^ e)
    (⟨key0, value0, NodeType.DELETED⟩ : PNode K V) 0 _ (Nat.mod_lt _ hpos) hne
  unfold LinearProbing
  rw [hashIndex_single, loop_deleted hash key _ (fuel + 1) _ 0 _ hget rfl]
  have hm : (single e (hash key % 2 ^ e)
      (⟨key0, value0, NodeType.DELETED⟩ : PNode K V) 0).mask_ = 2 ^ e - 1 := rfl
  rw [hm, hnext]
  exact loop_empty hash key _ fuel _ _ emptyNode hget2 rfl

/-- The probe for `key` on a table all of whose slots are EMPTY, the home slot
of `key` holding an old key and value. -/
theorem probe_cleared (hash : K → Nat) (e : Nat)
    (key0 : K) (value0 : V) (key : K) (fuel : Nat) :
    LinearProbing hash (fuel + 1)
        (single e (hash key % 2 ^ e) ⟨key0, value0, NodeType.EMPTY⟩ 0) key
      = Res.ok (false, hash key % 2 ^ e,
          single e (hash key % 2 ^ e) ⟨key0, value0, NodeType.EMPTY⟩ 0) := by
  have hlt : hash key % 2 ^ e < 2 ^ e := Nat.mod_lt _ (Nat.two_pow_pos e)
  have hget := single_get_self e (hash key % 2 ^ e)
    (⟨key0, value0, NodeType.EMPTY⟩ : PNode K V) 0 hlt
  unfold LinearProbing
  rw [hashIndex_single]
  exact loop_empty hash key _ fuel _ 0 _ hget rfl

/-- The call `operator[](key)` on a table of capacity at least 2 whose home
slot for `key` is not ACTIVE and whose other slots are EMPTY, once the probe
has returned false: the slot is taken and its `value` stays as it is. -/
theorem subscript_reuse (hash : K → Nat) (e : Nat) (he1 : 1 ≤ e)
    (nd0 : PNode K V) (h0 : nd0.type ≠ NodeType.ACTIVE) (key : K) (fuel idx : Nat)
    (hprobe : LinearProbing hash (fuel + 1) (single e (hash key % 2 ^ e) nd0 0) key
      = Res.ok (false, idx, single e (hash key % 2 ^ e) nd0 0)) :
    subscript hash (fuel + 1) (single e (hash key % 2 ^ e) nd0 0) key
      = Res.ok (hash key % 2 ^ e,
          single e (hash key % 2 ^ e) ⟨key, nd0.value, NodeType.ACTIVE⟩ 1) := by
  have hpos : 0 < 2 ^ e := Nat.two_pow_pos e
  have hlt : hash key % 2 ^ e < 2 ^ e := Nat.mod_lt _ hpos
  have h2 : 2 ≤ 2 ^ e := by
    calc 2 = 2 ^ 1 := rfl
      _ ≤ 2 ^ e := Nat.pow_le_pow_right (by decide) he1
  have hget := single_get_self e (hash key % 2 ^ e) nd0 0 hlt
  have hnr : ¬ ((single e (hash key % 2 ^ e) nd0 0).size_
      ≥ (single e (hash key % 2 ^ e) nd0 0).capacity_ / 2) := by
    show ¬ (0 ≥ 2 ^ e / 2)
    omega
  have hfree : findFree (single e (hash key % 2 ^ e) nd0 0).mask_
      (single e (hash key % 2 ^ e) nd0 0).table_ (fuel + 1)
      (HashIndex hash (single e (hash key % 2 ^ e) nd0 0) key)
      = Res.ok (hash key % 2 ^ e) := by
    unfold findFree
    rw [hashIndex_single]
    exact scanWhile_stop _ _ _ fuel _ _ hget (by simp [h0])
  have hsz : ((single e (hash key % 2 ^ e) nd0 0).size_ + 1) % SIZE_MOD = 1 := by
    show (0 + 1) % SIZE_MOD = 1
    exact Nat.mod_eq_of_lt (by unfold SIZE_MOD; exact Nat.one_lt_two_pow (by decide))
  unfold subscript
  rw [if_neg hnr]
  simp only [hprobe, hfree, hget, hsz]
  simp [single, hlt]

/-- Reading `m[key]` after the slot of `key` was taken again. -/
theorem read_reuse (hash : K → Nat) (e : Nat) (he1 : 1 ≤ e)
    (nd0 : PNode K V) (h0 : nd0.type ≠ NodeType.ACTIVE) (key : K) (fuel idx : Nat)
    (hprobe : LinearProbing hash (fuel + 1) (single e (hash key % 2 ^ e) nd0 0) key
      = Res.ok (false, idx, single e (hash key % 2 ^ e) nd0 0)) :
    read hash (fuel + 1) (single e (hash key % 2 ^ e) nd0 0) key
      = Res.ok (nd0.value,
          single e (hash key % 2 ^ e) ⟨key, nd0.value, NodeType.ACTIVE⟩ 1) := by
  have hlt : hash key % 2 ^ e < 2 ^ e := Nat.mod_lt _ (Nat.two_pow_pos e)
  unfold read
  rw [subscript_reuse hash e he1 nd0 h0 key fuel idx hprobe]
  simp only [single_get_self e (hash key % 2 ^ e) _ 1 hlt]

/-- The call `Contains(key)` returns what the probe returns. -/
theorem contains_of_probe (hash : K → Nat) (fuel : Nat) (s s1 : XSFLinearProbingHashMap K V)
    (key : K) (b : Bool) (idx : Nat)
    (h : LinearProbing hash fuel s key = Res.ok (b, idx, s1)) :
    Contains hash fuel s key = Res.ok (b, s1) := by
  unfold Contains
  rw [h]

/-- The call `Clear()` on a table that holds one key. -/
theorem clear_single (e h : Nat) (nd : PNode K V)
    (ha : nd.type = NodeType.ACTIVE) (n : Nat) :
    Clear (single e h nd n) = Res.ok (single e h { nd with type := NodeType.EMPTY } 0) := by
  have hlen : ¬ ((single e h nd n).table_.length < (single e h nd n).capacity_) := by
    simp [single]
  unfold Clear
  rw [if_neg hlen]
  have hcap : (single e h nd n).capacity_ = (single e h nd n).table_.length := by
    simp [single]
  rw [hcap, List.take_length, List.drop_length, List.append_nil]
  simp only [single, List.map_set, List.map_replicate, emptyNode, ha]
  simp

end XSFLinearProbingHashMap

theorem chained_CeilToPow2_eq (n : Nat) :
    XSFSeparateChainingHashMap.CeilToPow2 n = XSFLinearProbingHashMap.CeilToPow2 n := rfl

/-! # The separate-chaining map -/

namespace Slot

set_option linter.unusedSectionVars false
set_option linter.unusedVariables false

variable {K V : Type} [DecidableEq K] [Inhabited K] [Inhabited V]

/-! ## One bucket -/

theorem findLoop_none_iff (key : K) (l : List (SNode K V)) :
    ∀ pos, findLoop key l pos = none ↔ ∀ nd ∈ l, nd.key ≠ key := by
  induction l with
  | nil => intro pos; simp [findLoop]
  | cons nd rest ih =>
    intro pos
    by_cases h : nd.key = key
    · simp [findLoop, h]
    · simp [findLoop, h, ih]

theorem FindNode_none_iff (s : Slot K V) (key : K) :
    s.FindNode key = none ↔ (s.head_.key ≠ key ∧ ∀ nd ∈ s.chain, nd.key ≠ key) := by
  unfold FindNode fromHead
  rw [findLoop_none_iff]
  simp

theorem subscript_of_present (s : Slot K V) (key : K) (h : s.FindNode key ≠ none) :
    (s.subscript key).2 = s := by
  unfold subscript
  cases hf : s.FindNode key with
  | none => exact absurd hf h
  | some pos => rfl

theorem subscript_of_absent (s : Slot K V) (key : K) (h : s.FindNode key = none) :
    s.subscript key
      = (1, { s with chain := { key := key, value := default } :: s.chain,
                     size_ := (s.size_ + 1) % SIZE_MOD }) := by
  unfold subscript
  rw [h]
  rfl

theorem map_key_set (l : List (SNode K V)) (v : V) :
    ∀ (p : Nat) (nd : SNode K V), l[p]? = some nd →
      (l.set p { nd with value := v }).map (fun x => x.key) = l.map (fun x => x.key) := by
  induction l with
  | nil => intro p nd h; simp at h
  | cons a rest ih =>
    intro p nd h
    cases p with
    | zero =>
      simp at h
      subst h
      simp
    | succ q =>
      simp at h
      simp [ih q nd h]

/-- A write through the reference returned by `operator[]` changes no key and
no count. -/
theorem setValue_keeps (s : Slot K V) (pos : Nat) (value : V) :
    (s.setValue pos value).chain.map (fun x => x.key) = s.chain.map (fun x => x.key) ∧
    (s.setValue pos value).size_ = s.size_ ∧
    (s.setValue pos value).head_.key = s.head_.key := by
  unfold setValue
  cases pos with
  | zero => exact ⟨rfl, rfl, rfl⟩
  | succ p =>
    simp only
    cases hp : s.chain[p]? with
    | none => exact ⟨rfl, rfl, rfl⟩
    | some nd => exact ⟨map_key_set s.chain value p nd hp, rfl, rfl⟩

theorem eraseLoop_eq (key : K) (l : List (SNode K V)) :
    eraseLoop key l
      = (l.filter (fun nd => decide (nd.key ≠ key)), l.countP (fun nd => decide (nd.key = key))) := by
  induction l with
  | nil => rfl
  | cons nd rest ih =>
    by_cases h : nd.key = key
    · simp [eraseLoop, ih, h]
    · simp [eraseLoop, ih, h]

theorem length_filter_add_countP (key : K) (l : List (SNode K V)) :
    (l.filter (fun nd => decide (nd.key ≠ key))).length
      + l.countP (fun nd => decide (nd.key = key)) = l.length := by
  induction l with
  | nil => rfl
  | cons nd rest ih =>
    by_cases h : nd.key = key
    · simp [h] at ih ⊢; omega
    · simp [h] at ih ⊢; omega

theorem Erase_spec_slot (s : Slot K V) (k : K) (hsize : s.size_ = s.chain.length)
    (hlen : s.chain.length < SIZE_MOD) :
    (s.Erase k).2.chain = s.chain.filter (fun nd => decide (nd.key ≠ k)) ∧
    (s.Erase k).1 = s.chain.countP (fun nd => decide (nd.key = k)) ∧
    (s.Erase k).2.size_ + (s.Erase k).1 = s.size_ ∧
    (s.Erase k).2.size_ = (s.Erase k).2.chain.length ∧
    (s.Erase k).2.head_ = s.head_ := by
  have hadd := length_filter_add_countP k s.chain
  have hc : s.chain.countP (fun nd => decide (nd.key = k)) < SIZE_MOD := by omega
  have hmod : s.chain.countP (fun nd => decide (nd.key = k)) % SIZE_MOD
      = s.chain.countP (fun nd => decide (nd.key = k)) := Nat.mod_eq_of_lt hc
  have hsz : (s.size_ + SIZE_MOD - s.chain.countP (fun nd => decide (nd.key = k))) % SIZE_MOD
      = (s.chain.filter (fun nd => decide (nd.key ≠ k))).length := by
    have e : s.size_ + SIZE_MOD - s.chain.countP (fun nd => decide (nd.key = k))
        = (s.chain.filter (fun nd => decide (nd.key ≠ k))).length + SIZE_MOD := by omega
    rw [e, Nat.add_mod_right]
    apply Nat.mod_eq_of_lt
    omega
  simp only [Erase, eraseLoop_eq, hmod, hsz]
  refine ⟨trivial, trivial, ?_, trivial, trivial⟩
  omega

end Slot

namespace XSFSeparateChainingHashMap

set_option linter.unusedSectionVars false
set_option linter.unusedVariables false

variable {K V : Type} [DecidableEq K] [Inhabited K] [Inhabited V]

/-! ## Bucket arrays -/

theorem sum_map_set (f : Slot K V → Nat) (t : List (Slot K V)) :
    ∀ (i : Nat) (sl sl1 : Slot K V), t[i]? = some sl →
      ((t.set i sl1).map f).sum + f sl = (t.map f).sum + f sl1 := by
  induction t with
  | nil => intro i sl sl1 h; simp at h
  | cons a rest ih =>
    intro i sl sl1 h
    cases i with
    | zero =>
      simp at h
      subst h
      simp
      omega
    | succ j =>
      simp at h
      have := ih j sl sl1 h
      simp only [List.set_cons_succ, List.map_cons, List.sum_cons]
      omega

theorem hashIndex_lt (hash : K → Nat) (e : Nat) (key : K) :
    hash key &&& (2 ^ e - 1) < 2 ^ e := by
  rw [Nat.and_pow_two_sub_one_eq_mod]
  exact Nat.mod_lt _ (Nat.two_pow_pos e)

/-- Replacing one bucket by a bucket that has the properties of a bucket at
that index. -/
theorem Buckets.set_slot {hash : K → Nat} {c : Nat} {t : List (Slot K V)}
    (hb : Buckets hash c t) (idx : Nat) (sl1 : Slot K V)
    (h1 : ∀ nd ∈ sl1.chain, hash nd.key &&& (c - 1) = idx)
    (h2 : sl1.size_ = sl1.chain.length)
    (h3 : (sl1.chain.map (fun nd => nd.key)).Nodup)
    (h4 : ∀ nd ∈ sl1.chain, nd.key ≠ default)
    (h5 : sl1.head_.key = default) :
    Buckets hash c (t.set idx sl1) := by
  refine ⟨by rw [List.length_set]; exact hb.len, ?_, ?_, ?_, ?_, ?_⟩
  · intro i sl hi nd hnd
    rw [List.getElem?_set] at hi
    by_cases he : idx = i
    · rw [if_pos he] at hi
      by_cases hl : idx < t.length
      · rw [if_pos hl] at hi
        have : sl1 = sl := Option.some.inj hi
        subst this
        rw [← he]
        exact h1 nd hnd
      · rw [if_neg hl] at hi
        cases hi
    · rw [if_neg he] at hi
      exact hb.bucket i sl hi nd hnd
  · intro sl hsl
    rcases List.mem_or_eq_of_mem_set hsl with h | h
    · exact hb.slotSize sl h
    · rw [h]; exact h2
  · intro sl hsl
    rcases List.mem_or_eq_of_mem_set hsl with h | h
    · exact hb.nodup sl h
    · rw [h]; exact h3
  · intro sl hsl
    rcases List.mem_or_eq_of_mem_set hsl with h | h
    · exact hb.nodefault sl h
    · rw [h]; exact h4
  · intro sl hsl
    rcases List.mem_or_eq_of_mem_set hsl with h | h
    · exact hb.heads sl h
    · rw [h]; exact h5

theorem chain_le_nodes (t : List (Slot K V)) :
    ∀ (i : Nat) (sl : Slot K V), t[i]? = some sl → sl.chain.length ≤ nodes t := by
  induction t with
  | nil => intro i sl h; simp at h
  | cons a rest ih =>
    intro i sl h
    cases i with
    | zero =>
      simp at h
      subst h
      simp [nodes]
    | succ j =>
      simp at h
      have := ih j sl h
      simp only [nodes, List.map_cons, List.sum_cons] at this ⊢
      omega

theorem hasKey_set (t : List (Slot K V)) (idx : Nat) (sl1 : Slot K V) (k : K)
    (h : hasKey (t.set idx sl1) k) : hasKey t k ∨ ∃ nd ∈ sl1.chain, nd.key = k := by
  obtain ⟨sl, hsl, nd, hnd, hk⟩ := h
  rcases List.mem_or_eq_of_mem_set hsl with h1 | h1
  · exact Or.inl ⟨sl, h1, nd, hnd, hk⟩
  · subst h1
    exact Or.inr ⟨nd, hnd, hk⟩

/-- A node for a key the chain does not hold is put in front of the chain of
the bucket of the key. -/
theorem Buckets.insert {hash : K → Nat} {c : Nat} {t : List (Slot K V)}
    (hb : Buckets hash c t) (key : K) (v : V) (sl : Slot K V)
    (hsl : t[hash key &&& (c - 1)]? = some sl) (habs : sl.FindNode key = none) (n : Nat) :
    Buckets hash c (t.set (hash key &&& (c - 1))
      { sl with chain := ⟨key, v⟩ :: sl.chain, size_ := sl.size_ + 1 }) ∧
    nodes (t.set (hash key &&& (c - 1))
      { sl with chain := ⟨key, v⟩ :: sl.chain, size_ := n }) = nodes t + 1 := by
  have hmem : sl ∈ t := List.mem_iff_getElem?.2 ⟨_, hsl⟩
  obtain ⟨hh, hc⟩ := (Slot.FindNode_none_iff sl key).1 habs
  constructor
  · apply hb.set_slot
    · intro nd hnd
      rcases List.mem_cons.1 hnd with h | h
      · rw [h]
      · exact hb.bucket _ sl hsl nd h
    · show sl.size_ + 1 = (sl.chain.length + 1)
      rw [hb.slotSize sl hmem]
    · show ((⟨key, v⟩ :: sl.chain : List (SNode K V)).map (fun nd => nd.key)).Nodup
      rw [List.map_cons, List.nodup_cons]
      refine ⟨?_, hb.nodup sl hmem⟩
      intro hin
      obtain ⟨nd, hnd, hk⟩ := List.mem_map.1 hin
      exact hc nd hnd hk
    · intro nd hnd
      rcases List.mem_cons.1 hnd with h | h
      · rw [h]
        intro hk
        apply hh
        rw [hb.heads sl hmem]
        exact hk.symm
      · exact hb.nodefault sl hmem nd h
    · exact hb.heads sl hmem
  · have := sum_map_set (fun sl : Slot K V => sl.chain.length) t _ sl
      { sl with chain := ⟨key, v⟩ :: sl.chain, size_ := n } hsl
    simp only [List.length_cons] at this
    unfold nodes
    omega

theorem rehashChain_spec (hash : K → Nat) (e : Nat) :
    ∀ (l : List (SNode K V)) (t : List (Slot K V)),
      Buckets hash (2 ^ e) t → (l.map (fun nd => nd.key)).Nodup →
      (∀ nd ∈ l, nd.key ≠ default) → (∀ nd ∈ l, ¬ hasKey t nd.key) →
      nodes t + l.length < SIZE_MOD →
      ∃ t1, rehashChain hash (2 ^ e - 1) l t = some t1 ∧ Buckets hash (2 ^ e) t1 ∧
        nodes t1 = nodes t + l.length ∧
        ∀ k, hasKey t1 k → (hasKey t k ∨ ∃ nd ∈ l, nd.key = k) := by
  intro l
  induction l with
  | nil =>
    intro t hb _ _ _ _
    exact ⟨t, rfl, hb, rfl, fun k h => Or.inl h⟩
  | cons p rest ih =>
    intro t hb hnd hdef hnew hroom
    have hlt : hash p.key &&& (2 ^ e - 1) < t.length := by
      rw [hb.len]; exact hashIndex_lt hash e p.key
    obtain ⟨sl, hsl⟩ : ∃ sl, t[hash p.key &&& (2 ^ e - 1)]? = some sl :=
      ⟨_, List.getElem?_eq_getElem hlt⟩
    have hmem : sl ∈ t := List.mem_iff_getElem?.2 ⟨_, hsl⟩
    have habs : sl.FindNode p.key = none := by
      rw [Slot.FindNode_none_iff]
      refine ⟨?_, ?_⟩
      · rw [hb.heads sl hmem]
        exact fun h => hdef p (List.mem_cons_self _ _) h.symm
      · intro nd hn hk
        exact hnew p (List.mem_cons_self _ _) ⟨sl, hmem, nd, hn, hk⟩
    have hlen := chain_le_nodes t _ sl hsl
    have hsz : (sl.size_ + 1) % SIZE_MOD = sl.size_ + 1 := by
      apply Nat.mod_eq_of_lt
      rw [hb.slotSize sl hmem]
      simp only [List.length_cons] at hroom
      omega
    have hstep : (sl.subscript p.key).2.setValue (sl.subscript p.key).1 p.value
        = { sl with chain := ⟨p.key, p.value⟩ :: sl.chain, size_ := sl.size_ + 1 } := by
      rw [Slot.subscript_of_absent sl p.key habs, hsz]
      simp [Slot.setValue]
    obtain ⟨hb1, hn1⟩ := hb.insert p.key p.value sl hsl habs (sl.size_ + 1)
    rw [List.map_cons, List.nodup_cons] at hnd
    obtain ⟨t1, hr, hb2, hn2, hk2⟩ := ih _ hb1 hnd.2
      (fun nd h => hdef nd (List.mem_cons_of_mem _ h))
      (fun nd h hk => by
        rcases hasKey_set _ _ _ _ hk with h1 | ⟨x, hx, hxk⟩
        · exact hnew nd (List.mem_cons_of_mem _ h) h1
        · rcases List.mem_cons.1 hx with h2 | h2
          · apply hnd.1
            rw [h2] at hxk
            simp only at hxk
            rw [hxk]
            exact List.mem_map_of_mem (fun nd => nd.key) h
          · exact hnew nd (List.mem_cons_of_mem _ h) ⟨sl, hmem, x, h2, hxk⟩)
      (by rw [hn1]; simp only [List.length_cons] at hroom; omega)
    refine ⟨t1, ?_, hb2, ?_, ?_⟩
    · unfold rehashChain
      simp only [hsl, hstep]
      exact hr
    · rw [hn2, hn1]; simp only [List.length_cons]; omega
    · intro k hk
      rcases hk2 k hk with h1 | ⟨nd, h1, h2⟩
      · rcases hasKey_set _ _ _ _ h1 with h3 | ⟨x, hx, hxk⟩
        · exact Or.inl h3
        · rcases List.mem_cons.1 hx with h4 | h4
          · rw [h4] at hxk
            exact Or.inr ⟨p, List.mem_cons_self _ _, hxk⟩
          · exact Or.inl ⟨sl, hmem, x, h4, hxk⟩
      · exact Or.inr ⟨nd, List.mem_cons_of_mem _ h1, h2⟩

theorem rehashSlots_spec (hash : K → Nat) (e : Nat) :
    ∀ (old t : List (Slot K V)),
      Buckets hash (2 ^ e) t →
      (∀ sl ∈ old, (sl.chain.map (fun nd => nd.key)).Nodup) →
      (∀ sl ∈ old, ∀ nd ∈ sl.chain, nd.key ≠ default) →
      old.Pairwise (fun a b => ∀ x ∈ a.chain, ∀ y ∈ b.chain, x.key ≠ y.key) →
      (∀ sl ∈ old, ∀ nd ∈ sl.chain, ¬ hasKey t nd.key) →
      nodes t + nodes old < SIZE_MOD →
      ∃ t1, rehashSlots hash (2 ^ e - 1) old t = some t1 ∧ Buckets hash (2 ^ e) t1 ∧
        nodes t1 = nodes t + nodes old ∧
        ∀ k, hasKey t1 k → (hasKey t k ∨ hasKey old k) := by
  intro old
  induction old with
  | nil =>
    intro t hb _ _ _ _ _
    exact ⟨t, rfl, hb, by simp [nodes], fun k h => Or.inl h⟩
  | cons sl rest ih =>
    intro t hb hnd hdef hpw hnew hroom
    have hnc : nodes (sl :: rest) = sl.chain.length + nodes rest := by
      simp [nodes]
    rw [hnc] at hroom
    obtain ⟨t1, hr1, hb1, hn1, hk1⟩ := rehashChain_spec hash e sl.chain t hb
      (hnd sl (List.mem_cons_self _ _)) (hdef sl (List.mem_cons_self _ _))
      (hnew sl (List.mem_cons_self _ _)) (by omega)
    rw [List.pairwise_cons] at hpw
    obtain ⟨t2, hr2, hb2, hn2, hk2⟩ := ih t1 hb1
      (fun s h => hnd s (List.mem_cons_of_mem _ h))
      (fun s h => hdef s (List.mem_cons_of_mem _ h)) hpw.2
      (fun s h nd hn hk => by
        rcases hk1 _ hk with h1 | ⟨x, hx, hxk⟩
        · exact hnew s (List.mem_cons_of_mem _ h) nd hn h1
        · exact hpw.1 s h x hx nd hn hxk)
      (by omega)
    refine ⟨t2, ?_, hb2, by rw [hn2, hn1, hnc]; omega, ?_⟩
    · unfold rehashSlots
      simp only [hr1]
      exact hr2
    · intro k hk
      rcases hk2 k hk with h1 | ⟨s, hs, nd, hn, hnk⟩
      · rcases hk1 k h1 with h3 | ⟨x, hx, hxk⟩
        · exact Or.inl h3
        · exact Or.inr ⟨sl, List.mem_cons_self _ _, x, hx, hxk⟩
      · exact Or.inr ⟨s, List.mem_cons_of_mem _ hs, nd, hn, hnk⟩

/-- Chains of different buckets share no key. -/
theorem Buckets.pairwise {hash : K → Nat} {c : Nat} {t : List (Slot K V)}
    (hb : Buckets hash c t) :
    t.Pairwise (fun a b => ∀ x ∈ a.chain, ∀ y ∈ b.chain, x.key ≠ y.key) := by
  rw [List.pairwise_iff_getElem]
  intro i j hi hj hij x hx y hy hxy
  have h1 := hb.bucket i t[i] (List.getElem?_eq_getElem hi) x hx
  have h2 := hb.bucket j t[j] (List.getElem?_eq_getElem hj) y hy
  rw [hxy, h2] at h1
  omega

theorem replicate_new_buckets (hash : K → Nat) (c : Nat) :
    Buckets hash c (List.replicate c (Slot.new : Slot K V)) ∧
    nodes (List.replicate c (Slot.new : Slot K V)) = 0 ∧
    ∀ k, ¬ hasKey (List.replicate c (Slot.new : Slot K V)) k := by
  refine ⟨⟨by simp, ?_, ?_, ?_, ?_, ?_⟩, ?_, ?_⟩
  · intro i sl hi nd hnd
    have := List.eq_of_mem_replicate (List.mem_iff_getElem?.2 ⟨i, hi⟩)
    subst this
    simp [Slot.new] at hnd
  · intro sl hsl
    rw [List.eq_of_mem_replicate hsl]; rfl
  · intro sl hsl
    rw [List.eq_of_mem_replicate hsl]; simp [Slot.new]
  · intro sl hsl nd hnd
    rw [List.eq_of_mem_replicate hsl] at hnd
    simp [Slot.new] at hnd
  · intro sl hsl
    rw [List.eq_of_mem_replicate hsl]; rfl
  · simp [nodes, Slot.new]
  · rintro k ⟨sl, hsl, nd, hnd, _⟩
    rw [List.eq_of_mem_replicate hsl] at hnd
    simp [Slot.new] at hnd

/-! ## The public operations return and keep the invariant -/

/-- The doubling `Resize` of `operator[]`. -/
theorem Good.resize_chained {hash : K → Nat} {s : XSFSeparateChainingHashMap K V}
    (g : Good hash s) (hcap : s.capacity_ ≤ 2 ^ 62) (hsz : s.size_ < SIZE_MOD) :
    ∃ s1, Resize hash s (s.capacity_ * 2 % SIZE_MOD) = some s1 ∧ Good hash s1 ∧
      s1.size_ = s.size_ ∧ s1.capacity_ = 2 * s.capacity_ := by
  obtain ⟨e, he, hc⟩ := g.pow2
  have he62 : e ≤ 62 := by
    by_contra hcon
    have : 2 ^ 63 ≤ 2 ^ e := Nat.pow_le_pow_right (by decide) (by omega)
    have h62 : (2 : Nat) ^ 62 < 2 ^ 63 := by norm_num
    omega
  have h2 : s.capacity_ * 2 = 2 ^ (e + 1) := by rw [hc, pow_succ]
  have hlt := XSFLinearProbingHashMap.two_pow_lt_SIZE_MOD (e + 1) (by omega)
  have hn : s.capacity_ * 2 % SIZE_MOD = 2 ^ (e + 1) := by
    rw [h2, Nat.mod_eq_of_lt hlt]
  have hm : (2 ^ (e + 1) + SIZE_MOD - 1) % SIZE_MOD = 2 ^ (e + 1) - 1 :=
    XSFLinearProbingHashMap.mask_of_pow2 (e + 1) (by omega)
  obtain ⟨r1, r2, r3⟩ := replicate_new_buckets (V := V) hash (2 ^ (e + 1))
  have hb := g.buckets
  obtain ⟨t1, hr, hb1, hn1, _⟩ := rehashSlots_spec hash (e + 1) s.table_
    (List.replicate (2 ^ (e + 1)) Slot.new) r1 hb.nodup hb.nodefault hb.pairwise
    (fun sl _ nd _ h => r3 _ h) (by rw [r2, ← g.size]; omega)
  have hnl : ¬ s.table_.length < s.capacity_ := by rw [hb.len]; omega
  have htake : s.table_.take s.capacity_ = s.table_ :=
    List.take_of_length_le (by rw [hb.len])
  refine ⟨{ size_ := s.size_, capacity_ := 2 ^ (e + 1), mask_ := 2 ^ (e + 1) - 1, table_ := t1 },
    ?_, ⟨⟨e + 1, by omega, rfl⟩, rfl, hb1, ?_⟩, rfl, ?_⟩
  · unfold Resize
    simp only [hn, hm, hnl, if_false, htake, hr]
  · show s.size_ = nodes t1
    rw [hn1, r2, g.size]; omega
  · show 2 ^ (e + 1) = 2 * s.capacity_
    rw [hc, pow_succ]; omega

/-- The call `operator[](key)` returns and keeps the invariant. -/
theorem Good.subscript_chained {hash : K → Nat} {s : XSFSeparateChainingHashMap K V}
    (g : Good hash s) (hsz : s.size_ < 2 ^ 61) (key : K) :
    ∃ (idx pos : Nat) (s1 : XSFSeparateChainingHashMap K V),
      subscript hash s key = some (idx, pos, s1) ∧ Good hash s1 ∧ s1.size_ ≤ s.size_ + 1 ∧
      idx < s1.table_.length := by
  have h61 : (2 : Nat) ^ 61 < SIZE_MOD := XSFLinearProbingHashMap.two_pow_lt_SIZE_MOD 61 (by decide)
  have h62 : (2 : Nat) ^ 62 = 2 * 2 ^ 61 := by norm_num
  -- the state after the resize test
  have hpre : ∃ s0 : XSFSeparateChainingHashMap K V,
      (if overLoad s then Resize hash s (s.capacity_ * 2 % SIZE_MOD) else some s) = some s0 ∧
      Good hash s0 ∧ s0.size_ = s.size_ := by
    by_cases ho : overLoad s = true
    · rw [if_pos ho]
      have hle : 3 * s.capacity_ ≤ 4 * s.size_ := by simpa [overLoad] using ho
      obtain ⟨s0, hr, g0, hz0, _⟩ := g.resize_chained (by omega) (by omega)
      exact ⟨s0, hr, g0, hz0⟩
    · rw [if_neg ho]
      exact ⟨s, rfl, g, rfl⟩
  obtain ⟨s0, hs0, g0, hz0⟩ := hpre
  obtain ⟨e, he, hc⟩ := g0.pow2
  have hb := g0.buckets
  have hidx : HashIndex hash s0 key = hash key &&& (s0.capacity_ - 1) := by
    unfold HashIndex; rw [g0.mask]
  have hlt : hash key &&& (s0.capacity_ - 1) < s0.table_.length := by
    rw [hb.len, hc]; exact hashIndex_lt hash e key
  obtain ⟨sl, hsl⟩ : ∃ sl, s0.table_[hash key &&& (s0.capacity_ - 1)]? = some sl :=
    ⟨_, List.getElem?_eq_getElem hlt⟩
  have hmem : sl ∈ s0.table_ := List.mem_iff_getElem?.2 ⟨_, hsl⟩
  unfold subscript
  rw [hs0]
  simp only [hidx, hsl]
  by_cases hcon : sl.Contains key = true
  · rw [if_pos hcon]
    have hne : sl.FindNode key ≠ none := by
      intro h
      simp [Slot.Contains, h] at hcon
    have hsame : (sl.subscript key).2 = sl := Slot.subscript_of_present sl key hne
    have hset : s0.table_.set (hash key &&& (s0.capacity_ - 1)) sl = s0.table_ := by
      apply List.ext_getElem?
      intro i
      rw [List.getElem?_set]
      by_cases hi : hash key &&& (s0.capacity_ - 1) = i
      · rw [if_pos hi, if_pos hlt, ← hi, hsl]
      · rw [if_neg hi]
    refine ⟨_, _, _, rfl, ?_, ?_, ?_⟩
    · rw [hsame, hset]; exact g0
    · show s0.size_ ≤ s.size_ + 1
      omega
    · show _ < (s0.table_.set _ _).length
      rw [List.length_set]; exact hlt
  · rw [if_neg hcon]
    have habs : sl.FindNode key = none := by
      cases hf : sl.FindNode key with
      | none => rfl
      | some p => simp [Slot.Contains, hf] at hcon
    have hlen := chain_le_nodes s0.table_ _ sl hsl
    have hz1 : (sl.size_ + 1) % SIZE_MOD = sl.size_ + 1 := by
      apply Nat.mod_eq_of_lt
      rw [hb.slotSize sl hmem]
      have := g0.size
      omega
    have hz2 : (s0.size_ + 1) % SIZE_MOD = s0.size_ + 1 := by
      apply Nat.mod_eq_of_lt
      omega
    obtain ⟨hb1, hn1⟩ := hb.insert key (default : V) sl hsl habs (sl.size_ + 1)
    refine ⟨_, _, _, rfl, ?_, ?_, ?_⟩
    · rw [Slot.subscript_of_absent sl key habs, hz1, hz2]
      exact ⟨g0.pow2, g0.mask, hb1, by show s0.size_ + 1 = _; rw [hn1, g0.size]⟩
    · show (s0.size_ + 1) % SIZE_MOD ≤ s.size_ + 1
      rw [hz2, hz0]
    · show _ < (s0.table_.set _ _).length
      rw [List.length_set]; exact hlt

/-- A write through the reference returned by `operator[]` keeps the
invariant. -/
theorem Good.setValue_chained {hash : K → Nat} {s : XSFSeparateChainingHashMap K V}
    (g : Good hash s) (idx pos : Nat) (value : V) (sl : Slot K V)
    (hsl : s.table_[idx]? = some sl) :
    Good hash { s with table_ := s.table_.set idx (sl.setValue pos value) } := by
  have hb := g.buckets
  have hmem : sl ∈ s.table_ := List.mem_iff_getElem?.2 ⟨_, hsl⟩
  obtain ⟨hk, hz, hh⟩ := Slot.setValue_keeps sl pos value
  have hlen : (sl.setValue pos value).chain.length = sl.chain.length := by
    have := congrArg List.length hk
    simpa using this
  have hkeys : ∀ nd ∈ (sl.setValue pos value).chain, ∃ x ∈ sl.chain, x.key = nd.key := by
    intro nd hnd
    have : nd.key ∈ (sl.setValue pos value).chain.map (fun x => x.key) :=
      List.mem_map_of_mem (fun x => x.key) hnd
    rw [hk] at this
    obtain ⟨x, hx, hxk⟩ := List.mem_map.1 this
    exact ⟨x, hx, hxk⟩
  refine ⟨g.pow2, g.mask, ?_, ?_⟩
  · apply hb.set_slot
    · intro nd hnd
      obtain ⟨x, hx, hxk⟩ := hkeys nd hnd
      rw [← hxk]
      exact hb.bucket idx sl hsl x hx
    · rw [hz, hlen]; exact hb.slotSize sl hmem
    · rw [hk]; exact hb.nodup sl hmem
    · intro nd hnd
      obtain ⟨x, hx, hxk⟩ := hkeys nd hnd
      rw [← hxk]
      exact hb.nodefault sl hmem x hx
    · rw [hh]; exact hb.heads sl hmem
  · show s.size_ = nodes (s.table_.set idx (sl.setValue pos value))
    have := sum_map_set (fun sl : Slot K V => sl.chain.length) s.table_ idx sl
      (sl.setValue pos value) hsl
    simp only [hlen] at this
    rw [g.size]
    unfold nodes
    omega

/-- The statement `m[key] = value` returns and keeps the invariant. -/
theorem Good.assign_chained {hash : K → Nat} {s : XSFSeparateChainingHashMap K V}
    (g : Good hash s) (hsz : s.size_ < 2 ^ 61) (key : K) (value : V) :
    ∃ s1, assign hash s key value = some s1 ∧ Good hash s1 ∧ s1.size_ ≤ s.size_ + 1 := by
  obtain ⟨idx, pos, s0, hs, g0, hz0, hidx⟩ := g.subscript_chained hsz key
  obtain ⟨sl, hsl⟩ : ∃ sl, s0.table_[idx]? = some sl := ⟨_, List.getElem?_eq_getElem hidx⟩
  refine ⟨_, ?_, g0.setValue_chained idx pos value sl hsl, hz0⟩
  unfold assign
  rw [hs]
  simp only [hsl]

/-- The call `Erase(key)` returns and keeps the invariant. -/
theorem Good.erase_chained {hash : K → Nat} {s : XSFSeparateChainingHashMap K V}
    (g : Good hash s) (hsz : s.size_ < SIZE_MOD) (key : K) :
    ∃ (n : Nat) (s1 : XSFSeparateChainingHashMap K V),
      Erase hash s key = some (n, s1) ∧ Good hash s1 ∧ s1.size_ + n = s.size_ := by
  obtain ⟨e, he, hc⟩ := g.pow2
  have hb := g.buckets
  have hidx : HashIndex hash s key = hash key &&& (s.capacity_ - 1) := by
    unfold HashIndex; rw [g.mask]
  have hlt : hash key &&& (s.capacity_ - 1) < s.table_.length := by
    rw [hb.len, hc]; exact hashIndex_lt hash e key
  obtain ⟨sl, hsl⟩ : ∃ sl, s.table_[hash key &&& (s.capacity_ - 1)]? = some sl :=
    ⟨_, List.getElem?_eq_getElem hlt⟩
  have hmem : sl ∈ s.table_ := List.mem_iff_getElem?.2 ⟨_, hsl⟩
  have hlen := chain_le_nodes s.table_ _ sl hsl
  have hgs := g.size
  obtain ⟨e1, e2, e3, e4, e5⟩ := Slot.Erase_spec_slot sl key (hb.slotSize sl hmem) (by omega)
  have hsub : (sl.Erase key).2.chain.Sublist sl.chain := by
    rw [e1]; exact List.filter_sublist _
  have hcnt : (sl.Erase key).1 ≤ sl.chain.length := by
    rw [e2]; exact List.countP_le_length _
  have hsum := sum_map_set (fun sl : Slot K V => sl.chain.length) s.table_ _ sl
    (sl.Erase key).2 hsl
  simp only at hsum
  have hslz := hb.slotSize sl hmem
  have hm : (s.size_ + SIZE_MOD - (sl.Erase key).1) % SIZE_MOD = s.size_ - (sl.Erase key).1 := by
    have e6 : s.size_ + SIZE_MOD - (sl.Erase key).1 = (s.size_ - (sl.Erase key).1) + SIZE_MOD := by
      omega
    rw [e6, Nat.add_mod_right, Nat.mod_eq_of_lt (by omega)]
  refine ⟨(sl.Erase key).1,
    { s with table_ := s.table_.set (hash key &&& (s.capacity_ - 1)) (sl.Erase key).2,
             size_ := (s.size_ + SIZE_MOD - (sl.Erase key).1) % SIZE_MOD },
    ?_, ⟨g.pow2, g.mask, ?_, ?_⟩, ?_⟩
  · unfold Erase
    simp only [hidx, hsl]
  · apply hb.set_slot
    · intro nd hnd
      exact hb.bucket _ sl hsl nd (hsub.subset hnd)
    · exact e4
    · exact (hb.nodup sl hmem).sublist (hsub.map _)
    · intro nd hnd
      exact hb.nodefault sl hmem nd (hsub.subset hnd)
    · rw [e5]; exact hb.heads sl hmem
  · show (s.size_ + SIZE_MOD - (sl.Erase key).1) % SIZE_MOD = nodes (s.table_.set _ _)
    rw [hm]
    unfold nodes at hgs hlen ⊢
    omega
  · show (s.size_ + SIZE_MOD - (sl.Erase key).1) % SIZE_MOD + _ = s.size_
    rw [hm]
    omega

/-- The call `Clear()` returns and keeps the invariant. -/
theorem Good.clear_chained {hash : K → Nat} {s : XSFSeparateChainingHashMap K V}
    (g : Good hash s) :
    ∃ s1, Clear s = some s1 ∧ Good hash s1 ∧ s1.size_ = 0 := by
  have hb := g.buckets
  have hnl : ¬ s.table_.length < s.capacity_ := by rw [hb.len]; omega
  have htake : s.table_.take s.capacity_ = s.table_ :=
    List.take_of_length_le (by rw [hb.len])
  have hdrop : s.table_.drop s.capacity_ = [] := by
    rw [← hb.len]; exact List.drop_length _
  refine ⟨{ s with table_ := s.table_.map Slot.Clear, size_ := 0 }, ?_,
    ⟨g.pow2, g.mask, ⟨?_, ?_, ?_, ?_, ?_, ?_⟩, ?_⟩, rfl⟩
  · unfold Clear
    rw [if_neg hnl, htake, hdrop, List.append_nil]
  · show (s.table_.map Slot.Clear).length = s.capacity_
    rw [List.length_map]; exact hb.len
  · intro i sl hi nd hnd
    have hmem : sl ∈ s.table_.map Slot.Clear := List.mem_iff_getElem?.2 ⟨i, hi⟩
    obtain ⟨o, _, ho⟩ := List.mem_map.1 hmem
    rw [← ho] at hnd
    simp [Slot.Clear] at hnd
  · intro sl hsl
    obtain ⟨o, _, ho⟩ := List.mem_map.1 hsl
    rw [← ho]; rfl
  · intro sl hsl
    obtain ⟨o, _, ho⟩ := List.mem_map.1 hsl
    rw [← ho]; simp [Slot.Clear]
  · intro sl hsl nd hnd
    obtain ⟨o, _, ho⟩ := List.mem_map.1 hsl
    rw [← ho] at hnd
    simp [Slot.Clear] at hnd
  · intro sl hsl
    obtain ⟨o, ho1, ho⟩ := List.mem_map.1 hsl
    rw [← ho]
    exact hb.heads o ho1
  · show 0 = nodes (s.table_.map Slot.Clear)
    unfold nodes
    rw [List.map_map]
    symm
    apply List.sum_eq_zero
    intro x hx
    obtain ⟨o, _, ho⟩ := List.mem_map.1 hx
    rw [← ho]; rfl

/-- One call returns and keeps the invariant. -/
theorem Good.step_chained {hash : K → Nat} {s : XSFSeparateChainingHashMap K V}
    (g : Good hash s) (hsz : s.size_ < 2 ^ 61) (op : SOp K V) :
    ∃ s1, step hash s op = some s1 ∧ Good hash s1 ∧ s1.size_ ≤ s.size_ + 1 := by
  have h61 : (2 : Nat) ^ 61 < SIZE_MOD := XSFLinearProbingHashMap.two_pow_lt_SIZE_MOD 61 (by decide)
  cases op with
  | assign k v => exact g.assign_chained hsz k v
  | subscript k =>
    obtain ⟨idx, pos, s1, hs, g1, hz1, _⟩ := g.subscript_chained hsz k
    exact ⟨s1, by simp only [step, hs], g1, hz1⟩
  | erase k =>
    obtain ⟨n, s1, hs, g1, hz1⟩ := g.erase_chained (by omega) k
    exact ⟨s1, by simp only [step, hs], g1, by omega⟩
  | clear =>
    obtain ⟨s1, hs, g1, hz1⟩ := g.clear_chained
    exact ⟨s1, hs, g1, by omega⟩

theorem Good.run_chained (hash : K → Nat) :
    ∀ (ops : List (SOp K V)) (s : XSFSeparateChainingHashMap K V) (t : Nat), Good hash s →
      s.size_ ≤ t → t + ops.length < 2 ^ 61 →
      ∃ s1, run hash s ops = some s1 ∧ Good hash s1 ∧ s1.size_ ≤ t + ops.length := by
  intro ops
  induction ops with
  | nil =>
    intro s t g ht _
    exact ⟨s, rfl, g, by simpa using ht⟩
  | cons op ops ih =>
    intro s t g ht hlen
    simp only [List.length_cons] at hlen ⊢
    obtain ⟨s0, hs, g0, hz0⟩ := g.step_chained (by omega) op
    obtain ⟨s1, hr, g1, hz1⟩ := ih s0 (t + 1) g0 (by omega) (by omega)
    exact ⟨s1, by simp only [run, hs]; exact hr, g1, by omega⟩

theorem new_chained (hash : K → Nat) (n0 : Nat) (h1 : 1 ≤ n0) :
    Good hash (new n0 : XSFSeparateChainingHashMap K V) ∧
    (new n0 : XSFSeparateChainingHashMap K V).size_ = 0 := by
  obtain ⟨e, he, hc⟩ := XSFLinearProbingHashMap.CeilToPow2_pos n0 h1
  have hc' : CeilToPow2 n0 = 2 ^ e := hc
  obtain ⟨r1, r2, _⟩ := replicate_new_buckets (V := V) hash (2 ^ e)
  refine ⟨⟨⟨e, he, hc'⟩, ?_, ?_, ?_⟩, rfl⟩
  · show (CeilToPow2 n0 + SIZE_MOD - 1) % SIZE_MOD = CeilToPow2 n0 - 1
    rw [hc']; exact XSFLinearProbingHashMap.mask_of_pow2 e he
  · show Buckets hash (CeilToPow2 n0) (List.replicate (CeilToPow2 n0) Slot.new)
    rw [hc']; exact r1
  · show 0 = nodes (List.replicate (CeilToPow2 n0) Slot.new)
    rw [hc', r2]

theorem Good.sizes {hash : K → Nat} {s : XSFSeparateChainingHashMap K V} (g : Good hash s) :
    slotSizes s.table_ = nodes s.table_ := by
  unfold slotSizes nodes
  congr 1
  apply List.map_congr_left
  intro sl hsl
  exact g.buckets.slotSize sl hsl

end XSFSeparateChainingHashMap

/-! # The caches: index and list in lock-step -/

namespace LRUCache

theorem WF.deref_index {c : LRUCache} (w : c.WF) (k : Int) (it : Nat)
    (h : c.key2node_.find k = some it) :
    ∃ n, derefIt c.list_ it = some n ∧ n.key = k := by
  obtain ⟨x, hx, ha, hk⟩ := w.live k it h
  refine ⟨x.node, ?_, hk⟩
  rw [← ha]
  exact derefIt_of_mem c.list_ x w.nodup hx

end LRUCache

namespace LFUCache

theorem Core.freq_pos {c : LFUCache} (w : c.Core) (k f : Int)
    (h : c.key2freq_.find k = some f) : 1 ≤ f := by
  obtain ⟨y, hy, _⟩ := w.flive k f h
  exact (w.cells f y hy).2.2.2

end LFUCache

/-! # The linked hash map: the overload for rvalue keys -/

namespace XSFLinkedHashMap

set_option linter.unusedSectionVars false
set_option linter.unusedVariables false

variable {K V : Type} [DecidableEq K] [Inhabited K] [Inhabited V]

/-- When moving from a key leaves it as it was, as for `int`, the two
overloads of `operator[]` do the same. -/
theorem subscriptMove_id (s : XSFLinkedHashMap K V) (key : K) :
    subscriptMove (fun k => k) s key = subscript s key := rfl

/-- When the moved-from key differs from the key, the overload for `K&&`
leaves an absent key absent from `map_`. -/
theorem subscriptMove_absent (moved : K → K) (s : XSFLinkedHashMap K V) (key : K)
    (habs : mapFind s.map_ key = none) (hm : moved key ≠ key) (it : Nat)
    (s1 : XSFLinkedHashMap K V) (h : subscriptMove moved s key = some (it, s1)) :
    Contains s1 key = false ∧ Contains s1 (moved key) = true ∧
    s1.list_ = s.list_ ++ [⟨s.heap_, ⟨key, default⟩⟩] := by
  unfold subscriptMove at h
  rw [habs] at h
  simp only at h
  have h1 : mapFind (mapAssign s.map_ (moved key) s.heap_) (moved key) = some s.heap_ := by
    rw [mapFind_mapAssign]; simp
  have h2 : mapFind (mapAssign s.map_ (moved key) s.heap_) key = none := by
    rw [mapFind_mapAssign, if_neg (fun e => hm e.symm)]; exact habs
  rw [h1] at h
  simp only at h
  cases hd : deref (s.list_ ++ [⟨s.heap_, ⟨key, (default : V)⟩⟩]) s.heap_ with
  | none => rw [hd] at h; cases h
  | some nd =>
    rw [hd] at h
    simp only [Option.some.injEq, Prod.mk.injEq] at h
    obtain ⟨_, rfl⟩ := h
    simp [Contains, h1, h2]

end XSFLinkedHashMap

/-! ## Claims on the load factor -/

/-- C17 (OpenAddressIndex load factor). For every hash function, every
constructor argument from 1 on and every list of fewer than 2^61 calls of
`m[k] = v`, `operator[]`, `Contains`, `Erase` and `Clear` that return:
afterwards `2 * Size() <= capacity_` and `Size()` is the number of ACTIVE
slots.  If `Size() >= capacity_ / 2` holds then a further `operator[]`, for
every key, returns (with fuel from 2^63 on) and has doubled `capacity_`; if
`Size() < capacity_ / 2` holds and some slot is EMPTY it returns and has left
`capacity_` as it was; and with any fuel, an `operator[]` that returns has
doubled `capacity_` in the first case and left it unchanged in the second.
In each case `2 * Size() <= capacity_` holds again and `Size()` is the number
of ACTIVE slots. -/
theorem C17_load_factor {K V : Type} [DecidableEq K] [Inhabited K] [Inhabited V]
    (hash : K → Nat) (n0 : Nat) (h1 : 1 ≤ n0) (ops : List (POp K V))
    (hlen : ops.length < 2 ^ 61) (fuel : Nat) (s : XSFLinearProbingHashMap K V)
    (hrun : XSFLinearProbingHashMap.run hash fuel (XSFLinearProbingHashMap.new n0) ops
      = Res.ok s) :
    2 * XSFLinearProbingHashMap.Size s ≤ s.capacity_ ∧
    XSFLinearProbingHashMap.Size s = XSFLinearProbingHashMap.actives s.table_ ∧
    (XSFLinearProbingHashMap.Size s ≥ s.capacity_ / 2 →
      ∀ (fuel1 : Nat) (key : K), 2 ^ 63 ≤ fuel1 →
        ∃ (index : Nat) (s1 : XSFLinearProbingHashMap K V),
          XSFLinearProbingHashMap.subscript hash fuel1 s key = Res.ok (index, s1) ∧
          s1.capacity_ = 2 * s.capacity_ ∧
          2 * XSFLinearProbingHashMap.Size s1 ≤ s1.capacity_ ∧
          XSFLinearProbingHashMap.Size s1 = XSFLinearProbingHashMap.actives s1.table_) ∧
    (XSFLinearProbingHashMap.Size s < s.capacity_ / 2 →
      XSFLinearProbingHashMap.used s.table_ < s.capacity_ →
      ∀ (fuel1 : Nat) (key : K), 2 ^ 63 ≤ fuel1 →
        ∃ (index : Nat) (s1 : XSFLinearProbingHashMap K V),
          XSFLinearProbingHashMap.subscript hash fuel1 s key = Res.ok (index, s1) ∧
          s1.capacity_ = s.capacity_ ∧
          2 * XSFLinearProbingHashMap.Size s1 ≤ s1.capacity_ ∧
          XSFLinearProbingHashMap.Size s1 = XSFLinearProbingHashMap.actives s1.table_) ∧
    ∀ (fuel1 : Nat) (key : K) (index : Nat) (s1 : XSFLinearProbingHashMap K V),
      XSFLinearProbingHashMap.subscript hash fuel1 s key = Res.ok (index, s1) →
      s1.capacity_ = (if XSFLinearProbingHashMap.Size s ≥ s.capacity_ / 2
        then 2 * s.capacity_ else s.capacity_) ∧
      2 * XSFLinearProbingHashMap.Size s1 ≤ s1.capacity_ ∧
      XSFLinearProbingHashMap.Size s1 = XSFLinearProbingHashMap.actives s1.table_ := by
  have h62 : (2 : Nat) ^ 62 = 2 * 2 ^ 61 := by norm_num
  obtain ⟨inv0, hsz, _, _, _⟩ := XSFLinearProbingHashMap.new_inv (V := V) hash n0 h1
  obtain ⟨inv, hl, hz⟩ := XSFLinearProbingHashMap.Inv.run_sound hash fuel ops
    (XSFLinearProbingHashMap.new n0) s 0 inv0 (by rw [hsz]; omega) (by rw [hsz]) (by omega) hrun
  have hcap : s.size_ ≥ s.capacity_ / 2 → s.capacity_ ≤ 2 ^ 62 := by intro _; omega
  refine ⟨hl, inv.shape.size, ?_, ?_, ?_⟩
  · intro hge fuel1 key hf
    have hge1 : s.size_ ≥ s.capacity_ / 2 := hge
    obtain ⟨index, s1, nd, hs, inv1, _, _, _, hc1, hl1, _⟩ :=
      inv.subscript_spec hcap hl (fun hlt => absurd hge1 (by omega)) key fuel1 hf
    rw [if_pos hge1] at hc1
    exact ⟨index, s1, hs, hc1, hl1, inv1.shape.size⟩
  · intro hlt hu fuel1 key hf
    have hlt1 : s.size_ < s.capacity_ / 2 := hlt
    obtain ⟨index, s1, nd, hs, inv1, _, _, _, hc1, hl1, _⟩ :=
      inv.subscript_spec hcap hl (fun _ => hu) key fuel1 hf
    rw [if_neg (by omega)] at hc1
    exact ⟨index, s1, hs, hc1, hl1, inv1.shape.size⟩
  · intro fuel1 key index s1 h
    obtain ⟨sh1, hl1, hc1, _, _⟩ :=
      inv.shape.subscript_ok hash hl hcap fuel1 key index s1 h
    exact ⟨hc1, hl1, sh1.size⟩

/-- C17 on the table of capacity 4 reached by `m[0]; m[1]` with the identity
hash: `Size()` is 2, which is `capacity_ / 2`, so the doubling case applies;
the next call `m[2]` gives capacity 8. -/
theorem C17_load_factor_witness :
    (2 * XSFLinearProbingHashMap.Size XSFLinearProbingHashMap.halfFull
      ≤ XSFLinearProbingHashMap.halfFull.capacity_ ∧
    XSFLinearProbingHashMap.Size XSFLinearProbingHashMap.halfFull
      = XSFLinearProbingHashMap.actives XSFLinearProbingHashMap.halfFull.table_ ∧
    (XSFLinearProbingHashMap.Size XSFLinearProbingHashMap.halfFull
        ≥ XSFLinearProbingHashMap.halfFull.capacity_ / 2 →
      ∀ (fuel1 : Nat) (key : Nat), 2 ^ 63 ≤ fuel1 →
        ∃ (index : Nat) (s1 : XSFLinearProbingHashMap Nat Nat),
          XSFLinearProbingHashMap.subscript (fun k => k) fuel1
            XSFLinearProbingHashMap.halfFull key = Res.ok (index, s1) ∧
          s1.capacity_ = 2 * XSFLinearProbingHashMap.halfFull.capacity_ ∧
          2 * XSFLinearProbingHashMap.Size s1 ≤ s1.capacity_ ∧
          XSFLinearProbingHashMap.Size s1 = XSFLinearProbingHashMap.actives s1.table_) ∧
    (XSFLinearProbingHashMap.Size XSFLinearProbingHashMap.halfFull
        < XSFLinearProbingHashMap.halfFull.capacity_ / 2 →
      XSFLinearProbingHashMap.used XSFLinearProbingHashMap.halfFull.table_
        < XSFLinearProbingHashMap.halfFull.capacity_ →
      ∀ (fuel1 : Nat) (key : Nat), 2 ^ 63 ≤ fuel1 →
        ∃ (index : Nat) (s1 : XSFLinearProbingHashMap Nat Nat),
          XSFLinearProbingHashMap.subscript (fun k => k) fuel1
            XSFLinearProbingHashMap.halfFull key = Res.ok (index, s1) ∧
          s1.capacity_ = XSFLinearProbingHashMap.halfFull.capacity_ ∧
          2 * XSFLinearProbingHashMap.Size s1 ≤ s1.capacity_ ∧
          XSFLinearProbingHashMap.Size s1 = XSFLinearProbingHashMap.actives s1.table_) ∧
    ∀ (fuel1 : Nat) (key : Nat) (index : Nat) (s1 : XSFLinearProbingHashMap Nat Nat),
      XSFLinearProbingHashMap.subscript (fun k => k) fuel1
        XSFLinearProbingHashMap.halfFull key = Res.ok (index, s1) →
      s1.capacity_ = (if XSFLinearProbingHashMap.Size XSFLinearProbingHashMap.halfFull
          ≥ XSFLinearProbingHashMap.halfFull.capacity_ / 2
        then 2 * XSFLinearProbingHashMap.halfFull.capacity_
        else XSFLinearProbingHashMap.halfFull.capacity_) ∧
      2 * XSFLinearProbingHashMap.Size s1 ≤ s1.capacity_ ∧
      XSFLinearProbingHashMap.Size s1 = XSFLinearProbingHashMap.actives s1.table_) ∧
    XSFLinearProbingHashMap.Size XSFLinearProbingHashMap.halfFull
      ≥ XSFLinearProbingHashMap.halfFull.capacity_ / 2 ∧
    XSFLinearProbingHashMap.subscript (fun k => k) 9 XSFLinearProbingHashMap.halfFull 2
      = Res.ok (2, XSFLinearProbingHashMap.doubled) ∧
    XSFLinearProbingHashMap.doubled.capacity_
      = 2 * XSFLinearProbingHashMap.halfFull.capacity_ :=
  ⟨C17_load_factor (fun k => k) 4 (by decide) XSFLinearProbingHashMap.fillOps2
      (by norm_num [XSFLinearProbingHashMap.fillOps2]) 3
      XSFLinearProbingHashMap.halfFull (by rfl),
    by decide, by rfl, by rfl⟩

/-! ## Claims on the probe guard, on Resize and on CeilToPow2 -/

/-- C31 (OpenAddressIndex probe guard is unreachable) fails on the code: the
guard is reached. After `m[0]; Erase(0); m[1]; Erase(1); m[2]; Erase(2); m[3]`
on a map of capacity 4 with the identity hash, slots 0, 1, 2 are DELETED and
slot 3 holds key 3, so no slot is EMPTY; the probe of `Contains(7)` passes all
four slots twice, comes to the test `step > capacity_` with `step = 8`, calls
`Resize(4)`, which drops the three tombstones, and returns false. -/
theorem C31_probe_guard_counterexample :
    (∀ fuel, XSFLinearProbingHashMap.run (fun k : Nat => k) (fuel + 1)
      (XSFLinearProbingHashMap.new 4) XSFLinearProbingHashMap.tombOps7
        = Res.ok XSFLinearProbingHashMap.threeDeleted) ∧
    (∀ fuel, XSFLinearProbingHashMap.reachesGuard 7 (fuel + 9)
      XSFLinearProbingHashMap.threeDeleted
      (XSFLinearProbingHashMap.HashIndex (fun k : Nat => k)
        XSFLinearProbingHashMap.threeDeleted 7) 0 = Res.ok true) ∧
    (∀ fuel, XSFLinearProbingHashMap.Contains (fun k : Nat => k) (fuel + 11)
      XSFLinearProbingHashMap.threeDeleted 7
        = Res.ok (false, XSFLinearProbingHashMap.threeDropped)) :=
  ⟨XSFLinearProbingHashMap.run_tombOps7, XSFLinearProbingHashMap.guard_threeDeleted,
    XSFLinearProbingHashMap.contains_guard_threeDeleted⟩

/-- C31, amended. For every hash function, every constructor argument from 1
on, every table reached by fewer than 2^61 calls of `m[k] = v`, `operator[]`,
`Contains`, `Erase` and `Clear`, and every key: if the table has an EMPTY slot
or stores the key, the probe loop, given at least `capacity_` iterations, does
not come to the guard; it returns with the table unchanged, at the ACTIVE slot
that holds the key (true) or at an EMPTY slot, the key not being stored
(false). If no slot is EMPTY, the key is not stored and some slot is ACTIVE,
the loop comes to the guard, within `2 * capacity_ + 1` iterations. If every
slot is DELETED, it does not come to the guard within any number of
iterations. -/
theorem C31_probe_guard {K V : Type} [DecidableEq K] [Inhabited K] [Inhabited V]
    (hash : K → Nat) (n0 : Nat) (h1 : 1 ≤ n0) (ops : List (POp K V))
    (hlen : ops.length < 2 ^ 61) (fuel0 : Nat) (s : XSFLinearProbingHashMap K V)
    (hrun : XSFLinearProbingHashMap.run hash fuel0 (XSFLinearProbingHashMap.new n0) ops
      = Res.ok s)
    (key : K) :
    (((∃ (i : Nat) (nd : PNode K V), s.table_[i]? = some nd ∧ nd.type = NodeType.EMPTY) ∨
        XSFLinearProbingHashMap.Stored s.table_ key) →
      ∀ fuel, s.capacity_ ≤ fuel →
        XSFLinearProbingHashMap.reachesGuard key fuel s
          (XSFLinearProbingHashMap.HashIndex hash s key) 0 = Res.ok false ∧
        ∃ (b : Bool) (j : Nat) (nd : PNode K V),
          XSFLinearProbingHashMap.LinearProbing hash fuel s key = Res.ok (b, j, s) ∧
          s.table_[j]? = some nd ∧
          (b = true → nd.type = NodeType.ACTIVE ∧ nd.key = key) ∧
          (b = false → nd.type = NodeType.EMPTY ∧
            ¬ XSFLinearProbingHashMap.Stored s.table_ key)) ∧
    ((∀ nd ∈ s.table_, nd.type ≠ NodeType.EMPTY) →
      ¬ XSFLinearProbingHashMap.Stored s.table_ key →
      (∃ nd ∈ s.table_, nd.type = NodeType.ACTIVE) →
      ∀ fuel, 2 * s.capacity_ + 1 ≤ fuel →
        XSFLinearProbingHashMap.reachesGuard key fuel s
          (XSFLinearProbingHashMap.HashIndex hash s key) 0 = Res.ok true) ∧
    ((∀ nd ∈ s.table_, nd.type = NodeType.DELETED) →
      ∀ fuel, XSFLinearProbingHashMap.reachesGuard key fuel s
        (XSFLinearProbingHashMap.HashIndex hash s key) 0 = Res.timeout) := by
  obtain ⟨inv, _⟩ := XSFLinearProbingHashMap.reach_inv hash n0 h1 ops hlen fuel0 s hrun
  refine ⟨fun hor fuel hf => inv.probe_no_guard key hor fuel hf,
    fun hfull habs hact fuel hf => inv.shape.guard_reached hash key hfull habs hact fuel hf,
    fun hdel fuel => inv.shape.guard_all_deleted key hdel fuel _ 0 ?_⟩
  obtain ⟨e, _, hc⟩ := inv.shape.pow2
  rw [inv.shape.hashIndex, hc]
  exact Nat.mod_lt _ (Nat.two_pow_pos e)

theorem C31_probe_guard_witness :
    (XSFLinearProbingHashMap.reachesGuard 5 4
        (XSFLinearProbingHashMap.single 2 1 ⟨1, 10, NodeType.ACTIVE⟩ 1)
        (XSFLinearProbingHashMap.HashIndex (fun k : Nat => k)
          (XSFLinearProbingHashMap.single 2 1 ⟨1, 10, NodeType.ACTIVE⟩ 1) 5) 0 = Res.ok false ∧
      ∃ (b : Bool) (j : Nat) (nd : PNode Nat Nat),
        XSFLinearProbingHashMap.LinearProbing (fun k : Nat => k) 4
          (XSFLinearProbingHashMap.single 2 1 ⟨1, 10, NodeType.ACTIVE⟩ 1) 5
          = Res.ok (b, j, XSFLinearProbingHashMap.single 2 1 ⟨1, 10, NodeType.ACTIVE⟩ 1) ∧
        (XSFLinearProbingHashMap.single 2 1 ⟨1, 10, NodeType.ACTIVE⟩ 1).table_[j]? = some nd ∧
        (b = true → nd.type = NodeType.ACTIVE ∧ nd.key = 5) ∧
        (b = false → nd.type = NodeType.EMPTY ∧
          ¬ XSFLinearProbingHashMap.Stored
            (XSFLinearProbingHashMap.single 2 1 ⟨1, 10, NodeType.ACTIVE⟩ 1).table_ 5)) ∧
    XSFLinearProbingHashMap.reachesGuard 7 9 XSFLinearProbingHashMap.threeDeleted
      (XSFLinearProbingHashMap.HashIndex (fun k : Nat => k)
        XSFLinearProbingHashMap.threeDeleted 7) 0 = Res.ok true ∧
    ∀ fuel, XSFLinearProbingHashMap.reachesGuard 7 fuel XSFLinearProbingHashMap.allDeleted
      (XSFLinearProbingHashMap.HashIndex (fun k : Nat => k)
        XSFLinearProbingHashMap.allDeleted 7) 0 = Res.timeout :=
  ⟨(C31_probe_guard (fun k : Nat => k) 4 (by decide) ([POp.assign 1 10] : List (POp Nat Nat))
      (by decide) 1 (XSFLinearProbingHashMap.single 2 1 ⟨1, 10, NodeType.ACTIVE⟩ 1) (by rfl) 5).1
      (Or.inl ⟨0, XSFLinearProbingHashMap.emptyNode, (by rfl), (by rfl)⟩) 4 (by decide),
    (C31_probe_guard (fun k : Nat => k) 4 (by decide) XSFLinearProbingHashMap.tombOps7
      (by decide) 1 XSFLinearProbingHashMap.threeDeleted
      (XSFLinearProbingHashMap.run_tombOps7 0) 7).2.1
      XSFLinearProbingHashMap.threeDeleted_full
      (XSFLinearProbingHashMap.threeDeleted_not_stored 7 (by decide))
      ⟨⟨3, 0, NodeType.ACTIVE⟩, (by decide), rfl⟩ 9 (by decide),
    (C31_probe_guard (fun k : Nat => k) 4 (by decide) XSFLinearProbingHashMap.tombOps8
      (by decide) 1 XSFLinearProbingHashMap.allDeleted
      (XSFLinearProbingHashMap.run_tombOps8 0) 7).2.2 (by decide)⟩

/-- C32 (OpenAddressIndex Resize). For every hash function, every constructor
argument from 1 on, every table reached by fewer than 2^61 calls of
`m[k] = v`, `operator[]`, `Contains`, `Erase` and `Clear`, and every
`new_capacity` with `CeilToPow2(new_capacity) > Size()`: once every loop may
take 2^63 iterations, `Resize(new_capacity)` returns a table with
`CeilToPow2(new_capacity)` slots, none of them DELETED, which holds a value
under a key exactly if the old table does, holds no key twice, has as many
ACTIVE slots as the old table and the old `Size()`, and in which
`LinearProbing` finds every key the old table stores. -/
theorem C32_resize {K V : Type} [DecidableEq K] [Inhabited K] [Inhabited V]
    (hash : K → Nat) (n0 : Nat) (h1 : 1 ≤ n0) (ops : List (POp K V))
    (hlen : ops.length < 2 ^ 61) (fuel0 : Nat) (s : XSFLinearProbingHashMap K V)
    (hrun : XSFLinearProbingHashMap.run hash fuel0 (XSFLinearProbingHashMap.new n0) ops
      = Res.ok s)
    (new_capacity : Nat)
    (hn : XSFLinearProbingHashMap.Size s < XSFLinearProbingHashMap.CeilToPow2 new_capacity)
    (fuel : Nat) (hf : 2 ^ 63 ≤ fuel) :
    ∃ s1, XSFLinearProbingHashMap.Resize hash fuel s new_capacity = Res.ok s1 ∧
      s1.capacity_ = XSFLinearProbingHashMap.CeilToPow2 new_capacity ∧
      s1.table_.length = XSFLinearProbingHashMap.CeilToPow2 new_capacity ∧
      (∀ nd ∈ s1.table_, nd.type ≠ NodeType.DELETED) ∧
      (∀ k v, XSFLinearProbingHashMap.Holds s1.table_ k v
        ↔ XSFLinearProbingHashMap.Holds s.table_ k v) ∧
      XSFLinearProbingHashMap.Uniq s1.table_ ∧
      XSFLinearProbingHashMap.actives s1.table_ = XSFLinearProbingHashMap.actives s.table_ ∧
      XSFLinearProbingHashMap.Size s1 = XSFLinearProbingHashMap.Size s ∧
      ∀ k, XSFLinearProbingHashMap.Stored s.table_ k → ∃ (j : Nat) (nd : PNode K V),
        XSFLinearProbingHashMap.LinearProbing hash fuel s1 k = Res.ok (true, j, s1) ∧
        s1.table_[j]? = some nd ∧ nd.type = NodeType.ACTIVE ∧ nd.key = k := by
  obtain ⟨inv, _⟩ := XSFLinearProbingHashMap.reach_inv hash n0 h1 ops hlen fuel0 s hrun
  obtain ⟨s1, hr, inv1, hc, hnt, hh, ha, hz, hp⟩ := inv.resize_full new_capacity hn fuel hf
  exact ⟨s1, hr, hc, by rw [inv1.shape.len, hc], hnt, hh, inv1.uniq, ha, hz, hp⟩

theorem C32_resize_witness :
    ∃ s1, XSFLinearProbingHashMap.Resize (fun k : Nat => k) (2 ^ 63)
        XSFLinearProbingHashMap.threeDeleted 4 = Res.ok s1 ∧
      s1.capacity_ = XSFLinearProbingHashMap.CeilToPow2 4 ∧
      s1.table_.length = XSFLinearProbingHashMap.CeilToPow2 4 ∧
      (∀ nd ∈ s1.table_, nd.type ≠ NodeType.DELETED) ∧
      (∀ k v, XSFLinearProbingHashMap.Holds s1.table_ k v
        ↔ XSFLinearProbingHashMap.Holds XSFLinearProbingHashMap.threeDeleted.table_ k v) ∧
      XSFLinearProbingHashMap.Uniq s1.table_ ∧
      XSFLinearProbingHashMap.actives s1.table_
        = XSFLinearProbingHashMap.actives XSFLinearProbingHashMap.threeDeleted.table_ ∧
      XSFLinearProbingHashMap.Size s1
        = XSFLinearProbingHashMap.Size XSFLinearProbingHashMap.threeDeleted ∧
      ∀ k, XSFLinearProbingHashMap.Stored XSFLinearProbingHashMap.threeDeleted.table_ k →
        ∃ (j : Nat) (nd : PNode Nat Nat),
          XSFLinearProbingHashMap.LinearProbing (fun k : Nat => k) (2 ^ 63) s1 k
            = Res.ok (true, j, s1) ∧
          s1.table_[j]? = some nd ∧ nd.type = NodeType.ACTIVE ∧ nd.key = k :=
  C32_resize (fun k : Nat => k) 4 (by decide) XSFLinearProbingHashMap.tombOps7 (by decide) 1
    XSFLinearProbingHashMap.threeDeleted (XSFLinearProbingHashMap.run_tombOps7 0) 4 (by decide)
    (2 ^ 63) (le_refl _)

/-- C33 (CeilToPow2 rounds up to a power of two). For every `n` from 1 to 2^63
the result of `CeilToPow2(n)` is a power of two `2^e` with `n <= 2^e` that is
at most every power of two from `n` on; for `n > 2^63` it is 2^63; a power of
two up to 2^63 is returned unchanged, and 12 gives 16. The copy of the function
in the separate-chaining map returns the same as that of the open-addressing
map. -/
theorem C33_ceil_to_pow2 (n : Nat) :
    (1 ≤ n → n ≤ 2 ^ 63 →
      ∃ e, e ≤ 63 ∧ XSFLinearProbingHashMap.CeilToPow2 n = 2 ^ e ∧ n ≤ 2 ^ e ∧
        ∀ e1, n ≤ 2 ^ e1 → 2 ^ e ≤ 2 ^ e1) ∧
    (2 ^ 63 < n → XSFLinearProbingHashMap.CeilToPow2 n = 2 ^ 63) ∧
    (∀ e, e ≤ 63 → XSFLinearProbingHashMap.CeilToPow2 (2 ^ e) = 2 ^ e) ∧
    XSFLinearProbingHashMap.CeilToPow2 12 = 16 ∧
    XSFSeparateChainingHashMap.CeilToPow2 n = XSFLinearProbingHashMap.CeilToPow2 n :=
  ⟨XSFLinearProbingHashMap.CeilToPow2_least n, XSFLinearProbingHashMap.CeilToPow2_big n,
    XSFLinearProbingHashMap.CeilToPow2_self, XSFLinearProbingHashMap.CeilToPow2_twelve,
    chained_CeilToPow2_eq n⟩

theorem C33_ceil_to_pow2_witness :
    (1 ≤ 12 → 12 ≤ 2 ^ 63 →
      ∃ e, e ≤ 63 ∧ XSFLinearProbingHashMap.CeilToPow2 12 = 2 ^ e ∧ 12 ≤ 2 ^ e ∧
        ∀ e1, 12 ≤ 2 ^ e1 → 2 ^ e ≤ 2 ^ e1) ∧
    (2 ^ 63 < 12 → XSFLinearProbingHashMap.CeilToPow2 12 = 2 ^ 63) ∧
    (∀ e, e ≤ 63 → XSFLinearProbingHashMap.CeilToPow2 (2 ^ e) = 2 ^ e) ∧
    XSFLinearProbingHashMap.CeilToPow2 12 = 16 ∧
    XSFSeparateChainingHashMap.CeilToPow2 12 = XSFLinearProbingHashMap.CeilToPow2 12 :=
  C33_ceil_to_pow2 12

/-! ## Claims on the buckets of the separate-chaining map -/

/-- C34 (ChainedIndex bucket invariant). For every hash function, every
constructor argument from 1 on and every sequence of fewer than 2^61 calls of
`m[k] = v`, `operator[]`, `Erase` and `Clear` (those that trigger `Resize`
included) the run returns, and afterwards every chain node of bucket `i` has
`hash(key) & (capacity_ - 1) = i`, `mask_ = capacity_ - 1`, the table has
`capacity_` buckets, and `Size()` is the sum of the `Size()` of the buckets,
which is the number of chain nodes. -/
theorem C34_chained_bucket_invariant {K V : Type} [DecidableEq K] [Inhabited K] [Inhabited V]
    (hash : K → Nat) (n0 : Nat) (h1 : 1 ≤ n0) (ops : List (SOp K V))
    (hlen : ops.length < 2 ^ 61) :
    ∃ s : XSFSeparateChainingHashMap K V,
      XSFSeparateChainingHashMap.run hash (XSFSeparateChainingHashMap.new n0) ops = some s ∧
      (∀ (i : Nat) (sl : Slot K V), s.table_[i]? = some sl →
        ∀ nd ∈ sl.chain, hash nd.key &&& (s.capacity_ - 1) = i) ∧
      s.mask_ = s.capacity_ - 1 ∧
      s.table_.length = s.capacity_ ∧
      XSFSeparateChainingHashMap.Size s = XSFSeparateChainingHashMap.slotSizes s.table_ ∧
      XSFSeparateChainingHashMap.slotSizes s.table_ = XSFSeparateChainingHashMap.nodes s.table_ := by
  obtain ⟨g0, hz0⟩ := XSFSeparateChainingHashMap.new_chained (V := V) hash n0 h1
  obtain ⟨s, hr, g, _⟩ := XSFSeparateChainingHashMap.Good.run_chained hash ops _ 0 g0
    (by rw [hz0]) (by omega)
  refine ⟨s, hr, g.buckets.bucket, g.mask, g.buckets.len, ?_, g.sizes⟩
  show s.size_ = _
  rw [g.sizes, g.size]

theorem C34_chained_bucket_invariant_witness :
    ∃ s : XSFSeparateChainingHashMap Nat Nat,
      XSFSeparateChainingHashMap.run (fun k : Nat => k) (XSFSeparateChainingHashMap.new 4)
        [SOp.assign 1 10, SOp.assign 5 50, SOp.assign 2 20, SOp.assign 9 90, SOp.erase 5,
          SOp.subscript 13] = some s ∧
      (∀ (i : Nat) (sl : Slot Nat Nat), s.table_[i]? = some sl →
        ∀ nd ∈ sl.chain, (fun k : Nat => k) nd.key &&& (s.capacity_ - 1) = i) ∧
      s.mask_ = s.capacity_ - 1 ∧
      s.table_.length = s.capacity_ ∧
      XSFSeparateChainingHashMap.Size s = XSFSeparateChainingHashMap.slotSizes s.table_ ∧
      XSFSeparateChainingHashMap.slotSizes s.table_ = XSFSeparateChainingHashMap.nodes s.table_ :=
  C34_chained_bucket_invariant (fun k : Nat => k) 4 (by decide)
    [SOp.assign 1 10, SOp.assign 5 50, SOp.assign 2 20, SOp.assign 9 90, SOp.erase 5,
      SOp.subscript 13] (by decide)

/-- C35 (Slot::Erase splices out every match). For every bucket whose `size_`
is the length of its chain (below 2^64) and every key `k`: after `Erase(k)`
the chain is the old chain without the nodes whose key is `k`, the other
nodes in their old order; the call returns the number of nodes of the old
chain whose key is `k`; `size_` has gone down by that number and is again the
length of the chain; the sentinel `head_` is untouched. -/
theorem C35_slot_erase {K V : Type} [DecidableEq K] [Inhabited K] [Inhabited V]
    (s : Slot K V) (k : K) (hsize : s.size_ = s.chain.length)
    (hlen : s.chain.length < SIZE_MOD) :
    (s.Erase k).2.chain = s.chain.filter (fun nd => decide (nd.key ≠ k)) ∧
    (s.Erase k).1 = s.chain.countP (fun nd => decide (nd.key = k)) ∧
    (s.Erase k).2.size_ + (s.Erase k).1 = s.size_ ∧
    (s.Erase k).2.size_ = (s.Erase k).2.chain.length ∧
    (s.Erase k).2.head_ = s.head_ :=
  Slot.Erase_spec_slot s k hsize hlen

theorem C35_slot_erase_witness :
    ((⟨⟨0, 0⟩, [⟨1, 10⟩, ⟨1, 11⟩, ⟨2, 20⟩, ⟨1, 12⟩], 4⟩ : Slot Nat Nat).Erase 1).2.chain
      = ([⟨1, 10⟩, ⟨1, 11⟩, ⟨2, 20⟩, ⟨1, 12⟩] : List (SNode Nat Nat)).filter
          (fun nd => decide (nd.key ≠ 1)) ∧
    ((⟨⟨0, 0⟩, [⟨1, 10⟩, ⟨1, 11⟩, ⟨2, 20⟩, ⟨1, 12⟩], 4⟩ : Slot Nat Nat).Erase 1).1
      = ([⟨1, 10⟩, ⟨1, 11⟩, ⟨2, 20⟩, ⟨1, 12⟩] : List (SNode Nat Nat)).countP
          (fun nd => decide (nd.key = 1)) ∧
    ((⟨⟨0, 0⟩, [⟨1, 10⟩, ⟨1, 11⟩, ⟨2, 20⟩, ⟨1, 12⟩], 4⟩ : Slot Nat Nat).Erase 1).2.size_
      + ((⟨⟨0, 0⟩, [⟨1, 10⟩, ⟨1, 11⟩, ⟨2, 20⟩, ⟨1, 12⟩], 4⟩ : Slot Nat Nat).Erase 1).1 = 4 ∧
    ((⟨⟨0, 0⟩, [⟨1, 10⟩, ⟨1, 11⟩, ⟨2, 20⟩, ⟨1, 12⟩], 4⟩ : Slot Nat Nat).Erase 1).2.size_
      = ((⟨⟨0, 0⟩, [⟨1, 10⟩, ⟨1, 11⟩, ⟨2, 20⟩, ⟨1, 12⟩], 4⟩ : Slot Nat Nat).Erase 1).2.chain.length ∧
    ((⟨⟨0, 0⟩, [⟨1, 10⟩, ⟨1, 11⟩, ⟨2, 20⟩, ⟨1, 12⟩], 4⟩ : Slot Nat Nat).Erase 1).2.head_
      = ⟨0, 0⟩ :=
  C35_slot_erase (⟨⟨0, 0⟩, [⟨1, 10⟩, ⟨1, 11⟩, ⟨2, 20⟩, ⟨1, 12⟩], 4⟩ : Slot Nat Nat) 1 rfl
    (by decide)

/-! ## Claims on index and list of the caches -/

/-- C36 (LRUCache index/list lock-step invariant). With capacity `C >= 1`,
every sequence of `get` and `put` calls runs through, and afterwards
`key2node_` contains exactly the keys of the nodes of `list_`, `list_` holds no
key twice, and for every entry `key2node_[k] = it` the iterator `it` refers to
a node of `list_` whose key is `k`. -/
theorem C36_lru_lock_step (C : Int) (hC : 1 ≤ C) (hI : C ≤ INT_MAX) (ops : List Op) :
    ∃ s, (LRUCache.new C).run ops = some s ∧
      (∀ k, s.key2node_.contains k = true ↔ k ∈ s.keys) ∧
      s.keys.Nodup ∧
      ∀ k it, s.key2node_.find k = some it →
        ∃ n, derefIt s.list_ it = some n ∧ n.key = k := by
  obtain ⟨s, h, hr, _, g⟩ := LRUCache.run_new_good C hC hI ops
  exact ⟨s, hr, g.wf.indexed_iff, g.wf.keys_nodup, g.wf.deref_index⟩

theorem C36_lru_lock_step_witness :
    ∃ s, (LRUCache.new 2).run [Op.put 1 1, Op.put 2 2, Op.get 1, Op.put 3 3] = some s ∧
      (∀ k, s.key2node_.contains k = true ↔ k ∈ s.keys) ∧
      s.keys.Nodup ∧
      ∀ k it, s.key2node_.find k = some it →
        ∃ n, derefIt s.list_ it = some n ∧ n.key = k :=
  C36_lru_lock_step 2 (by decide) (by decide) [Op.put 1 1, Op.put 2 2, Op.get 1, Op.put 3 3]

/-- C38 (OpenAddressIndex fresh entries start from the default value): the
code fails it. On a map of capacity 4 with the identity hash and `int`-like
values, for every value `v`: after `m[1] = v; Erase(1)` key 1 is not stored
(`Contains(1)` is false) and reading `m[1]` yields `v`; after `m[1] = v;
Clear()` likewise. `operator[]` takes the DELETED, respectively cleared, slot
again, sets its `key` and `type` and leaves its `value`; `V{}` is 0. -/
theorem C38_reused_slot_keeps_old_value :
    (∀ (fuel v : Nat),
      XSFLinearProbingHashMap.assign (fun k : Nat => k) (fuel + 2)
        (XSFLinearProbingHashMap.new 4) 1 v
        = Res.ok (XSFLinearProbingHashMap.single 2 1 ⟨1, v, NodeType.ACTIVE⟩ 1) ∧
      XSFLinearProbingHashMap.Erase (fun k : Nat => k) (fuel + 2)
        (XSFLinearProbingHashMap.single 2 1 ⟨1, v, NodeType.ACTIVE⟩ 1) 1
        = Res.ok (1, XSFLinearProbingHashMap.single 2 1 ⟨1, v, NodeType.DELETED⟩ 0) ∧
      XSFLinearProbingHashMap.Contains (fun k : Nat => k) (fuel + 2)
        (XSFLinearProbingHashMap.single 2 1 ⟨1, v, NodeType.DELETED⟩ 0) 1
        = Res.ok (false, XSFLinearProbingHashMap.single 2 1 ⟨1, v, NodeType.DELETED⟩ 0) ∧
      XSFLinearProbingHashMap.read (fun k : Nat => k) (fuel + 2)
        (XSFLinearProbingHashMap.single 2 1 ⟨1, v, NodeType.DELETED⟩ 0) 1
        = Res.ok (v, XSFLinearProbingHashMap.single 2 1 ⟨1, v, NodeType.ACTIVE⟩ 1)) ∧
    (∀ (fuel v : Nat),
      XSFLinearProbingHashMap.Clear (XSFLinearProbingHashMap.single 2 1 ⟨1, v, NodeType.ACTIVE⟩ 1)
        = Res.ok (XSFLinearProbingHashMap.single 2 1 ⟨1, v, NodeType.EMPTY⟩ 0) ∧
      XSFLinearProbingHashMap.Contains (fun k : Nat => k) (fuel + 2)
        (XSFLinearProbingHashMap.single 2 1 ⟨1, v, NodeType.EMPTY⟩ 0) 1
        = Res.ok (false, XSFLinearProbingHashMap.single 2 1 ⟨1, v, NodeType.EMPTY⟩ 0) ∧
      XSFLinearProbingHashMap.read (fun k : Nat => k) (fuel + 2)
        (XSFLinearProbingHashMap.single 2 1 ⟨1, v, NodeType.EMPTY⟩ 0) 1
        = Res.ok (v, XSFLinearProbingHashMap.single 2 1 ⟨1, v, NodeType.ACTIVE⟩ 1)) ∧
    (default : Nat) = 0 := by
  have hp := fun (fuel v : Nat) =>
    XSFLinearProbingHashMap.probe_tombstone (fun k : Nat => k) 2 (by decide) (by decide) 1 v 1 fuel
  have hq := fun (fuel v : Nat) =>
    XSFLinearProbingHashMap.probe_cleared (fun k : Nat => k) 2 1 v 1 (fuel + 1)
  refine ⟨fun fuel v => ⟨rfl, ?_, ?_, ?_⟩, fun fuel v => ⟨?_, ?_, ?_⟩, rfl⟩
  · exact XSFLinearProbingHashMap.erase_single (fun k : Nat => k) 2 (by decide) 1 v (fuel + 1)
  · exact XSFLinearProbingHashMap.contains_of_probe _ _ _ _ _ _ _ (hp fuel v)
  · exact XSFLinearProbingHashMap.read_reuse (fun k : Nat => k) 2 (by decide)
      ⟨1, v, NodeType.DELETED⟩ (fun h => NodeType.noConfusion h) 1 (fuel + 1) _ (hp fuel v)
  · exact XSFLinearProbingHashMap.clear_single 2 1 ⟨1, v, NodeType.ACTIVE⟩ rfl 1
  · exact XSFLinearProbingHashMap.contains_of_probe _ _ _ _ _ _ _ (hq fuel v)
  · exact XSFLinearProbingHashMap.read_reuse (fun k : Nat => k) 2 (by decide)
      ⟨1, v, NodeType.EMPTY⟩ (fun h => NodeType.noConfusion h) 1 (fuel + 1) _ (hq fuel v)

/-- C39 (OrderedIndex overload equivalence): the code fails it. With keys of
type `std::string`, whose moved-from value is the empty string, and the empty
map: `operator[](K&&)` called with "a" appends a node with key "a" and enters
it in `map_` under the key "", so that `Contains("a")` is false afterwards and
`Contains("")` is true; `operator[](const K&)` called with "a" enters the
node under "a", and `Contains("a")` is true. -/
theorem C39_moved_from_key :
    XSFLinkedHashMap.subscriptMove (fun _ : String => "")
        (XSFLinkedHashMap.new : XSFLinkedHashMap String Nat) "a"
      = some (0, { list_ := [⟨0, ⟨"a", 0⟩⟩], map_ := [("", 0)], heap_ := 1 }) ∧
    XSFLinkedHashMap.Contains
      ({ list_ := [⟨0, ⟨"a", 0⟩⟩], map_ := [("", 0)], heap_ := 1 } : XSFLinkedHashMap String Nat)
      "a" = false ∧
    XSFLinkedHashMap.subscript (XSFLinkedHashMap.new : XSFLinkedHashMap String Nat) "a"
      = some (0, { list_ := [⟨0, ⟨"a", 0⟩⟩], map_ := [("a", 0)], heap_ := 1 }) ∧
    XSFLinkedHashMap.Contains
      ({ list_ := [⟨0, ⟨"a", 0⟩⟩], map_ := [("a", 0)], heap_ := 1 } : XSFLinkedHashMap String Nat)
      "a" = true := by
  refine ⟨?_, ?_, ?_, ?_⟩ <;> decide

/-- C25 (OrderedIndex list order): the code fails it. With keys of type
`std::string`, whose moved-from value is the empty string, `m["a"]` goes
through `operator[](K&&)`. Called twice on the empty map it leaves two nodes
with the key "a" in `list_` and one entry, under "", in `map_`: `list_` holds
a key twice, `Contains("a")` is false, and `Erase("a")` returns false and
removes nothing. Through `operator[](const K&)` the same two calls leave one
node, and `Erase("a")` returns true and removes it. -/
theorem C25_moved_key_twice_in_list :
    XSFLinkedHashMap.subscriptMove (fun _ : String => "")
        (XSFLinkedHashMap.new : XSFLinkedHashMap String Nat) "a"
      = some (0, { list_ := [⟨0, ⟨"a", 0⟩⟩], map_ := [("", 0)], heap_ := 1 }) ∧
    XSFLinkedHashMap.subscriptMove (fun _ : String => "")
        ({ list_ := [⟨0, ⟨"a", 0⟩⟩], map_ := [("", 0)], heap_ := 1 } :
          XSFLinkedHashMap String Nat) "a"
      = some (1, { list_ := [⟨0, ⟨"a", 0⟩⟩, ⟨1, ⟨"a", 0⟩⟩], map_ := [("", 1)], heap_ := 2 }) ∧
    XSFLinkedHashMap.listKeys
      ({ list_ := [⟨0, ⟨"a", 0⟩⟩, ⟨1, ⟨"a", 0⟩⟩], map_ := [("", 1)], heap_ := 2 } :
        XSFLinkedHashMap String Nat) = ["a", "a"] ∧
    XSFLinkedHashMap.Contains
      ({ list_ := [⟨0, ⟨"a", 0⟩⟩, ⟨1, ⟨"a", 0⟩⟩], map_ := [("", 1)], heap_ := 2 } :
        XSFLinkedHashMap String Nat) "a" = false ∧
    XSFLinkedHashMap.Erase
      ({ list_ := [⟨0, ⟨"a", 0⟩⟩, ⟨1, ⟨"a", 0⟩⟩], map_ := [("", 1)], heap_ := 2 } :
        XSFLinkedHashMap String Nat) "a"
      = some (false,
          { list_ := [⟨0, ⟨"a", 0⟩⟩, ⟨1, ⟨"a", 0⟩⟩], map_ := [("", 1)], heap_ := 2 }) ∧
    XSFLinkedHashMap.run (XSFLinkedHashMap.new : XSFLinkedHashMap String Nat)
        [LOp.subscript "a", LOp.subscript "a"]
      = some { list_ := [⟨0, ⟨"a", 0⟩⟩], map_ := [("a", 0)], heap_ := 1 } ∧
    XSFLinkedHashMap.Erase
      ({ list_ := [⟨0, ⟨"a", 0⟩⟩], map_ := [("a", 0)], heap_ := 1 } :
        XSFLinkedHashMap String Nat) "a"
      = some (true, { list_ := [], map_ := [], heap_ := 1 }) := by
  refine ⟨?_, ?_, ?_, ?_, ?_, ?_, ?_⟩ <;> decide

/-- C40 (XSFTreeMap Erase keeps the search-tree invariants). For every tree
with fewer than 2^64 nodes that satisfies the search-tree order and in which
every `size_` is the number of nodes of the subtree, and every key `k`:
`Erase(node, k)` returns a tree that satisfies both again, whose keys are the
old keys other than `k`, and whose key/value pairs are the old pairs with a
key other than `k`, in the old order, also when the node of `k` has two
children; the public `Erase(k)` returns that tree as the new root. -/
theorem C40_tree_erase {K V : Type} [LinearOrder K] [Inhabited K] [Inhabited V]
    (t : TNode K V) (k : K) (hb : t.BST) (hs : t.Sized) (hlen : t.keys.length < SIZE_MOD) :
    ∃ t1, TNode.Erase t k = some t1 ∧ t1.BST ∧ t1.Sized ∧
      (∀ x, x ∈ t1.keys ↔ (x ∈ t.keys ∧ x ≠ k)) ∧
      (∀ x v, (x, v) ∈ t1.entries ↔ ((x, v) ∈ t.entries ∧ x ≠ k)) ∧
      t1.entries = t.entries.filter (fun p => decide (p.1 ≠ k)) ∧
      XSFTreeMap.Erase ⟨t⟩ k = some ⟨t1⟩ := by
  obtain ⟨t1, he, hent, hb1, hs1⟩ := TNode.Erase_spec k t hb
  refine ⟨t1, he, hb1, hs1 hs hlen, ?_, ?_, hent, ?_⟩
  · intro x
    rw [TNode.keys_eq_map_entries, TNode.keys_eq_map_entries, hent]
    simp only [List.mem_map, List.mem_filter, decide_eq_true_eq]
    constructor
    · rintro ⟨p, ⟨hp, hne⟩, rfl⟩
      exact ⟨⟨p, hp, rfl⟩, hne⟩
    · rintro ⟨⟨p, hp, rfl⟩, hne⟩
      exact ⟨p, ⟨hp, hne⟩, rfl⟩
  · intro x v
    rw [hent]
    simp only [List.mem_filter, decide_eq_true_eq]
  · simp only [XSFTreeMap.Erase, he]

theorem C40_tree_erase_witness :
    ∃ t1, TNode.Erase
        (TNode.node 2 20 (TNode.node 1 10 TNode.null TNode.null 1)
          (TNode.node 3 30 TNode.null TNode.null 1) 3 : TNode Nat Nat) 2 = some t1 ∧
      t1.BST ∧ t1.Sized ∧
      (∀ x, x ∈ t1.keys ↔
        (x ∈ (TNode.node 2 20 (TNode.node 1 10 TNode.null TNode.null 1)
          (TNode.node 3 30 TNode.null TNode.null 1) 3 : TNode Nat Nat).keys ∧ x ≠ 2)) ∧
      (∀ x v, (x, v) ∈ t1.entries ↔
        ((x, v) ∈ (TNode.node 2 20 (TNode.node 1 10 TNode.null TNode.null 1)
          (TNode.node 3 30 TNode.null TNode.null 1) 3 : TNode Nat Nat).entries ∧ x ≠ 2)) ∧
      t1.entries = (TNode.node 2 20 (TNode.node 1 10 TNode.null TNode.null 1)
          (TNode.node 3 30 TNode.null TNode.null 1) 3 : TNode Nat Nat).entries.filter
            (fun p => decide (p.1 ≠ 2)) ∧
      XSFTreeMap.Erase ⟨(TNode.node 2 20 (TNode.node 1 10 TNode.null TNode.null 1)
          (TNode.node 3 30 TNode.null TNode.null 1) 3 : TNode Nat Nat)⟩ 2 = some ⟨t1⟩ :=
  C40_tree_erase
    (TNode.node 2 20 (TNode.node 1 10 TNode.null TNode.null 1)
      (TNode.node 3 30 TNode.null TNode.null 1) 3 : TNode Nat Nat) 2
    (by simp [TNode.BST, TNode.keys]) (by simp [TNode.Sized, TNode.keys])
    (by simp [TNode.keys, SIZE_MOD])

end XSF
